import Mathlib

/-!
arith: bit-field packing, quantisation and codeword serialisation.

A shallow embedding of `bitpack.c`, `pixpack.c`, `luma_bit.c`, `chroma_bit.c`,
`rgb_xyz.c`, the stages of `imagecompress.c` and `imagedecompress.c`,
`compress40.c` and the comparison loop of `ppmdiff.c`, followed by the
properties proved of them.

Conventions of the embedding.

* A `uint64_t` is a `Nat` below `2 ^ 64`, an `unsigned` / `uint32_t` a `Nat`
  below `2 ^ 32`; an `int64_t`, `int` or `char` is the `Int` it denotes.
  Conversions between the types are the explicit functions `u64`, `s64`,
  `u32`, `s32` and `to_char`; arithmetic that can leave the type is reduced
  modulo the width of the type.
* Bitwise operators on signed operands act on the two's-complement pattern.
* A shift whose count is not below 64 is evaluated the way the target
  hardware evaluates it, with the count reduced modulo 64.  This is the
  behaviour the comment on `shiftu` in `bitpack.c` records ("a shift by 64 on
  Intel hardware does not do anything").  For counts below 64 the reduction
  is the identity.
* A function that can end in `assert` or `RAISE` returns `Except Exc _`.
* A `float` is the number it denotes.  Where a property is real-valued the
  operations are the exact ones of an ordered field (section "Floating
  point"); where an integer result depends on the rounding of the `float`
  operations, the functions are embedded a second time with every operation
  rounded as in IEEE 754 binary32 and binary64 (section "Binary floating
  point", names starting with `ieee`).
-/

namespace Arith

/-! ## Machine integers -/

/-- Conversion of an integer to `uint64_t`. -/
def u64 (x : Int) : Nat := (x % 2 ^ 64).toNat

/-- Conversion of an integer to `int64_t` (two's complement, wrapping). -/
def s64 (x : Int) : Int := (x + 2 ^ 63) % 2 ^ 64 - 2 ^ 63

/-- Conversion of an integer to `unsigned` / `uint32_t`. -/
def u32 (x : Int) : Nat := (x % 2 ^ 32).toNat

/-- Conversion of an integer to `int` (32 bits, two's complement, wrapping). -/
def s32 (x : Int) : Int := (x + 2 ^ 31) % 2 ^ 32 - 2 ^ 31

/-- Subtraction of two `uint64_t` values. -/
def sub64 (a b : Nat) : Nat := (a + (2 ^ 64 - b % 2 ^ 64)) % 2 ^ 64

/-- Subtraction of two `unsigned` values. -/
def sub32 (a b : Nat) : Nat := (a + (2 ^ 32 - b % 2 ^ 32)) % 2 ^ 32

/-- Bitwise `&` of two `int64_t` values. -/
def sand (a b : Int) : Int := s64 (u64 a &&& u64 b)

/-- Bitwise `|` of two `int64_t` values. -/
def sor (a b : Int) : Int := s64 (u64 a ||| u64 b)

/-- Conversion of an integer to `char`; `sgn` tells whether plain `char` is
signed on the platform. -/
def to_char (sgn : Bool) (x : Int) : Int :=
  if sgn then (x + 128) % 256 - 128 else x % 256

/-- The two ways a call can end without returning: a failed `assert`
(checked runtime error) and `RAISE(Bitpack_Overflow)`. -/
inductive Exc where
  | Assert_Failed
  | Bitpack_Overflow
deriving DecidableEq, Repr

/-! ## bitpack.c -/

def MAX_BIT : Nat := 64
def MAX_64U : Nat := 0xffffffffffffffff
def MAX_64 : Int := 0x7fffffffffffffff
def MIN_64 : Int := s64 0x8000000000000000

def LEFT : Int := 0
def RIGHT : Int := 1

/-- The function `shiftu` of bitpack.c. -/
def shiftu (n : Nat) (magnitude : Nat) (direction : Int) : Nat :=
  if magnitude = MAX_BIT then
    0
  else
    if direction = LEFT then
      (n <<< (magnitude % 64)) % 2 ^ 64
    else
      n >>> (magnitude % 64)

/-- The function `shifts` of bitpack.c; `>>` on a signed operand is the
arithmetic shift. -/
def shifts (n : Int) (magnitude : Nat) (direction : Int) : Int :=
  if magnitude = MAX_BIT then
    if direction = LEFT then
      0
    else
      -1
  else
    if direction = LEFT then
      s64 (n * 2 ^ (magnitude % 64))
    else
      n >>> (magnitude % 64)

/-- The function `width_lsb_check` of bitpack.c. -/
def width_lsb_check (width lsb : Nat) : Except Exc Unit :=
  if width ≤ MAX_BIT ∧ lsb < MAX_BIT ∧ (width + lsb) % 2 ^ 32 ≤ MAX_BIT then
    pure ()
  else
    throw Exc.Assert_Failed

/-- The function `Bitpack_fitsu` of bitpack.c. -/
def Bitpack_fitsu (n : Nat) (width : Nat) : Except Exc Bool :=
  if width ≤ MAX_BIT then
    let max : Nat :=
      if width = MAX_BIT then MAX_64U else sub64 (shiftu 1 width LEFT) 1
    if n ≤ max then pure true else pure false
  else
    throw Exc.Assert_Failed

/-- The function `Bitpack_fitss` of bitpack.c. -/
def Bitpack_fitss (n : Int) (width : Nat) : Except Exc Bool :=
  if width ≤ MAX_BIT then
    if width = 0 ∨ n > MAX_64 then
      pure false
    else if n ≥ 0 ∧ n ≤ MAX_64 then
      Bitpack_fitsu (u64 n) (sub32 width 1)
    else
      let min : Int := s64 (-1 * shifts 1 (sub32 width 1) LEFT)
      if n ≥ min then pure true else pure false
  else
    throw Exc.Assert_Failed

/-- The function `Bitpack_getu` of bitpack.c. -/
def Bitpack_getu (word : Nat) (width lsb : Nat) : Except Exc Nat := do
  width_lsb_check width lsb
  let mask : Nat := shiftu (sub64 (shiftu 1 width LEFT) 1) lsb LEFT
  pure (shiftu (mask &&& word) lsb RIGHT)

/-- The function `Bitpack_gets` of bitpack.c. -/
def Bitpack_gets (word : Nat) (width lsb : Nat) : Except Exc Int := do
  width_lsb_check width lsb
  let result : Int := s64 (← Bitpack_getu word width lsb)
  let is_negative : Int := shifts 1 (sub32 width 1) LEFT
  if sand result is_negative ≠ 0 then
    let offset : Int := shifts MIN_64 (sub32 MAX_BIT width) RIGHT
    pure (sor result offset)
  else
    pure result

/-- The function `Bitpack_newu` of bitpack.c. -/
def Bitpack_newu (word : Nat) (width lsb : Nat) (value : Nat) :
    Except Exc Nat := do
  width_lsb_check width lsb
  let max : Nat := sub64 (shiftu 1 width LEFT) 1
  if value > max then
    throw Exc.Bitpack_Overflow
  else
    let mask : Nat :=
      shiftu MAX_64U ((width + lsb) % 2 ^ 32) LEFT ||| sub64 (shiftu 1 lsb LEFT) 1
    let word := word &&& mask
    let value := shiftu value lsb LEFT
    pure (value ||| word)

/-- The function `Bitpack_news` of bitpack.c. -/
def Bitpack_news (word : Nat) (width lsb : Nat) (value : Int) :
    Except Exc Nat := do
  width_lsb_check width lsb
  let max : Int := s64 (sub64 (shiftu 1 (sub32 width 1) LEFT) 1)
  let min : Int := s64 (-1 * shifts 1 (sub32 width 1) LEFT)
  if value > max ∨ value < min then
    throw Exc.Bitpack_Overflow
  else
    let offset : Int := s64 (shifts 1 width LEFT - 1)
    let value := sand value offset
    Bitpack_newu word width lsb (u64 value)

/-! ## pixelblock.h -/

def A_WIDTH : Nat := 6
def B_WIDTH : Nat := 6
def C_WIDTH : Nat := 6
def D_WIDTH : Nat := 6
def PB_WIDTH : Nat := 4
def PR_WIDTH : Nat := 4

def BITS_IN_BYTE : Nat := 8

/-- The struct `bit_block` of pixelblock.h: `a`, `Pb`, `Pr` are `unsigned`,
`b`, `c`, `d` are `signed`. -/
structure bit_block where
  a : Nat
  Pb : Nat
  Pr : Nat
  b : Int
  c : Int
  d : Int
deriving DecidableEq, Repr

/-! ## pixpack.c -/

/-- The function `pack` of pixpack.c.  The block is a value, so the
`assert(bit != NULL)` cannot fail; every assignment to the `uint32_t`
variable `codeword` truncates the 64-bit result to 32 bits. -/
def pack (bit : bit_block) : Except Exc Nat := do
  let lsb : Nat := 0
  let codeword : Nat := 0
  let codeword := (← Bitpack_newu codeword PR_WIDTH lsb bit.Pr) % 2 ^ 32
  let lsb := lsb + PR_WIDTH
  let codeword := (← Bitpack_newu codeword PB_WIDTH lsb bit.Pb) % 2 ^ 32
  let lsb := lsb + PB_WIDTH
  let codeword := (← Bitpack_news codeword D_WIDTH lsb bit.d) % 2 ^ 32
  let lsb := lsb + D_WIDTH
  let codeword := (← Bitpack_news codeword C_WIDTH lsb bit.c) % 2 ^ 32
  let lsb := lsb + C_WIDTH
  let codeword := (← Bitpack_news codeword B_WIDTH lsb bit.b) % 2 ^ 32
  let lsb := lsb + B_WIDTH
  let codeword := (← Bitpack_newu codeword A_WIDTH lsb bit.a) % 2 ^ 32
  let lsb := lsb + A_WIDTH
  if lsb = BITS_IN_BYTE * 4 then pure codeword else throw Exc.Assert_Failed

/-- The function `extract_char` of pixpack.c; the `uint64_t` returned by
`Bitpack_getu` is converted to the `char` that is returned. -/
def extract_char (sgn : Bool) (codeword : Nat) (index : Int) : Except Exc Int := do
  let r ← Bitpack_getu codeword (BITS_IN_BYTE * 1) (u32 (index * BITS_IN_BYTE * 1))
  pure (to_char sgn r)

/-- The function `unpack` of pixpack.c.  The results of `Bitpack_getu` are
converted to `unsigned`, those of `Bitpack_gets` to `signed`. -/
def unpack (codeword : Nat) (bit : bit_block) : Except Exc bit_block := do
  let lsb : Nat := 0
  let bit := { bit with Pr := (← Bitpack_getu codeword PR_WIDTH lsb) % 2 ^ 32 }
  let lsb := lsb + PR_WIDTH
  let bit := { bit with Pb := (← Bitpack_getu codeword PB_WIDTH lsb) % 2 ^ 32 }
  let lsb := lsb + PB_WIDTH
  let bit := { bit with d := s32 (← Bitpack_gets codeword D_WIDTH lsb) }
  let lsb := lsb + D_WIDTH
  let bit := { bit with c := s32 (← Bitpack_gets codeword C_WIDTH lsb) }
  let lsb := lsb + C_WIDTH
  let bit := { bit with b := s32 (← Bitpack_gets codeword B_WIDTH lsb) }
  let lsb := lsb + B_WIDTH
  let bit := { bit with a := (← Bitpack_getu codeword A_WIDTH lsb) % 2 ^ 32 }
  let lsb := lsb + A_WIDTH
  if lsb = BITS_IN_BYTE * 4 then pure bit else throw Exc.Assert_Failed

/-- The function `store_char` of pixpack.c; the `char` argument is converted
to the `uint64_t` word that `Bitpack_getu` reads, and the result is truncated
to the `uint32_t` that is returned. -/
def store_char (c : Int) (codeword : Nat) (index : Int) : Except Exc Nat := do
  let char_bit ← Bitpack_getu (u64 c) (BITS_IN_BYTE * 1) 0
  let r ← Bitpack_newu codeword (BITS_IN_BYTE * 1) (u32 (index * BITS_IN_BYTE * 1)) char_bit
  pure (r % 2 ^ 32)

/-! ## Byte streams

Standard output and the input stream are lists of bytes (`Nat` below 256). -/

/-- The call `putchar (c)`: the `char` is written as an `unsigned char`. -/
def putchar (c : Int) (out : List Nat) : List Nat :=
  out ++ [(c % 256).toNat]

/-- The call `getc (input)`: the next byte as an `int`, or `EOF` (-1) at the
end of the stream, and the rest of the stream. -/
def getc : List Nat → Int × List Nat
  | [] => (-1, [])
  | b :: rest => ((b : Int), rest)

/-- The bytes `printf` emits for the header line of the compressed format. -/
def print_header (width height : Nat) : List Nat :=
  (("COMP40 Compressed image format 2\n" ++ toString width ++ " " ++ toString height
    ++ "\n").toList.map Char.toNat)

/-! ## imagecompress.c: write -/

/-- The inner loop `for (int j = 4; j > 0; j--)` of `write`, entered with the
loop variable equal to the `Nat` argument. -/
def write_bytes (sgn : Bool) (codeword : Nat) : Nat → List Nat → Except Exc (List Nat)
  | 0, out => pure out
  | j + 1, out => do
    let c ← extract_char sgn codeword ((j + 1 : Nat) - 1 : Int)
    write_bytes sgn codeword j (putchar c out)

/-- The outer loop of `write` over the codeword array (a list, in index
order). -/
def write_codewords (sgn : Bool) : List Nat → List Nat → Except Exc (List Nat)
  | [], out => pure out
  | codeword :: rest, out => do
    let out ← write_bytes sgn codeword 4 out
    write_codewords sgn rest out

/-- The function `write` of imagecompress.c: everything it sends to standard
output. -/
def write (sgn : Bool) (codewords : List Nat) (width height : Nat) :
    Except Exc (List Nat) :=
  write_codewords sgn codewords (print_header width height)

/-! ## compress40.c: the codeword reader of decompress40 -/

/-- The inner loop `for (int j = sizeof(uint32_t); j > 0; j--)` of
`decompress40`, entered with the loop variable equal to the first `Nat`
argument; the second is the current content of `*codeword`. -/
def read_bytes (sgn : Bool) : Nat → Nat → List Nat → Except Exc (Nat × List Nat)
  | 0, codeword, input => pure (codeword, input)
  | j + 1, codeword, input => do
    let (ch, input) := getc input
    let c := to_char sgn ch
    let codeword ← store_char c codeword ((j + 1 : Nat) - 1 : Int)
    read_bytes sgn j codeword input

/-- The loop of `decompress40` that fills the codeword array from the input
stream; the first list is the content of the array before the loop. -/
def read_codewords (sgn : Bool) : List Nat → List Nat → Except Exc (List Nat × List Nat)
  | [], input => pure ([], input)
  | codeword :: rest, input => do
    let (codeword, input) ← read_bytes sgn 4 codeword input
    let (rest, input) ← read_codewords sgn rest input
    pure (codeword :: rest, input)

/-! ## Floating point

A `float` is modelled by the number it denotes in an ordered field `K` with
exact operations (no rounding, no infinities, no NaN).  With `K = ℚ` the
definitions below are executable; the theorems hold for every such field,
the reals included.  A conversion from `float` to an integer type discards
the fractional part (truncation toward zero).  The rounding of the
operations is the subject of the section "Binary floating point". -/

/-- The integer part of `x`, rounding toward zero. -/
def trunc {K : Type} [LinearOrderedField K] [FloorRing K] (x : K) : Int :=
  if 0 ≤ x then Int.floor x else Int.ceil x

/-- Conversion of a `float` to `unsigned`. -/
def float_to_unsigned {K : Type} [LinearOrderedField K] [FloorRing K] (x : K) : Nat :=
  u32 (trunc x)

/-- Conversion of a `float` to `int`. -/
def float_to_int {K : Type} [LinearOrderedField K] [FloorRing K] (x : K) : Int :=
  s32 (trunc x)

/-- The struct `XYZ_px` of pixelblock.h. -/
structure XYZ_px (K : Type) where
  luma : K
  Pb : K
  Pr : K

/-- The struct `XYZ_block` of pixelblock.h; the four pixels are values, so
none of them is `NULL`. -/
structure XYZ_block (K : Type) where
  topL : XYZ_px K
  topR : XYZ_px K
  botL : XYZ_px K
  botR : XYZ_px K

/-! ## luma_bit.c -/

/-- The struct `cosine` of luma_bit.c. -/
structure cosine (K : Type) where
  a : K
  b : K
  c : K
  d : K

def A_MAX {K : Type} [LinearOrderedField K] : K := 1
def A_MIN {K : Type} [LinearOrderedField K] : K := 0

/-- The constant `BCD_MAX = 0.3`, taken as the exact number three tenths; the
`float` constant is `ieee.BCD_MAX`. -/
def BCD_MAX {K : Type} [LinearOrderedField K] : K := 3 / 10

/-- The constant `BCD_MIN = -0.3`, taken as the exact number. -/
def BCD_MIN {K : Type} [LinearOrderedField K] : K := -(3 / 10)

/-- The function `fit_range` of luma_bit.c. -/
def fit_range {K : Type} [LinearOrderedField K] (value max min : K) : K :=
  if value > max then
    max
  else if value < min then
    min
  else
    value

/-- The function `get_max` of luma_bit.c: `((uint64_t)1 << bitsize) - 1`. -/
def get_max (bitsize : Int) : Nat :=
  sub64 ((1 <<< (bitsize % 64).toNat) % 2 ^ 64) 1

/-- The function `dct` of luma_bit.c. -/
def dct {K : Type} [LinearOrderedField K] (xyz : XYZ_block K) : cosine K :=
  let y1 := xyz.topL.luma
  let y2 := xyz.topR.luma
  let y3 := xyz.botL.luma
  let y4 := xyz.botR.luma
  { a := (y4 + y3 + y2 + y1) / 4
    b := (y4 + y3 - y2 - y1) / 4
    c := (y4 - y3 + y2 - y1) / 4
    d := (y4 - y3 - y2 + y1) / 4 }

/-- The function `quantize_a` of luma_bit.c. -/
def quantize_a {K : Type} [LinearOrderedField K] [FloorRing K] (a : K) (bitsize : Int) : Nat :=
  let max : Nat := get_max bitsize
  let a := fit_range a A_MAX A_MIN
  float_to_unsigned (a * ((max : K) / A_MAX))

/-- The function `quantize_bcd` of luma_bit.c with exact operations; with the
rounded operations it is `ieee.quantize_bcd`. -/
def quantize_bcd {K : Type} [LinearOrderedField K] [FloorRing K] (value : K)
    (bitsize : Int) : Int :=
  let max : Nat := get_max (bitsize - 1)
  let value := fit_range value BCD_MAX BCD_MIN
  float_to_int (value * ((max : K) / BCD_MAX))

/-- The function `luma_to_bit` of luma_bit.c. -/
def luma_to_bit {K : Type} [LinearOrderedField K] [FloorRing K] (xyz : XYZ_block K)
    (bit : bit_block) : bit_block :=
  let luma_cosine := dct xyz
  let bit := { bit with a := quantize_a luma_cosine.a (A_WIDTH : Int) }
  let bit := { bit with b := quantize_bcd luma_cosine.b (B_WIDTH : Int) }
  let bit := { bit with c := quantize_bcd luma_cosine.c (C_WIDTH : Int) }
  let bit := { bit with d := quantize_bcd luma_cosine.d (D_WIDTH : Int) }
  bit

/-- The function `scale_a` of luma_bit.c. -/
def scale_a {K : Type} [LinearOrderedField K] (a : K) (bitsize : Int) : K :=
  let max : Nat := get_max bitsize
  let a := a / ((max : K) / A_MAX)
  fit_range a A_MAX A_MIN

/-- The function `scale_bcd` of luma_bit.c with exact operations; with the
rounded operations it is `ieee.scale_bcd`. -/
def scale_bcd {K : Type} [LinearOrderedField K] (value : K) (bitsize : Int) : K :=
  let max : Nat := get_max (bitsize - 1)
  let value := value / ((max : K) / BCD_MAX)
  fit_range value BCD_MAX BCD_MIN

/-- The function `inverse_dct` of luma_bit.c.  The four pixels are allocated
anew by `NEW`, which leaves their `Pb` and `Pr` indeterminate: the pixels of
the argument `xyz` stand for the fresh pixels, and only `luma` is assigned. -/
def inverse_dct {K : Type} [LinearOrderedField K] (xyz : XYZ_block K)
    (luma_cosine : cosine K) : XYZ_block K :=
  let a := luma_cosine.a
  let b := luma_cosine.b
  let c := luma_cosine.c
  let d := luma_cosine.d
  { topL := { xyz.topL with luma := a - b - c + d }
    topR := { xyz.topR with luma := a - b + c - d }
    botL := { xyz.botL with luma := a + b - c - d }
    botR := { xyz.botR with luma := a + b + c + d } }

/-- The function `bit_to_luma` of luma_bit.c; the integer fields are
converted to `float` when passed to `scale_a` and `scale_bcd`. -/
def bit_to_luma {K : Type} [LinearOrderedField K] (bit : bit_block) (xyz : XYZ_block K) :
    XYZ_block K :=
  let luma_cosine : cosine K :=
    { a := scale_a (bit.a : K) (A_WIDTH : Int)
      b := scale_bcd (bit.b : K) (B_WIDTH : Int)
      c := scale_bcd (bit.c : K) (C_WIDTH : Int)
      d := scale_bcd (bit.d : K) (D_WIDTH : Int) }
  inverse_dct xyz luma_cosine

/-! ## chroma_bit.c

The functions `Arith40_index_of_chroma` and `Arith40_chroma_of_index` belong
to an external library; they are parameters of the functions that call
them. -/

/-- The function `average_Pb` of chroma_bit.c. -/
def average_Pb {K : Type} [LinearOrderedField K] (xyz : XYZ_block K) : K :=
  let Pb : K := 0
  let Pb := Pb + xyz.topL.Pb
  let Pb := Pb + xyz.topR.Pb
  let Pb := Pb + xyz.botL.Pb
  let Pb := Pb + xyz.botR.Pb
  Pb / 4

/-- The function `average_Pr` of chroma_bit.c. -/
def average_Pr {K : Type} [LinearOrderedField K] (xyz : XYZ_block K) : K :=
  let Pr : K := 0
  let Pr := Pr + xyz.topL.Pr
  let Pr := Pr + xyz.topR.Pr
  let Pr := Pr + xyz.botL.Pr
  let Pr := Pr + xyz.botR.Pr
  Pr / 4

/-- The function `chroma_to_bit` of chroma_bit.c. -/
def chroma_to_bit {K : Type} [LinearOrderedField K] (index_of_chroma : K → Nat)
    (xyz : XYZ_block K) (bit : bit_block) : bit_block :=
  let Pb := average_Pb xyz
  let Pr := average_Pr xyz
  let bit := { bit with Pb := index_of_chroma Pb }
  let bit := { bit with Pr := index_of_chroma Pr }
  bit

/-- The function `store_Pb` of chroma_bit.c. -/
def store_Pb {K : Type} (xyz : XYZ_block K) (Pb : K) : XYZ_block K :=
  { topL := { xyz.topL with Pb := Pb }
    topR := { xyz.topR with Pb := Pb }
    botL := { xyz.botL with Pb := Pb }
    botR := { xyz.botR with Pb := Pb } }

/-- The function `store_Pr` of chroma_bit.c. -/
def store_Pr {K : Type} (xyz : XYZ_block K) (Pr : K) : XYZ_block K :=
  { topL := { xyz.topL with Pr := Pr }
    topR := { xyz.topR with Pr := Pr }
    botL := { xyz.botL with Pr := Pr }
    botR := { xyz.botR with Pr := Pr } }

/-- The function `bit_to_chroma` of chroma_bit.c. -/
def bit_to_chroma {K : Type} (chroma_of_index : Nat → K) (bit : bit_block)
    (xyz : XYZ_block K) : XYZ_block K :=
  let Pb := chroma_of_index bit.Pb
  let Pr := chroma_of_index bit.Pr
  let xyz := store_Pb xyz Pb
  let xyz := store_Pr xyz Pr
  xyz

/-! ## pixelblock.h and pnm.h: RGB pixels and pixmaps -/

/-- The constant `RGB_MAX = 255.0` of pixelblock.h. -/
def RGB_MAX {K : Type} [LinearOrderedField K] : K := 255

/-- The struct `RGB_px` of pixelblock.h. -/
structure RGB_px (K : Type) where
  r : K
  g : K
  b : K

/-- The struct `RGB_block` of pixelblock.h; the four pixels are values. -/
structure RGB_block (K : Type) where
  topL : RGB_px K
  topR : RGB_px K
  botL : RGB_px K
  botR : RGB_px K

/-- The struct `Pnm_rgb` of pnm.h: three `unsigned` samples. -/
structure Pnm_rgb where
  red : Nat
  green : Nat
  blue : Nat
deriving DecidableEq, Repr

/-- A two-dimensional array of pixels (`A2Methods_UArray2`): its dimensions
and its element at column `col` and row `row`. -/
structure A2 where
  width : Nat
  height : Nat
  elems : Nat → Nat → Pnm_rgb

/-- The method `at (array, col, row)` of the array interface, a checked
runtime error outside the dimensions of the array. -/
def A2_at (arr : A2) (col row : Nat) : Except Exc Pnm_rgb :=
  if col < arr.width ∧ row < arr.height then
    pure (arr.elems col row)
  else
    throw Exc.Assert_Failed

/-- The method `small_map_default` of the array interface with an apply
function that rewrites the element it is handed. -/
def A2.map (arr : A2) (apply : Pnm_rgb → Pnm_rgb) : A2 :=
  { arr with elems := fun col row => apply (arr.elems col row) }

/-- The struct `Pnm_ppm` of pnm.h. -/
structure Pnm_ppm where
  width : Nat
  height : Nat
  denominator : Nat
  pixels : A2

/-- The call `UArray_new (length, size)`: an array of `length` elements; the
elements are handed over as `init`. -/
def new_blocks {α : Type} (length : Nat) (init : α) : List α :=
  List.replicate length init

/-- The call `UArray_at (array, i)`, a checked runtime error when `i` is not
an index of the array. -/
def UArray_at {α : Type} (arr : List α) (i : Nat) : Except Exc α :=
  match arr[i]? with
  | some x => pure x
  | none => throw Exc.Assert_Failed

/-- The loop `for (i = 0; i < UArray_length (input); i++)` of the pipeline
stages, which fetches `UArray_at (output, i)` and `UArray_at (input, i)` and
lets `stage` rewrite the output element from the input element. -/
def map_blocks {α β : Type} (stage : α → β → Except Exc β) :
    List α → List β → Except Exc (List β)
  | [], output => pure output
  | _ :: _, [] => throw Exc.Assert_Failed
  | x :: input, y :: output => do
    let y ← stage x y
    let output ← map_blocks stage input output
    pure (y :: output)

/-- A loop `for (int v = 0; v < bound; v += 2)` over a state: `body` is run
for `v = 0, 2, 4, ...` while `v < bound`. -/
def for_step2 {σ : Type} (bound : Int) (body : Nat → σ → Except Exc σ) (s : σ) :
    Except Exc σ :=
  (List.range ((bound.toNat + 1) / 2)).foldlM (fun s i => body (2 * i) s) s

/-! ## rgb_xyz.c -/

/-- The function `to_float` of rgb_xyz.c. -/
def to_float {K : Type} [LinearOrderedField K] (rgb : RGB_px K) : XYZ_px K :=
  let r := rgb.r
  let g := rgb.g
  let b := rgb.b
  { luma := 299 / 1000 * r + 587 / 1000 * g + 114 / 1000 * b
    Pb := -(168736 / 1000000) * r - 331264 / 1000000 * g + 5 / 10 * b
    Pr := 5 / 10 * r - 418688 / 1000000 * g - 81312 / 1000000 * b }

/-- The function `RGB_to_XYZ` of rgb_xyz.c. -/
def RGB_to_XYZ {K : Type} [LinearOrderedField K] (rgb : RGB_block K) (xyz : XYZ_block K) :
    XYZ_block K :=
  let xyz := { xyz with topL := to_float rgb.topL }
  let xyz := { xyz with topR := to_float rgb.topR }
  let xyz := { xyz with botL := to_float rgb.botL }
  let xyz := { xyz with botR := to_float rgb.botR }
  xyz

/-- The function `scale_RGB` of rgb_xyz.c with exact operations; with the
rounded operations it is `ieee.scale_RGB`. -/
def scale_RGB {K : Type} [LinearOrderedField K] (value : K) : K :=
  let value := value * RGB_MAX
  if value > RGB_MAX then
    RGB_MAX
  else if value < 0 then
    0
  else
    value

/-- The function `quantize_RGB` of rgb_xyz.c. -/
def quantize_RGB {K : Type} [LinearOrderedField K] (r g b : K) : RGB_px K :=
  { r := scale_RGB r, g := scale_RGB g, b := scale_RGB b }

/-- The function `to_int` of rgb_xyz.c with exact operations; with the rounded
operations it is `ieee.to_int`. -/
def to_int {K : Type} [LinearOrderedField K] (xyz : XYZ_px K) : RGB_px K :=
  let y := xyz.luma
  let pb := xyz.Pb
  let pr := xyz.Pr
  let r := 1 * y + 0 * pb + 1402 / 1000 * pr
  let g := 1 * y - 344136 / 1000000 * pb - 714136 / 1000000 * pr
  let b := 1 * y + 1772 / 1000 * pb + 0 * pr
  quantize_RGB r g b

/-- The function `XYZ_to_RGB` of rgb_xyz.c. -/
def XYZ_to_RGB {K : Type} [LinearOrderedField K] (xyz : XYZ_block K) (rgb : RGB_block K) :
    RGB_block K :=
  let rgb := { rgb with topL := to_int xyz.topL }
  let rgb := { rgb with topR := to_int xyz.topR }
  let rgb := { rgb with botL := to_int xyz.botL }
  let rgb := { rgb with botR := to_int xyz.botR }
  rgb

/-! ## imagedecompress.c -/

/-- The function `get_pnm_rgb` of imagedecompress.c: each `float` channel is
converted to the `unsigned` sample. -/
def get_pnm_rgb {K : Type} [LinearOrderedField K] [FloorRing K] (rgb : RGB_px K) : Pnm_rgb :=
  let pnm : Pnm_rgb := { red := 0, green := 0, blue := 0 }
  let pnm := { pnm with red := float_to_unsigned rgb.r }
  let pnm := { pnm with green := float_to_unsigned rgb.g }
  let pnm := { pnm with blue := float_to_unsigned rgb.b }
  pnm

/-! ## imagecompress.c: the stages of the compressor -/

/-- The function `scale` of imagecompress.c, applied to one pixel of the
pixmap, with exact operations; the quotients are stored back into the
`unsigned` samples.  With the rounded operations it is `ieee.scale`. -/
def scale (K : Type) [LinearOrderedField K] [FloorRing K] (denominator : Nat)
    (pixel : Pnm_rgb) : Pnm_rgb :=
  let den_scale : K := (denominator : K) / RGB_MAX
  let pixel := { pixel with red := float_to_unsigned ((pixel.red : K) / den_scale) }
  let pixel := { pixel with green := float_to_unsigned ((pixel.green : K) / den_scale) }
  let pixel := { pixel with blue := float_to_unsigned ((pixel.blue : K) / den_scale) }
  pixel

/-- The function `scale_ppm` of imagecompress.c; `K` is the type of the
`float` values inside `scale`. -/
def scale_ppm (K : Type) [LinearOrderedField K] [FloorRing K] (image : Pnm_ppm) : Pnm_ppm :=
  let image := { image with pixels := A2.map image.pixels (scale K image.denominator) }
  { image with denominator := float_to_unsigned (RGB_MAX : K) }

/-- The function `trim_ppm` of imagecompress.c. -/
def trim_ppm (image : Pnm_ppm) : Pnm_ppm :=
  let image :=
    if image.width % 2 ≠ 0 then { image with width := sub32 image.width 1 } else image
  let image :=
    if image.height % 2 ≠ 0 then { image with height := sub32 image.height 1 } else image
  image

/-- The function `get_rgb_pixel` of imagecompress.c. -/
def get_rgb_pixel {K : Type} [LinearOrderedField K] (pnm : Pnm_rgb) (denom : K) : RGB_px K :=
  { r := (pnm.red : K) / denom
    g := (pnm.green : K) / denom
    b := (pnm.blue : K) / denom }

/-- The body of the inner loop of `get_rgb_blocks`, at column `col` and row
`row`; the state is the block array and the counter `cell`. -/
def get_rgb_block_at {K : Type} [LinearOrderedField K] (image : Pnm_ppm) (row col : Nat)
    (st : List (RGB_block K) × Nat) : Except Exc (List (RGB_block K) × Nat) := do
  let rgb_blocks := st.1
  let cell := st.2
  let block ← UArray_at rgb_blocks cell
  let pnm ← A2_at image.pixels col row
  let block := { block with topL := get_rgb_pixel pnm (image.denominator : K) }
  let pnm ← A2_at image.pixels (col + 1) row
  let block := { block with topR := get_rgb_pixel pnm (image.denominator : K) }
  let pnm ← A2_at image.pixels col (row + 1)
  let block := { block with botL := get_rgb_pixel pnm (image.denominator : K) }
  let pnm ← A2_at image.pixels (col + 1) (row + 1)
  let block := { block with botR := get_rgb_pixel pnm (image.denominator : K) }
  pure (rgb_blocks.set cell block, cell + 1)

/-- The function `get_rgb_blocks` of imagecompress.c. -/
def get_rgb_blocks {K : Type} [LinearOrderedField K] (rgb_blocks : List (RGB_block K))
    (image : Pnm_ppm) : Except Exc (List (RGB_block K)) := do
  let width : Int := s32 image.width
  let height : Int := s32 image.height
  let cell : Nat := 0
  let st ← for_step2 height (fun row st =>
    for_step2 width (fun col st => get_rgb_block_at image row col st) st) (rgb_blocks, cell)
  pure st.1

/-- The function `read` of imagecompress.c; the image is altered in place, so
it is returned with the blocks. -/
def read {K : Type} [LinearOrderedField K] [FloorRing K] (rgb_blocks : List (RGB_block K))
    (image : Pnm_ppm) : Except Exc (List (RGB_block K) × Pnm_ppm) := do
  let image := scale_ppm K image
  let image := trim_ppm image
  let rgb_blocks ← get_rgb_blocks rgb_blocks image
  pure (rgb_blocks, image)

/-- The function `rgb_xyz` of imagecompress.c. -/
def rgb_xyz {K : Type} [LinearOrderedField K] (xyz_blocks : List (XYZ_block K))
    (rgb_blocks : List (RGB_block K)) : Except Exc (List (XYZ_block K)) :=
  map_blocks (fun rgb xyz => pure (RGB_to_XYZ rgb xyz)) rgb_blocks xyz_blocks

/-- The function `chroma` of imagecompress.c. -/
def chroma {K : Type} [LinearOrderedField K] (index_of_chroma : K → Nat)
    (bit_blocks : List bit_block) (xyz_blocks : List (XYZ_block K)) :
    Except Exc (List bit_block) :=
  map_blocks (fun xyz bit => pure (chroma_to_bit index_of_chroma xyz bit)) xyz_blocks bit_blocks

/-- The function `luma` of imagecompress.c. -/
def luma {K : Type} [LinearOrderedField K] [FloorRing K] (bit_blocks : List bit_block)
    (xyz_blocks : List (XYZ_block K)) : Except Exc (List bit_block) :=
  map_blocks (fun xyz bit => pure (luma_to_bit xyz bit)) xyz_blocks bit_blocks

/-- The function `pixpack` of imagecompress.c. -/
def pixpack (codewords : List Nat) (bit_blocks : List bit_block) : Except Exc (List Nat) :=
  map_blocks (fun bit _ => pack bit) bit_blocks codewords

/-! ## compress40.c: compress40 -/

/-- The function `compress40` of compress40.c, from the pixmap that
`Pnm_ppmread` returns to the bytes sent to standard output. -/
def compress40 {K : Type} [LinearOrderedField K] [FloorRing K] (index_of_chroma : K → Nat)
    (sgn : Bool) (image : Pnm_ppm) : Except Exc (List Nat) := do
  let len : Nat := (image.width / 2) * (image.height / 2) % 2 ^ 32
  let zero_rgb : RGB_px K := { r := 0, g := 0, b := 0 }
  let zero_xyz : XYZ_px K := { luma := 0, Pb := 0, Pr := 0 }
  let rgb_blocks : List (RGB_block K) :=
    new_blocks len { topL := zero_rgb, topR := zero_rgb, botL := zero_rgb, botR := zero_rgb }
  let xyz_blocks : List (XYZ_block K) :=
    new_blocks len { topL := zero_xyz, topR := zero_xyz, botL := zero_xyz, botR := zero_xyz }
  let bit_blocks : List bit_block :=
    new_blocks len { a := 0, Pb := 0, Pr := 0, b := 0, c := 0, d := 0 }
  let codewords : List Nat := new_blocks len 0
  let (rgb_blocks, image) ← read rgb_blocks image
  let xyz_blocks ← rgb_xyz xyz_blocks rgb_blocks
  let bit_blocks ← chroma index_of_chroma bit_blocks xyz_blocks
  let bit_blocks ← luma bit_blocks xyz_blocks
  let codewords ← pixpack codewords bit_blocks
  write sgn codewords image.width image.height

/-! ## compress40.c: the body reader of decompress40 -/

/-- The lines of `decompress40` between the header and the pipeline: the
codeword array of `(width / 2) * (height / 2)` zeroed elements is allocated
and filled from the input stream. -/
def read_body (sgn : Bool) (width height : Nat) (input : List Nat) :
    Except Exc (List Nat × List Nat) :=
  let len : Nat := (width / 2) * (height / 2) % 2 ^ 32
  let codewords : List Nat := new_blocks len 0
  read_codewords sgn codewords input

/-! ## imagedecompress.c: the stages of the decompressor

The method suite `decompress` of imagedecompress.c has functions with the
names of those of the suite `compress`; they are declared under
`decompress.` here. -/

/-- The function `pixpack` of imagedecompress.c. -/
def decompress.pixpack (bit_blocks : List bit_block) (codewords : List Nat) :
    Except Exc (List bit_block) :=
  map_blocks (fun codeword buf => unpack codeword buf) codewords bit_blocks

/-- The function `luma` of imagedecompress.c. -/
def decompress.luma {K : Type} [LinearOrderedField K] (xyz_blocks : List (XYZ_block K))
    (bit_blocks : List bit_block) : Except Exc (List (XYZ_block K)) :=
  map_blocks (fun bit xyz => pure (bit_to_luma bit xyz)) bit_blocks xyz_blocks

/-- The function `chroma` of imagedecompress.c. -/
def decompress.chroma {K : Type} (chroma_of_index : Nat → K)
    (xyz_blocks : List (XYZ_block K)) (bit_blocks : List bit_block) :
    Except Exc (List (XYZ_block K)) :=
  map_blocks (fun bit xyz => pure (bit_to_chroma chroma_of_index bit xyz)) bit_blocks xyz_blocks

/-- The function `rgb_xyz` of imagedecompress.c. -/
def decompress.rgb_xyz {K : Type} [LinearOrderedField K] (rgb_blocks : List (RGB_block K))
    (xyz_blocks : List (XYZ_block K)) : Except Exc (List (RGB_block K)) :=
  map_blocks (fun xyz rgb => pure (XYZ_to_RGB xyz rgb)) xyz_blocks rgb_blocks

/-- The call `m->new (width, height, size)` of the plain two-dimensional
array: the elements are zeroed. -/
def A2_new (width height : Nat) : A2 :=
  { width := width, height := height, elems := fun _ _ => { red := 0, green := 0, blue := 0 } }

/-- The assignment `*buf = v` through `buf = m->at (pixels, col, row)`, a
checked runtime error when the coordinates are outside the array. -/
def A2_put (arr : A2) (col row : Nat) (v : Pnm_rgb) : Except Exc A2 :=
  if col < arr.width ∧ row < arr.height then
    pure { arr with elems := fun c r => if c = col ∧ r = row then v else arr.elems c r }
  else
    throw Exc.Assert_Failed

/-- The function `get_ppm` of imagedecompress.c; the field `pixels`, which
`get_ppm` leaves unset, holds an empty array until `write` assigns it. -/
def get_ppm (K : Type) [LinearOrderedField K] [FloorRing K] (width height : Nat) : Pnm_ppm :=
  { width := width, height := height, denominator := float_to_unsigned (RGB_MAX : K),
    pixels := A2_new 0 0 }

/-- The body of the inner loop of `write`, at column `col` and row `row`; the
state is the pixel array and the counter `cell`. -/
def put_rgb_block_at {K : Type} [LinearOrderedField K] [FloorRing K]
    (rgb_blocks : List (RGB_block K)) (row col : Nat) (st : A2 × Nat) :
    Except Exc (A2 × Nat) := do
  let pixels := st.1
  let cell := st.2
  let block ← UArray_at rgb_blocks cell
  let pixels ← A2_put pixels col row (get_pnm_rgb block.topL)
  let pixels ← A2_put pixels (col + 1) row (get_pnm_rgb block.topR)
  let pixels ← A2_put pixels col (row + 1) (get_pnm_rgb block.botL)
  let pixels ← A2_put pixels (col + 1) (row + 1) (get_pnm_rgb block.botR)
  pure (pixels, cell + 1)

/-- The function `write` of imagedecompress.c; the result is the pixmap that
is handed to `Pnm_ppmwrite`. -/
def decompress.write {K : Type} [LinearOrderedField K] [FloorRing K]
    (rgb_blocks : List (RGB_block K)) (width height : Nat) : Except Exc Pnm_ppm := do
  let pixels := A2_new width height
  let image := get_ppm K width height
  let cell : Nat := 0
  let st ← for_step2 (height : Int) (fun row st =>
    for_step2 (width : Int) (fun col st => put_rgb_block_at rgb_blocks row col st) st)
    (pixels, cell)
  let image := { image with pixels := st.1 }
  pure image

/-! ## compress40.c: decompress40

The call of `fscanf` is modelled after the C library: an ordinary character
of the format must be the next input character, white space in the format
skips any white space of the input, and `%u` skips white space and reads an
optional sign and decimal digits. -/

/-- The value `EOF`. -/
def EOF : Int := -1

/-- The predicate `isspace` on a byte. -/
def isspace (c : Nat) : Bool := c = 32 || (9 ≤ c && c ≤ 13)

/-- The predicate `isdigit` on a byte. -/
def isdigit (c : Nat) : Bool := 48 ≤ c && c ≤ 57

/-- The input after its leading white space. -/
def skip_space : List Nat → List Nat
  | [] => []
  | c :: rest => if isspace c then skip_space rest else c :: rest

/-- Matching of the ordinary and white-space characters of a format: the
input that is left, or the value `fscanf` returns when the match stops
before the first conversion (`EOF` at the end of the input, 0 at a
character that differs). -/
def scan_chars : List Nat → List Nat → Except Int (List Nat)
  | [], input => .ok input
  | f :: format, input =>
    if isspace f then
      scan_chars format (skip_space input)
    else
      match input with
      | [] => .error EOF
      | c :: rest => if c = f then scan_chars format rest else .error 0

/-- The digits at the head of the input, accumulated onto `acc` in base ten. -/
def scan_digits : List Nat → Nat → Nat × List Nat
  | [], acc => (acc, [])
  | c :: rest, acc => if isdigit c then scan_digits rest (10 * acc + (c - 48)) else (acc, c :: rest)

/-- The conversion `%u`: the `unsigned` that is stored and the input that is
left; the error is `true` at the end of the input and `false` when no digit
is found. -/
def scan_unsigned (input : List Nat) : Except Bool (Nat × List Nat) :=
  let input := skip_space input
  let signed : Bool × List Nat :=
    match input with
    | 45 :: rest => (true, rest)
    | 43 :: rest => (false, rest)
    | _ => (false, input)
  match signed.2 with
  | [] => .error true
  | c :: rest =>
    if isdigit c then
      let r := scan_digits (c :: rest) 0
      .ok (if signed.1 then sub32 0 (r.1 % 2 ^ 32) else r.1 % 2 ^ 32, r.2)
    else
      .error false

/-- The call `fscanf (input, "COMP40 Compressed image format 2\n%u %u",
&width, &height)`: the value returned, `width`, `height` (0 stands for a
variable that was not assigned) and the input that is left. -/
def fscanf_header (input : List Nat) : Int × Nat × Nat × List Nat :=
  match scan_chars ("COMP40 Compressed image format 2\n".toList.map Char.toNat) input with
  | .error n => (n, 0, 0, input)
  | .ok input =>
    match scan_unsigned input with
    | .error eof => (if eof then EOF else 0, 0, 0, input)
    | .ok (width, input) =>
      match scan_unsigned (skip_space input) with
      | .error _ => (1, width, 0, input)
      | .ok (height, input) => (2, width, height, input)

/-- The header lines of `decompress40`: the call of `fscanf`, the assertion on
its result, and the assertion that the next character is a newline. -/
def read_header (input : List Nat) : Except Exc (Nat × Nat × List Nat) := do
  let (read, width, height, input) := fscanf_header input
  if read ≠ 2 then throw Exc.Assert_Failed
  let (c, input) := getc input
  if c ≠ 10 then throw Exc.Assert_Failed
  pure (width, height, input)

/-- The function `decompress40` of compress40.c, from the bytes of the input
stream to the pixmap that `write` prints. -/
def decompress40 {K : Type} [LinearOrderedField K] [FloorRing K] (chroma_of_index : Nat → K)
    (sgn : Bool) (input : List Nat) : Except Exc Pnm_ppm := do
  let (width, height, input) ← read_header input
  let len : Nat := (width / 2) * (height / 2) % 2 ^ 32
  let zero_rgb : RGB_px K := { r := 0, g := 0, b := 0 }
  let zero_xyz : XYZ_px K := { luma := 0, Pb := 0, Pr := 0 }
  let rgb_blocks : List (RGB_block K) :=
    new_blocks len { topL := zero_rgb, topR := zero_rgb, botL := zero_rgb, botR := zero_rgb }
  let xyz_blocks : List (XYZ_block K) :=
    new_blocks len { topL := zero_xyz, topR := zero_xyz, botL := zero_xyz, botR := zero_xyz }
  let bit_blocks : List bit_block :=
    new_blocks len { a := 0, Pb := 0, Pr := 0, b := 0, c := 0, d := 0 }
  let (codewords, _) ← read_body sgn width height input
  let bit_blocks ← decompress.pixpack bit_blocks codewords
  let xyz_blocks ← decompress.luma xyz_blocks bit_blocks
  let xyz_blocks ← decompress.chroma chroma_of_index xyz_blocks bit_blocks
  let rgb_blocks ← decompress.rgb_xyz rgb_blocks xyz_blocks
  decompress.write rgb_blocks width height

/-! ## ppmdiff.c

The reader `Pnmrdr_T` is an external library: a reader is modelled by the
map data of the image and the samples it has not handed out yet. -/

/-- The exception `Pnmrdr_Count` of the reader: more samples were asked for
than the image holds. -/
inductive Pnmrdr_Exc where
  | Count
deriving DecidableEq, Repr

/-- The struct `Pnmrdr_mapdata` (its field `type` is checked by `open_file`
before `compute_E` is reached). -/
structure Pnmdata where
  width : Nat
  height : Nat
  denominator : Nat
deriving DecidableEq, Repr

/-- A reader `Pnmrdr_T`: the map data and the samples still to be read, in
the order of the file. -/
structure Pnm where
  data : Pnmdata
  samples : List Nat
deriving DecidableEq, Repr

/-- The call `Pnmrdr_data (ppm)`. -/
def Pnmrdr_data (ppm : Pnm) : Pnmdata := ppm.data

/-- The call `Pnmrdr_get (ppm)`: the next sample and the reader after it. -/
def Pnmrdr_get (ppm : Pnm) : Except Pnmrdr_Exc (Nat × Pnm) :=
  match ppm.samples with
  | [] => throw Pnmrdr_Exc.Count
  | s :: rest => pure (s, { ppm with samples := rest })

/-- The body of the loop of `compute_E`; the state is `sum` and the two
readers.  The quotients and the differences are `unsigned`, the products are
converted to `float` when added to `sum`. -/
def compute_E_pixel {K : Type} [LinearOrderedField K] (st : K × Pnm × Pnm) :
    Except Pnmrdr_Exc (K × Pnm × Pnm) := do
  let sum := st.1
  let ppm1 := st.2.1
  let ppm2 := st.2.2
  let ppmdata1 := Pnmrdr_data ppm1
  let ppmdata2 := Pnmrdr_data ppm2
  let (s, ppm1) ← Pnmrdr_get ppm1
  let red1 : Nat := s / ppmdata1.denominator
  let (s, ppm1) ← Pnmrdr_get ppm1
  let blue1 : Nat := s / ppmdata1.denominator
  let (s, ppm1) ← Pnmrdr_get ppm1
  let green1 : Nat := s / ppmdata1.denominator
  let (s, ppm2) ← Pnmrdr_get ppm2
  let red2 : Nat := s / ppmdata2.denominator
  let (s, ppm2) ← Pnmrdr_get ppm2
  let blue2 : Nat := s / ppmdata2.denominator
  let (s, ppm2) ← Pnmrdr_get ppm2
  let green2 : Nat := s / ppmdata2.denominator
  let sum := sum + ((sub32 red1 red2 * sub32 red1 red2 % 2 ^ 32 : Nat) : K)
  let sum := sum + ((sub32 green1 green2 * sub32 green1 green2 % 2 ^ 32 : Nat) : K)
  let sum := sum + ((sub32 blue1 blue2 * sub32 blue1 blue2 % 2 ^ 32 : Nat) : K)
  pure (sum, ppm1, ppm2)

/-- The function `compute_E` of ppmdiff.c: the value that is handed to
`print_E`.  The library function `sqrt` is a parameter. -/
def compute_E {K : Type} [LinearOrderedField K] (sqrt : K → K) (ppm1 ppm2 : Pnm) :
    Except Pnmrdr_Exc K := do
  let ppmdata1 := Pnmrdr_data ppm1
  let ppmdata2 := Pnmrdr_data ppm2
  let width := ppmdata1.width
  let height := ppmdata1.height
  let sum : K := 0
  let width := if width > ppmdata2.width then ppmdata2.width else width
  let height := if height > ppmdata2.height then ppmdata2.height else height
  let st ← (List.range (width * height % 2 ^ 32)).foldlM
    (fun st _ => compute_E_pixel st) (sum, ppm1, ppm2)
  let sum := st.1
  let E := sum / ((3 * width * height % 2 ^ 32 : Nat) : K)
  let E := sqrt E
  pure E

/-! ## Binary floating point

The integer results of the quantisers and of the rescaling depend on the
rounding of every `float` operation.  In this section a finite `float` or
`double` is the rational number it denotes, and an operation is the exact
operation followed by rounding to the nearest number of the format, a tie
going to the even significand (the default rounding of IEEE 754), with
gradual underflow.  Infinities and NaN are not represented: the exponent of
`ieee.round` has no upper bound.  An expression is evaluated in the type C
gives it: an operation on two `float` operands rounds to binary32, a `float`
operand that meets a `double` constant is converted to binary64 and the
operation rounds to binary64, and an assignment to a `float` rounds to
binary32; the conversion of a `float` to `double` is exact.  No operation is
fused with another or carried out in a wider format.  The definitions of
this section carry the names of the source functions, preceded by `ieee.`. -/

/-- Rounding of a nonnegative number to the nearest integer, a tie going to
the even neighbour. -/
def ieee.round_even (y : ℚ) : Int :=
  if y - ⌊y⌋ < 1 / 2 then ⌊y⌋
  else if 1 / 2 < y - ⌊y⌋ then ⌊y⌋ + 1
  else if ⌊y⌋ % 2 = 0 then ⌊y⌋ else ⌊y⌋ + 1

/-- The exponent of the unit in the last place of `x` in the binary format
with `p` significant bits and least normal exponent `emin`. -/
def ieee.ulp_exp (p : Nat) (emin : Int) (x : ℚ) : Int :=
  max (Int.log 2 |x|) emin - ((p : Int) - 1)

/-- Rounding of `x` to the nearest number of the binary format with `p`
significant bits and least normal exponent `emin`, a tie going to the even
significand; the sign is kept. -/
def ieee.round (p : Nat) (emin : Int) (x : ℚ) : ℚ :=
  let q : ℚ := 2 ^ ieee.ulp_exp p emin x
  let m : ℚ := (ieee.round_even (|x| / q) : ℚ) * q
  if x < 0 then -m else m

/-- Rounding to binary32, the type `float`. -/
def ieee.f32 (x : ℚ) : ℚ := ieee.round 24 (-126) x

/-- Rounding to binary64, the type `double`. -/
def ieee.f64 (x : ℚ) : ℚ := ieee.round 53 (-1022) x

/-- The constant `A_MAX = 1` of luma_bit.c, a `const float`. -/
def ieee.A_MAX : ℚ := ieee.f32 1

/-- The constant `A_MIN = 0` of luma_bit.c, a `const float`. -/
def ieee.A_MIN : ℚ := ieee.f32 0

/-- The constant `BCD_MAX = 0.3` of luma_bit.c: the `double` literal rounded
to `float`. -/
def ieee.BCD_MAX : ℚ := ieee.f32 (ieee.f64 (3 / 10))

/-- The constant `BCD_MIN = -0.3` of luma_bit.c. -/
def ieee.BCD_MIN : ℚ := ieee.f32 (-ieee.f64 (3 / 10))

/-- The function `dct` of luma_bit.c: the sums are `float` operations, the
division by the `double` constant `4.0` is a `double` operation, and the
quotient is rounded to the `float` field. -/
def ieee.dct (xyz : XYZ_block ℚ) : cosine ℚ :=
  let y1 := xyz.topL.luma
  let y2 := xyz.topR.luma
  let y3 := xyz.botL.luma
  let y4 := xyz.botR.luma
  { a := ieee.f32 (ieee.f64 (ieee.f32 (ieee.f32 (ieee.f32 (y4 + y3) + y2) + y1) / ieee.f64 4))
    b := ieee.f32 (ieee.f64 (ieee.f32 (ieee.f32 (ieee.f32 (y4 + y3) - y2) - y1) / ieee.f64 4))
    c := ieee.f32 (ieee.f64 (ieee.f32 (ieee.f32 (ieee.f32 (y4 - y3) + y2) - y1) / ieee.f64 4))
    d := ieee.f32 (ieee.f64 (ieee.f32 (ieee.f32 (ieee.f32 (y4 - y3) - y2) + y1) / ieee.f64 4)) }

/-- The function `quantize_a` of luma_bit.c: `max` is converted to `float`,
the quotient and the product are `float` operations, and the product is
converted to `unsigned`. -/
def ieee.quantize_a (a : ℚ) (bitsize : Int) : Nat :=
  let max : Nat := get_max bitsize
  let a := fit_range a ieee.A_MAX ieee.A_MIN
  float_to_unsigned (ieee.f32 (a * ieee.f32 (ieee.f32 (max : ℚ) / ieee.A_MAX)))

/-- The function `quantize_bcd` of luma_bit.c: `max` is converted to `float`,
the quotient and the product are `float` operations, and the product is
converted to `int`. -/
def ieee.quantize_bcd (value : ℚ) (bitsize : Int) : Int :=
  let max : Nat := get_max (bitsize - 1)
  let value := fit_range value ieee.BCD_MAX ieee.BCD_MIN
  float_to_int (ieee.f32 (value * ieee.f32 (ieee.f32 (max : ℚ) / ieee.BCD_MAX)))

/-- The function `luma_to_bit` of luma_bit.c. -/
def ieee.luma_to_bit (xyz : XYZ_block ℚ) (bit : bit_block) : bit_block :=
  let luma_cosine := ieee.dct xyz
  let bit := { bit with a := ieee.quantize_a luma_cosine.a (A_WIDTH : Int) }
  let bit := { bit with b := ieee.quantize_bcd luma_cosine.b (B_WIDTH : Int) }
  let bit := { bit with c := ieee.quantize_bcd luma_cosine.c (C_WIDTH : Int) }
  let bit := { bit with d := ieee.quantize_bcd luma_cosine.d (D_WIDTH : Int) }
  bit

/-- The function `scale_a` of luma_bit.c. -/
def ieee.scale_a (a : ℚ) (bitsize : Int) : ℚ :=
  let max : Nat := get_max bitsize
  let a := ieee.f32 (a / ieee.f32 (ieee.f32 (max : ℚ) / ieee.A_MAX))
  fit_range a ieee.A_MAX ieee.A_MIN

/-- The function `scale_bcd` of luma_bit.c. -/
def ieee.scale_bcd (value : ℚ) (bitsize : Int) : ℚ :=
  let max : Nat := get_max (bitsize - 1)
  let value := ieee.f32 (value / ieee.f32 (ieee.f32 (max : ℚ) / ieee.BCD_MAX))
  fit_range value ieee.BCD_MAX ieee.BCD_MIN

/-- The function `inverse_dct` of luma_bit.c; every sum and difference is a
`float` operation, taken from left to right.  As in `inverse_dct`, the pixels
of the argument `xyz` stand for the fresh pixels. -/
def ieee.inverse_dct (xyz : XYZ_block ℚ) (luma_cosine : cosine ℚ) : XYZ_block ℚ :=
  let a := luma_cosine.a
  let b := luma_cosine.b
  let c := luma_cosine.c
  let d := luma_cosine.d
  { topL := { xyz.topL with luma := ieee.f32 (ieee.f32 (ieee.f32 (a - b) - c) + d) }
    topR := { xyz.topR with luma := ieee.f32 (ieee.f32 (ieee.f32 (a - b) + c) - d) }
    botL := { xyz.botL with luma := ieee.f32 (ieee.f32 (ieee.f32 (a + b) - c) - d) }
    botR := { xyz.botR with luma := ieee.f32 (ieee.f32 (ieee.f32 (a + b) + c) + d) } }

/-- The function `bit_to_luma` of luma_bit.c; the integer fields are
converted to `float` when passed to `scale_a` and `scale_bcd`. -/
def ieee.bit_to_luma (bit : bit_block) (xyz : XYZ_block ℚ) : XYZ_block ℚ :=
  let luma_cosine : cosine ℚ :=
    { a := ieee.scale_a (ieee.f32 (bit.a : ℚ)) (A_WIDTH : Int)
      b := ieee.scale_bcd (ieee.f32 (bit.b : ℚ)) (B_WIDTH : Int)
      c := ieee.scale_bcd (ieee.f32 (bit.c : ℚ)) (C_WIDTH : Int)
      d := ieee.scale_bcd (ieee.f32 (bit.d : ℚ)) (D_WIDTH : Int) }
  ieee.inverse_dct xyz luma_cosine

/-- The constant `RGB_MAX = 255.0` of pixelblock.h, a `const float`. -/
def ieee.RGB_MAX : ℚ := ieee.f32 (ieee.f64 255)

/-- The function `scale_RGB` of rgb_xyz.c; the product is a `float`
operation. -/
def ieee.scale_RGB (value : ℚ) : ℚ :=
  let value := ieee.f32 (value * ieee.RGB_MAX)
  if value > ieee.RGB_MAX then
    ieee.RGB_MAX
  else if value < 0 then
    0
  else
    value

/-- The function `quantize_RGB` of rgb_xyz.c. -/
def ieee.quantize_RGB (r g b : ℚ) : RGB_px ℚ :=
  { r := ieee.scale_RGB r, g := ieee.scale_RGB g, b := ieee.scale_RGB b }

/-- The function `to_int` of rgb_xyz.c.  The coefficients are `double`
constants, so the products, sums and differences are `double` operations on
the converted `float` fields, taken from left to right; each result is
rounded to the `float` variable it is assigned to. -/
def ieee.to_int (xyz : XYZ_px ℚ) : RGB_px ℚ :=
  let y := xyz.luma
  let pb := xyz.Pb
  let pr := xyz.Pr
  let r := ieee.f32 (ieee.f64 (ieee.f64 (ieee.f64 (ieee.f64 1 * y) + ieee.f64 (ieee.f64 0 * pb))
    + ieee.f64 (ieee.f64 (1402 / 1000) * pr)))
  let g := ieee.f32 (ieee.f64 (ieee.f64 (ieee.f64 (ieee.f64 1 * y)
    - ieee.f64 (ieee.f64 (344136 / 1000000) * pb)) - ieee.f64 (ieee.f64 (714136 / 1000000) * pr)))
  let b := ieee.f32 (ieee.f64 (ieee.f64 (ieee.f64 (ieee.f64 1 * y)
    + ieee.f64 (ieee.f64 (1772 / 1000) * pb)) + ieee.f64 (ieee.f64 0 * pr)))
  ieee.quantize_RGB r g b

/-- The function `scale` of imagecompress.c, applied to one pixel of the
pixmap: the denominator is read as an `int` and converted to `float`, the
quotients are `float` operations, and each quotient is converted to the
`unsigned` sample it is stored in. -/
def ieee.scale (denominator : Nat) (pixel : Pnm_rgb) : Pnm_rgb :=
  let den_scale : ℚ := ieee.f32 (ieee.f32 ((s32 denominator : Int) : ℚ) / ieee.RGB_MAX)
  let pixel :=
    { pixel with red := float_to_unsigned (ieee.f32 (ieee.f32 (pixel.red : ℚ) / den_scale)) }
  let pixel :=
    { pixel with green := float_to_unsigned (ieee.f32 (ieee.f32 (pixel.green : ℚ) / den_scale)) }
  let pixel :=
    { pixel with blue := float_to_unsigned (ieee.f32 (ieee.f32 (pixel.blue : ℚ) / den_scale)) }
  pixel

/-- The function `scale_ppm` of imagecompress.c. -/
def ieee.scale_ppm (image : Pnm_ppm) : Pnm_ppm :=
  let image := { image with pixels := A2.map image.pixels (ieee.scale image.denominator) }
  { image with denominator := float_to_unsigned ieee.RGB_MAX }

/-- The function `get_rgb_pixel` of imagecompress.c: each sample is converted
to `float` and divided by `denom`, a `float` operation. -/
def ieee.get_rgb_pixel (pnm : Pnm_rgb) (denom : ℚ) : RGB_px ℚ :=
  { r := ieee.f32 (ieee.f32 (pnm.red : ℚ) / denom)
    g := ieee.f32 (ieee.f32 (pnm.green : ℚ) / denom)
    b := ieee.f32 (ieee.f32 (pnm.blue : ℚ) / denom) }

/-! ## Specification vocabulary -/

/-- The word whose field of `w` bits at `lsb` is `v` and whose other bits are
those of `word`, written arithmetically. -/
def splice (word w lsb v : Nat) : Nat :=
  2 ^ lsb * (2 ^ w * (word / 2 ^ (lsb + w)) + v) + word % 2 ^ lsb

/-- The integer denoted by the `w`-bit two's-complement pattern `g`. -/
def sign_extend (w : Nat) (g : Nat) : Int :=
  if g < 2 ^ (w - 1) then (g : Int) else (g : Int) - 2 ^ w

/-- Byte `i` of a word, counted from the least significant byte. -/
def byte_of (C i : Nat) : Nat := C / 2 ^ (8 * i) % 256

/-- The codeword layout of the specification: `a (6) | b (6) | c (6) | d (6) |
Pb (4) | Pr (4)` from the most to the least significant bit, signed fields
reduced modulo 64. -/
def codeword_of (bit : bit_block) : Nat :=
  bit.a * 2 ^ 26 + (bit.b % 64).toNat * 2 ^ 20 + (bit.c % 64).toNat * 2 ^ 14
    + (bit.d % 64).toNat * 2 ^ 8 + bit.Pb * 2 ^ 4 + bit.Pr

/-- Every field of the block is within its declared width. -/
def fields_fit (bit : bit_block) : Prop :=
  bit.a ≤ 63 ∧ bit.Pb ≤ 15 ∧ bit.Pr ≤ 15 ∧ (-32 ≤ bit.b ∧ bit.b ≤ 31) ∧
    (-32 ≤ bit.c ∧ bit.c ≤ 31) ∧ (-32 ≤ bit.d ∧ bit.d ≤ 31)

instance (bit : bit_block) : Decidable (fields_fit bit) := by
  unfold fields_fit
  infer_instance

/-- The bytes of the codewords in order, each codeword most significant byte
first. -/
def body_bytes : List Nat → List Nat
  | [] => []
  | C :: rest => byte_of C 3 :: byte_of C 2 :: byte_of C 1 :: byte_of C 0 :: body_bytes rest

/-- The block the compressor builds from the four pixels whose top-left
corner is at column `col` and row `row` of the pixmap. -/
def block_of {K : Type} [LinearOrderedField K] (image : Pnm_ppm) (row col : Nat) :
    RGB_block K :=
  { topL := get_rgb_pixel (image.pixels.elems col row) (image.denominator : K)
    topR := get_rgb_pixel (image.pixels.elems (col + 1) row) (image.denominator : K)
    botL := get_rgb_pixel (image.pixels.elems col (row + 1)) (image.denominator : K)
    botR := get_rgb_pixel (image.pixels.elems (col + 1) (row + 1)) (image.denominator : K) }

/-- The pixmap cropped to its top-left `2 * (W / 2)` by `2 * (H / 2)` pixels. -/
def crop (image : Pnm_ppm) : Pnm_ppm :=
  { width := 2 * (image.width / 2)
    height := 2 * (image.height / 2)
    denominator := image.denominator
    pixels :=
      { width := 2 * (image.width / 2)
        height := 2 * (image.height / 2)
        elems := fun col row =>
          if col < 2 * (image.width / 2) ∧ row < 2 * (image.height / 2) then
            image.pixels.elems col row
          else { red := 0, green := 0, blue := 0 } } }

/-- The channel values kept for a pixel with samples `p` under the
denominator `D`: each sample `s` is first rescaled to the integer
`⌊255 s / D⌋`, which is then divided by 255. -/
def rescaled {K : Type} [LinearOrderedField K] (D : Nat) (p : Pnm_rgb) : RGB_px K :=
  { r := ((255 * p.red / D : Nat) : K) / 255
    g := ((255 * p.green / D : Nat) : K) / 255
    b := ((255 * p.blue / D : Nat) : K) / 255 }

/-- The bit block whose fields are the bit fields of the codeword `C` in the
layout `a | b | c | d | Pb | Pr`, the signed ones sign-extended. -/
def fields_of (C : Nat) : bit_block :=
  { a := C / 2 ^ 26 % 64
    Pb := C / 2 ^ 4 % 16
    Pr := C % 16
    b := sign_extend 6 (C / 2 ^ 20 % 64)
    c := sign_extend 6 (C / 2 ^ 14 % 64)
    d := sign_extend 6 (C / 2 ^ 8 % 64) }

/-- The pixel of a block that lies at column `col` and row `row` of the
image, by the parities of the two coordinates. -/
def corner {K : Type} (blk : RGB_block K) (col row : Nat) : RGB_px K :=
  if row % 2 = 0 then
    if col % 2 = 0 then blk.topL else blk.topR
  else
    if col % 2 = 0 then blk.botL else blk.botR

/-- The sample triple at column `col` and row `row` of the raster assembled
from the blocks in row-major order, `m` blocks to a row of blocks. -/
def raster_px {K : Type} [LinearOrderedField K] [FloorRing K] (rgb_blocks : List (RGB_block K))
    (m col row : Nat) : Pnm_rgb :=
  match rgb_blocks[(row / 2) * m + col / 2]? with
  | some blk => get_pnm_rgb (corner blk col row)
  | none => { red := 0, green := 0, blue := 0 }

/-- The compressor followed by the decompressor on the bytes it wrote. -/
def round_trip {K : Type} [LinearOrderedField K] [FloorRing K] (index_of_chroma : K → Nat)
    (chroma_of_index : Nat → K) (sgn : Bool) (image : Pnm_ppm) : Except Exc Pnm_ppm :=
  compress40 index_of_chroma sgn image >>= decompress40 chroma_of_index sgn

/-- The bit block of a block of four equal pixels `p`. -/
def uniform_bits {K : Type} [LinearOrderedField K] [FloorRing K] (index_of_chroma : K → Nat)
    (p : RGB_px K) : bit_block :=
  { a := quantize_a (to_float p).luma 6
    Pb := index_of_chroma (to_float p).Pb
    Pr := index_of_chroma (to_float p).Pr
    b := 0
    c := 0
    d := 0 }

/-- What `scale` followed by `get_rgb_pixel` keeps of a sample `s` of a
pixmap with the denominator `D`: `n` is the sample that `scale` stores and
`v` the channel value that `get_rgb_pixel` computes from it.  The sample `n`
is an integer in `0..255` between `255 s / D - 1` and `255 s / D`, up to the
rounding error `10 ^ (-4)`; the value `v` is the `float` nearest to `n / 255`,
lies in `[0, 1]` and is less than `1 / 254` away from `s / D`. -/
def stored_sample (D s n : Nat) (v : ℚ) : Prop :=
  n ≤ 255 ∧
  255 * (s : ℚ) / D - 1 - 1 / 10000 < n ∧ (n : ℚ) ≤ 255 * (s : ℚ) / D + 1 / 10000 ∧
  v = ieee.f32 ((n : ℚ) / 255) ∧
  (0 ≤ v ∧ v ≤ 1) ∧
  |v - (s : ℚ) / D| < 1 / 254

/-- The pixmap of two by two pixels with the denominator `D` whose samples
all equal `s`. -/
def flat_image (D s : Nat) : Pnm_ppm :=
  { width := 2
    height := 2
    denominator := D
    pixels := { width := 2, height := 2, elems := fun _ _ => { red := s, green := s, blue := s } } }

/-! ## Lemmas on bitpack.c -/

theorem width_lsb_check_ok {w lsb : Nat} (hw : w ≤ 64) (hl : lsb < 64)
    (hwl : w + lsb ≤ 64) : width_lsb_check w lsb = .ok () := by
  unfold width_lsb_check MAX_BIT
  have h : (w + lsb) % 2 ^ 32 ≤ 64 := by omega
  rw [if_pos ⟨hw, hl, h⟩]
  rfl

theorem shiftu_left {n m : Nat} (hm : m < 64) :
    shiftu n m LEFT = (n * 2 ^ m) % 2 ^ 64 := by
  unfold shiftu MAX_BIT
  have h1 : m ≠ 64 := by omega
  have h2 : m % 64 = m := by omega
  simp [h1, h2, Nat.shiftLeft_eq]

theorem shiftu_right {n m : Nat} (hm : m < 64) :
    shiftu n m RIGHT = n / 2 ^ m := by
  unfold shiftu MAX_BIT
  have h1 : m ≠ 64 := by omega
  have h2 : m % 64 = m := by omega
  simp [h1, h2, Nat.shiftRight_eq_div_pow, LEFT, RIGHT]

theorem two_pow_le_64 {w : Nat} (hw : w ≤ 64) : 2 ^ w ≤ 2 ^ 64 :=
  Nat.pow_le_pow_right (by decide) hw

theorem field_max {w : Nat} (hw : w ≤ 64) :
    sub64 (shiftu 1 w LEFT) 1 = 2 ^ w - 1 := by
  have hp : 0 < 2 ^ w := Nat.pos_pow_of_pos _ (by decide)
  rcases Nat.lt_or_eq_of_le hw with h | h
  · rw [shiftu_left h]
    have h3 : 2 ^ w < 2 ^ 64 := Nat.pow_lt_pow_right (by decide) h
    unfold sub64
    simp only [Nat.one_mul]
    rw [Nat.mod_eq_of_lt h3]
    omega
  · subst h
    simp [shiftu, MAX_BIT, sub64]

theorem getu_bind (w lsb : Nat) (hw : w ≤ 64) (hl : lsb < 64) (hwl : w + lsb ≤ 64)
    (word : Nat) :
    Bitpack_getu word w lsb = .ok (word / 2 ^ lsb % 2 ^ w) := by
  simp only [Bitpack_getu, width_lsb_check_ok hw hl hwl, field_max hw, shiftu_left hl,
    shiftu_right hl, bind, Except.bind, pure, Except.pure]
  congr 1
  apply Nat.eq_of_testBit_eq
  intro i
  rw [← Nat.shiftLeft_eq, ← Nat.shiftRight_eq_div_pow, ← Nat.shiftRight_eq_div_pow]
  simp only [Nat.testBit_shiftRight, Nat.testBit_and, Nat.testBit_mod_two_pow,
    Nat.testBit_shiftLeft, Nat.testBit_two_pow_sub_one]
  by_cases h1 : i < w
  · have h2 : lsb + i < 64 := by omega
    simp [h1, h2]
  · simp [h1]

theorem testBit_eq_false_of_lt {x i j : Nat} (hx : x < 2 ^ i) (hij : i ≤ j) :
    x.testBit j = false :=
  Nat.testBit_lt_two_pow (Nat.lt_of_lt_of_le hx (Nat.pow_le_pow_right (by decide) hij))

theorem testBit_high_mask {k : Nat} (hk : k ≤ 64) (p : Nat) :
    (shiftu MAX_64U k LEFT).testBit p = (decide (k ≤ p) && decide (p < 64)) := by
  rcases Nat.lt_or_eq_of_le hk with h | h
  · rw [shiftu_left h, ← Nat.shiftLeft_eq]
    have e : MAX_64U = 2 ^ 64 - 1 := by decide
    rw [e]
    simp only [Nat.testBit_mod_two_pow, Nat.testBit_shiftLeft, Nat.testBit_two_pow_sub_one]
    by_cases h1 : p < 64 <;> by_cases h2 : k ≤ p <;> simp [h1, h2]
    omega
  · subst h
    have e : shiftu MAX_64U 64 LEFT = 0 := by simp [shiftu, MAX_BIT]
    rw [e]
    by_cases h1 : p < 64 <;> simp [h1]

theorem testBit_splice {word w lsb v : Nat} (hv : v < 2 ^ w) (p : Nat) :
    (splice word w lsb v).testBit p =
      if lsb ≤ p ∧ p < lsb + w then v.testBit (p - lsb) else word.testBit p := by
  unfold splice
  rw [Nat.testBit_mul_pow_two_add _ (Nat.mod_lt _ (Nat.pos_pow_of_pos _ (by decide)))]
  by_cases h1 : p < lsb
  · have h2 : ¬ (lsb ≤ p ∧ p < lsb + w) := by omega
    simp [h1, h2]
  · rw [if_neg h1, Nat.testBit_mul_pow_two_add _ hv]
    by_cases h3 : p - lsb < w
    · have h4 : lsb ≤ p ∧ p < lsb + w := by omega
      simp [h3, h4]
    · have h4 : ¬ (lsb ≤ p ∧ p < lsb + w) := by omega
      rw [if_neg h3, if_neg h4, ← Nat.shiftRight_eq_div_pow, Nat.testBit_shiftRight]
      congr 1
      omega

theorem splice_lt {word w lsb v : Nat} (hwl : w + lsb ≤ 64) (hv : v < 2 ^ w)
    (hword : word < 2 ^ 64) : splice word w lsb v < 2 ^ 64 := by
  apply Nat.lt_pow_two_of_testBit
  intro i hi
  rw [testBit_splice hv]
  have h4 : ¬ (lsb ≤ i ∧ i < lsb + w) := by omega
  rw [if_neg h4]
  exact testBit_eq_false_of_lt hword hi

theorem newu_fits (w lsb : Nat) (hw : w ≤ 64) (hl : lsb < 64) (hwl : w + lsb ≤ 64)
    (word v : Nat) (hword : word < 2 ^ 64) (hv : v < 2 ^ w) :
    Bitpack_newu word w lsb v = .ok (splice word w lsb v) := by
  have hv2 : ¬ v > 2 ^ w - 1 := by omega
  have hk : (w + lsb) % 2 ^ 32 = w + lsb := by omega
  simp only [Bitpack_newu, width_lsb_check_ok hw hl hwl, field_max hw,
    @shiftu_left v lsb hl, field_max (Nat.le_of_lt hl), bind, Except.bind, pure, Except.pure,
    if_neg hv2, hk]
  congr 1
  apply Nat.eq_of_testBit_eq
  intro p
  rw [testBit_splice hv, ← Nat.shiftLeft_eq]
  simp only [Nat.testBit_or, Nat.testBit_and, Nat.testBit_mod_two_pow, Nat.testBit_shiftLeft,
    testBit_high_mask hwl, Nat.testBit_two_pow_sub_one]
  by_cases h1 : p < lsb
  · have h4 : ¬ (lsb ≤ p ∧ p < lsb + w) := by omega
    have h5 : ¬ p ≥ lsb := by omega
    simp [h1, h4, h5]
  · by_cases h3 : p < lsb + w
    · have h4 : lsb ≤ p ∧ p < lsb + w := by omega
      have h5 : p ≥ lsb := by omega
      have h6 : ¬ w + lsb ≤ p := by omega
      have h7 : p < 64 := by omega
      simp [h1, h4, h5, h6, h7]
    · have h4 : ¬ (lsb ≤ p ∧ p < lsb + w) := by omega
      have h5 : p ≥ lsb := by omega
      have h6 : w + lsb ≤ p := by omega
      have h6b : lsb + w ≤ p := by omega
      have h8 : v.testBit (p - lsb) = false := testBit_eq_false_of_lt hv (by omega)
      by_cases h7 : p < 64
      · simp [h1, h4, h5, h6, h6b, h7, h8]
      · have h9 : word.testBit p = false := testBit_eq_false_of_lt hword (by omega)
        simp [h1, h4, h5, h6, h6b, h7, h8, h9]

theorem newu_overflow (w lsb : Nat) (hw : w ≤ 64) (hl : lsb < 64) (hwl : w + lsb ≤ 64)
    (word v : Nat) (hv : ¬ v < 2 ^ w) :
    Bitpack_newu word w lsb v = .error Exc.Bitpack_Overflow := by
  have hp : 0 < 2 ^ w := Nat.pos_pow_of_pos _ (by decide)
  have hv2 : v > 2 ^ w - 1 := by omega
  simp only [Bitpack_newu, width_lsb_check_ok hw hl hwl, field_max hw, bind, Except.bind,
    if_pos hv2]
  rfl

theorem fitsu_eq (n w : Nat) (hw : w ≤ 64) :
    Bitpack_fitsu n w = .ok (decide (n < 2 ^ w)) := by
  have hp : 0 < 2 ^ w := Nat.pos_pow_of_pos _ (by decide)
  have e : (if w = MAX_BIT then MAX_64U else sub64 (shiftu 1 w LEFT) 1) = 2 ^ w - 1 := by
    split
    · next h => rw [show w = 64 from h]; decide
    · exact field_max hw
  simp only [Bitpack_fitsu, MAX_BIT, if_pos hw]
  simp only [MAX_BIT] at e
  simp only [e]
  by_cases h : n < 2 ^ w
  · have h2 : n ≤ 2 ^ w - 1 := by omega
    simp [h, h2]; rfl
  · have h2 : ¬ n ≤ 2 ^ w - 1 := by omega
    simp [h, h2]; rfl

/-! ### Signed conversions -/

theorem u64_s64 (x : Int) : u64 (s64 x) = u64 x := by
  unfold u64 s64
  congr 1
  omega

theorem u64_natCast {n : Nat} (h : n < 2 ^ 64) : u64 (n : Int) = n := by
  unfold u64
  omega

theorem s64_of_range {x : Int} (h1 : -2 ^ 63 ≤ x) (h2 : x < 2 ^ 63) : s64 x = x := by
  unfold s64
  omega

theorem u64_lt (x : Int) : u64 x < 2 ^ 64 := by
  unfold u64
  omega

theorem sub32_pred {w : Nat} (h1 : 1 ≤ w) (h2 : w ≤ 64) : sub32 w 1 = w - 1 := by
  unfold sub32
  omega

theorem shifts_left {n : Int} {m : Nat} (hm : m < 64) :
    shifts n m LEFT = s64 (n * 2 ^ m) := by
  unfold shifts MAX_BIT
  have h1 : m ≠ 64 := by omega
  have h2 : m % 64 = m := by omega
  simp [h1, h2]

theorem int_two_pow_pos (k : Nat) : (0 : Int) < 2 ^ k := by positivity

theorem int_two_pow_le {k : Nat} (h : k ≤ 63) : (2 : Int) ^ k ≤ 2 ^ 63 :=
  pow_le_pow_right₀ (by norm_num) h

theorem news_max {w : Nat} (h1 : 1 ≤ w) (hw : w ≤ 64) :
    s64 ((sub64 (shiftu 1 (sub32 w 1) LEFT) 1 : Nat) : Int) = 2 ^ (w - 1) - 1 := by
  rw [sub32_pred h1 hw, field_max (by omega)]
  have hp : 0 < 2 ^ (w - 1) := Nat.pos_pow_of_pos _ (by decide)
  have e : ((2 ^ (w - 1) - 1 : Nat) : Int) = 2 ^ (w - 1) - 1 := by
    rw [Nat.cast_sub hp]; push_cast; rfl
  rw [e]
  have b1 := int_two_pow_pos (w - 1)
  have b2 := int_two_pow_le (show w - 1 ≤ 63 by omega)
  generalize (2 : Int) ^ (w - 1) = P at b1 b2
  unfold s64
  omega

theorem news_min {w : Nat} (h1 : 1 ≤ w) (hw : w ≤ 64) :
    s64 (-1 * shifts 1 (sub32 w 1) LEFT) = -2 ^ (w - 1) := by
  rw [sub32_pred h1 hw, shifts_left (by omega)]
  have b1 := int_two_pow_pos (w - 1)
  have b2 := int_two_pow_le (show w - 1 ≤ 63 by omega)
  generalize (2 : Int) ^ (w - 1) = P at b1 b2
  unfold s64
  omega

theorem news_offset {w : Nat} (hw : w ≤ 64) :
    u64 (s64 (shifts 1 w LEFT - 1)) = 2 ^ w - 1 := by
  rw [u64_s64]
  rcases Nat.lt_or_eq_of_le hw with h | h
  · rw [shifts_left h]
    have hp : 0 < 2 ^ w := Nat.pos_pow_of_pos _ (by decide)
    have h3 : 2 ^ w < 2 ^ 64 := Nat.pow_lt_pow_right (by decide) h
    have e : ((2 : Int) ^ w) = ((2 ^ w : Nat) : Int) := by push_cast; rfl
    rw [e]
    generalize 2 ^ w = P at hp h3
    unfold u64 s64
    omega
  · subst h
    simp [shifts, MAX_BIT, LEFT, u64]

theorem news_field {w : Nat} (hw : w ≤ 64) (n : Int) :
    u64 (sand n (s64 (shifts 1 w LEFT - 1))) = u64 n % 2 ^ w := by
  unfold sand
  rw [u64_s64, news_offset hw, Nat.and_pow_two_sub_one_eq_mod, u64_natCast]
  exact Nat.lt_of_le_of_lt (Nat.mod_le _ _) (u64_lt n)

theorem news_fits (w lsb : Nat) (h1 : 1 ≤ w) (hw : w ≤ 64) (hl : lsb < 64)
    (hwl : w + lsb ≤ 64) (word : Nat) (n : Int) (hword : word < 2 ^ 64)
    (hlo : -2 ^ (w - 1) ≤ n) (hhi : n ≤ 2 ^ (w - 1) - 1) :
    Bitpack_news word w lsb n = .ok (splice word w lsb (u64 n % 2 ^ w)) := by
  have hr : ¬ (n > 2 ^ (w - 1) - 1 ∨ n < -2 ^ (w - 1)) := by omega
  simp only [Bitpack_news, width_lsb_check_ok hw hl hwl, news_max h1 hw, news_min h1 hw,
    bind, Except.bind, if_neg hr, news_field hw]
  exact newu_fits w lsb hw hl hwl word _ hword (Nat.mod_lt _ (Nat.pos_pow_of_pos _ (by decide)))

theorem news_overflow (w lsb : Nat) (h1 : 1 ≤ w) (hw : w ≤ 64) (hl : lsb < 64)
    (hwl : w + lsb ≤ 64) (word : Nat) (n : Int)
    (hr : n > 2 ^ (w - 1) - 1 ∨ n < -2 ^ (w - 1)) :
    Bitpack_news word w lsb n = .error Exc.Bitpack_Overflow := by
  simp only [Bitpack_news, width_lsb_check_ok hw hl hwl, news_max h1 hw, news_min h1 hw,
    bind, Except.bind, if_pos hr]
  rfl

theorem and_two_pow_eq_zero {g k : Nat} (hg : g < 2 ^ (k + 1)) :
    g &&& 2 ^ k = 0 ↔ g < 2 ^ k := by
  constructor
  · intro h
    by_contra hc
    have hb : g.testBit k = true := by
      obtain ⟨r, hr⟩ : ∃ r, g = 2 ^ k + r := ⟨g - 2 ^ k, by omega⟩
      have hr2 : r < 2 ^ k := by rw [Nat.pow_succ] at hg; omega
      rw [hr, Nat.testBit_two_pow_add_eq, Nat.testBit_lt_two_pow hr2]
      rfl
    have : (g &&& 2 ^ k).testBit k = true := by
      rw [Nat.testBit_and, hb, Nat.testBit_two_pow_self]
      rfl
    rw [h] at this
    simp at this
  · intro h
    apply Nat.eq_of_testBit_eq
    intro i
    rw [Nat.testBit_and, Nat.testBit_two_pow, Nat.zero_testBit]
    by_cases hi : k = i
    · subst hi
      rw [Nat.testBit_lt_two_pow h]
      rfl
    · simp [hi]

theorem or_sign_bits {g w : Nat} (h1 : 1 ≤ w) (hw : w ≤ 64) (hg : g < 2 ^ w)
    (hneg : ¬ g < 2 ^ (w - 1)) :
    g ||| (2 ^ 64 - 2 ^ (w - 1)) = 2 ^ w * (2 ^ (64 - w) - 1) + g := by
  have e1 : 2 ^ 64 - 2 ^ (w - 1) = (2 ^ (65 - w) - 1) <<< (w - 1) := by
    rw [Nat.shiftLeft_eq, Nat.sub_mul, ← Nat.pow_add, Nat.one_mul]
    congr 2
    omega
  have hb : g.testBit (w - 1) = true := by
    obtain ⟨r, hr⟩ : ∃ r, g = 2 ^ (w - 1) + r := ⟨g - 2 ^ (w - 1), by omega⟩
    have hr2 : r < 2 ^ (w - 1) := by
      have : 2 ^ w = 2 ^ (w - 1) * 2 := by
        rw [← Nat.pow_succ]; congr 1; omega
      omega
    rw [hr, Nat.testBit_two_pow_add_eq, Nat.testBit_lt_two_pow hr2]
    rfl
  apply Nat.eq_of_testBit_eq
  intro i
  rw [Nat.testBit_mul_pow_two_add _ hg, e1, Nat.testBit_or, Nat.testBit_shiftLeft,
    Nat.testBit_two_pow_sub_one, Nat.testBit_two_pow_sub_one]
  by_cases h2 : i < w
  · by_cases h3 : i = w - 1
    · subst h3
      simp [h2, hb]
    · have h4 : ¬ i ≥ w - 1 := by omega
      simp [h2, h4]
  · have h4 : i ≥ w - 1 := by omega
    have h5 : g.testBit i = false := testBit_eq_false_of_lt hg (by omega)
    simp only [h2, h4, h5, if_false, decide_True, Bool.true_and, Bool.false_or]
    congr 1
    apply propext
    omega

theorem int_two_pow_cast (k : Nat) : ((2 : Int) ^ k) = ((2 ^ k : Nat) : Int) := by
  push_cast; rfl

theorem u64_two_pow {k : Nat} (hk : k < 64) : u64 (s64 (1 * 2 ^ k)) = 2 ^ k := by
  rw [u64_s64, Int.one_mul, int_two_pow_cast, u64_natCast]
  exact Nat.pow_lt_pow_right (by decide) hk

theorem sand_sign {g w : Nat} (h1 : 1 ≤ w) (hw : w ≤ 64) (hg : g < 2 ^ w) :
    sand (s64 g) (s64 (1 * 2 ^ (w - 1))) = 0 ↔ g < 2 ^ (w - 1) := by
  have hg64 : g < 2 ^ 64 := Nat.lt_of_lt_of_le hg (two_pow_le_64 hw)
  have hg2 : g < 2 ^ (w - 1 + 1) := by
    rw [show w - 1 + 1 = w by omega]; exact hg
  unfold sand
  rw [u64_s64, u64_natCast hg64, u64_two_pow (by omega), ← and_two_pow_eq_zero hg2]
  have hb : g &&& 2 ^ (w - 1) < 2 ^ 64 := Nat.lt_of_le_of_lt Nat.and_le_left hg64
  generalize g &&& 2 ^ (w - 1) = x at hb
  unfold s64
  omega

theorem gets_offset {w : Nat} (h1 : 1 ≤ w) (hw : w ≤ 64) :
    shifts MIN_64 (sub32 MAX_BIT w) RIGHT = -2 ^ (w - 1) := by
  have e : sub32 MAX_BIT w = 64 - w := by
    unfold sub32 MAX_BIT
    omega
  have h2 : 64 - w ≠ 64 := by omega
  have h3 : (64 - w) % 64 = 64 - w := by omega
  have h4 : MIN_64 = -(2 ^ (w - 1) * 2 ^ (64 - w)) := by
    rw [← pow_add, show w - 1 + (64 - w) = 63 by omega]
    decide
  rw [e]
  unfold shifts MAX_BIT
  rw [if_neg h2, if_neg (by decide), h3, Int.shiftRight_eq_div_pow, h4, ← Int.neg_mul]
  have hp : ((2 ^ (64 - w) : Nat) : Int) ≠ 0 := by positivity
  rw [← int_two_pow_cast] at hp ⊢
  exact Int.mul_ediv_cancel _ hp

theorem sor_sign {g w : Nat} (h1 : 1 ≤ w) (hw : w ≤ 64) (hg : g < 2 ^ w)
    (hneg : ¬ g < 2 ^ (w - 1)) :
    sor (s64 g) (-2 ^ (w - 1)) = (g : Int) - 2 ^ w := by
  have hg64 : g < 2 ^ 64 := Nat.lt_of_lt_of_le hg (two_pow_le_64 hw)
  have hp : 0 < 2 ^ (w - 1) := Nat.pos_pow_of_pos _ (by decide)
  have hq : 2 ^ (w - 1) ≤ 2 ^ 63 := Nat.pow_le_pow_right (by decide) (by omega)
  have hd : 2 ^ w = 2 ^ (w - 1) * 2 := by
    rw [← Nat.pow_succ]; congr 1; omega
  have e1 : u64 (-2 ^ (w - 1)) = 2 ^ 64 - 2 ^ (w - 1) := by
    rw [int_two_pow_cast]
    generalize 2 ^ (w - 1) = P at hp hq
    unfold u64
    omega
  have e2 : 2 ^ w * (2 ^ (64 - w) - 1) = 2 ^ 64 - 2 ^ w := by
    rw [Nat.mul_sub, ← Nat.pow_add, Nat.mul_one, show w + (64 - w) = 64 by omega]
  unfold sor
  rw [u64_s64, u64_natCast hg64, e1, or_sign_bits h1 hw hg hneg, e2, int_two_pow_cast]
  generalize 2 ^ (w - 1) = P at *
  generalize 2 ^ w = Q at *
  unfold s64
  omega

theorem gets_bind (w lsb : Nat) (h1 : 1 ≤ w) (hw : w ≤ 64) (hl : lsb < 64)
    (hwl : w + lsb ≤ 64) (word : Nat) :
    Bitpack_gets word w lsb = .ok (sign_extend w (word / 2 ^ lsb % 2 ^ w)) := by
  have hg : word / 2 ^ lsb % 2 ^ w < 2 ^ w := Nat.mod_lt _ (Nat.pos_pow_of_pos _ (by decide))
  simp only [Bitpack_gets, width_lsb_check_ok hw hl hwl, getu_bind w lsb hw hl hwl, bind,
    Except.bind, sub32_pred h1 hw, shifts_left (show w - 1 < 64 by omega),
    gets_offset h1 hw, ne_eq, sand_sign h1 hw hg]
  generalize word / 2 ^ lsb % 2 ^ w = g at hg
  unfold sign_extend
  by_cases hn : g < 2 ^ (w - 1)
  · have hq : 2 ^ (w - 1) ≤ 2 ^ 63 := Nat.pow_le_pow_right (by decide) (by omega)
    have e : s64 (g : Int) = g := by
      unfold s64
      omega
    simp only [hn, not_true_eq_false, if_false, if_true, e]
    rfl
  · simp only [hn, not_false_eq_true, if_false, if_true, sor_sign h1 hw hg hn]
    rfl

/-! ## Round trips and frame of the field updates -/

theorem splice_field {word w lsb v : Nat} (hv : v < 2 ^ w) :
    splice word w lsb v / 2 ^ lsb % 2 ^ w = v := by
  unfold splice
  have hp : 0 < 2 ^ lsb := Nat.pos_pow_of_pos _ (by decide)
  rw [Nat.mul_add_div hp, Nat.div_eq_of_lt (Nat.mod_lt _ hp), Nat.add_zero,
    Nat.mul_add_mod, Nat.mod_eq_of_lt hv]

theorem sign_extend_u64 {w : Nat} {n : Int} (h1 : 1 ≤ w) (hw : w ≤ 64)
    (hlo : -2 ^ (w - 1) ≤ n) (hhi : n ≤ 2 ^ (w - 1) - 1) :
    sign_extend w (u64 n % 2 ^ w) = n := by
  have hd : 2 ^ w = 2 ^ (w - 1) * 2 := by
    rw [← Nat.pow_succ]; congr 1; omega
  have hp : 0 < 2 ^ (w - 1) := Nat.pos_pow_of_pos _ (by decide)
  have key : ((u64 n % 2 ^ w : Nat) : Int) = n % 2 ^ w := by
    unfold u64
    rw [Int.natCast_mod, Int.toNat_of_nonneg (Int.emod_nonneg _ (by norm_num))]
    push_cast
    exact Int.emod_emod_of_dvd n (pow_dvd_pow 2 hw)
  unfold sign_extend
  rw [int_two_pow_cast] at hlo hhi key ⊢
  have hm : (n % ((2 ^ w : Nat) : Int) = n ∧ 0 ≤ n) ∨
      (n % ((2 ^ w : Nat) : Int) = n + ((2 ^ w : Nat) : Int) ∧ n < 0) := by
    by_cases hn : 0 ≤ n
    · left
      refine ⟨Int.emod_eq_of_lt hn ?_, hn⟩
      omega
    · right
      refine ⟨?_, by omega⟩
      rw [← Int.add_emod_self]
      apply Int.emod_eq_of_lt <;> omega
  generalize u64 n % 2 ^ w = m at key
  rw [← key] at hm
  generalize 2 ^ (w - 1) = P at *
  generalize 2 ^ w = Q at *
  split <;> omega

theorem fitss_eq (n : Int) (w : Nat) (hw : w ≤ 64) :
    Bitpack_fitss n w =
      .ok (decide (1 ≤ w ∧ -2 ^ (w - 1) ≤ n ∧ n ≤ 2 ^ (w - 1) - 1)) := by
  unfold Bitpack_fitss MAX_BIT MAX_64
  rw [if_pos hw]
  by_cases h0 : w = 0
  · subst h0
    simp
    rfl
  · have h1 : 1 ≤ w := by omega
    have b1 := int_two_pow_pos (w - 1)
    have b2 := int_two_pow_le (show w - 1 ≤ 63 by omega)
    by_cases hbig : n > 0x7fffffffffffffff
    · have hc : ¬ (1 ≤ w ∧ -2 ^ (w - 1) ≤ n ∧ n ≤ 2 ^ (w - 1) - 1) := by
        intro h; omega
      rw [if_pos (Or.inr hbig), decide_eq_false hc]
      rfl
    · have hne : ¬ (w = 0 ∨ n > 0x7fffffffffffffff) := by omega
      rw [if_neg hne]
      by_cases hpos : n ≥ 0 ∧ n ≤ 0x7fffffffffffffff
      · rw [if_pos hpos, sub32_pred h1 hw, fitsu_eq _ _ (by omega)]
        congr 1
        have e : u64 n = n.toNat := by unfold u64; omega
        rw [e]
        have hiff : (n.toNat < 2 ^ (w - 1)) ↔
            (1 ≤ w ∧ -2 ^ (w - 1) ≤ n ∧ n ≤ 2 ^ (w - 1) - 1) := by
          rw [int_two_pow_cast]
          generalize 2 ^ (w - 1) = P
          omega
        exact decide_eq_decide.mpr hiff
      · rw [if_neg hpos, news_min h1 hw]
        have hneg : n < 0 := by omega
        by_cases hge : n ≥ -2 ^ (w - 1)
        · have hc : (1 ≤ w ∧ -2 ^ (w - 1) ≤ n ∧ n ≤ 2 ^ (w - 1) - 1) :=
            ⟨h1, hge, by omega⟩
          rw [decide_eq_true hc, if_pos hge]
          rfl
        · have hc : ¬ (1 ≤ w ∧ -2 ^ (w - 1) ≤ n ∧ n ≤ 2 ^ (w - 1) - 1) := by
            intro h; exact hge h.2.1
          rw [decide_eq_false hc, if_neg hge]
          rfl

/-- C1: for a valid field `(w, lsb)` and an unsigned `n` that fits in `w`
bits, `Bitpack_newu` returns a word, and `Bitpack_getu` reads `n` back from
it, whatever the field of `word` held before. -/
theorem getu_newu_roundtrip (word w lsb n : Nat) (hword : word < 2 ^ 64)
    (hw : w ≤ 64) (hl : lsb < 64) (hwl : w + lsb ≤ 64) (hn : n ≤ 2 ^ w - 1) :
    ∃ r, Bitpack_newu word w lsb n = .ok r ∧ Bitpack_getu r w lsb = .ok n := by
  have hp : 0 < 2 ^ w := Nat.pos_pow_of_pos _ (by decide)
  have hv : n < 2 ^ w := by omega
  refine ⟨splice word w lsb n, newu_fits w lsb hw hl hwl word n hword hv, ?_⟩
  rw [getu_bind w lsb hw hl hwl, splice_field hv]

theorem getu_newu_roundtrip_witness :
    (0xFFFF < 2 ^ 64 ∧ 4 ≤ 64 ∧ 4 < 64 ∧ 4 + 4 ≤ 64 ∧ 5 ≤ 2 ^ 4 - 1) ∧
      ∃ r, Bitpack_newu 0xFFFF 4 4 5 = .ok r ∧ Bitpack_getu r 4 4 = .ok 5 :=
  ⟨by decide, getu_newu_roundtrip 0xFFFF 4 4 5 (by decide) (by decide) (by decide)
    (by decide) (by decide)⟩

/-- C2: for a valid field `(w, lsb)` with `1 ≤ w` and a signed `n` within
`[-2^(w-1), 2^(w-1) - 1]`, `Bitpack_news` returns a word, and `Bitpack_gets`
reads `n` back from it (negative `n` and `w = 64` included). -/
theorem gets_news_roundtrip (word w lsb : Nat) (n : Int) (hword : word < 2 ^ 64)
    (h1 : 1 ≤ w) (hw : w ≤ 64) (hl : lsb < 64) (hwl : w + lsb ≤ 64)
    (hlo : -2 ^ (w - 1) ≤ n) (hhi : n ≤ 2 ^ (w - 1) - 1) :
    ∃ r, Bitpack_news word w lsb n = .ok r ∧ Bitpack_gets r w lsb = .ok n := by
  have hv : u64 n % 2 ^ w < 2 ^ w := Nat.mod_lt _ (Nat.pos_pow_of_pos _ (by decide))
  refine ⟨_, news_fits w lsb h1 hw hl hwl word n hword hlo hhi, ?_⟩
  rw [gets_bind w lsb h1 hw hl hwl, splice_field hv, sign_extend_u64 h1 hw hlo hhi]

theorem gets_news_roundtrip_witness :
    ((2 ^ 64 - 1 < 2 ^ 64 ∧ 1 ≤ 64 ∧ 64 ≤ 64 ∧ 0 < 64 ∧ 64 + 0 ≤ 64) ∧
      ((-2 ^ (64 - 1) : Int) ≤ -5 ∧ (-5 : Int) ≤ 2 ^ (64 - 1) - 1)) ∧
      ∃ r, Bitpack_news (2 ^ 64 - 1) 64 0 (-5) = .ok r ∧ Bitpack_gets r 64 0 = .ok (-5) :=
  ⟨⟨by decide, by decide⟩, gets_news_roundtrip (2 ^ 64 - 1) 64 0 (-5) (by decide) (by decide)
    (by decide) (by decide) (by decide) (by decide) (by decide)⟩

/-- C3: for a valid field `(w, lsb)` and a value that fits in it,
`Bitpack_newu` and `Bitpack_news` return a word whose bit at every position
`p` outside `[lsb, lsb + w)` is the bit of the input word. -/
theorem new_frame (word w lsb v : Nat) (n : Int) (p : Nat) (hword : word < 2 ^ 64)
    (hw : w ≤ 64) (hl : lsb < 64) (hwl : w + lsb ≤ 64) (hp : p < lsb ∨ lsb + w ≤ p) :
    (Bitpack_fitsu v w = .ok true →
      ∃ r, Bitpack_newu word w lsb v = .ok r ∧ r.testBit p = word.testBit p) ∧
    (Bitpack_fitss n w = .ok true →
      ∃ r, Bitpack_news word w lsb n = .ok r ∧ r.testBit p = word.testBit p) := by
  have hout : ¬ (lsb ≤ p ∧ p < lsb + w) := by omega
  constructor
  · intro hfit
    rw [fitsu_eq v w hw] at hfit
    have hv : v < 2 ^ w := of_decide_eq_true (Except.ok.inj hfit)
    refine ⟨_, newu_fits w lsb hw hl hwl word v hword hv, ?_⟩
    rw [testBit_splice hv, if_neg hout]
  · intro hfit
    rw [fitss_eq n w hw] at hfit
    obtain ⟨h1, hlo, hhi⟩ := of_decide_eq_true (Except.ok.inj hfit)
    have hv : u64 n % 2 ^ w < 2 ^ w := Nat.mod_lt _ (Nat.pos_pow_of_pos _ (by decide))
    refine ⟨_, news_fits w lsb h1 hw hl hwl word n hword hlo hhi, ?_⟩
    rw [testBit_splice hv, if_neg hout]

theorem new_frame_witness :
    (0xFFFF < 2 ^ 64 ∧ 6 ≤ 64 ∧ 8 < 64 ∧ 6 + 8 ≤ 64 ∧ (15 < 8 ∨ 8 + 6 ≤ 15)) ∧
      (∃ r, Bitpack_newu 0xFFFF 6 8 33 = .ok r ∧ r.testBit 15 = (0xFFFF).testBit 15) ∧
      (∃ r, Bitpack_news 0xFFFF 6 8 (-31) = .ok r ∧ r.testBit 15 = (0xFFFF).testBit 15) :=
  ⟨by decide,
    ((new_frame 0xFFFF 6 8 33 (-31) 15 (by decide) (by decide) (by decide) (by decide)
      (by decide)).1 rfl),
    ((new_frame 0xFFFF 6 8 33 (-31) 15 (by decide) (by decide) (by decide) (by decide)
      (by decide)).2 rfl)⟩

/-- C8: for a valid field `(w, lsb)`, `Bitpack_newu` raises `Bitpack_Overflow`
exactly when `Bitpack_fitsu` says the value does not fit in `w` bits; with
`w = 64` it returns a word for every 64-bit value, and with `w = 0` it raises
for every value other than zero. -/
theorem newu_overflow_iff (word w lsb value : Nat) (hword : word < 2 ^ 64)
    (hvalue : value < 2 ^ 64) (hw : w ≤ 64) (hl : lsb < 64) (hwl : w + lsb ≤ 64) :
    (Bitpack_newu word w lsb value = .error Exc.Bitpack_Overflow ↔
      Bitpack_fitsu value w = .ok false) ∧
    (w = 64 → ∃ r, Bitpack_newu word w lsb value = .ok r) ∧
    (w = 0 → value ≠ 0 → Bitpack_newu word w lsb value = .error Exc.Bitpack_Overflow) := by
  refine ⟨?_, ?_, ?_⟩
  · rw [fitsu_eq value w hw]
    by_cases hv : value < 2 ^ w
    · rw [newu_fits w lsb hw hl hwl word value hword hv, decide_eq_true hv]
      constructor <;> intro h <;> cases h
    · rw [newu_overflow w lsb hw hl hwl word value hv, decide_eq_false hv]
      exact ⟨fun _ => rfl, fun _ => rfl⟩
  · intro h64
    subst h64
    exact ⟨_, newu_fits 64 lsb hw hl hwl word value hword hvalue⟩
  · intro h0 hne
    subst h0
    exact newu_overflow 0 lsb hw hl hwl word value (by simp; omega)

theorem newu_overflow_iff_witness :
    (0 < 2 ^ 64 ∧ 64 < 2 ^ 64 ∧ 6 ≤ 64 ∧ 26 < 64 ∧ 6 + 26 ≤ 64) ∧
      ((Bitpack_newu 0 6 26 64 = .error Exc.Bitpack_Overflow ↔
        Bitpack_fitsu 64 6 = .ok false) ∧
      (6 = 64 → ∃ r, Bitpack_newu 0 6 26 64 = .ok r) ∧
      (6 = 0 → 64 ≠ 0 → Bitpack_newu 0 6 26 64 = .error Exc.Bitpack_Overflow)) :=
  ⟨by decide, newu_overflow_iff 0 6 26 64 (by decide) (by decide) (by decide) (by decide)
    (by decide)⟩

/-- For a valid field with `1 ≤ w`, `Bitpack_news` raises `Bitpack_Overflow`
exactly when `Bitpack_fitss` says the value does not fit. -/
theorem news_overflow_iff_of_pos (word w lsb : Nat) (value : Int) (hword : word < 2 ^ 64)
    (h1 : 1 ≤ w) (hw : w ≤ 64) (hl : lsb < 64) (hwl : w + lsb ≤ 64) :
    Bitpack_news word w lsb value = .error Exc.Bitpack_Overflow ↔
      Bitpack_fitss value w = .ok false := by
  rw [fitss_eq value w hw]
  by_cases hr : -2 ^ (w - 1) ≤ value ∧ value ≤ 2 ^ (w - 1) - 1
  · rw [news_fits w lsb h1 hw hl hwl word value hword hr.1 hr.2,
      decide_eq_true ⟨h1, hr.1, hr.2⟩]
    constructor <;> intro h <;> cases h
  · have hc : ¬ (1 ≤ w ∧ -2 ^ (w - 1) ≤ value ∧ value ≤ 2 ^ (w - 1) - 1) :=
      fun h => hr h.2
    rw [news_overflow w lsb h1 hw hl hwl word value (by omega), decide_eq_false hc]
    exact ⟨fun _ => rfl, fun _ => rfl⟩

/-- C9 (the defect): with `w = 0` the unsigned `width - 1` wraps, the range
test of `Bitpack_news` accepts every value, and the call returns the word
unchanged although `Bitpack_fitss` reports that the value does not fit. -/
theorem news_width_zero_returns :
    Bitpack_fitss 0 0 = .ok false ∧ Bitpack_news 0 0 0 0 = .ok 0 ∧
      Bitpack_news 12345 0 7 (-5) = .ok 12345 :=
  ⟨rfl, rfl, rfl⟩

/-! ## pixpack.c: pack and unpack -/

theorem pack_unfold (bit : bit_block) :
    pack bit =
      (Bitpack_newu 0 4 0 bit.Pr >>= fun c1 =>
       Bitpack_newu (c1 % 2 ^ 32) 4 4 bit.Pb >>= fun c2 =>
       Bitpack_news (c2 % 2 ^ 32) 6 8 bit.d >>= fun c3 =>
       Bitpack_news (c3 % 2 ^ 32) 6 14 bit.c >>= fun c4 =>
       Bitpack_news (c4 % 2 ^ 32) 6 20 bit.b >>= fun c5 =>
       Bitpack_newu (c5 % 2 ^ 32) 6 26 bit.a >>= fun c6 =>
       pure (c6 % 2 ^ 32)) := rfl

theorem unpack_unfold (codeword : Nat) (bit : bit_block) :
    unpack codeword bit =
      (Bitpack_getu codeword 4 0 >>= fun r1 =>
       Bitpack_getu codeword 4 4 >>= fun r2 =>
       Bitpack_gets codeword 6 8 >>= fun r3 =>
       Bitpack_gets codeword 6 14 >>= fun r4 =>
       Bitpack_gets codeword 6 20 >>= fun r5 =>
       Bitpack_getu codeword 6 26 >>= fun r6 =>
       pure { a := r6 % 2 ^ 32, Pb := r2 % 2 ^ 32, Pr := r1 % 2 ^ 32,
              b := s32 r5, c := s32 r4, d := s32 r3 }) := rfl

theorem splice_low {word w lsb v : Nat} (h : word < 2 ^ lsb) :
    splice word w lsb v = word + 2 ^ lsb * v := by
  unfold splice
  have h2 : word < 2 ^ (lsb + w) :=
    Nat.lt_of_lt_of_le h (Nat.pow_le_pow_right (by decide) (by omega))
  rw [Nat.div_eq_of_lt h2, Nat.mod_eq_of_lt h]
  simp [Nat.add_comm]

theorem ok_bind {α β : Type} (a : α) (f : α → Except Exc β) :
    (Except.ok a >>= f) = f a := rfl

theorem error_bind {α β : Type} (e : Exc) (f : α → Except Exc β) :
    ((Except.error e : Except Exc α) >>= f) = Except.error e := rfl

theorem field_bound (cw w lsb v : Nat) (hcw : cw < 2 ^ lsb) (hv : v < 2 ^ w) :
    cw + 2 ^ lsb * v < 2 ^ (lsb + w) := by
  have h1 : 2 ^ lsb * (v + 1) ≤ 2 ^ lsb * 2 ^ w := Nat.mul_le_mul_left _ hv
  rw [← Nat.pow_add, Nat.mul_add, Nat.mul_one] at h1
  omega

theorem newu_step (cw w lsb v : Nat) (hl : lsb < 64) (hwl : w + lsb ≤ 32)
    (hcw : cw < 2 ^ lsb) (hv : v < 2 ^ w) :
    Bitpack_newu (cw % 2 ^ 32) w lsb v = .ok (cw + 2 ^ lsb * v) := by
  have h32 : 2 ^ lsb ≤ 2 ^ 32 := Nat.pow_le_pow_right (by decide) (by omega)
  have e : cw % 2 ^ 32 = cw := Nat.mod_eq_of_lt (by omega)
  rw [e, newu_fits w lsb (by omega) hl (by omega) cw v (by omega) hv, splice_low hcw]

theorem news_step (cw w lsb : Nat) (n : Int) (h1 : 1 ≤ w) (hl : lsb < 64)
    (hwl : w + lsb ≤ 32) (hcw : cw < 2 ^ lsb)
    (hlo : -2 ^ (w - 1) ≤ n) (hhi : n ≤ 2 ^ (w - 1) - 1) :
    Bitpack_news (cw % 2 ^ 32) w lsb n = .ok (cw + 2 ^ lsb * (u64 n % 2 ^ w)) := by
  have h32 : 2 ^ lsb ≤ 2 ^ 32 := Nat.pow_le_pow_right (by decide) (by omega)
  have e : cw % 2 ^ 32 = cw := Nat.mod_eq_of_lt (by omega)
  rw [e, news_fits w lsb h1 (by omega) hl (by omega) cw n (by omega) hlo hhi,
    splice_low hcw]

theorem u64_mod_64 (n : Int) : u64 n % 2 ^ 6 = (n % 64).toNat := by
  unfold u64
  omega

theorem pack_fits (bit : bit_block) (h : fields_fit bit) :
    pack bit = .ok (codeword_of bit) := by
  obtain ⟨ha, hPb, hPr, ⟨hb1, hb2⟩, ⟨hc1, hc2⟩, ⟨hd1, hd2⟩⟩ := h
  have vPr : bit.Pr < 2 ^ 4 := by omega
  have vPb : bit.Pb < 2 ^ 4 := by omega
  have va : bit.a < 2 ^ 6 := by omega
  have vd : u64 bit.d % 2 ^ 6 < 2 ^ 6 := Nat.mod_lt _ (by decide)
  have vc : u64 bit.c % 2 ^ 6 < 2 ^ 6 := Nat.mod_lt _ (by decide)
  have vb : u64 bit.b % 2 ^ 6 < 2 ^ 6 := Nat.mod_lt _ (by decide)
  have k1 : 0 + 2 ^ 0 * bit.Pr < 2 ^ 4 :=
    field_bound _ 4 0 _ (by decide) vPr
  have k2 : 0 + 2 ^ 0 * bit.Pr + 2 ^ 4 * bit.Pb < 2 ^ 8 :=
    field_bound _ 4 4 _ k1 vPb
  have k3 : 0 + 2 ^ 0 * bit.Pr + 2 ^ 4 * bit.Pb + 2 ^ 8 * (u64 bit.d % 2 ^ 6) < 2 ^ 14 :=
    field_bound _ 6 8 _ k2 vd
  have k4 : 0 + 2 ^ 0 * bit.Pr + 2 ^ 4 * bit.Pb + 2 ^ 8 * (u64 bit.d % 2 ^ 6)
      + 2 ^ 14 * (u64 bit.c % 2 ^ 6) < 2 ^ 20 :=
    field_bound _ 6 14 _ k3 vc
  have k5 : 0 + 2 ^ 0 * bit.Pr + 2 ^ 4 * bit.Pb + 2 ^ 8 * (u64 bit.d % 2 ^ 6)
      + 2 ^ 14 * (u64 bit.c % 2 ^ 6) + 2 ^ 20 * (u64 bit.b % 2 ^ 6) < 2 ^ 26 :=
    field_bound _ 6 20 _ k4 vb
  have k6 : 0 + 2 ^ 0 * bit.Pr + 2 ^ 4 * bit.Pb + 2 ^ 8 * (u64 bit.d % 2 ^ 6)
      + 2 ^ 14 * (u64 bit.c % 2 ^ 6) + 2 ^ 20 * (u64 bit.b % 2 ^ 6) + 2 ^ 26 * bit.a
      < 2 ^ 32 :=
    field_bound _ 6 26 _ k5 va
  have s1 : Bitpack_newu 0 4 0 bit.Pr = .ok (0 + 2 ^ 0 * bit.Pr) :=
    newu_step 0 4 0 _ (by decide) (by decide) (by decide) vPr
  have s2 := newu_step _ 4 4 _ (by decide) (by decide) k1 vPb
  have s3 := news_step _ 6 8 bit.d (by decide) (by decide) (by decide) k2
    (by norm_num; exact hd1) (by norm_num; exact hd2)
  have s4 := news_step _ 6 14 bit.c (by decide) (by decide) (by decide) k3
    (by norm_num; exact hc1) (by norm_num; exact hc2)
  have s5 := news_step _ 6 20 bit.b (by decide) (by decide) (by decide) k4
    (by norm_num; exact hb1) (by norm_num; exact hb2)
  have s6 := newu_step _ 6 26 _ (by decide) (by decide) k5 va
  rw [pack_unfold, s1, ok_bind, s2, ok_bind, s3, ok_bind,
    s4, ok_bind, s5, ok_bind, s6, ok_bind]
  rw [Nat.mod_eq_of_lt k6]
  show Except.ok _ = Except.ok _
  congr 1
  unfold codeword_of
  simp only [u64_mod_64]
  generalize (bit.b % 64).toNat = B at *
  generalize (bit.c % 64).toNat = C at *
  generalize (bit.d % 64).toNat = D at *
  omega

theorem pack_overflow (bit : bit_block) (h : ¬ fields_fit bit) :
    pack bit = .error Exc.Bitpack_Overflow := by
  have p5 : (2 : Int) ^ (6 - 1) = 32 := by norm_num
  have vd : u64 bit.d % 2 ^ 6 < 2 ^ 6 := Nat.mod_lt _ (by decide)
  have vc : u64 bit.c % 2 ^ 6 < 2 ^ 6 := Nat.mod_lt _ (by decide)
  have vb : u64 bit.b % 2 ^ 6 < 2 ^ 6 := Nat.mod_lt _ (by decide)
  rw [pack_unfold]
  by_cases vPr : bit.Pr < 2 ^ 4
  swap
  · rw [newu_overflow 4 0 (by decide) (by decide) (by decide) 0 bit.Pr vPr, error_bind]
  have k1 : 0 + 2 ^ 0 * bit.Pr < 2 ^ 4 :=
    field_bound _ 4 0 _ (by decide) vPr
  have s1 : Bitpack_newu 0 4 0 bit.Pr = .ok (0 + 2 ^ 0 * bit.Pr) :=
    newu_step 0 4 0 _ (by decide) (by decide) (by decide) vPr
  rw [s1, ok_bind]
  by_cases vPb : bit.Pb < 2 ^ 4
  swap
  · rw [newu_overflow 4 4 (by decide) (by decide) (by decide) _ bit.Pb vPb, error_bind]
  have k2 : 0 + 2 ^ 0 * bit.Pr + 2 ^ 4 * bit.Pb < 2 ^ 8 :=
    field_bound _ 4 4 _ k1 vPb
  rw [newu_step _ 4 4 _ (by decide) (by decide) k1 vPb, ok_bind]
  by_cases hd : -32 ≤ bit.d ∧ bit.d ≤ 31
  swap
  · rw [news_overflow 6 8 (by decide) (by decide) (by decide) (by decide) _ bit.d (by omega),
      error_bind]
  have k3 : 0 + 2 ^ 0 * bit.Pr + 2 ^ 4 * bit.Pb + 2 ^ 8 * (u64 bit.d % 2 ^ 6) < 2 ^ 14 :=
    field_bound _ 6 8 _ k2 vd
  rw [news_step _ 6 8 bit.d (by decide) (by decide) (by decide) k2
    (by omega) (by omega), ok_bind]
  by_cases hc : -32 ≤ bit.c ∧ bit.c ≤ 31
  swap
  · rw [news_overflow 6 14 (by decide) (by decide) (by decide) (by decide) _ bit.c (by omega),
      error_bind]
  have k4 : 0 + 2 ^ 0 * bit.Pr + 2 ^ 4 * bit.Pb + 2 ^ 8 * (u64 bit.d % 2 ^ 6)
      + 2 ^ 14 * (u64 bit.c % 2 ^ 6) < 2 ^ 20 :=
    field_bound _ 6 14 _ k3 vc
  rw [news_step _ 6 14 bit.c (by decide) (by decide) (by decide) k3
    (by omega) (by omega), ok_bind]
  by_cases hb : -32 ≤ bit.b ∧ bit.b ≤ 31
  swap
  · rw [news_overflow 6 20 (by decide) (by decide) (by decide) (by decide) _ bit.b (by omega),
      error_bind]
  have k5 : 0 + 2 ^ 0 * bit.Pr + 2 ^ 4 * bit.Pb + 2 ^ 8 * (u64 bit.d % 2 ^ 6)
      + 2 ^ 14 * (u64 bit.c % 2 ^ 6) + 2 ^ 20 * (u64 bit.b % 2 ^ 6) < 2 ^ 26 :=
    field_bound _ 6 20 _ k4 vb
  rw [news_step _ 6 20 bit.b (by decide) (by decide) (by decide) k4
    (by omega) (by omega), ok_bind]
  by_cases va : bit.a < 2 ^ 6
  swap
  · rw [newu_overflow 6 26 (by decide) (by decide) (by decide) _ bit.a va, error_bind]
  exfalso
  apply h
  unfold fields_fit
  omega

theorem s32_of_range {x : Int} (h1 : -2 ^ 31 ≤ x) (h2 : x < 2 ^ 31) : s32 x = x := by
  unfold s32
  omega

theorem signed_field {n : Int} (hlo : -32 ≤ n) (hhi : n ≤ 31) :
    s32 (sign_extend 6 ((n % 64).toNat)) = n := by
  rw [← u64_mod_64, sign_extend_u64 (by decide) (by decide) (by norm_num; exact hlo)
    (by norm_num; exact hhi)]
  exact s32_of_range (by omega) (by omega)

theorem unpack_codeword_of (bit bit0 : bit_block) (h : fields_fit bit) :
    unpack (codeword_of bit) bit0 = .ok bit := by
  obtain ⟨ha, hPb, hPr, ⟨hb1, hb2⟩, ⟨hc1, hc2⟩, ⟨hd1, hd2⟩⟩ := h
  rw [unpack_unfold,
    getu_bind 4 0 (by decide) (by decide) (by decide), ok_bind,
    getu_bind 4 4 (by decide) (by decide) (by decide), ok_bind,
    gets_bind 6 8 (by decide) (by decide) (by decide) (by decide), ok_bind,
    gets_bind 6 14 (by decide) (by decide) (by decide) (by decide), ok_bind,
    gets_bind 6 20 (by decide) (by decide) (by decide) (by decide), ok_bind,
    getu_bind 6 26 (by decide) (by decide) (by decide), ok_bind]
  have tb : (bit.b % 64).toNat < 64 := by omega
  have tc : (bit.c % 64).toNat < 64 := by omega
  have td : (bit.d % 64).toNat < 64 := by omega
  have eb := signed_field hb1 hb2
  have ec := signed_field hc1 hc2
  have ed := signed_field hd1 hd2
  have fa : codeword_of bit / 2 ^ 26 % 2 ^ 6 % 2 ^ 32 = bit.a := by
    unfold codeword_of
    generalize (bit.b % 64).toNat = B at tb
    generalize (bit.c % 64).toNat = C at tc
    generalize (bit.d % 64).toNat = D at td
    omega
  have fPb : codeword_of bit / 2 ^ 4 % 2 ^ 4 % 2 ^ 32 = bit.Pb := by
    unfold codeword_of
    generalize (bit.b % 64).toNat = B at tb
    generalize (bit.c % 64).toNat = C at tc
    generalize (bit.d % 64).toNat = D at td
    omega
  have fPr : codeword_of bit / 2 ^ 0 % 2 ^ 4 % 2 ^ 32 = bit.Pr := by
    unfold codeword_of
    generalize (bit.b % 64).toNat = B at tb
    generalize (bit.c % 64).toNat = C at tc
    generalize (bit.d % 64).toNat = D at td
    omega
  have fb : codeword_of bit / 2 ^ 20 % 2 ^ 6 = (bit.b % 64).toNat := by
    unfold codeword_of
    generalize (bit.b % 64).toNat = B at tb
    generalize (bit.c % 64).toNat = C at tc
    generalize (bit.d % 64).toNat = D at td
    omega
  have fc : codeword_of bit / 2 ^ 14 % 2 ^ 6 = (bit.c % 64).toNat := by
    unfold codeword_of
    generalize (bit.b % 64).toNat = B at tb
    generalize (bit.c % 64).toNat = C at tc
    generalize (bit.d % 64).toNat = D at td
    omega
  have fd : codeword_of bit / 2 ^ 8 % 2 ^ 6 = (bit.d % 64).toNat := by
    unfold codeword_of
    generalize (bit.b % 64).toNat = B at tb
    generalize (bit.c % 64).toNat = C at tc
    generalize (bit.d % 64).toNat = D at td
    omega
  rw [fa, fPb, fPr, fb, fc, fd, eb, ec, ed]
  rfl

/-- C4: for a block whose fields are within their declared widths, `pack`
returns a codeword and `unpack` of that codeword yields the same six field
values, whatever the block passed to `unpack` held before. -/
theorem unpack_pack_roundtrip (bit bit0 : bit_block) (h : fields_fit bit) :
    ∃ codeword, pack bit = .ok codeword ∧ unpack codeword bit0 = .ok bit :=
  ⟨codeword_of bit, pack_fits bit h, unpack_codeword_of bit bit0 h⟩

theorem unpack_pack_roundtrip_witness :
    fields_fit ⟨5, 3, 7, -32, 31, -1⟩ ∧
      ∃ codeword, pack ⟨5, 3, 7, -32, 31, -1⟩ = .ok codeword ∧
        unpack codeword ⟨0, 0, 0, 0, 0, 0⟩ = .ok ⟨5, 3, 7, -32, 31, -1⟩ :=
  ⟨by decide, unpack_pack_roundtrip ⟨5, 3, 7, -32, 31, -1⟩ ⟨0, 0, 0, 0, 0, 0⟩ (by decide)⟩

/-- C5: for a block with in-range fields, `pack` returns
`a*2^26 + (b mod 64)*2^20 + (c mod 64)*2^14 + (d mod 64)*2^8 + Pb*2^4 + Pr`,
a value below `2^32`; `a = 63` alone packs to `0xFC000000` and `Pr = 15`
alone to `0x0000000F`. -/
theorem pack_layout (bit : bit_block) (h : fields_fit bit) :
    pack bit = .ok (bit.a * 2 ^ 26 + (bit.b % 64).toNat * 2 ^ 20 + (bit.c % 64).toNat * 2 ^ 14
      + (bit.d % 64).toNat * 2 ^ 8 + bit.Pb * 2 ^ 4 + bit.Pr) ∧
    codeword_of bit < 2 ^ 32 ∧
    pack ⟨63, 0, 0, 0, 0, 0⟩ = .ok 0xFC000000 ∧
    pack ⟨0, 0, 15, 0, 0, 0⟩ = .ok 0x0000000F := by
  refine ⟨pack_fits bit h, ?_, rfl, rfl⟩
  obtain ⟨ha, hPb, hPr, -⟩ := h
  have tb : (bit.b % 64).toNat < 64 := by omega
  have tc : (bit.c % 64).toNat < 64 := by omega
  have td : (bit.d % 64).toNat < 64 := by omega
  unfold codeword_of
  generalize (bit.b % 64).toNat = B at tb
  generalize (bit.c % 64).toNat = C at tc
  generalize (bit.d % 64).toNat = D at td
  omega

theorem pack_layout_witness :
    fields_fit ⟨5, 3, 7, -32, 31, -1⟩ ∧ pack ⟨5, 3, 7, -32, 31, -1⟩ = .ok 369622839 :=
  ⟨by decide, (pack_layout ⟨5, 3, 7, -32, 31, -1⟩ (by decide)).1⟩

/-- C10: `pack` raises `Bitpack_Overflow` exactly when a field is outside its
declared width (`a > 63`, `Pb > 15`, `Pr > 15`, or one of `b`, `c`, `d`
outside `[-32, 31]`); a block with `a = 64` therefore raises and yields no
codeword. -/
theorem pack_overflow_iff (bit : bit_block) :
    (pack bit = .error Exc.Bitpack_Overflow ↔
      (bit.a > 63 ∨ bit.Pb > 15 ∨ bit.Pr > 15 ∨ (bit.b < -32 ∨ bit.b > 31) ∨
        (bit.c < -32 ∨ bit.c > 31) ∨ (bit.d < -32 ∨ bit.d > 31))) ∧
    (bit.a = 64 → pack bit = .error Exc.Bitpack_Overflow ∧ ¬ ∃ codeword, pack bit = .ok codeword) := by
  have key : fields_fit bit ↔ ¬ (bit.a > 63 ∨ bit.Pb > 15 ∨ bit.Pr > 15 ∨
      (bit.b < -32 ∨ bit.b > 31) ∨ (bit.c < -32 ∨ bit.c > 31) ∨
      (bit.d < -32 ∨ bit.d > 31)) := by
    unfold fields_fit
    omega
  constructor
  · constructor
    · intro hp
      by_contra hc
      rw [pack_fits bit (key.mpr hc)] at hp
      cases hp
    · intro hout
      exact pack_overflow bit (fun hf => key.mp hf hout)
  · intro ha
    have hnf : ¬ fields_fit bit := fun hf => by
      have := hf.1
      omega
    refine ⟨pack_overflow bit hnf, ?_⟩
    rintro ⟨cw, hcw⟩
    rw [pack_overflow bit hnf] at hcw
    cases hcw

theorem pack_overflow_iff_witness :
    pack ⟨64, 0, 0, 0, 0, 0⟩ = .error Exc.Bitpack_Overflow ∧
      ¬ ∃ codeword, pack ⟨64, 0, 0, 0, 0, 0⟩ = .ok codeword :=
  (pack_overflow_iff ⟨64, 0, 0, 0, 0, 0⟩).2 rfl

/-! ## Byte access and the codeword stream -/

theorem extract_char_eq (sgn : Bool) (C i : Nat) (hi : i < 8) (index : Int)
    (h : index = (i : Int)) :
    extract_char sgn C index = .ok (to_char sgn ((byte_of C i : Nat) : Int)) := by
  have e : u32 (index * (BITS_IN_BYTE : Int) * 1) = 8 * i := by
    subst h
    unfold u32 BITS_IN_BYTE
    omega
  unfold extract_char
  rw [e, show BITS_IN_BYTE * 1 = 8 from rfl,
    getu_bind 8 (8 * i) (by decide) (by omega) (by omega), ok_bind]
  rfl

theorem char_byte (sgn : Bool) (x : Int) :
    u64 (to_char sgn x) / 2 ^ 0 % 2 ^ 8 = (x % 256).toNat := by
  unfold u64 to_char
  cases sgn <;> simp only [Bool.false_eq_true, if_false, if_true] <;> omega

theorem store_char_eq (c : Int) (cw i : Nat) (hcw : cw < 2 ^ 64) (hi : i < 8) (index : Int)
    (h : index = (i : Int)) :
    store_char c cw index =
      .ok (splice cw 8 (8 * i) (u64 c / 2 ^ 0 % 2 ^ 8) % 2 ^ 32) := by
  have e : u32 (index * (BITS_IN_BYTE : Int) * 1) = 8 * i := by
    subst h
    unfold u32 BITS_IN_BYTE
    omega
  unfold store_char
  rw [e, show BITS_IN_BYTE * 1 = 8 from rfl,
    getu_bind 8 0 (by decide) (by decide) (by decide), ok_bind,
    newu_fits 8 (8 * i) (by decide) (by omega) (by omega) cw _ hcw
      (Nat.mod_lt _ (by decide)), ok_bind]
  rfl

theorem put_byte_3 (cw v : Nat) (hv : v < 256) :
    splice cw 8 (8 * 3) v % 2 ^ 32 = v * 2 ^ 24 + cw % 2 ^ 24 := by
  unfold splice
  omega

theorem put_byte_2 (cw v : Nat) (hcw : cw < 2 ^ 32) (hv : v < 256) :
    splice cw 8 (8 * 2) v % 2 ^ 32 = cw / 2 ^ 24 * 2 ^ 24 + v * 2 ^ 16 + cw % 2 ^ 16 := by
  unfold splice
  omega

theorem put_byte_1 (cw v : Nat) (hcw : cw < 2 ^ 32) (hv : v < 256) :
    splice cw 8 (8 * 1) v % 2 ^ 32 = cw / 2 ^ 16 * 2 ^ 16 + v * 2 ^ 8 + cw % 2 ^ 8 := by
  unfold splice
  omega

theorem put_byte_0 (cw v : Nat) (hcw : cw < 2 ^ 32) (hv : v < 256) :
    splice cw 8 (8 * 0) v % 2 ^ 32 = cw / 2 ^ 8 * 2 ^ 8 + v := by
  unfold splice
  omega

theorem byte_of_lt (C i : Nat) : byte_of C i < 256 := Nat.mod_lt _ (by decide)

theorem four_bytes (C init : Nat) (hC : C < 2 ^ 32) :
    splice (splice (splice (splice init 8 (8 * 3) (byte_of C 3) % 2 ^ 32) 8 (8 * 2)
      (byte_of C 2) % 2 ^ 32) 8 (8 * 1) (byte_of C 1) % 2 ^ 32) 8 (8 * 0) (byte_of C 0)
        % 2 ^ 32 = C := by
  have b3 := byte_of_lt C 3
  have b2 := byte_of_lt C 2
  have b1 := byte_of_lt C 1
  have b0 := byte_of_lt C 0
  have e3 := put_byte_3 init (byte_of C 3) b3
  have l3 : splice init 8 (8 * 3) (byte_of C 3) % 2 ^ 32 < 2 ^ 32 := Nat.mod_lt _ (by decide)
  have d3 : splice init 8 (8 * 3) (byte_of C 3) % 2 ^ 32 / 2 ^ 24 = byte_of C 3 := by
    rw [e3]; omega
  generalize splice init 8 (8 * 3) (byte_of C 3) % 2 ^ 32 = w3 at *
  have e2 := put_byte_2 w3 (byte_of C 2) l3 b2
  have l2 : splice w3 8 (8 * 2) (byte_of C 2) % 2 ^ 32 < 2 ^ 32 := Nat.mod_lt _ (by decide)
  have d2 : splice w3 8 (8 * 2) (byte_of C 2) % 2 ^ 32 / 2 ^ 16
      = byte_of C 3 * 2 ^ 8 + byte_of C 2 := by
    rw [e2, d3]; omega
  generalize splice w3 8 (8 * 2) (byte_of C 2) % 2 ^ 32 = w2 at *
  have e1 := put_byte_1 w2 (byte_of C 1) l2 b1
  have l1 : splice w2 8 (8 * 1) (byte_of C 1) % 2 ^ 32 < 2 ^ 32 := Nat.mod_lt _ (by decide)
  have d1 : splice w2 8 (8 * 1) (byte_of C 1) % 2 ^ 32 / 2 ^ 8
      = (byte_of C 3 * 2 ^ 8 + byte_of C 2) * 2 ^ 8 + byte_of C 1 := by
    rw [e1, d2]; omega
  generalize splice w2 8 (8 * 1) (byte_of C 1) % 2 ^ 32 = w1 at *
  rw [put_byte_0 w1 (byte_of C 0) l1 b0, d1]
  unfold byte_of
  omega

theorem putchar_to_char (sgn : Bool) (b : Nat) (hb : b < 256) (out : List Nat) :
    putchar (to_char sgn (b : Int)) out = out ++ [b] := by
  have e : (to_char sgn (b : Int) % 256).toNat = b := by
    unfold to_char
    cases sgn <;> simp only [Bool.false_eq_true, if_false, if_true] <;> omega
  unfold putchar
  rw [e]

theorem write_bytes_succ (sgn : Bool) (C j : Nat) (hj : j < 8) (out : List Nat) :
    write_bytes sgn C (j + 1) out = write_bytes sgn C j (out ++ [byte_of C j]) := by
  rw [write_bytes, extract_char_eq sgn C j hj _ (by omega), ok_bind,
    putchar_to_char sgn _ (byte_of_lt C j)]

theorem write_bytes_four (sgn : Bool) (C : Nat) (out : List Nat) :
    write_bytes sgn C 4 out =
      .ok (out ++ [byte_of C 3, byte_of C 2, byte_of C 1, byte_of C 0]) := by
  rw [write_bytes_succ sgn C 3 (by decide), write_bytes_succ sgn C 2 (by decide),
    write_bytes_succ sgn C 1 (by decide), write_bytes_succ sgn C 0 (by decide), write_bytes]
  simp
  rfl

theorem write_codewords_eq (sgn : Bool) (cws : List Nat) (out : List Nat) :
    write_codewords sgn cws out = .ok (out ++ body_bytes cws) := by
  induction cws generalizing out with
  | nil => simp [write_codewords, body_bytes]; rfl
  | cons C rest ih =>
    rw [write_codewords, write_bytes_four, ok_bind, ih]
    simp [body_bytes]

theorem read_bytes_succ (sgn : Bool) (j cw b : Nat) (rest : List Nat) (hj : j < 8)
    (hcw : cw < 2 ^ 64) (hb : b < 256) :
    read_bytes sgn (j + 1) cw (b :: rest) =
      read_bytes sgn j (splice cw 8 (8 * j) b % 2 ^ 32) rest := by
  have e : (( b : Int) % 256).toNat = b := by omega
  rw [read_bytes]
  simp only [getc]
  rw [store_char_eq _ cw j hcw hj _ (by omega), ok_bind, char_byte, e]

theorem lt_64_of_mod (x : Nat) : x % 2 ^ 32 < 2 ^ 64 :=
  Nat.lt_trans (Nat.mod_lt _ (by decide)) (by decide)

theorem read_bytes_four (sgn : Bool) (C init : Nat) (rest : List Nat) (hC : C < 2 ^ 32)
    (hinit : init < 2 ^ 64) :
    read_bytes sgn 4 init
      (byte_of C 3 :: byte_of C 2 :: byte_of C 1 :: byte_of C 0 :: rest) = .ok (C, rest) := by
  rw [read_bytes_succ sgn 3 _ _ _ (by decide) hinit (byte_of_lt C 3),
    read_bytes_succ sgn 2 _ _ _ (by decide) (lt_64_of_mod _) (byte_of_lt C 2),
    read_bytes_succ sgn 1 _ _ _ (by decide) (lt_64_of_mod _) (byte_of_lt C 1),
    read_bytes_succ sgn 0 _ _ _ (by decide) (lt_64_of_mod _) (byte_of_lt C 0),
    read_bytes, four_bytes C init hC]
  rfl

theorem read_codewords_eq (sgn : Bool) (cws inits rest : List Nat)
    (hcws : ∀ x ∈ cws, x < 2 ^ 32) (hinits : ∀ x ∈ inits, x < 2 ^ 32)
    (hlen : inits.length = cws.length) :
    read_codewords sgn inits (body_bytes cws ++ rest) = .ok (cws, rest) := by
  induction cws generalizing inits with
  | nil =>
    cases inits with
    | nil => rfl
    | cons a t => simp at hlen
  | cons C tl ih =>
    cases inits with
    | nil => simp at hlen
    | cons a t =>
      have hC : C < 2 ^ 32 := hcws C (List.mem_cons_self _ _)
      have ha : a < 2 ^ 64 :=
        Nat.lt_trans (hinits a (List.mem_cons_self _ _)) (by decide)
      rw [read_codewords]
      simp only [body_bytes, List.cons_append]
      rw [read_bytes_four sgn C a _ hC ha, ok_bind]
      simp only []
      rw [ih t (fun x hx => hcws x (List.mem_cons_of_mem _ hx))
        (fun x hx => hinits x (List.mem_cons_of_mem _ hx))
        (by simpa using hlen), ok_bind]
      rfl

theorem body_bytes_length (cws : List Nat) : (body_bytes cws).length = 4 * cws.length := by
  induction cws with
  | nil => rfl
  | cons C rest ih => simp only [body_bytes, List.length_cons, ih]; omega

theorem body_bytes_getElem (cws : List Nat) (k j C : Nat) (hk : cws[k]? = some C)
    (hj : j < 4) : (body_bytes cws)[4 * k + j]? = some (byte_of C (3 - j)) := by
  induction cws generalizing k with
  | nil => simp at hk
  | cons D rest ih =>
    cases k with
    | zero =>
      simp only [List.getElem?_cons_zero, Option.some.injEq] at hk
      subst hk
      have hj4 : j = 0 ∨ j = 1 ∨ j = 2 ∨ j = 3 := by omega
      rcases hj4 with h | h | h | h <;> subst h <;> simp [body_bytes]
    | succ k =>
      simp only [List.getElem?_cons_succ] at hk
      have e : 4 * (k + 1) + j = (4 * k + j) + 1 + 1 + 1 + 1 := by omega
      rw [e]
      simp only [body_bytes, List.getElem?_cons_succ]
      exact ih k hk

/-- C6: the byte order is round-trip stable.  For a 32-bit codeword `C` and
any initial content `init`, storing `extract_char C 3 .. extract_char C 0`
with `store_char` at indices 3, 2, 1, 0 yields `C`, whether `char` is signed
or not; and the codeword loop of `decompress40`, run on the body that `write`
emitted for an array of 32-bit codewords, fills the array with the same
codewords and consumes the whole body. -/
theorem byte_order_roundtrip (sgn sgn_w sgn_r : Bool) (C init : Nat) (cws inits : List Nat)
    (width height : Nat) (hC : C < 2 ^ 32) (hinit : init < 2 ^ 32)
    (hcws : ∀ x ∈ cws, x < 2 ^ 32) (hinits : ∀ x ∈ inits, x < 2 ^ 32)
    (hlen : inits.length = cws.length) :
    (∃ c3 c2 c1 c0 w3 w2 w1,
      extract_char sgn C 3 = .ok c3 ∧ extract_char sgn C 2 = .ok c2 ∧
      extract_char sgn C 1 = .ok c1 ∧ extract_char sgn C 0 = .ok c0 ∧
      store_char c3 init 3 = .ok w3 ∧ store_char c2 w3 2 = .ok w2 ∧
      store_char c1 w2 1 = .ok w1 ∧ store_char c0 w1 0 = .ok C) ∧
    (∃ body, write sgn_w cws width height = .ok (print_header width height ++ body) ∧
      read_codewords sgn_r inits body = .ok (cws, [])) := by
  constructor
  · have e (i : Nat) : (((byte_of C i : Nat) : Int) % 256).toNat = byte_of C i := by
      have := byte_of_lt C i
      omega
    refine ⟨_, _, _, _, _, _, _, extract_char_eq sgn C 3 (by decide) 3 rfl,
      extract_char_eq sgn C 2 (by decide) 2 rfl, extract_char_eq sgn C 1 (by decide) 1 rfl,
      extract_char_eq sgn C 0 (by decide) 0 rfl,
      store_char_eq _ init 3 (Nat.lt_trans hinit (by decide)) (by decide) 3 rfl,
      store_char_eq _ _ 2 (lt_64_of_mod _) (by decide) 2 rfl,
      store_char_eq _ _ 1 (lt_64_of_mod _) (by decide) 1 rfl, ?_⟩
    rw [store_char_eq _ _ 0 (lt_64_of_mod _) (by decide) 0 rfl]
    simp only [char_byte, e]
    rw [four_bytes C init hC]
  · refine ⟨body_bytes cws, write_codewords_eq sgn_w cws _, ?_⟩
    have := read_codewords_eq sgn_r cws inits [] hcws hinits hlen
    rwa [List.append_nil] at this

theorem byte_order_roundtrip_witness :
    ((0xAABBCCDD < 2 ^ 32 ∧ 0x11223344 < 2 ^ 32) ∧
      (∀ x ∈ [0xAABBCCDD, 0x01020304], x < 2 ^ 32) ∧ (∀ x ∈ [5, 0xFFFFFFFF], x < 2 ^ 32) ∧
      [5, 0xFFFFFFFF].length = [0xAABBCCDD, 0x01020304].length) ∧
    ((∃ c3 c2 c1 c0 w3 w2 w1,
      extract_char true 0xAABBCCDD 3 = .ok c3 ∧ extract_char true 0xAABBCCDD 2 = .ok c2 ∧
      extract_char true 0xAABBCCDD 1 = .ok c1 ∧ extract_char true 0xAABBCCDD 0 = .ok c0 ∧
      store_char c3 0x11223344 3 = .ok w3 ∧ store_char c2 w3 2 = .ok w2 ∧
      store_char c1 w2 1 = .ok w1 ∧ store_char c0 w1 0 = .ok 0xAABBCCDD) ∧
    (∃ body, write true [0xAABBCCDD, 0x01020304] 2 2 = .ok (print_header 2 2 ++ body) ∧
      read_codewords false [5, 0xFFFFFFFF] body = .ok ([0xAABBCCDD, 0x01020304], []))) :=
  ⟨by decide, byte_order_roundtrip true true false 0xAABBCCDD 0x11223344
    [0xAABBCCDD, 0x01020304] [5, 0xFFFFFFFF] 2 2 (by decide) (by decide) (by decide)
    (by decide) (by decide)⟩

/-- C7: for every codeword array, `write` sends the header followed by a body
of exactly `4 n` bytes in which bytes `4k .. 4k+3` are the bytes of the `k`-th
codeword from the most significant to the least significant. -/
theorem write_body_layout (sgn : Bool) (cws : List Nat) (width height : Nat) :
    ∃ body, write sgn cws width height = .ok (print_header width height ++ body) ∧
      body.length = 4 * cws.length ∧
      ∀ k j C, cws[k]? = some C → j < 4 →
        body[4 * k + j]? = some (C / 2 ^ (8 * (3 - j)) % 256) :=
  ⟨body_bytes cws, write_codewords_eq sgn cws _, body_bytes_length cws,
    fun k j C hk hj => body_bytes_getElem cws k j C hk hj⟩

theorem write_body_layout_witness :
    ∃ body, write true [0xAABBCCDD, 0x01020304] 2 2 = .ok (print_header 2 2 ++ body) ∧
      body.length = 4 * 2 ∧ body[4 * 1 + 2]? = some 3 :=
  match write_body_layout true [0xAABBCCDD, 0x01020304] 2 2 with
  | ⟨body, h1, h2, h3⟩ => ⟨body, h1, h2, h3 1 2 0x01020304 rfl (by decide)⟩

/-! ## The bit-field operations, value by value -/

/-- C12: for a width `w ≤ 64`, `Bitpack_fitsu n w` is true exactly when
`n < 2^w`; with `w = 0` only `n = 0` fits, and with `w = 64` every 64-bit
value fits. -/
theorem fitsu_iff (n w : Nat) (hw : w ≤ 64) :
    Bitpack_fitsu n w = .ok (decide (n < 2 ^ w)) ∧
    (Bitpack_fitsu n w = .ok true ↔ n < 2 ^ w) ∧
    (w = 0 → (Bitpack_fitsu n w = .ok true ↔ n = 0)) ∧
    (w = 64 → n < 2 ^ 64 → Bitpack_fitsu n w = .ok true) := by
  have e := fitsu_eq n w hw
  refine ⟨e, ?_, ?_, ?_⟩
  · rw [e]
    constructor
    · intro h
      exact of_decide_eq_true (Except.ok.inj h)
    · intro h
      rw [decide_eq_true h]
  · intro h0
    subst h0
    rw [e]
    constructor
    · intro h
      have := of_decide_eq_true (Except.ok.inj h)
      omega
    · intro h
      subst h
      rfl
  · intro h64 hn
    subst h64
    rw [e, decide_eq_true hn]

theorem fitsu_iff_witness :
    (6 ≤ 64) ∧ (Bitpack_fitsu 63 6 = .ok (decide (63 < 2 ^ 6)) ∧
    (Bitpack_fitsu 63 6 = .ok true ↔ 63 < 2 ^ 6) ∧
    (6 = 0 → (Bitpack_fitsu 63 6 = .ok true ↔ 63 = 0)) ∧
    (6 = 64 → 63 < 2 ^ 64 → Bitpack_fitsu 63 6 = .ok true)) :=
  ⟨by decide, fitsu_iff 63 6 (by decide)⟩

/-- C13: for a width `1 ≤ w ≤ 64`, `Bitpack_fitss n w` is true exactly when
`-2^(w-1) ≤ n ≤ 2^(w-1) - 1`, so every 64-bit value fits at `w = 64` and only
`-1` and `0` fit at `w = 1`; for `w = 0` it is false for every `n`. -/
theorem fitss_iff (n : Int) (w : Nat) (hw : w ≤ 64) :
    (1 ≤ w → (Bitpack_fitss n w = .ok true ↔ -2 ^ (w - 1) ≤ n ∧ n ≤ 2 ^ (w - 1) - 1)) ∧
    (1 ≤ w → (Bitpack_fitss n w = .ok false ↔ ¬ (-2 ^ (w - 1) ≤ n ∧ n ≤ 2 ^ (w - 1) - 1))) ∧
    (w = 64 → -2 ^ 63 ≤ n → n < 2 ^ 63 → Bitpack_fitss n w = .ok true) ∧
    (w = 1 → (Bitpack_fitss n w = .ok true ↔ n = -1 ∨ n = 0)) ∧
    (w = 0 → Bitpack_fitss n w = .ok false) := by
  have e := fitss_eq n w hw
  refine ⟨?_, ?_, ?_, ?_, ?_⟩
  · intro h1
    rw [e]
    constructor
    · intro h
      exact (of_decide_eq_true (Except.ok.inj h)).2
    · intro h
      rw [decide_eq_true ⟨h1, h⟩]
  · intro h1
    rw [e]
    constructor
    · intro h hr
      have := of_decide_eq_false (Except.ok.inj h)
      exact this ⟨h1, hr⟩
    · intro h
      rw [decide_eq_false (fun hc => h hc.2)]
  · intro h64 hlo hhi
    subst h64
    rw [e, decide_eq_true ⟨by decide, by norm_num; exact hlo, by norm_num; omega⟩]
  · intro h1
    subst h1
    rw [e]
    constructor
    · intro h
      have := of_decide_eq_true (Except.ok.inj h)
      norm_num at this
      omega
    · intro h
      rw [decide_eq_true ⟨by decide, by norm_num; omega, by norm_num; omega⟩]
  · intro h0
    subst h0
    rw [e]
    rfl

theorem fitss_iff_witness :
    (6 ≤ 64) ∧
    ((1 ≤ 6 → (Bitpack_fitss (-32) 6 = .ok true ↔
      -2 ^ (6 - 1) ≤ (-32 : Int) ∧ (-32 : Int) ≤ 2 ^ (6 - 1) - 1)) ∧
    (1 ≤ 6 → (Bitpack_fitss (-32) 6 = .ok false ↔
      ¬ (-2 ^ (6 - 1) ≤ (-32 : Int) ∧ (-32 : Int) ≤ 2 ^ (6 - 1) - 1))) ∧
    (6 = 64 → -2 ^ 63 ≤ (-32 : Int) → (-32 : Int) < 2 ^ 63 → Bitpack_fitss (-32) 6 = .ok true) ∧
    (6 = 1 → (Bitpack_fitss (-32) 6 = .ok true ↔ (-32 : Int) = -1 ∨ (-32 : Int) = 0)) ∧
    (6 = 0 → Bitpack_fitss (-32) 6 = .ok false)) :=
  ⟨by decide, fitss_iff (-32) 6 (by decide)⟩

/-- C14: for a valid field `(w, lsb)`, `Bitpack_getu word w lsb` is
`floor(word / 2^lsb) mod 2^w`, a value below `2^w`; it is `0` when `w = 0`
and the whole word when `w = 64` and `lsb = 0`. -/
theorem getu_value (word w lsb : Nat) (hword : word < 2 ^ 64) (hw : w ≤ 64)
    (hl : lsb < 64) (hwl : w + lsb ≤ 64) :
    Bitpack_getu word w lsb = .ok (word / 2 ^ lsb % 2 ^ w) ∧
    word / 2 ^ lsb % 2 ^ w < 2 ^ w ∧
    (w = 0 → Bitpack_getu word w lsb = .ok 0) ∧
    (w = 64 → lsb = 0 → Bitpack_getu word w lsb = .ok word) := by
  have e := getu_bind w lsb hw hl hwl word
  refine ⟨e, Nat.mod_lt _ (Nat.pos_pow_of_pos _ (by decide)), ?_, ?_⟩
  · intro h0
    subst h0
    rw [e]
    simp [Nat.mod_one]
  · intro h64 h0
    subst h64
    subst h0
    rw [e, Nat.pow_zero, Nat.div_one, Nat.mod_eq_of_lt hword]

theorem getu_value_witness :
    (0xABCD < 2 ^ 64 ∧ 4 ≤ 64 ∧ 8 < 64 ∧ 4 + 8 ≤ 64) ∧
    (Bitpack_getu 0xABCD 4 8 = .ok (0xABCD / 2 ^ 8 % 2 ^ 4) ∧
    0xABCD / 2 ^ 8 % 2 ^ 4 < 2 ^ 4 ∧
    (4 = 0 → Bitpack_getu 0xABCD 4 8 = .ok 0) ∧
    (4 = 64 → 8 = 0 → Bitpack_getu 0xABCD 4 8 = .ok 0xABCD)) :=
  ⟨by decide, getu_value 0xABCD 4 8 (by decide) (by decide) (by decide) (by decide)⟩

theorem testBit_top {g k : Nat} (hg : g < 2 ^ (k + 1)) :
    g.testBit k = true ↔ ¬ g < 2 ^ k := by
  constructor
  · intro hb hlt
    rw [Nat.testBit_lt_two_pow hlt] at hb
    cases hb
  · intro hc
    obtain ⟨r, hr⟩ : ∃ r, g = 2 ^ k + r := ⟨g - 2 ^ k, by omega⟩
    have hr2 : r < 2 ^ k := by rw [Nat.pow_succ] at hg; omega
    rw [hr, Nat.testBit_two_pow_add_eq, Nat.testBit_lt_two_pow hr2]
    rfl

/-- C15: for a valid field `(w, lsb)` with `1 ≤ w`, `Bitpack_gets` returns the
sign extension of the field: the unique integer `s` in
`[-2^(w-1), 2^(w-1) - 1]` congruent to `Bitpack_getu word w lsb` modulo `2^w`,
negative exactly when bit `lsb + w - 1` of the word is set. -/
theorem gets_sign_extension (word w lsb : Nat) (h1 : 1 ≤ w) (hw : w ≤ 64)
    (hl : lsb < 64) (hwl : w + lsb ≤ 64) :
    ∃ (s : Int) (g : Nat), Bitpack_gets word w lsb = .ok s ∧
      Bitpack_getu word w lsb = .ok g ∧
      -2 ^ (w - 1) ≤ s ∧ s ≤ 2 ^ (w - 1) - 1 ∧ (2 ^ w : Int) ∣ (s - g) ∧
      (s < 0 ↔ word.testBit (lsb + w - 1) = true) ∧
      ∀ t : Int, -2 ^ (w - 1) ≤ t → t ≤ 2 ^ (w - 1) - 1 → (2 ^ w : Int) ∣ (t - g) → t = s := by
  have hg : word / 2 ^ lsb % 2 ^ w < 2 ^ w := Nat.mod_lt _ (Nat.pos_pow_of_pos _ (by decide))
  have hbit : (word / 2 ^ lsb % 2 ^ w).testBit (w - 1) = word.testBit (lsb + w - 1) := by
    rw [Nat.testBit_mod_two_pow, ← Nat.shiftRight_eq_div_pow, Nat.testBit_shiftRight,
      decide_eq_true (show w - 1 < w by omega), Bool.true_and]
    congr 1
    omega
  have htop := @testBit_top (word / 2 ^ lsb % 2 ^ w) (w - 1)
    (by rw [show w - 1 + 1 = w by omega]; exact hg)
  rw [hbit] at htop
  have hd : 2 ^ w = 2 ^ (w - 1) * 2 := by
    rw [← Nat.pow_succ]; congr 1; omega
  have hp : 0 < 2 ^ (w - 1) := Nat.pos_pow_of_pos _ (by decide)
  refine ⟨sign_extend w (word / 2 ^ lsb % 2 ^ w), word / 2 ^ lsb % 2 ^ w,
    gets_bind w lsb h1 hw hl hwl word, getu_bind w lsb hw hl hwl word, ?_⟩
  generalize word / 2 ^ lsb % 2 ^ w = g at hg htop
  have hrange : -2 ^ (w - 1) ≤ sign_extend w g ∧ sign_extend w g ≤ 2 ^ (w - 1) - 1 := by
    unfold sign_extend
    rw [int_two_pow_cast, int_two_pow_cast]
    generalize 2 ^ (w - 1) = P at *
    generalize 2 ^ w = Q at *
    split <;> omega
  have hdvd : (2 ^ w : Int) ∣ (sign_extend w g - g) := by
    unfold sign_extend
    split
    · simp
    · refine ⟨-1, ?_⟩
      ring
  refine ⟨hrange.1, hrange.2, hdvd, ?_, ?_⟩
  · rw [htop]
    unfold sign_extend
    rw [int_two_pow_cast]
    generalize 2 ^ (w - 1) = P at *
    generalize 2 ^ w = Q at *
    split <;> constructor <;> intro h <;> omega
  · intro t tlo thi tdvd
    have hsub : (2 ^ w : Int) ∣ (t - sign_extend w g) := by
      have := Int.dvd_sub tdvd hdvd
      simpa using this
    have habs : |t - sign_extend w g| < (2 ^ w : Int) := by
      rw [abs_lt]
      have hd2 : (2 ^ w : Int) = 2 ^ (w - 1) * 2 := by
        rw [← pow_succ]; congr 1; omega
      rw [hd2]
      have hpi := int_two_pow_pos (w - 1)
      generalize (2 : Int) ^ (w - 1) = P at *
      constructor <;> omega
    have := Int.eq_zero_of_abs_lt_dvd hsub habs
    omega

theorem gets_sign_extension_witness :
    (1 ≤ 6 ∧ 6 ≤ 64 ∧ 8 < 64 ∧ 6 + 8 ≤ 64) ∧
    ∃ (s : Int) (g : Nat), Bitpack_gets 0x3F00 6 8 = .ok s ∧
      Bitpack_getu 0x3F00 6 8 = .ok g ∧
      -2 ^ (6 - 1) ≤ s ∧ s ≤ 2 ^ (6 - 1) - 1 ∧ (2 ^ 6 : Int) ∣ (s - g) ∧
      (s < 0 ↔ (0x3F00).testBit (8 + 6 - 1) = true) ∧
      ∀ t : Int, -2 ^ (6 - 1) ≤ t → t ≤ 2 ^ (6 - 1) - 1 → (2 ^ 6 : Int) ∣ (t - g) → t = s :=
  ⟨by decide, gets_sign_extension 0x3F00 6 8 (by decide) (by decide) (by decide) (by decide)⟩

theorem width_lsb_check_fail {w lsb : Nat} (h : ¬ (w ≤ 64 ∧ lsb < 64 ∧ w + lsb ≤ 64)) :
    width_lsb_check w lsb = .error Exc.Assert_Failed := by
  unfold width_lsb_check MAX_BIT
  have h2 : ¬ (w ≤ 64 ∧ lsb < 64 ∧ (w + lsb) % 2 ^ 32 ≤ 64) := by omega
  rw [if_neg h2]
  rfl

theorem newu_valid_cases (word w lsb value : Nat) (hw : w ≤ 64) (hl : lsb < 64)
    (hwl : w + lsb ≤ 64) :
    Bitpack_newu word w lsb value = .error Exc.Bitpack_Overflow ∨
      ∃ r, Bitpack_newu word w lsb value = .ok r := by
  simp only [Bitpack_newu, width_lsb_check_ok hw hl hwl, bind, Except.bind]
  split
  · left; rfl
  · right; exact ⟨_, rfl⟩

theorem news_valid_cases (word w lsb : Nat) (value : Int) (hw : w ≤ 64) (hl : lsb < 64)
    (hwl : w + lsb ≤ 64) :
    Bitpack_news word w lsb value = .error Exc.Bitpack_Overflow ∨
      ∃ r, Bitpack_news word w lsb value = .ok r := by
  simp only [Bitpack_news, width_lsb_check_ok hw hl hwl, bind, Except.bind]
  split
  · left; rfl
  · exact newu_valid_cases word w lsb _ hw hl hwl

theorem gets_valid_ok (word w lsb : Nat) (hw : w ≤ 64) (hl : lsb < 64)
    (hwl : w + lsb ≤ 64) : ∃ r, Bitpack_gets word w lsb = .ok r := by
  simp only [Bitpack_gets, width_lsb_check_ok hw hl hwl, getu_bind w lsb hw hl hwl, bind,
    Except.bind]
  split
  · exact ⟨_, rfl⟩
  · exact ⟨_, rfl⟩

/-- C16: `Bitpack_getu`, `Bitpack_gets`, `Bitpack_newu` and `Bitpack_news` end
in the assertion failure exactly when `w > 64` or `lsb ≥ 64` or
`w + lsb > 64`, whatever the word and the value are: with an invalid
`(w, lsb)` the call never reaches the range test, and with a valid one it
never ends in the assertion failure. -/
theorem contract_check (word w lsb value : Nat) (n : Int) :
    (Bitpack_getu word w lsb = .error Exc.Assert_Failed ↔ (w > 64 ∨ lsb ≥ 64 ∨ w + lsb > 64)) ∧
    (Bitpack_gets word w lsb = .error Exc.Assert_Failed ↔ (w > 64 ∨ lsb ≥ 64 ∨ w + lsb > 64)) ∧
    (Bitpack_newu word w lsb value = .error Exc.Assert_Failed ↔
      (w > 64 ∨ lsb ≥ 64 ∨ w + lsb > 64)) ∧
    (Bitpack_news word w lsb n = .error Exc.Assert_Failed ↔
      (w > 64 ∨ lsb ≥ 64 ∨ w + lsb > 64)) := by
  by_cases hv : w ≤ 64 ∧ lsb < 64 ∧ w + lsb ≤ 64
  · obtain ⟨hw, hl, hwl⟩ := hv
    have hno : ¬ (w > 64 ∨ lsb ≥ 64 ∨ w + lsb > 64) := by omega
    refine ⟨?_, ?_, ?_, ?_⟩
    · rw [getu_bind w lsb hw hl hwl]
      exact ⟨fun h => (by cases h), fun h => absurd h hno⟩
    · obtain ⟨r, hr⟩ := gets_valid_ok word w lsb hw hl hwl
      rw [hr]
      exact ⟨fun h => (by cases h), fun h => absurd h hno⟩
    · rcases newu_valid_cases word w lsb value hw hl hwl with h | ⟨r, h⟩ <;> rw [h] <;>
        exact ⟨fun h => (by cases h), fun h => absurd h hno⟩
    · rcases news_valid_cases word w lsb n hw hl hwl with h | ⟨r, h⟩ <;> rw [h] <;>
        exact ⟨fun h => (by cases h), fun h => absurd h hno⟩
  · have hyes : w > 64 ∨ lsb ≥ 64 ∨ w + lsb > 64 := by omega
    have hf := width_lsb_check_fail hv
    refine ⟨?_, ?_, ?_, ?_⟩
    · have e : Bitpack_getu word w lsb = .error Exc.Assert_Failed := by
        simp only [Bitpack_getu, hf, bind, Except.bind]
      exact ⟨fun _ => hyes, fun _ => e⟩
    · have e : Bitpack_gets word w lsb = .error Exc.Assert_Failed := by
        simp only [Bitpack_gets, hf, bind, Except.bind]
      exact ⟨fun _ => hyes, fun _ => e⟩
    · have e : Bitpack_newu word w lsb value = .error Exc.Assert_Failed := by
        simp only [Bitpack_newu, hf, bind, Except.bind]
      exact ⟨fun _ => hyes, fun _ => e⟩
    · have e : Bitpack_news word w lsb n = .error Exc.Assert_Failed := by
        simp only [Bitpack_news, hf, bind, Except.bind]
      exact ⟨fun _ => hyes, fun _ => e⟩

theorem u64_low_byte (c : Int) : u64 c / 2 ^ 0 % 2 ^ 8 = (c % 256).toNat := by
  unfold u64
  omega

/-- C17: for an index `i` in `0..3`, `extract_char C i` is the char holding
the 8-bit value `floor(C / 2^(8 i)) mod 256`: its bit pattern (the byte
`putchar` writes) is that value, and it is that value itself where `char` is
unsigned; index 0 is the least significant byte of a 32-bit codeword and
index 3 the most significant. -/
theorem extract_char_value (sgn : Bool) (C i : Nat) (hi : i ≤ 3) :
    ∃ c : Int, extract_char sgn C (i : Int) = .ok c ∧
      c % 256 = ((C / 2 ^ (8 * i) % 256 : Nat) : Int) ∧
      putchar c [] = [C / 2 ^ (8 * i) % 256] ∧
      (sgn = false → c = ((C / 2 ^ (8 * i) % 256 : Nat) : Int)) ∧
      (sgn = true → -128 ≤ c ∧ c ≤ 127) := by
  have hb : C / 2 ^ (8 * i) % 256 < 256 := Nat.mod_lt _ (by decide)
  refine ⟨_, extract_char_eq sgn C i (by omega) _ rfl, ?_, ?_, ?_, ?_⟩
  · unfold to_char byte_of
    cases sgn <;> simp only [Bool.false_eq_true, if_false, if_true] <;> omega
  · rw [putchar_to_char sgn _ (byte_of_lt C i)]
    rfl
  · intro hs
    subst hs
    unfold to_char byte_of
    simp only [Bool.false_eq_true, if_false]
    omega
  · intro hs
    subst hs
    unfold to_char byte_of
    simp only [if_true]
    omega

theorem extract_char_value_witness :
    (3 ≤ 3) ∧ ∃ c : Int, extract_char true 0xAABBCCDD ((3 : Nat) : Int) = .ok c ∧
      c % 256 = ((0xAABBCCDD / 2 ^ (8 * 3) % 256 : Nat) : Int) ∧
      putchar c [] = [0xAABBCCDD / 2 ^ (8 * 3) % 256] ∧
      (true = false → c = ((0xAABBCCDD / 2 ^ (8 * 3) % 256 : Nat) : Int)) ∧
      (true = true → -128 ≤ c ∧ c ≤ 127) :=
  ⟨by decide, extract_char_value true 0xAABBCCDD 3 (by decide)⟩

/-- C18: for a char `c`, a 32-bit codeword `C` and indices `i`, `j` in `0..3`,
`store_char c C i` returns a codeword whose byte `j` is the bit pattern of
`c` when `j = i` and byte `j` of `C` otherwise; the byte is replaced, not
OR-ed, also when `c` has its top bit set (a negative signed char). -/
theorem store_char_frame (c : Int) (C i j : Nat) (hC : C < 2 ^ 32) (hi : i ≤ 3)
    (hj : j ≤ 3) :
    ∃ r, store_char c C (i : Int) = .ok r ∧ r < 2 ^ 32 ∧
      r / 2 ^ (8 * j) % 256 = if j = i then (c % 256).toNat else C / 2 ^ (8 * j) % 256 := by
  have hv : (c % 256).toNat < 256 := by omega
  refine ⟨_, store_char_eq c C i (Nat.lt_trans hC (by decide)) (by omega) _ rfl,
    Nat.mod_lt _ (by decide), ?_⟩
  rw [u64_low_byte]
  generalize (c % 256).toNat = v at hv
  have hi4 : i = 0 ∨ i = 1 ∨ i = 2 ∨ i = 3 := by omega
  have hj4 : j = 0 ∨ j = 1 ∨ j = 2 ∨ j = 3 := by omega
  rcases hi4 with h | h | h | h <;> subst h
  · rw [put_byte_0 C v hC hv]
    rcases hj4 with h | h | h | h <;> subst h <;> simp <;> omega
  · rw [put_byte_1 C v hC hv]
    rcases hj4 with h | h | h | h <;> subst h <;> simp <;> omega
  · rw [put_byte_2 C v hC hv]
    rcases hj4 with h | h | h | h <;> subst h <;> simp <;> omega
  · rw [put_byte_3 C v hv]
    rcases hj4 with h | h | h | h <;> subst h <;> simp <;> omega

theorem store_char_frame_witness :
    (0x11223344 < 2 ^ 32 ∧ 2 ≤ 3 ∧ 3 ≤ 3) ∧
    ∃ r, store_char (-86) 0x11223344 ((2 : Nat) : Int) = .ok r ∧ r < 2 ^ 32 ∧
      r / 2 ^ (8 * 3) % 256 =
        if 3 = 2 then ((-86 : Int) % 256).toNat else 0x11223344 / 2 ^ (8 * 3) % 256 :=
  ⟨by decide, store_char_frame (-86) 0x11223344 2 3 (by decide) (by decide) (by decide)⟩

/-! ## luma_bit.c and chroma_bit.c: transform and quantisation -/

/-- C19: in exact arithmetic, `inverse_dct` applied to the coefficients
computed by `dct` returns the four luma values of the block:
`a-b-c+d = y1` (topL), `a-b+c-d = y2` (topR), `a+b-c-d = y3` (botL),
`a+b+c+d = y4` (botR). -/
theorem inverse_dct_dct {K : Type} [LinearOrderedField K] (xyz fresh : XYZ_block K) :
    ((dct xyz).a - (dct xyz).b - (dct xyz).c + (dct xyz).d = xyz.topL.luma ∧
     (dct xyz).a - (dct xyz).b + (dct xyz).c - (dct xyz).d = xyz.topR.luma ∧
     (dct xyz).a + (dct xyz).b - (dct xyz).c - (dct xyz).d = xyz.botL.luma ∧
     (dct xyz).a + (dct xyz).b + (dct xyz).c + (dct xyz).d = xyz.botR.luma) ∧
    ((inverse_dct fresh (dct xyz)).topL.luma = xyz.topL.luma ∧
     (inverse_dct fresh (dct xyz)).topR.luma = xyz.topR.luma ∧
     (inverse_dct fresh (dct xyz)).botL.luma = xyz.botL.luma ∧
     (inverse_dct fresh (dct xyz)).botR.luma = xyz.botR.luma) := by
  simp only [dct, inverse_dct]
  refine ⟨⟨?_, ?_, ?_, ?_⟩, ?_, ?_, ?_, ?_⟩ <;> ring

theorem fit_range_eq {K : Type} [LinearOrderedField K] (v hi lo : K) (h : lo ≤ hi) :
    fit_range v hi lo = max lo (min v hi) := by
  unfold fit_range
  split
  · next h1 =>
    rw [min_eq_right (le_of_lt h1), max_eq_right h]
  · next h1 =>
    have h1b : v ≤ hi := not_lt.mp h1
    rw [min_eq_left h1b]
    split
    · next h2 => rw [max_eq_left (le_of_lt h2)]
    · next h2 => rw [max_eq_right (not_lt.mp h2)]

theorem fit_range_mem {K : Type} [LinearOrderedField K] (v hi lo : K) (h : lo ≤ hi) :
    lo ≤ fit_range v hi lo ∧ fit_range v hi lo ≤ hi := by
  rw [fit_range_eq v hi lo h]
  exact ⟨le_max_left _ _, max_le h (min_le_right _ _)⟩

theorem trunc_bounds {K : Type} [LinearOrderedField K] [FloorRing K] (x : K) (lo hi : Int)
    (hlo : lo ≤ 0) (hhi : 0 ≤ hi) (h1 : (lo : K) ≤ x) (h2 : x ≤ (hi : K)) :
    lo ≤ trunc x ∧ trunc x ≤ hi := by
  unfold trunc
  split
  · next h0 =>
    constructor
    · exact le_trans hlo (Int.floor_nonneg.mpr h0)
    · have : ((Int.floor x : Int) : K) ≤ (hi : K) := le_trans (Int.floor_le x) h2
      exact Int.cast_le.mp this
  · next h0 =>
    have hx : x ≤ ((0 : Int) : K) := by
      rw [Int.cast_zero]; exact le_of_lt (not_le.mp h0)
    constructor
    · have : (lo : K) ≤ ((Int.ceil x : Int) : K) := le_trans h1 (Int.le_ceil x)
      exact Int.cast_le.mp this
    · exact le_trans (Int.ceil_le.mpr hx) hhi

theorem get_max_6 : get_max ((A_WIDTH : Nat) : Int) = 63 := by decide

theorem get_max_5 : get_max (((B_WIDTH : Nat) : Int) - 1) = 31 := by decide

theorem u32_of_range {x : Int} (h1 : 0 ≤ x) (h2 : x < 2 ^ 32) : u32 x = x.toNat := by
  unfold u32
  omega

theorem clamp_unit_scaled {K : Type} [LinearOrderedField K] (a : K) :
    0 ≤ max 0 (min a 1) * 63 ∧ max 0 (min a 1) * 63 ≤ 63 := by
  have h1 : (0 : K) ≤ max 0 (min a 1) := le_max_left _ _
  have h2 : max 0 (min a 1) ≤ (1 : K) := max_le zero_le_one (min_le_right _ _)
  constructor
  · exact mul_nonneg h1 (by norm_num)
  · linarith

theorem quantize_a_eq {K : Type} [LinearOrderedField K] [FloorRing K] (a : K) :
    quantize_a a 6 = (Int.floor (max 0 (min a 1) * 63)).toNat := by
  have hm : get_max 6 = 63 := by decide
  obtain ⟨h0, h63⟩ := clamp_unit_scaled a
  have hx : fit_range a A_MAX A_MIN * (((63 : Nat) : K) / A_MAX) = max 0 (min a 1) * 63 := by
    rw [fit_range_eq a A_MAX A_MIN (by unfold A_MAX A_MIN; exact zero_le_one)]
    unfold A_MAX A_MIN
    norm_num
  unfold quantize_a
  simp only [hm, hx]
  unfold float_to_unsigned trunc
  rw [if_pos h0]
  have hb := trunc_bounds (max 0 (min a 1) * 63) 0 63 (le_refl _) (by decide)
    (by rw [Int.cast_zero]; exact h0) (by push_cast; exact h63)
  unfold trunc at hb
  rw [if_pos h0] at hb
  exact u32_of_range hb.1 (by omega)

theorem quantize_a_le {K : Type} [LinearOrderedField K] [FloorRing K] (a : K) :
    quantize_a a 6 ≤ 63 := by
  obtain ⟨h0, h63⟩ := clamp_unit_scaled a
  have hfl63 : Int.floor (max 0 (min a 1) * 63) ≤ 63 := by
    have : ((Int.floor (max 0 (min a 1) * 63) : Int) : K) ≤ ((63 : Int) : K) :=
      le_trans (Int.floor_le _) (by push_cast; exact h63)
    exact Int.cast_le.mp this
  rw [quantize_a_eq]
  omega

/-- C20: for every `a`, `quantize_a a 6` is the integer part of
`clamp(a, 0, 1) * 63` rounded toward zero, a value in `0..63`; `a ≤ 0` gives
`0` and `a ≥ 1` gives `63`. -/
theorem quantize_a_value {K : Type} [LinearOrderedField K] [FloorRing K] (a : K) :
    ((quantize_a a 6 : Nat) : Int) = trunc (max 0 (min a 1) * 63) ∧
    (((quantize_a a 6 : Nat) : K) ≤ max 0 (min a 1) * 63 ∧
      max 0 (min a 1) * 63 < ((quantize_a a 6 : Nat) : K) + 1) ∧
    quantize_a a 6 ≤ 63 ∧
    (a ≤ 0 → quantize_a a 6 = 0) ∧
    (1 ≤ a → quantize_a a 6 = 63) := by
  obtain ⟨h0, h63⟩ := clamp_unit_scaled a
  have hfl0 : 0 ≤ Int.floor (max 0 (min a 1) * 63) := Int.floor_nonneg.mpr h0
  have hfl63 : Int.floor (max 0 (min a 1) * 63) ≤ 63 := by
    have : ((Int.floor (max 0 (min a 1) * 63) : Int) : K) ≤ ((63 : Int) : K) :=
      le_trans (Int.floor_le _) (by push_cast; exact h63)
    exact Int.cast_le.mp this
  have hcast : ((quantize_a a 6 : Nat) : Int) = Int.floor (max 0 (min a 1) * 63) := by
    rw [quantize_a_eq, Int.toNat_of_nonneg hfl0]
  have hcastK : ((quantize_a a 6 : Nat) : K) = ((Int.floor (max 0 (min a 1) * 63) : Int) : K) := by
    rw [← hcast]
    simp
  refine ⟨?_, ⟨?_, ?_⟩, ?_, ?_, ?_⟩
  · rw [hcast]
    unfold trunc
    rw [if_pos h0]
  · rw [hcastK]
    exact Int.floor_le _
  · rw [hcastK]
    exact Int.lt_floor_add_one _
  · omega
  · intro ha
    have e : max 0 (min a 1) * 63 = (0 : K) := by
      rw [min_eq_left (le_trans ha zero_le_one), max_eq_left ha, zero_mul]
    rw [quantize_a_eq, e]
    simp
  · intro ha
    have e : max 0 (min a 1) * 63 = ((63 : Int) : K) := by
      rw [min_eq_right ha, max_eq_right zero_le_one]
      norm_num
    rw [quantize_a_eq, e, Int.floor_intCast]
    rfl

theorem quantize_a_value_witness :
    quantize_a (2 : ℚ) 6 = 63 ∧ quantize_a (-1 : ℚ) 6 = 0 :=
  ⟨(quantize_a_value (2 : ℚ)).2.2.2.2 (by norm_num),
    (quantize_a_value (-1 : ℚ)).2.2.2.1 (by norm_num)⟩

theorem quantize_bcd_bounds {K : Type} [LinearOrderedField K] [FloorRing K] (v : K) :
    -31 ≤ quantize_bcd v 6 ∧ quantize_bcd v 6 ≤ 31 := by
  have hm : get_max (6 - 1) = 31 := by decide
  have hr := fit_range_mem v (BCD_MAX : K) BCD_MIN (by unfold BCD_MAX BCD_MIN; norm_num)
  unfold quantize_bcd
  simp only [hm]
  generalize fit_range v (BCD_MAX : K) BCD_MIN = c at hr
  unfold BCD_MAX BCD_MIN at hr
  obtain ⟨hlo, hhi⟩ := hr
  have hb := trunc_bounds (c * (((31 : Nat) : K) / BCD_MAX)) (-31) 31 (by decide) (by decide)
    (by unfold BCD_MAX; norm_num; linarith) (by unfold BCD_MAX; norm_num; linarith)
  unfold float_to_int
  rw [s32_of_range (by omega) (by omega)]
  exact hb

/-- C11: for every block of luma, Pb and Pr values, if the external chroma
index function returns values in `0..15`, the bit block filled by
`chroma_to_bit` and then `luma_to_bit` has `a` in `[0, 63]`, `b`, `c`, `d` in
`[-31, 31]` and `Pb`, `Pr` in `[0, 15]`, and `pack` returns a codeword for
it. -/
theorem quantized_fields_fit {K : Type} [LinearOrderedField K] [FloorRing K]
    (index_of_chroma : K → Nat) (hidx : ∀ x, index_of_chroma x ≤ 15) (xyz : XYZ_block K)
    (bit0 : bit_block) :
    (luma_to_bit xyz (chroma_to_bit index_of_chroma xyz bit0)).a ≤ 63 ∧
    (-31 ≤ (luma_to_bit xyz (chroma_to_bit index_of_chroma xyz bit0)).b ∧
      (luma_to_bit xyz (chroma_to_bit index_of_chroma xyz bit0)).b ≤ 31) ∧
    (-31 ≤ (luma_to_bit xyz (chroma_to_bit index_of_chroma xyz bit0)).c ∧
      (luma_to_bit xyz (chroma_to_bit index_of_chroma xyz bit0)).c ≤ 31) ∧
    (-31 ≤ (luma_to_bit xyz (chroma_to_bit index_of_chroma xyz bit0)).d ∧
      (luma_to_bit xyz (chroma_to_bit index_of_chroma xyz bit0)).d ≤ 31) ∧
    (luma_to_bit xyz (chroma_to_bit index_of_chroma xyz bit0)).Pb ≤ 15 ∧
    (luma_to_bit xyz (chroma_to_bit index_of_chroma xyz bit0)).Pr ≤ 15 ∧
    ∃ codeword, pack (luma_to_bit xyz (chroma_to_bit index_of_chroma xyz bit0)) = .ok codeword := by
  have ha : (luma_to_bit xyz (chroma_to_bit index_of_chroma xyz bit0)).a ≤ 63 :=
    quantize_a_le (dct xyz).a
  have hb : -31 ≤ (luma_to_bit xyz (chroma_to_bit index_of_chroma xyz bit0)).b ∧
      (luma_to_bit xyz (chroma_to_bit index_of_chroma xyz bit0)).b ≤ 31 :=
    quantize_bcd_bounds (dct xyz).b
  have hc : -31 ≤ (luma_to_bit xyz (chroma_to_bit index_of_chroma xyz bit0)).c ∧
      (luma_to_bit xyz (chroma_to_bit index_of_chroma xyz bit0)).c ≤ 31 :=
    quantize_bcd_bounds (dct xyz).c
  have hd : -31 ≤ (luma_to_bit xyz (chroma_to_bit index_of_chroma xyz bit0)).d ∧
      (luma_to_bit xyz (chroma_to_bit index_of_chroma xyz bit0)).d ≤ 31 :=
    quantize_bcd_bounds (dct xyz).d
  have hPb : (luma_to_bit xyz (chroma_to_bit index_of_chroma xyz bit0)).Pb ≤ 15 :=
    hidx (average_Pb xyz)
  have hPr : (luma_to_bit xyz (chroma_to_bit index_of_chroma xyz bit0)).Pr ≤ 15 :=
    hidx (average_Pr xyz)
  refine ⟨ha, hb, hc, hd, hPb, hPr, codeword_of _, pack_fits _ ?_⟩
  exact ⟨ha, hPb, hPr, ⟨by have := hb.1; omega, hb.2⟩, ⟨by have := hc.1; omega, hc.2⟩,
    ⟨by have := hd.1; omega, hd.2⟩⟩

theorem quantized_fields_fit_witness :
    (∀ x : ℚ, (fun _ : ℚ => 7) x ≤ 15) ∧
    ∃ codeword, pack (luma_to_bit (⟨⟨1, 0, 0⟩, ⟨1 / 2, 0, 0⟩, ⟨1 / 4, 0, 0⟩, ⟨0, 0, 0⟩⟩ : XYZ_block ℚ)
      (chroma_to_bit (fun _ : ℚ => 7) ⟨⟨1, 0, 0⟩, ⟨1 / 2, 0, 0⟩, ⟨1 / 4, 0, 0⟩, ⟨0, 0, 0⟩⟩
        ⟨0, 0, 0, 0, 0, 0⟩)) = .ok codeword :=
  ⟨fun _ => (by decide : (7 : Nat) ≤ 15),
    (quantized_fields_fit (fun _ : ℚ => 7) (fun _ => (by decide : (7 : Nat) ≤ 15))
      ⟨⟨1, 0, 0⟩, ⟨1 / 2, 0, 0⟩, ⟨1 / 4, 0, 0⟩, ⟨0, 0, 0⟩⟩ ⟨0, 0, 0, 0, 0, 0⟩).2.2.2.2.2.2⟩

/-! ## The signed quantiser and the dequantiser -/

theorem trunc_neg {K : Type} [LinearOrderedField K] [FloorRing K] (x : K) :
    trunc (-x) = -trunc x := by
  unfold trunc
  rcases lt_trichotomy x 0 with h | h | h
  · have h1 : (0 : K) ≤ -x := by linarith
    have h2 : ¬ (0 : K) ≤ x := not_le.mpr h
    rw [if_pos h1, if_neg h2, Int.floor_neg]
  · subst h
    simp
  · have h1 : ¬ (0 : K) ≤ -x := by
      intro hc
      linarith
    have h2 : (0 : K) ≤ x := le_of_lt h
    rw [if_neg h1, if_pos h2, Int.ceil_neg]

theorem trunc_toward_zero {K : Type} [LinearOrderedField K] [FloorRing K] (x : K) :
    |((trunc x : Int) : K)| ≤ |x| ∧ |x - ((trunc x : Int) : K)| < 1 := by
  unfold trunc
  split
  · next h0 =>
    have h1 := Int.floor_le x
    have h2 := Int.lt_floor_add_one x
    have h3 : (0 : K) ≤ ((Int.floor x : Int) : K) := by
      exact_mod_cast Int.floor_nonneg.mpr h0
    rw [abs_of_nonneg h3, abs_of_nonneg h0, abs_of_nonneg (by linarith)]
    constructor <;> linarith
  · next h0 =>
    have hx : x < 0 := not_le.mp h0
    have h1 := Int.le_ceil x
    have h2 := Int.ceil_lt_add_one x
    have h3 : ((Int.ceil x : Int) : K) ≤ 0 := by
      exact_mod_cast Int.ceil_le.mpr (by exact_mod_cast le_of_lt hx)
    rw [abs_of_nonpos h3, abs_of_neg hx, abs_of_nonpos (by linarith)]
    constructor <;> linarith

theorem fit_range_neg {K : Type} [LinearOrderedField K] (v m : K) (hm : 0 ≤ m) :
    fit_range (-v) m (-m) = -fit_range v m (-m) := by
  unfold fit_range
  by_cases h1 : v > m
  · have h2 : ¬ (-v > m) := by intro hc; linarith
    have h3 : -v < -m := by linarith
    rw [if_pos h1, if_neg h2, if_pos h3]
  · by_cases h4 : v < -m
    · have h5 : -v > m := by linarith
      rw [if_neg h1, if_pos h4, if_pos h5]
      simp
    · have h5 : ¬ (-v > m) := by intro hc; linarith
      have h6 : ¬ (-v < -m) := by intro hc; linarith
      rw [if_neg h1, if_neg h4, if_neg h5, if_neg h6]

theorem quantize_bcd_eq {K : Type} [LinearOrderedField K] [FloorRing K] (v : K) :
    quantize_bcd v 6 = trunc (fit_range v BCD_MAX BCD_MIN * (31 / BCD_MAX)) := by
  have hm : get_max (6 - 1) = 31 := by decide
  have hr := fit_range_mem v (BCD_MAX : K) BCD_MIN (by unfold BCD_MAX BCD_MIN; norm_num)
  unfold quantize_bcd
  simp only [hm]
  generalize fit_range v (BCD_MAX : K) BCD_MIN = c at hr
  unfold BCD_MAX BCD_MIN at hr
  obtain ⟨hlo, hhi⟩ := hr
  have hb := trunc_bounds (c * (((31 : Nat) : K) / BCD_MAX)) (-31) 31 (by decide) (by decide)
    (by unfold BCD_MAX; norm_num; linarith) (by unfold BCD_MAX; norm_num; linarith)
  unfold float_to_int
  rw [s32_of_range (by omega) (by omega)]
  norm_num

theorem scale_a_eq {K : Type} [LinearOrderedField K] (a : K) :
    scale_a a 6 = max 0 (min (a / 63) 1) := by
  have hm : get_max 6 = 63 := by decide
  unfold scale_a
  simp only [hm]
  rw [fit_range_eq _ A_MAX A_MIN (by unfold A_MAX A_MIN; exact zero_le_one)]
  unfold A_MAX A_MIN
  norm_num

theorem scale_bcd_eq {K : Type} [LinearOrderedField K] (q : K) :
    scale_bcd q 6 = max (-(3 / 10)) (min (q * (3 / 10) / 31) (3 / 10)) := by
  have hm : get_max (6 - 1) = 31 := by decide
  unfold scale_bcd
  simp only [hm]
  rw [fit_range_eq _ BCD_MAX BCD_MIN (by unfold BCD_MAX BCD_MIN; norm_num)]
  unfold BCD_MAX BCD_MIN
  have e : q / (((31 : Nat) : K) / (3 / 10)) = q * (3 / 10) / 31 := by
    push_cast
    field_simp
    left
    norm_num
  rw [e]

/-- C23: in exact arithmetic, for `r`, `g`, `b` in `[0, 1]` the pixel computed
by `to_float` has `luma = 0.299 r + 0.587 g + 0.114 b`,
`Pb = -0.168736 r - 0.331264 g + 0.5 b`, `Pr = 0.5 r - 0.418688 g - 0.081312 b`,
with `0 ≤ luma ≤ 1`, `-0.5 ≤ Pb ≤ 0.5` and `-0.5 ≤ Pr ≤ 0.5`. -/
theorem to_float_range {K : Type} [LinearOrderedField K] (rgb : RGB_px K)
    (hr : 0 ≤ rgb.r ∧ rgb.r ≤ 1) (hg : 0 ≤ rgb.g ∧ rgb.g ≤ 1) (hb : 0 ≤ rgb.b ∧ rgb.b ≤ 1) :
    ((to_float rgb).luma = 299 / 1000 * rgb.r + 587 / 1000 * rgb.g + 114 / 1000 * rgb.b ∧
     (to_float rgb).Pb =
       -(168736 / 1000000) * rgb.r - 331264 / 1000000 * rgb.g + 1 / 2 * rgb.b ∧
     (to_float rgb).Pr =
       1 / 2 * rgb.r - 418688 / 1000000 * rgb.g - 81312 / 1000000 * rgb.b) ∧
    (0 ≤ (to_float rgb).luma ∧ (to_float rgb).luma ≤ 1) ∧
    (-(1 / 2) ≤ (to_float rgb).Pb ∧ (to_float rgb).Pb ≤ 1 / 2) ∧
    (-(1 / 2) ≤ (to_float rgb).Pr ∧ (to_float rgb).Pr ≤ 1 / 2) := by
  obtain ⟨r0, r1⟩ := hr
  obtain ⟨g0, g1⟩ := hg
  obtain ⟨b0, b1⟩ := hb
  refine ⟨⟨?_, ?_, ?_⟩, ⟨?_, ?_⟩, ⟨?_, ?_⟩, ⟨?_, ?_⟩⟩
  · simp only [to_float]
  · simp only [to_float]
    norm_num
  · simp only [to_float]
    norm_num
  all_goals simp only [to_float]
  all_goals linarith

theorem to_float_range_witness :
    ((0 ≤ (1 / 3 : ℚ) ∧ (1 / 3 : ℚ) ≤ 1) ∧ (0 ≤ (1 / 7 : ℚ) ∧ (1 / 7 : ℚ) ≤ 1) ∧
      (0 ≤ (1 : ℚ) ∧ (1 : ℚ) ≤ 1)) ∧
    (0 ≤ (to_float (⟨1 / 3, 1 / 7, 1⟩ : RGB_px ℚ)).luma ∧
      (to_float (⟨1 / 3, 1 / 7, 1⟩ : RGB_px ℚ)).luma ≤ 1) :=
  ⟨by norm_num, (to_float_range (⟨1 / 3, 1 / 7, 1⟩ : RGB_px ℚ) (by norm_num) (by norm_num)
    (by norm_num)).2.1⟩

theorem scale_RGB_eq {K : Type} [LinearOrderedField K] (v : K) :
    scale_RGB v = max 0 (min (255 * v) 255) := by
  unfold scale_RGB RGB_MAX
  simp only []
  by_cases h1 : v * 255 > 255
  · rw [if_pos h1, min_eq_right (by linarith), max_eq_right (by norm_num)]
  · rw [if_neg h1, min_eq_left (by linarith)]
    by_cases h2 : v * 255 < 0
    · rw [if_pos h2, max_eq_left (by linarith)]
    · rw [if_neg h2, max_eq_right (by linarith)]
      ring

theorem clamp_near {K : Type} [LinearOrderedField K] (x t e : K) (ht : 0 ≤ t ∧ t ≤ 255)
    (h : |x - t| ≤ e) : |max 0 (min x 255) - t| ≤ e := by
  obtain ⟨t0, t1⟩ := ht
  rw [abs_le] at h ⊢
  obtain ⟨h1, h2⟩ := h
  have he : 0 ≤ e := by linarith
  constructor
  · have : t - e ≤ max 0 (min x 255) := by
      rcases le_total x 255 with hx | hx
      · rw [min_eq_left hx]
        exact le_trans (by linarith) (le_max_right _ _)
      · rw [min_eq_right hx]
        exact le_trans (by linarith) (le_max_right _ _)
    linarith
  · have : max 0 (min x 255) ≤ t + e := by
      apply max_le (by linarith)
      exact le_trans (min_le_left _ _) (by linarith)
    linarith

theorem linear_round_trip {K : Type} [LinearOrderedField K] (r g b : K)
    (hr : 0 ≤ r ∧ r ≤ 1) (hg : 0 ≤ g ∧ g ≤ 1) (hb : 0 ≤ b ∧ b ≤ 1) :
    |255 * (1 * (to_float (⟨r, g, b⟩ : RGB_px K)).luma + 0 * (to_float (⟨r, g, b⟩ : RGB_px K)).Pb
        + 1402 / 1000 * (to_float (⟨r, g, b⟩ : RGB_px K)).Pr) - 255 * r| ≤ 255 / 10000 ∧
    |255 * (1 * (to_float (⟨r, g, b⟩ : RGB_px K)).luma
        - 344136 / 1000000 * (to_float (⟨r, g, b⟩ : RGB_px K)).Pb
        - 714136 / 1000000 * (to_float (⟨r, g, b⟩ : RGB_px K)).Pr) - 255 * g| ≤ 255 / 10000 ∧
    |255 * (1 * (to_float (⟨r, g, b⟩ : RGB_px K)).luma
        + 1772 / 1000 * (to_float (⟨r, g, b⟩ : RGB_px K)).Pb
        + 0 * (to_float (⟨r, g, b⟩ : RGB_px K)).Pr) - 255 * b| ≤ 255 / 10000 := by
  obtain ⟨r0, r1⟩ := hr
  obtain ⟨g0, g1⟩ := hg
  obtain ⟨b0, b1⟩ := hb
  simp only [to_float]
  refine ⟨?_, ?_, ?_⟩ <;> rw [abs_le] <;> constructor <;> linarith

theorem to_int_channels {K : Type} [LinearOrderedField K] (xyz : XYZ_px K) :
    (to_int xyz).r = max 0 (min (255 * (xyz.luma + 1402 / 1000 * xyz.Pr)) 255) ∧
    (to_int xyz).g = max 0 (min (255 * (xyz.luma - 344136 / 1000000 * xyz.Pb
      - 714136 / 1000000 * xyz.Pr)) 255) ∧
    (to_int xyz).b = max 0 (min (255 * (xyz.luma + 1772 / 1000 * xyz.Pb)) 255) := by
  simp only [to_int, quantize_RGB, scale_RGB_eq]
  refine ⟨?_, ?_, ?_⟩ <;> congr 3 <;> ring

/-- C24 (counterexample): for the white pixel `(1, 1, 1)` the red channel
returned by `XYZ_to_RGB (RGB_to_XYZ p)` is `255`, not within `1e-4` of `1`. -/
theorem rgb_round_trip_unscaled_fails :
    ¬ |(XYZ_to_RGB (RGB_to_XYZ (⟨⟨1, 1, 1⟩, ⟨1, 1, 1⟩, ⟨1, 1, 1⟩, ⟨1, 1, 1⟩⟩ : RGB_block ℚ)
        ⟨⟨0, 0, 0⟩, ⟨0, 0, 0⟩, ⟨0, 0, 0⟩, ⟨0, 0, 0⟩⟩)
        ⟨⟨0, 0, 0⟩, ⟨0, 0, 0⟩, ⟨0, 0, 0⟩, ⟨0, 0, 0⟩⟩).topL.r - 1| ≤ (1 / 10000 : ℚ) := by
  have e : (XYZ_to_RGB (RGB_to_XYZ (⟨⟨1, 1, 1⟩, ⟨1, 1, 1⟩, ⟨1, 1, 1⟩, ⟨1, 1, 1⟩⟩ : RGB_block ℚ)
        ⟨⟨0, 0, 0⟩, ⟨0, 0, 0⟩, ⟨0, 0, 0⟩, ⟨0, 0, 0⟩⟩)
        ⟨⟨0, 0, 0⟩, ⟨0, 0, 0⟩, ⟨0, 0, 0⟩, ⟨0, 0, 0⟩⟩).topL.r = 255 := by
    show (to_int (to_float (⟨1, 1, 1⟩ : RGB_px ℚ))).r = 255
    rw [(to_int_channels _).1]
    simp only [to_float]
    norm_num
  rw [e]
  norm_num

/-- C24 (amended): in exact arithmetic, for `r`, `g`, `b` in `[0, 1]` each
channel of the pixel returned by `XYZ_to_RGB (RGB_to_XYZ p)`, which is scaled
to `[0, 255]`, matches the channel of `p` within `1e-4` after division by
`RGB_MAX = 255`; the block functions apply `to_float` and `to_int` to each of
the four pixels. -/
theorem rgb_round_trip_scaled {K : Type} [LinearOrderedField K] (p : RGB_px K)
    (blk rgb0 : RGB_block K) (xyz0 : XYZ_block K)
    (hr : 0 ≤ p.r ∧ p.r ≤ 1) (hg : 0 ≤ p.g ∧ p.g ≤ 1) (hb : 0 ≤ p.b ∧ p.b ≤ 1) :
    (|(to_int (to_float p)).r / 255 - p.r| ≤ 1 / 10000 ∧
     |(to_int (to_float p)).g / 255 - p.g| ≤ 1 / 10000 ∧
     |(to_int (to_float p)).b / 255 - p.b| ≤ 1 / 10000) ∧
    XYZ_to_RGB (RGB_to_XYZ blk xyz0) rgb0 =
      { topL := to_int (to_float blk.topL), topR := to_int (to_float blk.topR)
        botL := to_int (to_float blk.botL), botR := to_int (to_float blk.botR) } := by
  refine ⟨?_, rfl⟩
  obtain ⟨r, g, b⟩ := p
  have h := linear_round_trip r g b hr hg hb
  obtain ⟨c1, c2, c3⟩ := to_int_channels (to_float (⟨r, g, b⟩ : RGB_px K))
  have scale_down : ∀ x t : K, |x - 255 * t| ≤ 255 / 10000 → |x / 255 - t| ≤ 1 / 10000 := by
    intro x t hx
    rw [abs_le] at hx ⊢
    obtain ⟨h1, h2⟩ := hx
    constructor
    · rw [le_sub_iff_add_le, le_div_iff₀ (by norm_num)]
      linarith
    · rw [sub_le_iff_le_add, div_le_iff₀ (by norm_num)]
      linarith
  have t255 : ∀ t : K, 0 ≤ t ∧ t ≤ 1 → 0 ≤ 255 * t ∧ 255 * t ≤ 255 := by
    intro t ht
    constructor <;> linarith [ht.1, ht.2]
  refine ⟨?_, ?_, ?_⟩
  · apply scale_down
    rw [c1]
    apply clamp_near _ _ _ (t255 r hr)
    have := h.1
    simp only [one_mul, zero_mul, add_zero] at this
    exact this
  · apply scale_down
    rw [c2]
    apply clamp_near _ _ _ (t255 g hg)
    have := h.2.1
    simp only [one_mul] at this
    exact this
  · apply scale_down
    rw [c3]
    apply clamp_near _ _ _ (t255 b hb)
    have := h.2.2
    simp only [one_mul, zero_mul, add_zero] at this
    exact this

theorem rgb_round_trip_scaled_witness :
    ((0 ≤ (1 : ℚ) ∧ (1 : ℚ) ≤ 1) ∧ (0 ≤ (1 / 2 : ℚ) ∧ (1 / 2 : ℚ) ≤ 1) ∧
      (0 ≤ (0 : ℚ) ∧ (0 : ℚ) ≤ 1)) ∧
    |(to_int (to_float (⟨1, 1 / 2, 0⟩ : RGB_px ℚ))).r / 255 - 1| ≤ 1 / 10000 :=
  ⟨by norm_num,
    (rgb_round_trip_scaled (⟨1, 1 / 2, 0⟩ : RGB_px ℚ)
      ⟨⟨0, 0, 0⟩, ⟨0, 0, 0⟩, ⟨0, 0, 0⟩, ⟨0, 0, 0⟩⟩ ⟨⟨0, 0, 0⟩, ⟨0, 0, 0⟩, ⟨0, 0, 0⟩, ⟨0, 0, 0⟩⟩
      ⟨⟨0, 0, 0⟩, ⟨0, 0, 0⟩, ⟨0, 0, 0⟩, ⟨0, 0, 0⟩⟩ (by norm_num) (by norm_num)
      (by norm_num)).1.1⟩

theorem sample_of_range {K : Type} [LinearOrderedField K] [FloorRing K] (x : K)
    (h0 : 0 ≤ x) (h1 : x ≤ 255) :
    ((float_to_unsigned x : Nat) : Int) = trunc x ∧ float_to_unsigned x ≤ 255 := by
  have hb := trunc_bounds x 0 255 (le_refl _) (by decide) (by rw [Int.cast_zero]; exact h0)
    (by push_cast; exact h1)
  unfold float_to_unsigned
  rw [u32_of_range hb.1 (by omega)]
  omega

/-- C26: `bit_to_chroma` sets the `Pb` of all four pixels to
`chroma_of_index bit.Pb` and the `Pr` of all four pixels to
`chroma_of_index bit.Pr` and leaves the four luma values as they were; the bit
block is only read. -/
theorem bit_to_chroma_frame {K : Type} (chroma_of_index : Nat → K) (bit : bit_block)
    (xyz : XYZ_block K) :
    ((bit_to_chroma chroma_of_index bit xyz).topL.Pb = chroma_of_index bit.Pb ∧
     (bit_to_chroma chroma_of_index bit xyz).topR.Pb = chroma_of_index bit.Pb ∧
     (bit_to_chroma chroma_of_index bit xyz).botL.Pb = chroma_of_index bit.Pb ∧
     (bit_to_chroma chroma_of_index bit xyz).botR.Pb = chroma_of_index bit.Pb) ∧
    ((bit_to_chroma chroma_of_index bit xyz).topL.Pr = chroma_of_index bit.Pr ∧
     (bit_to_chroma chroma_of_index bit xyz).topR.Pr = chroma_of_index bit.Pr ∧
     (bit_to_chroma chroma_of_index bit xyz).botL.Pr = chroma_of_index bit.Pr ∧
     (bit_to_chroma chroma_of_index bit xyz).botR.Pr = chroma_of_index bit.Pr) ∧
    ((bit_to_chroma chroma_of_index bit xyz).topL.luma = xyz.topL.luma ∧
     (bit_to_chroma chroma_of_index bit xyz).topR.luma = xyz.topR.luma ∧
     (bit_to_chroma chroma_of_index bit xyz).botL.luma = xyz.botL.luma ∧
     (bit_to_chroma chroma_of_index bit xyz).botR.luma = xyz.botR.luma) :=
  ⟨⟨rfl, rfl, rfl, rfl⟩, ⟨rfl, rfl, rfl, rfl⟩, ⟨rfl, rfl, rfl, rfl⟩⟩

/-! ## The block grid of the compressor -/

theorem foldlM_range_inv {σ : Type} (P : Nat → σ → Prop) (f : σ → Nat → Except Exc σ)
    (n : Nat) (s0 : σ) (h0 : P 0 s0)
    (hstep : ∀ i s, i < n → P i s → ∃ s', f s i = .ok s' ∧ P (i + 1) s') :
    ∃ s', (List.range n).foldlM f s0 = .ok s' ∧ P n s' := by
  induction n with
  | zero => exact ⟨s0, rfl, h0⟩
  | succ n ih =>
    obtain ⟨s1, e1, p1⟩ := ih (fun i s hi hp => hstep i s (Nat.lt_succ_of_lt hi) hp)
    obtain ⟨s2, e2, p2⟩ := hstep n s1 (Nat.lt_succ_self n) p1
    refine ⟨s2, ?_, p2⟩
    rw [List.range_succ, List.foldlM_append, e1]
    show (List.foldlM f s1 [n]) = _
    rw [List.foldlM_cons, e2]
    rfl

theorem A2_at_ok (arr : A2) (col row : Nat) (hc : col < arr.width) (hr : row < arr.height) :
    A2_at arr col row = .ok (arr.elems col row) := by
  unfold A2_at
  rw [if_pos ⟨hc, hr⟩]
  rfl

theorem UArray_at_ok {α : Type} (arr : List α) (i : Nat) (h : i < arr.length) :
    UArray_at arr i = .ok (arr.get ⟨i, h⟩) := by
  unfold UArray_at
  rw [List.getElem?_eq_getElem h]
  rfl

theorem get_rgb_block_at_ok {K : Type} [LinearOrderedField K] (image : Pnm_ppm)
    (row col : Nat) (bl : List (RGB_block K)) (cell : Nat) (hcell : cell < bl.length)
    (hc : col + 1 < image.pixels.width) (hr : row + 1 < image.pixels.height) :
    get_rgb_block_at image row col (bl, cell) =
      .ok (bl.set cell (block_of image row col), cell + 1) := by
  unfold get_rgb_block_at
  simp only []
  rw [UArray_at_ok bl cell hcell, ok_bind,
    A2_at_ok _ col row (by omega) (by omega), ok_bind,
    A2_at_ok _ (col + 1) row hc (by omega), ok_bind,
    A2_at_ok _ col (row + 1) (by omega) hr, ok_bind,
    A2_at_ok _ (col + 1) (row + 1) hc hr, ok_bind]
  rfl

theorem inner_loop {K : Type} [LinearOrderedField K] (image : Pnm_ppm) (row m : Nat)
    (bl : List (RGB_block K)) (cell : Nat) (hlen : cell + m ≤ bl.length)
    (hw : 2 * m ≤ image.pixels.width) (hr : row + 1 < image.pixels.height) :
    ∃ out : List (RGB_block K),
      (List.range m).foldlM (fun st j => get_rgb_block_at image row (2 * j) st) (bl, cell)
        = .ok (out, cell + m) ∧
      out.length = bl.length ∧
      ∀ k, out[k]? = if cell ≤ k ∧ k < cell + m then some (block_of image row (2 * (k - cell)))
        else bl[k]? := by
  obtain ⟨⟨out, c⟩, e, hc, hl, hk⟩ := foldlM_range_inv
    (fun j (st : List (RGB_block K) × Nat) => st.2 = cell + j ∧ st.1.length = bl.length ∧
      ∀ k, st.1[k]? = if cell ≤ k ∧ k < cell + j then some (block_of image row (2 * (k - cell)))
        else bl[k]?)
    (fun st j => get_rgb_block_at image row (2 * j) st) m (bl, cell)
    ⟨rfl, rfl, fun k => by
      have : ¬ (cell ≤ k ∧ k < cell + 0) := by omega
      rw [if_neg this]⟩
    (by
      rintro j ⟨o, c⟩ hj ⟨hc, hl, hk⟩
      simp only at hc hl hk
      subst hc
      refine ⟨_, get_rgb_block_at_ok image row (2 * j) o (cell + j) (by omega) (by omega) hr,
        rfl, by simp [hl], ?_⟩
      intro k
      simp only [List.getElem?_set, hk]
      by_cases h1 : cell + j = k
      · subst h1
        have h2 : cell + j < o.length := by omega
        have h3 : cell ≤ cell + j ∧ cell + j < cell + (j + 1) := by omega
        rw [if_pos rfl, if_pos h2, if_pos h3]
        congr 3
        omega
      · rw [if_neg h1]
        by_cases h4 : cell ≤ k ∧ k < cell + j
        · have h5 : cell ≤ k ∧ k < cell + (j + 1) := by omega
          rw [if_pos h4, if_pos h5]
        · have h5 : ¬ (cell ≤ k ∧ k < cell + (j + 1)) := by omega
          rw [if_neg h4, if_neg h5])
  simp only at hc hl hk
  subst hc
  exact ⟨out, e, hl, hk⟩

theorem div_mod_of_between {k i m : Nat} (h1 : i * m ≤ k) (h2 : k < (i + 1) * m) :
    k / m = i ∧ k % m = k - i * m := by
  have hm : 0 < m := by
    rcases Nat.eq_zero_or_pos m with h | h
    · subst h; simp at h2
    · exact h
  have hd : k / m = i := Nat.div_eq_of_lt_le h1 h2
  refine ⟨hd, ?_⟩
  have := Nat.div_add_mod k m
  rw [hd, Nat.mul_comm] at this
  omega

theorem outer_loop {K : Type} [LinearOrderedField K] (image : Pnm_ppm) (n m : Nat)
    (bl : List (RGB_block K)) (hlen : n * m ≤ bl.length)
    (hw : 2 * m ≤ image.pixels.width) (hh : 2 * n ≤ image.pixels.height) :
    ∃ out : List (RGB_block K),
      (List.range n).foldlM (fun st i =>
        (List.range m).foldlM (fun st j => get_rgb_block_at image (2 * i) (2 * j) st) st)
        (bl, 0) = .ok (out, n * m) ∧
      out.length = bl.length ∧
      ∀ k, out[k]? = if k < n * m then some (block_of image (2 * (k / m)) (2 * (k % m)))
        else bl[k]? := by
  obtain ⟨⟨out, c⟩, e, hc, hl, hk⟩ := foldlM_range_inv
    (fun i (st : List (RGB_block K) × Nat) => st.2 = i * m ∧ st.1.length = bl.length ∧
      ∀ k, st.1[k]? = if k < i * m then some (block_of image (2 * (k / m)) (2 * (k % m)))
        else bl[k]?)
    (fun st i =>
      (List.range m).foldlM (fun st j => get_rgb_block_at image (2 * i) (2 * j) st) st)
    n (bl, 0)
    ⟨by simp, rfl, fun k => by simp⟩
    (by
      rintro i ⟨o, c⟩ hi ⟨hc, hl, hk⟩
      simp only at hc hl hk
      subst hc
      have him : (i + 1) * m ≤ n * m := Nat.mul_le_mul_right m hi
      have hsucc : (i + 1) * m = i * m + m := by ring
      obtain ⟨o2, e2, l2, k2⟩ := inner_loop image (2 * i) m o (i * m) (by omega) hw (by omega)
      refine ⟨(o2, i * m + m), e2, hsucc.symm ▸ rfl, by simp [l2, hl], ?_⟩
      intro k
      simp only [k2, hk]
      by_cases h1 : i * m ≤ k ∧ k < i * m + m
      · have h2 : k < (i + 1) * m := by omega
        obtain ⟨hd, hmod⟩ := div_mod_of_between h1.1 h2
        rw [if_pos h1, if_pos h2, hd, hmod]
      · rw [if_neg h1]
        by_cases h3 : k < i * m
        · have h4 : k < (i + 1) * m := by omega
          rw [if_pos h3, if_pos h4]
        · have h4 : ¬ k < (i + 1) * m := by omega
          rw [if_neg h3, if_neg h4])
  simp only at hc hl hk
  subst hc
  exact ⟨out, e, hl, hk⟩

theorem s32_natCast {n : Nat} (h : n < 2 ^ 31) : s32 (n : Int) = n := by
  unfold s32
  omega

theorem for_step2_even {σ : Type} (n : Nat) (hn : n < 2 ^ 31) (he : n % 2 = 0)
    (body : Nat → σ → Except Exc σ) (s : σ) :
    for_step2 (s32 (n : Int)) body s =
      (List.range (n / 2)).foldlM (fun s i => body (2 * i) s) s := by
  unfold for_step2
  rw [s32_natCast hn]
  have e : ((n : Int).toNat + 1) / 2 = n / 2 := by
    rw [Int.toNat_natCast]
    omega
  rw [e]

theorem get_rgb_blocks_ok {K : Type} [LinearOrderedField K] (image : Pnm_ppm)
    (bl : List (RGB_block K)) (hw31 : image.width < 2 ^ 31) (hh31 : image.height < 2 ^ 31)
    (hwe : image.width % 2 = 0) (hhe : image.height % 2 = 0)
    (hlen : (image.height / 2) * (image.width / 2) ≤ bl.length)
    (hpw : image.width ≤ image.pixels.width) (hph : image.height ≤ image.pixels.height) :
    ∃ out : List (RGB_block K), get_rgb_blocks bl image = .ok out ∧
      out.length = bl.length ∧
      ∀ k, out[k]? = if k < (image.height / 2) * (image.width / 2) then
          some (block_of image (2 * (k / (image.width / 2))) (2 * (k % (image.width / 2))))
        else bl[k]? := by
  obtain ⟨out, e, hl, hk⟩ := outer_loop image (image.height / 2) (image.width / 2) bl hlen
    (by omega) (by omega)
  refine ⟨out, ?_, hl, hk⟩
  unfold get_rgb_blocks
  simp only []
  rw [for_step2_even image.height hh31 hhe]
  have inner : (fun (s : List (RGB_block K) × Nat) (i : Nat) =>
      for_step2 (s32 (image.width : Int))
        (fun col st => get_rgb_block_at image (2 * i) col st) s) =
      (fun st i => (List.range (image.width / 2)).foldlM
        (fun st j => get_rgb_block_at image (2 * i) (2 * j) st) st) := by
    funext s i
    exact for_step2_even image.width hw31 hwe _ s
  rw [inner, e]
  rfl

/-- C27: for a pixmap of even width `w` and height `h`, `get_rgb_blocks`
returns with the first `(w/2) * (h/2)` blocks of the array filled and the
others untouched, so an array of exactly that many blocks suffices; the block
at index `br * (w/2) + bc` has `topL`, `topR`, `botL`, `botR` taken from the
pixels at (row `2 br`, col `2 bc`), (row `2 br`, col `2 bc + 1`),
(row `2 br + 1`, col `2 bc`), (row `2 br + 1`, col `2 bc + 1`). -/
theorem get_rgb_blocks_layout {K : Type} [LinearOrderedField K] (image : Pnm_ppm)
    (bl : List (RGB_block K)) (hw31 : image.width < 2 ^ 31) (hh31 : image.height < 2 ^ 31)
    (hwe : image.width % 2 = 0) (hhe : image.height % 2 = 0)
    (hlen : (image.width / 2) * (image.height / 2) ≤ bl.length)
    (hpw : image.width ≤ image.pixels.width) (hph : image.height ≤ image.pixels.height) :
    ∃ out : List (RGB_block K), get_rgb_blocks bl image = .ok out ∧
      out.length = bl.length ∧
      (∀ br bc, br < image.height / 2 → bc < image.width / 2 →
        out[br * (image.width / 2) + bc]? = some
          { topL := get_rgb_pixel (image.pixels.elems (2 * bc) (2 * br)) (image.denominator : K)
            topR := get_rgb_pixel (image.pixels.elems (2 * bc + 1) (2 * br))
              (image.denominator : K)
            botL := get_rgb_pixel (image.pixels.elems (2 * bc) (2 * br + 1))
              (image.denominator : K)
            botR := get_rgb_pixel (image.pixels.elems (2 * bc + 1) (2 * br + 1))
              (image.denominator : K) }) ∧
      (∀ k, (image.width / 2) * (image.height / 2) ≤ k → out[k]? = bl[k]?) := by
  obtain ⟨out, e, hl, hk⟩ := get_rgb_blocks_ok image bl hw31 hh31 hwe hhe
    (by rw [Nat.mul_comm]; exact hlen) hpw hph
  refine ⟨out, e, hl, ?_, ?_⟩
  · intro br bc hbr hbc
    have h1 : br * (image.width / 2) ≤ br * (image.width / 2) + bc := Nat.le_add_right _ _
    have h2 : br * (image.width / 2) + bc < (br + 1) * (image.width / 2) := by
      rw [Nat.add_mul, Nat.one_mul]
      omega
    have h3 : br * (image.width / 2) + bc < (image.height / 2) * (image.width / 2) :=
      Nat.lt_of_lt_of_le h2 (Nat.mul_le_mul_right _ hbr)
    obtain ⟨hd, hm⟩ := div_mod_of_between h1 h2
    rw [hk, if_pos h3, hd, hm, Nat.add_sub_cancel_left]
    rfl
  · intro k hge
    have h3 : ¬ k < (image.height / 2) * (image.width / 2) := by
      rw [Nat.mul_comm]
      omega
    rw [hk, if_neg h3]

theorem get_rgb_blocks_layout_witness :
    ((4 : Nat) < 2 ^ 31 ∧ (2 : Nat) < 2 ^ 31 ∧ 4 % 2 = 0 ∧ 2 % 2 = 0 ∧ 4 / 2 * (2 / 2) ≤ 2) ∧
    ∃ out : List (RGB_block ℚ),
      get_rgb_blocks [⟨⟨0, 0, 0⟩, ⟨0, 0, 0⟩, ⟨0, 0, 0⟩, ⟨0, 0, 0⟩⟩,
          ⟨⟨0, 0, 0⟩, ⟨0, 0, 0⟩, ⟨0, 0, 0⟩, ⟨0, 0, 0⟩⟩]
        ⟨4, 2, 255, ⟨4, 2, fun col row => ⟨10 * col + row, 128, 255⟩⟩⟩ = .ok out ∧
      out.length = 2 :=
  ⟨by decide,
    match get_rgb_blocks_layout ⟨4, 2, 255, ⟨4, 2, fun col row => ⟨10 * col + row, 128, 255⟩⟩⟩
      ([⟨⟨0, 0, 0⟩, ⟨0, 0, 0⟩, ⟨0, 0, 0⟩, ⟨0, 0, 0⟩⟩,
        ⟨⟨0, 0, 0⟩, ⟨0, 0, 0⟩, ⟨0, 0, 0⟩, ⟨0, 0, 0⟩⟩] : List (RGB_block ℚ))
      (by decide) (by decide) (by decide) (by decide) (by decide) (by decide) (by decide) with
    | ⟨out, h1, h2, _⟩ => ⟨out, h1, h2⟩⟩

/-! ## compress40 on odd dimensions -/

theorem trim_ppm_eq (image : Pnm_ppm) (hW : image.width < 2 ^ 32)
    (hH : image.height < 2 ^ 32) :
    trim_ppm image =
      { image with width := 2 * (image.width / 2), height := 2 * (image.height / 2) } := by
  obtain ⟨W, H, D, px⟩ := image
  simp only at hW hH
  unfold trim_ppm sub32
  rcases Nat.mod_two_eq_zero_or_one W with h1 | h1 <;>
    rcases Nat.mod_two_eq_zero_or_one H with h2 | h2 <;>
    simp only [h1, h2, ne_eq, not_true_eq_false, one_ne_zero, not_false_eq_true, if_true,
      if_false, Pnm_ppm.mk.injEq, and_true, true_and] <;>
    omega

theorem foldlM_congr_mem {σ α : Type} (l : List α) (f g : σ → α → Except Exc σ)
    (h : ∀ a ∈ l, ∀ s, f s a = g s a) (s : σ) : l.foldlM f s = l.foldlM g s := by
  induction l generalizing s with
  | nil => rfl
  | cons a t ih =>
    rw [List.foldlM_cons, List.foldlM_cons, h a (List.mem_cons_self a t) s]
    cases g s a with
    | error e => rfl
    | ok s1 => exact ih (fun b hb s => h b (List.mem_cons_of_mem a hb) s) s1

theorem get_rgb_block_at_congr {K : Type} [LinearOrderedField K] (I1 I2 : Pnm_ppm)
    (row col : Nat) (st : List (RGB_block K) × Nat)
    (hd : I1.denominator = I2.denominator)
    (hc1 : col + 1 < I1.pixels.width) (hr1 : row + 1 < I1.pixels.height)
    (hc2 : col + 1 < I2.pixels.width) (hr2 : row + 1 < I2.pixels.height)
    (he : ∀ c r, c ≤ col + 1 → r ≤ row + 1 → I1.pixels.elems c r = I2.pixels.elems c r) :
    get_rgb_block_at I1 row col st = get_rgb_block_at I2 row col st := by
  unfold get_rgb_block_at
  simp only []
  rw [A2_at_ok I1.pixels col row (by omega) (by omega),
    A2_at_ok I1.pixels (col + 1) row hc1 (by omega),
    A2_at_ok I1.pixels col (row + 1) (by omega) hr1,
    A2_at_ok I1.pixels (col + 1) (row + 1) hc1 hr1,
    A2_at_ok I2.pixels col row (by omega) (by omega),
    A2_at_ok I2.pixels (col + 1) row hc2 (by omega),
    A2_at_ok I2.pixels col (row + 1) (by omega) hr2,
    A2_at_ok I2.pixels (col + 1) (row + 1) hc2 hr2,
    he col row (by omega) (by omega), he (col + 1) row (by omega) (by omega),
    he col (row + 1) (by omega) (by omega), he (col + 1) (row + 1) (by omega) (by omega), hd]

theorem step2_index {n i : Nat} (hn : n < 2 ^ 32) (he : n % 2 = 0)
    (hi : i < ((s32 (n : Int)).toNat + 1) / 2) : 2 * i + 1 < n := by
  unfold s32 at hi
  omega

theorem get_rgb_blocks_congr {K : Type} [LinearOrderedField K] (I1 I2 : Pnm_ppm)
    (bl : List (RGB_block K))
    (hw : I2.width = I1.width) (hh : I2.height = I1.height)
    (hd : I1.denominator = I2.denominator)
    (hW : I1.width < 2 ^ 32) (hH : I1.height < 2 ^ 32)
    (hwe : I1.width % 2 = 0) (hhe : I1.height % 2 = 0)
    (hp1w : I1.width ≤ I1.pixels.width) (hp1h : I1.height ≤ I1.pixels.height)
    (hp2w : I1.width ≤ I2.pixels.width) (hp2h : I1.height ≤ I2.pixels.height)
    (he : ∀ c r, c < I1.width → r < I1.height → I1.pixels.elems c r = I2.pixels.elems c r) :
    get_rgb_blocks bl I1 = get_rgb_blocks bl I2 := by
  unfold get_rgb_blocks for_step2
  simp only []
  rw [hw, hh]
  have key : ∀ s : List (RGB_block K) × Nat,
      (List.range (((s32 (I1.height : Int)).toNat + 1) / 2)).foldlM (fun s i =>
        (List.range (((s32 (I1.width : Int)).toNat + 1) / 2)).foldlM
          (fun s j => get_rgb_block_at I1 (2 * i) (2 * j) s) s) s =
      (List.range (((s32 (I1.height : Int)).toNat + 1) / 2)).foldlM (fun s i =>
        (List.range (((s32 (I1.width : Int)).toNat + 1) / 2)).foldlM
          (fun s j => get_rgb_block_at I2 (2 * i) (2 * j) s) s) s := by
    intro s
    apply foldlM_congr_mem
    intro i hi s1
    apply foldlM_congr_mem
    intro j hj s2
    have h1 := step2_index hH hhe (List.mem_range.mp hi)
    have h2 := step2_index hW hwe (List.mem_range.mp hj)
    exact get_rgb_block_at_congr I1 I2 (2 * i) (2 * j) s2 hd (by omega) (by omega)
      (by omega) (by omega) (fun c r hc hr => he c r (by omega) (by omega))
  rw [key]

theorem float_to_unsigned_RGB_MAX {K : Type} [LinearOrderedField K] [FloorRing K] :
    float_to_unsigned (RGB_MAX : K) = 255 := by
  unfold float_to_unsigned trunc RGB_MAX
  have h : (0 : K) ≤ 255 := by norm_num
  have e : Int.floor (255 : K) = 255 := by
    simp
  rw [if_pos h, e]
  rfl

theorem compress40_eq {K : Type} [LinearOrderedField K] [FloorRing K]
    (index_of_chroma : K → Nat) (sgn : Bool) (image : Pnm_ppm) :
    compress40 index_of_chroma sgn image =
      (get_rgb_blocks (new_blocks ((image.width / 2) * (image.height / 2) % 2 ^ 32)
          ({ topL := { r := 0, g := 0, b := 0 }, topR := { r := 0, g := 0, b := 0 },
             botL := { r := 0, g := 0, b := 0 }, botR := { r := 0, g := 0, b := 0 } } :
            RGB_block K))
        (trim_ppm (scale_ppm K image))).bind (fun rgb_blocks =>
      (rgb_xyz (new_blocks ((image.width / 2) * (image.height / 2) % 2 ^ 32)
          ({ topL := { luma := 0, Pb := 0, Pr := 0 }, topR := { luma := 0, Pb := 0, Pr := 0 },
             botL := { luma := 0, Pb := 0, Pr := 0 },
             botR := { luma := 0, Pb := 0, Pr := 0 } } : XYZ_block K)) rgb_blocks).bind
        (fun xyz_blocks =>
      (chroma index_of_chroma (new_blocks ((image.width / 2) * (image.height / 2) % 2 ^ 32)
          { a := 0, Pb := 0, Pr := 0, b := 0, c := 0, d := 0 }) xyz_blocks).bind
        (fun bit_blocks =>
      (luma bit_blocks xyz_blocks).bind (fun bit_blocks =>
      (pixpack (new_blocks ((image.width / 2) * (image.height / 2) % 2 ^ 32) 0)
          bit_blocks).bind (fun codewords =>
      write sgn codewords (trim_ppm (scale_ppm K image)).width
        (trim_ppm (scale_ppm K image)).height))))) := by
  unfold compress40 read
  simp only []
  cases get_rgb_blocks (new_blocks ((image.width / 2) * (image.height / 2) % 2 ^ 32)
          ({ topL := { r := 0, g := 0, b := 0 }, topR := { r := 0, g := 0, b := 0 },
             botL := { r := 0, g := 0, b := 0 }, botR := { r := 0, g := 0, b := 0 } } :
            RGB_block K))
        (trim_ppm (scale_ppm K image)) <;> rfl

theorem compress40_crop_eq {K : Type} [LinearOrderedField K] [FloorRing K]
    (index_of_chroma : K → Nat) (sgn : Bool) (image : Pnm_ppm)
    (hW : image.width < 2 ^ 32) (hH : image.height < 2 ^ 32)
    (hpw : image.pixels.width = image.width) (hph : image.pixels.height = image.height) :
    compress40 index_of_chroma sgn image = compress40 index_of_chroma sgn (crop image) := by
  have hcw : (crop image).width = 2 * (image.width / 2) := rfl
  have hch : (crop image).height = 2 * (image.height / 2) := rfl
  have t1 := trim_ppm_eq (scale_ppm K image) hW hH
  have t2 := trim_ppm_eq (scale_ppm K (crop image))
    (by show 2 * (image.width / 2) < 2 ^ 32; omega)
    (by show 2 * (image.height / 2) < 2 ^ 32; omega)
  have g : ∀ bl : List (RGB_block K),
      get_rgb_blocks bl (trim_ppm (scale_ppm K image)) =
        get_rgb_blocks bl (trim_ppm (scale_ppm K (crop image))) := by
    intro bl
    rw [t1, t2]
    apply get_rgb_blocks_congr
    · show 2 * (2 * (image.width / 2) / 2) = 2 * (image.width / 2)
      omega
    · show 2 * (2 * (image.height / 2) / 2) = 2 * (image.height / 2)
      omega
    · rfl
    · show 2 * (image.width / 2) < 2 ^ 32
      omega
    · show 2 * (image.height / 2) < 2 ^ 32
      omega
    · show 2 * (image.width / 2) % 2 = 0
      omega
    · show 2 * (image.height / 2) % 2 = 0
      omega
    · show 2 * (image.width / 2) ≤ image.pixels.width
      omega
    · show 2 * (image.height / 2) ≤ image.pixels.height
      omega
    · show 2 * (image.width / 2) ≤ 2 * (image.width / 2)
      exact Nat.le_refl _
    · show 2 * (image.height / 2) ≤ 2 * (image.height / 2)
      exact Nat.le_refl _
    · intro c r hc hr
      have hc' : c < 2 * (image.width / 2) := hc
      have hr' : r < 2 * (image.height / 2) := hr
      show scale K image.denominator (image.pixels.elems c r) =
        scale K image.denominator
          (if c < 2 * (image.width / 2) ∧ r < 2 * (image.height / 2) then
            image.pixels.elems c r else { red := 0, green := 0, blue := 0 })
      rw [if_pos ⟨hc', hr'⟩]
  have w : (trim_ppm (scale_ppm K image)).width =
      (trim_ppm (scale_ppm K (crop image))).width := by
    rw [t1, t2]
    show 2 * (image.width / 2) = 2 * (2 * (image.width / 2) / 2)
    omega
  have h : (trim_ppm (scale_ppm K image)).height =
      (trim_ppm (scale_ppm K (crop image))).height := by
    rw [t1, t2]
    show 2 * (image.height / 2) = 2 * (2 * (image.height / 2) / 2)
    omega
  have l : (crop image).width / 2 * ((crop image).height / 2) =
      image.width / 2 * (image.height / 2) := by
    rw [hcw, hch, Nat.mul_div_cancel_left _ (by decide : 0 < 2),
      Nat.mul_div_cancel_left _ (by decide : 0 < 2)]
  rw [compress40_eq, compress40_eq, l, g, w, h]

theorem map_blocks_all {α β : Type} (stage : α → β → Except Exc β) (Px : α → Prop)
    (Py Q : β → Prop) (xs : List α) (ys : List β) (hlen : xs.length = ys.length)
    (hx : ∀ x ∈ xs, Px x) (hy : ∀ y ∈ ys, Py y)
    (h : ∀ x y, Px x → Py y → ∃ y', stage x y = .ok y' ∧ Q y') :
    ∃ out, map_blocks stage xs ys = .ok out ∧ out.length = ys.length ∧ ∀ y ∈ out, Q y := by
  induction xs generalizing ys with
  | nil =>
    cases ys with
    | nil => exact ⟨[], rfl, rfl, fun y hy => absurd hy (List.not_mem_nil y)⟩
    | cons b t => simp at hlen
  | cons a s ih =>
    cases ys with
    | nil => simp at hlen
    | cons b t =>
      obtain ⟨b', e1, q1⟩ := h a b (hx a (List.mem_cons_self a s)) (hy b (List.mem_cons_self b t))
      obtain ⟨out, e2, l2, q2⟩ := ih t (by simpa using hlen)
        (fun x hx' => hx x (List.mem_cons_of_mem a hx'))
        (fun y hy' => hy y (List.mem_cons_of_mem b hy'))
      refine ⟨b' :: out, ?_, by simp [l2], ?_⟩
      · rw [map_blocks, e1, ok_bind, e2, ok_bind]
        rfl
      · intro y hy'
        rcases List.mem_cons.mp hy' with rfl | hm
        · exact q1
        · exact q2 y hm

theorem luma_to_bit_fields_fit {K : Type} [LinearOrderedField K] [FloorRing K]
    (xyz : XYZ_block K) (bit : bit_block) (hPb : bit.Pb ≤ 15) (hPr : bit.Pr ≤ 15) :
    fields_fit (luma_to_bit xyz bit) := by
  have ha : (luma_to_bit xyz bit).a ≤ 63 := quantize_a_le (dct xyz).a
  have hb : -31 ≤ (luma_to_bit xyz bit).b ∧ (luma_to_bit xyz bit).b ≤ 31 :=
    quantize_bcd_bounds (dct xyz).b
  have hc : -31 ≤ (luma_to_bit xyz bit).c ∧ (luma_to_bit xyz bit).c ≤ 31 :=
    quantize_bcd_bounds (dct xyz).c
  have hd : -31 ≤ (luma_to_bit xyz bit).d ∧ (luma_to_bit xyz bit).d ≤ 31 :=
    quantize_bcd_bounds (dct xyz).d
  exact ⟨ha, hPb, hPr, ⟨by have := hb.1; omega, hb.2⟩, ⟨by have := hc.1; omega, hc.2⟩,
    ⟨by have := hd.1; omega, hd.2⟩⟩

theorem read_ok {K : Type} [LinearOrderedField K] [FloorRing K] (image : Pnm_ppm)
    (bl : List (RGB_block K)) (hW : image.width < 2 ^ 31) (hH : image.height < 2 ^ 31)
    (hpw : image.pixels.width = image.width) (hph : image.pixels.height = image.height)
    (hlen : (image.height / 2) * (image.width / 2) ≤ bl.length) :
    ∃ out : List (RGB_block K),
      read bl image = .ok (out, trim_ppm (scale_ppm K image)) ∧
      out.length = bl.length ∧
      ∀ k, out[k]? = if k < (image.height / 2) * (image.width / 2) then
          some (block_of (scale_ppm K image) (2 * (k / (image.width / 2)))
            (2 * (k % (image.width / 2))))
        else bl[k]? := by
  have hw2 : (2 * (image.width / 2)) / 2 = image.width / 2 :=
    Nat.mul_div_cancel_left _ (by decide : 0 < 2)
  have hh2 : (2 * (image.height / 2)) / 2 = image.height / 2 :=
    Nat.mul_div_cancel_left _ (by decide : 0 < 2)
  have t1 := trim_ppm_eq (scale_ppm K image)
    (show image.width < 2 ^ 32 by omega) (show image.height < 2 ^ 32 by omega)
  have tw : (trim_ppm (scale_ppm K image)).width = 2 * (image.width / 2) := by
    rw [t1]
    rfl
  have th : (trim_ppm (scale_ppm K image)).height = 2 * (image.height / 2) := by
    rw [t1]
    rfl
  have tp : (trim_ppm (scale_ppm K image)).pixels = (scale_ppm K image).pixels := by
    rw [t1]
  have td : (trim_ppm (scale_ppm K image)).denominator = (scale_ppm K image).denominator := by
    rw [t1]
  have pw : (scale_ppm K image).pixels.width = image.pixels.width := rfl
  have ph : (scale_ppm K image).pixels.height = image.pixels.height := rfl
  obtain ⟨out, e, hl, hk⟩ := get_rgb_blocks_ok (trim_ppm (scale_ppm K image)) bl
    (by rw [tw]; omega) (by rw [th]; omega) (by rw [tw]; omega) (by rw [th]; omega)
    (by rw [tw, th, hw2, hh2]; exact hlen)
    (by rw [tw, tp, pw]; omega) (by rw [th, tp, ph]; omega)
  refine ⟨out, ?_, hl, ?_⟩
  · unfold read
    simp only []
    rw [e]
    rfl
  · intro k
    have h := hk k
    rw [tw, th, hw2, hh2] at h
    rw [h]
    unfold block_of
    rw [tp, td]

theorem compress40_ok {K : Type} [LinearOrderedField K] [FloorRing K]
    (index_of_chroma : K → Nat) (sgn : Bool) (image : Pnm_ppm)
    (hW : image.width < 2 ^ 31) (hH : image.height < 2 ^ 31)
    (hpw : image.pixels.width = image.width) (hph : image.pixels.height = image.height)
    (hcount : (image.width / 2) * (image.height / 2) < 2 ^ 32)
    (hidx : ∀ x, index_of_chroma x ≤ 15) :
    ∃ cws : List Nat,
      compress40 index_of_chroma sgn image =
        .ok (print_header (2 * (image.width / 2)) (2 * (image.height / 2)) ++ body_bytes cws) ∧
      cws.length = (image.width / 2) * (image.height / 2) := by
  have t1 := trim_ppm_eq (scale_ppm K image)
    (show image.width < 2 ^ 32 by omega) (show image.height < 2 ^ 32 by omega)
  have tw : (trim_ppm (scale_ppm K image)).width = 2 * (image.width / 2) := by
    rw [t1]
    rfl
  have th : (trim_ppm (scale_ppm K image)).height = 2 * (image.height / 2) := by
    rw [t1]
    rfl
  have hunfold := compress40_eq index_of_chroma sgn image
  rw [Nat.mod_eq_of_lt hcount] at hunfold
  obtain ⟨rgb, e0, l0, -⟩ := get_rgb_blocks_ok (trim_ppm (scale_ppm K image))
    (new_blocks ((image.width / 2) * (image.height / 2))
      ({ topL := { r := 0, g := 0, b := 0 }, topR := { r := 0, g := 0, b := 0 },
         botL := { r := 0, g := 0, b := 0 }, botR := { r := 0, g := 0, b := 0 } } :
        RGB_block K))
    (by rw [tw]; omega) (by rw [th]; omega) (by rw [tw]; omega) (by rw [th]; omega)
    (by
      rw [tw, th, Nat.mul_div_cancel_left _ (by decide : 0 < 2),
        Nat.mul_div_cancel_left _ (by decide : 0 < 2), Nat.mul_comm]
      unfold new_blocks
      rw [List.length_replicate])
    (by rw [tw, t1]; show 2 * (image.width / 2) ≤ image.pixels.width; omega)
    (by rw [th, t1]; show 2 * (image.height / 2) ≤ image.pixels.height; omega)
  have l0' : rgb.length = (image.width / 2) * (image.height / 2) := by
    rw [l0]
    unfold new_blocks
    rw [List.length_replicate]
  obtain ⟨xyz, e1, l1, -⟩ := map_blocks_all
    (fun (rgb : RGB_block K) (xyz : XYZ_block K) => (pure (RGB_to_XYZ rgb xyz) : Except Exc _))
    (fun _ => True) (fun _ => True) (fun _ => True) rgb
    (new_blocks ((image.width / 2) * (image.height / 2))
      ({ topL := { luma := 0, Pb := 0, Pr := 0 }, topR := { luma := 0, Pb := 0, Pr := 0 },
         botL := { luma := 0, Pb := 0, Pr := 0 },
         botR := { luma := 0, Pb := 0, Pr := 0 } } : XYZ_block K))
    (by rw [l0']; unfold new_blocks; rw [List.length_replicate])
    (fun _ _ => trivial) (fun _ _ => trivial) (fun x y _ _ => ⟨_, rfl, trivial⟩)
  have l1' : xyz.length = (image.width / 2) * (image.height / 2) := by
    rw [l1]
    unfold new_blocks
    rw [List.length_replicate]
  obtain ⟨bit1, e2, l2, q2⟩ := map_blocks_all
    (fun (xyz : XYZ_block K) (bit : bit_block) =>
      (pure (chroma_to_bit index_of_chroma xyz bit) : Except Exc _))
    (fun _ => True) (fun _ => True) (fun bit => bit.Pb ≤ 15 ∧ bit.Pr ≤ 15) xyz
    (new_blocks ((image.width / 2) * (image.height / 2))
      ({ a := 0, Pb := 0, Pr := 0, b := 0, c := 0, d := 0 } : bit_block))
    (by rw [l1']; unfold new_blocks; rw [List.length_replicate])
    (fun _ _ => trivial) (fun _ _ => trivial)
    (fun x y _ _ => ⟨_, rfl, hidx (average_Pb x), hidx (average_Pr x)⟩)
  have l2' : bit1.length = (image.width / 2) * (image.height / 2) := by
    rw [l2]
    unfold new_blocks
    rw [List.length_replicate]
  obtain ⟨bit2, e3, l3, q3⟩ := map_blocks_all
    (fun (xyz : XYZ_block K) (bit : bit_block) =>
      (pure (luma_to_bit xyz bit) : Except Exc _))
    (fun _ => True) (fun bit => bit.Pb ≤ 15 ∧ bit.Pr ≤ 15) fields_fit xyz bit1
    (by rw [l1', l2']) (fun _ _ => trivial) q2
    (fun x y _ hy => ⟨_, rfl, luma_to_bit_fields_fit x y hy.1 hy.2⟩)
  obtain ⟨cws, e4, l4, -⟩ := map_blocks_all
    (fun (bit : bit_block) (_ : Nat) => pack bit)
    fields_fit (fun _ => True) (fun _ => True) bit2
    (new_blocks ((image.width / 2) * (image.height / 2)) 0)
    (by rw [l3, l2']; unfold new_blocks; rw [List.length_replicate])
    q3 (fun _ _ => trivial) (fun x y hx _ => ⟨_, pack_fits x hx, trivial⟩)
  refine ⟨cws, ?_, ?_⟩
  · rw [hunfold, e0]
    unfold rgb_xyz chroma luma pixpack
    simp only [Except.bind]
    rw [e1]
    simp only []
    rw [e2]
    simp only []
    rw [e3]
    simp only []
    rw [e4]
    simp only []
    rw [tw, th]
    exact write_codewords_eq sgn cws _
  · rw [l4]
    unfold new_blocks
    rw [List.length_replicate]

/-- C28: for every PPM of width `W` and height `H` (with a pixel array of that
size), `compress40` produces what it produces for the image cropped to its
top-left `2 * (W / 2)` by `2 * (H / 2)` pixels, which drops the last column
when `W` is odd and the last row when `H` is odd; when it runs to the end
(dimensions below `2^31`, fewer than `2^32` blocks, chroma indices in
`0..15`) the output is the header with the even dimensions followed by the
bytes of `(W / 2) * (H / 2)` codewords. -/
theorem compress40_crops_to_even {K : Type} [LinearOrderedField K] [FloorRing K]
    (index_of_chroma : K → Nat) (sgn : Bool) (image : Pnm_ppm)
    (hW : image.width < 2 ^ 32) (hH : image.height < 2 ^ 32)
    (hpw : image.pixels.width = image.width) (hph : image.pixels.height = image.height) :
    compress40 index_of_chroma sgn image = compress40 index_of_chroma sgn (crop image) ∧
    (image.width % 2 = 1 → (crop image).width = image.width - 1) ∧
    (image.height % 2 = 1 → (crop image).height = image.height - 1) ∧
    (image.width < 2 ^ 31 → image.height < 2 ^ 31 →
      (image.width / 2) * (image.height / 2) < 2 ^ 32 → (∀ x, index_of_chroma x ≤ 15) →
      ∃ cws : List Nat,
        compress40 index_of_chroma sgn image =
          .ok (print_header (2 * (image.width / 2)) (2 * (image.height / 2))
            ++ body_bytes cws) ∧
        cws.length = (image.width / 2) * (image.height / 2)) := by
  refine ⟨compress40_crop_eq index_of_chroma sgn image hW hH hpw hph, ?_, ?_, ?_⟩
  · intro h
    show 2 * (image.width / 2) = image.width - 1
    omega
  · intro h
    show 2 * (image.height / 2) = image.height - 1
    omega
  · intro h1 h2 h3 h4
    exact compress40_ok index_of_chroma sgn image h1 h2 hpw hph h3 h4

theorem compress40_crops_to_even_witness :
    ((3 : Nat) < 2 ^ 32 ∧ (3 : Nat) < 2 ^ 31 ∧ (3 / 2) * (3 / 2) < 2 ^ 32 ∧
      ∀ x : ℚ, (fun _ : ℚ => 7) x ≤ 15) ∧
    ∃ cws : List Nat,
      compress40 (fun _ : ℚ => 7) true
          ⟨3, 3, 255, ⟨3, 3, fun col row => ⟨10 * col + row, 128, 255⟩⟩⟩ =
        .ok (print_header 2 2 ++ body_bytes cws) ∧
      cws.length = 1 :=
  ⟨⟨by decide, by decide, by decide, fun _ => (by decide : (7 : Nat) ≤ 15)⟩,
    (compress40_crops_to_even (fun _ : ℚ => 7) true
      ⟨3, 3, 255, ⟨3, 3, fun col row => ⟨10 * col + row, 128, 255⟩⟩⟩
      (by decide) (by decide) rfl rfl).2.2.2 (by decide) (by decide) (by decide)
      (fun _ => (by decide : (7 : Nat) ≤ 15))⟩

/-! ## The rescaling of the samples -/

theorem u32_natCast {n : Nat} (h : n < 2 ^ 32) : u32 (n : Int) = n := by
  unfold u32
  omega

theorem scale_sample {K : Type} [LinearOrderedField K] [FloorRing K] (D s : Nat)
    (hD : 0 < D) (hs : s ≤ D) :
    float_to_unsigned ((s : K) / ((D : K) / RGB_MAX)) = 255 * s / D := by
  have hD' : (D : K) ≠ 0 := Nat.cast_ne_zero.mpr (Nat.pos_iff_ne_zero.mp hD)
  have hx : (s : K) / ((D : K) / RGB_MAX) = ((255 * s : Nat) : K) / (D : K) := by
    unfold RGB_MAX
    push_cast
    field_simp
    ring
  have h0 : (0 : K) ≤ ((255 * s : Nat) : K) / (D : K) :=
    div_nonneg (Nat.cast_nonneg _) (Nat.cast_nonneg _)
  have hle : 255 * s / D ≤ 255 := by
    apply Nat.div_le_of_le_mul
    nlinarith
  unfold float_to_unsigned trunc
  rw [hx, if_pos h0, ← Int.natCast_floor_eq_floor h0, Nat.floor_div_eq_div]
  exact u32_natCast (by omega)

theorem get_rgb_pixel_scale {K : Type} [LinearOrderedField K] [FloorRing K] (D : Nat)
    (p : Pnm_rgb) (hD : 0 < D) (hr : p.red ≤ D) (hg : p.green ≤ D) (hb : p.blue ≤ D) :
    get_rgb_pixel (scale K D p) ((float_to_unsigned (RGB_MAX : K) : Nat) : K) =
      rescaled D p := by
  unfold get_rgb_pixel scale rescaled
  simp only []
  rw [scale_sample D p.red hD hr, scale_sample D p.green hD hg, scale_sample D p.blue hD hb,
    float_to_unsigned_RGB_MAX]
  simp only [Nat.cast_ofNat]

theorem read_blocks {K : Type} [LinearOrderedField K] [FloorRing K] (image : Pnm_ppm)
    (bl : List (RGB_block K)) (hW : image.width < 2 ^ 31) (hH : image.height < 2 ^ 31)
    (hpw : image.pixels.width = image.width) (hph : image.pixels.height = image.height)
    (hlen : (image.width / 2) * (image.height / 2) ≤ bl.length)
    (hD : 0 < image.denominator)
    (hs : ∀ col row, (image.pixels.elems col row).red ≤ image.denominator ∧
      (image.pixels.elems col row).green ≤ image.denominator ∧
      (image.pixels.elems col row).blue ≤ image.denominator) :
    ∃ out : List (RGB_block K),
      read bl image = .ok (out, trim_ppm (scale_ppm K image)) ∧
      ∀ br bc, br < image.height / 2 → bc < image.width / 2 →
        out[br * (image.width / 2) + bc]? = some
          { topL := rescaled image.denominator (image.pixels.elems (2 * bc) (2 * br))
            topR := rescaled image.denominator (image.pixels.elems (2 * bc + 1) (2 * br))
            botL := rescaled image.denominator (image.pixels.elems (2 * bc) (2 * br + 1))
            botR := rescaled image.denominator
              (image.pixels.elems (2 * bc + 1) (2 * br + 1)) } := by
  obtain ⟨out, e, -, hk⟩ := read_ok image bl hW hH hpw hph (by rw [Nat.mul_comm]; exact hlen)
  refine ⟨out, e, ?_⟩
  intro br bc hbr hbc
  have h1 : br * (image.width / 2) ≤ br * (image.width / 2) + bc := Nat.le_add_right _ _
  have h2 : br * (image.width / 2) + bc < (br + 1) * (image.width / 2) := by
    rw [Nat.add_mul, Nat.one_mul]
    omega
  have h3 : br * (image.width / 2) + bc < (image.height / 2) * (image.width / 2) :=
    Nat.lt_of_lt_of_le h2 (Nat.mul_le_mul_right _ hbr)
  obtain ⟨hd, hm⟩ := div_mod_of_between h1 h2
  have px : ∀ col row, get_rgb_pixel ((scale_ppm K image).pixels.elems col row)
      (((scale_ppm K image).denominator : Nat) : K) =
      rescaled image.denominator (image.pixels.elems col row) := fun col row =>
    get_rgb_pixel_scale image.denominator (image.pixels.elems col row) hD
      (hs col row).1 (hs col row).2.1 (hs col row).2.2
  rw [hk, if_pos h3, hd, hm, Nat.add_sub_cancel_left]
  unfold block_of
  rw [px, px, px, px]

/-! ## The body reader on a truncated stream -/

theorem read_bytes_total (sgn : Bool) (j cw : Nat) (input : List Nat) (hj : j ≤ 8)
    (hcw : cw < 2 ^ 64) :
    ∃ cw' rest, read_bytes sgn j cw input = .ok (cw', rest) := by
  induction j generalizing cw input with
  | zero => exact ⟨cw, input, rfl⟩
  | succ j ih =>
    rw [read_bytes]
    simp only []
    rw [store_char_eq _ cw j hcw (by omega) _ (by omega), ok_bind]
    exact ih _ _ (by omega) (lt_64_of_mod _)

theorem read_codewords_total (sgn : Bool) (inits input : List Nat)
    (h : ∀ x ∈ inits, x < 2 ^ 64) :
    ∃ cws rest, read_codewords sgn inits input = .ok (cws, rest) ∧
      cws.length = inits.length := by
  induction inits generalizing input with
  | nil => exact ⟨[], input, rfl, rfl⟩
  | cons a t ih =>
    obtain ⟨cw, r1, e1⟩ := read_bytes_total sgn 4 a input (by decide)
      (h a (List.mem_cons_self a t))
    obtain ⟨cws, r2, e2, l2⟩ := ih r1 (fun x hx => h x (List.mem_cons_of_mem a hx))
    refine ⟨cw :: cws, r2, ?_, by simp [l2]⟩
    rw [read_codewords, e1, ok_bind]
    simp only []
    rw [e2, ok_bind]
    rfl

/-- C30 does not hold: the body reader of `decompress40` returns normally on
every input stream, a truncated one included, with all
`(width / 2) * (height / 2)` codewords filled (an absent byte is read as the
`char` that `EOF` converts to); for the dimensions 2 by 2 and the three body
bytes 1, 2, 3 it returns the codeword `0x010203FF`. -/
theorem read_body_ignores_truncation (sgn : Bool) (width height : Nat) (input : List Nat) :
    (∃ cws rest, read_body sgn width height input = .ok (cws, rest) ∧
      cws.length = (width / 2) * (height / 2) % 2 ^ 32) ∧
    read_body true 2 2 [1, 2, 3] = .ok ([0x010203FF], []) ∧
    read_body false 2 2 [1, 2, 3] = .ok ([0x010203FF], []) := by
  refine ⟨?_, rfl, rfl⟩
  obtain ⟨cws, rest, e, l⟩ := read_codewords_total sgn
    (new_blocks ((width / 2) * (height / 2) % 2 ^ 32) 0) input
    (fun x hx => by
      unfold new_blocks at hx
      rw [List.eq_of_mem_replicate hx]
      decide)
  refine ⟨cws, rest, e, ?_⟩
  rw [l]
  unfold new_blocks
  rw [List.length_replicate]

/-! ## The header of the compressed format -/

/-- C31: a stream that starts with the line `COMP40 Compressed image format 1`
is rejected: `fscanf` stops at the literal `2` of the format and returns 0, the
assertion on its result fails in the header lines, and `decompress40` ends in
that failure, the body reader being sequenced after the header lines. -/
theorem decompress40_rejects_format_1 {K : Type} [LinearOrderedField K] [FloorRing K]
    (chroma_of_index : Nat → K) (sgn : Bool) (rest : List Nat) :
    (fscanf_header
      ("COMP40 Compressed image format 1\n".toList.map Char.toNat ++ rest)).1 = 0 ∧
    read_header ("COMP40 Compressed image format 1\n".toList.map Char.toNat ++ rest) =
      .error Exc.Assert_Failed ∧
    decompress40 chroma_of_index sgn
      ("COMP40 Compressed image format 1\n".toList.map Char.toNat ++ rest) =
      .error Exc.Assert_Failed :=
  ⟨rfl, rfl, rfl⟩

/-! ## Byte indices beyond the codeword -/

theorem splice_high_byte (cw v i : Nat) (hcw : cw < 2 ^ 32) (h4 : 4 ≤ i) (h7 : i ≤ 7) :
    splice cw 8 (8 * i) v % 2 ^ 32 = cw := by
  unfold splice
  have hi : i = 4 ∨ i = 5 ∨ i = 6 ∨ i = 7 := by omega
  rcases hi with rfl | rfl | rfl | rfl <;> norm_num <;> omega

theorem to_char_zero (sgn : Bool) : to_char sgn 0 = 0 := by
  cases sgn <;> rfl

theorem extract_char_high (sgn : Bool) (C i : Nat) (h4 : 4 ≤ i) (h7 : i ≤ 7) :
    extract_char sgn (C % 2 ^ 32) (i : Int) = .ok 0 := by
  rw [extract_char_eq sgn _ i (by omega) _ rfl]
  have e : byte_of (C % 2 ^ 32) i = 0 := by
    unfold byte_of
    have hi : i = 4 ∨ i = 5 ∨ i = 6 ∨ i = 7 := by omega
    rcases hi with rfl | rfl | rfl | rfl <;> norm_num <;> omega
  rw [e]
  exact congrArg Except.ok (to_char_zero sgn)

theorem store_char_high (c : Int) (C i : Nat) (h4 : 4 ≤ i) (h7 : i ≤ 7) :
    store_char c (C % 2 ^ 32) (i : Int) = .ok (C % 2 ^ 32) := by
  rw [store_char_eq c _ i (lt_64_of_mod C) (by omega) _ rfl,
    splice_high_byte _ _ i (Nat.mod_lt _ (by decide)) h4 h7]

/-- C35 does not hold: for the byte indices 5, 6 and 7, whose product with
`BITS_IN_BYTE` exceeds 32, `extract_char` returns the character 0 and
`store_char` returns the codeword unchanged, for every 32-bit codeword and
every character; only from index 8 on does the call end in a checked runtime
error. -/
theorem byte_index_beyond_codeword (sgn : Bool) (c : Int) (C : Nat) :
    (extract_char sgn (C % 2 ^ 32) 5 = .ok 0 ∧ extract_char sgn (C % 2 ^ 32) 6 = .ok 0 ∧
      extract_char sgn (C % 2 ^ 32) 7 = .ok 0) ∧
    (store_char c (C % 2 ^ 32) 5 = .ok (C % 2 ^ 32) ∧
      store_char c (C % 2 ^ 32) 6 = .ok (C % 2 ^ 32) ∧
      store_char c (C % 2 ^ 32) 7 = .ok (C % 2 ^ 32)) ∧
    (extract_char sgn (C % 2 ^ 32) 8 = .error Exc.Assert_Failed ∧
      store_char c (C % 2 ^ 32) 8 = .error Exc.Assert_Failed) := by
  refine ⟨⟨extract_char_high sgn C 5 (by decide) (by decide),
    extract_char_high sgn C 6 (by decide) (by decide),
    extract_char_high sgn C 7 (by decide) (by decide)⟩,
    ⟨store_char_high c C 5 (by decide) (by decide),
    store_char_high c C 6 (by decide) (by decide),
    store_char_high c C 7 (by decide) (by decide)⟩, ?_, ?_⟩
  · unfold extract_char
    rw [show u32 ((8 : Int) * (BITS_IN_BYTE : Int) * 1) = 64 from rfl,
      show BITS_IN_BYTE * 1 = 8 from rfl]
    unfold Bitpack_getu
    rw [width_lsb_check_fail]
    · rfl
    · decide
  · unfold store_char
    rw [show u32 ((8 : Int) * (BITS_IN_BYTE : Int) * 1) = 64 from rfl,
      show BITS_IN_BYTE * 1 = 8 from rfl,
      getu_bind 8 0 (by decide) (by decide) (by decide), ok_bind]
    unfold Bitpack_newu
    rw [width_lsb_check_fail]
    · rfl
    · decide

/-! ## The comparator -/

/-- C36 does not hold: `compute_E` divides each sample by the denominator as
an `unsigned`, so that a sample below the denominator counts as 0.  For the
1 by 1 images with denominator 255 and pixels `(128, 128, 128)` and
`(0, 0, 0)` the value handed to `sqrt` is 0, while the mean of the squared
differences of the fractions is `(128 / 255)^2`. -/
theorem compute_E_unsigned_quotients {K : Type} [LinearOrderedField K] (sqrt : K → K) :
    compute_E sqrt ⟨⟨1, 1, 255⟩, [128, 128, 128]⟩ ⟨⟨1, 1, 255⟩, [0, 0, 0]⟩ = .ok (sqrt 0) ∧
    (((128 : K) / 255 - 0 / 255) ^ 2 + ((128 : K) / 255 - 0 / 255) ^ 2
      + ((128 : K) / 255 - 0 / 255) ^ 2) / (3 * 1 * 1) ≠ 0 := by
  constructor
  · have step : compute_E_pixel ((0 : K), (⟨⟨1, 1, 255⟩, [128, 128, 128]⟩ : Pnm),
        (⟨⟨1, 1, 255⟩, [0, 0, 0]⟩ : Pnm)) =
        .ok ((0 : K), ⟨⟨1, 1, 255⟩, []⟩, ⟨⟨1, 1, 255⟩, []⟩) := by
      simp [compute_E_pixel, Pnmrdr_get, Pnmrdr_data, sub32, bind, Except.bind, pure,
        Except.pure]
    have loop : (List.range (1 * 1 % 2 ^ 32)).foldlM
        (fun (st : K × Pnm × Pnm) (_ : Nat) => compute_E_pixel st)
        ((0 : K), (⟨⟨1, 1, 255⟩, [128, 128, 128]⟩ : Pnm), (⟨⟨1, 1, 255⟩, [0, 0, 0]⟩ : Pnm)) =
        .ok ((0 : K), ⟨⟨1, 1, 255⟩, []⟩, ⟨⟨1, 1, 255⟩, []⟩) := by
      show (List.range 1).foldlM _ _ = _
      rw [show List.range 1 = [0] from rfl, List.foldlM_cons, step]
      rfl
    unfold compute_E Pnmrdr_data
    simp only [gt_iff_lt, lt_self_iff_false, if_false]
    rw [loop]
    simp only [bind, Except.bind, pure, Except.pure, zero_div]
  · norm_num

/-! ## The luma values written by bit_to_luma -/

/-- C37 does not hold: for the bit block with `a = 0`, `b = 31`, `c = d = 0`,
whose fields are within their widths, the luma that `bit_to_luma` writes for
the top-left pixel is `-0.3`; for `a = 63`, `b = c = d = 31` the luma of the
bottom-right pixel is `1.9`. -/
theorem bit_to_luma_outside_unit {K : Type} [LinearOrderedField K] (xyz : XYZ_block K) :
    fields_fit ⟨0, 0, 0, 31, 0, 0⟩ ∧
    (bit_to_luma ⟨0, 0, 0, 31, 0, 0⟩ xyz).topL.luma = -(3 / 10) ∧
    ¬ (0 ≤ (bit_to_luma ⟨0, 0, 0, 31, 0, 0⟩ xyz).topL.luma) ∧
    fields_fit ⟨63, 0, 0, 31, 31, 31⟩ ∧
    (bit_to_luma ⟨63, 0, 0, 31, 31, 31⟩ xyz).botR.luma = 19 / 10 ∧
    ¬ ((bit_to_luma ⟨63, 0, 0, 31, 31, 31⟩ xyz).botR.luma ≤ 1) := by
  have e1 : (bit_to_luma ⟨0, 0, 0, 31, 0, 0⟩ xyz).topL.luma = -(3 / 10) := by
    show scale_a (((0 : Nat) : K)) 6 - scale_bcd (((31 : Int) : K)) 6
      - scale_bcd (((0 : Int) : K)) 6 + scale_bcd (((0 : Int) : K)) 6 = -(3 / 10)
    rw [scale_a_eq, scale_bcd_eq, scale_bcd_eq]
    norm_num
  have e2 : (bit_to_luma ⟨63, 0, 0, 31, 31, 31⟩ xyz).botR.luma = 19 / 10 := by
    show scale_a (((63 : Nat) : K)) 6 + scale_bcd (((31 : Int) : K)) 6
      + scale_bcd (((31 : Int) : K)) 6 + scale_bcd (((31 : Int) : K)) 6 = 19 / 10
    rw [scale_a_eq, scale_bcd_eq]
    norm_num
  refine ⟨by decide, e1, ?_, by decide, e2, ?_⟩
  · rw [e1]
    norm_num
  · rw [e2]
    norm_num

/-! ## pack after unpack -/

theorem unpack_eq (C : Nat) (bit0 : bit_block) : unpack C bit0 = .ok (fields_of C) := by
  rw [unpack_unfold,
    getu_bind 4 0 (by decide) (by decide) (by decide), ok_bind,
    getu_bind 4 4 (by decide) (by decide) (by decide), ok_bind,
    gets_bind 6 8 (by decide) (by decide) (by decide) (by decide), ok_bind,
    gets_bind 6 14 (by decide) (by decide) (by decide) (by decide), ok_bind,
    gets_bind 6 20 (by decide) (by decide) (by decide) (by decide), ok_bind,
    getu_bind 6 26 (by decide) (by decide) (by decide), ok_bind]
  have hs : ∀ g : Nat, s32 (sign_extend 6 (g % 2 ^ 6)) = sign_extend 6 (g % 64) := by
    intro g
    have h : sign_extend 6 (g % 64) = if g % 64 < 32 then ((g % 64 : Nat) : Int)
        else ((g % 64 : Nat) : Int) - 64 := rfl
    rw [show (2 : Nat) ^ 6 = 64 from rfl, h]
    split_ifs <;> exact s32_of_range (by omega) (by omega)
  show Except.ok _ = Except.ok _
  congr 1
  unfold fields_of
  rw [hs, hs, hs]
  congr 1 <;> omega

theorem fields_of_fit (C : Nat) : fields_fit (fields_of C) := by
  have hs : ∀ g : Nat, -32 ≤ sign_extend 6 (g % 64) ∧ sign_extend 6 (g % 64) ≤ 31 := by
    intro g
    have h : sign_extend 6 (g % 64) = if g % 64 < 32 then ((g % 64 : Nat) : Int)
        else ((g % 64 : Nat) : Int) - 64 := rfl
    rw [h]
    split_ifs <;> omega
  refine ⟨?_, ?_, ?_, hs _, hs _, hs _⟩
  · show C / 2 ^ 26 % 64 ≤ 63
    omega
  · show C / 2 ^ 4 % 16 ≤ 15
    omega
  · show C % 16 ≤ 15
    omega

theorem sign_extend_mod (g : Nat) : (sign_extend 6 (g % 64) % 64).toNat = g % 64 := by
  have h : sign_extend 6 (g % 64) = if g % 64 < 32 then ((g % 64 : Nat) : Int)
      else ((g % 64 : Nat) : Int) - 64 := rfl
  rw [h]
  split_ifs <;> omega

theorem codeword_of_fields_of (C : Nat) (hC : C < 2 ^ 32) : codeword_of (fields_of C) = C := by
  show C / 2 ^ 26 % 64 * 2 ^ 26 + (sign_extend 6 (C / 2 ^ 20 % 64) % 64).toNat * 2 ^ 20
    + (sign_extend 6 (C / 2 ^ 14 % 64) % 64).toNat * 2 ^ 14
    + (sign_extend 6 (C / 2 ^ 8 % 64) % 64).toNat * 2 ^ 8 + C / 2 ^ 4 % 16 * 2 ^ 4 + C % 16 = C
  rw [sign_extend_mod, sign_extend_mod, sign_extend_mod]
  omega

theorem codeword_of_lt (bit : bit_block) (h : fields_fit bit) : codeword_of bit < 2 ^ 32 := by
  obtain ⟨ha, hPb, hPr, -, -, -⟩ := h
  have tb : (bit.b % 64).toNat < 64 := by omega
  have tc : (bit.c % 64).toNat < 64 := by omega
  have td : (bit.d % 64).toNat < 64 := by omega
  unfold codeword_of
  generalize (bit.b % 64).toNat = B at tb
  generalize (bit.c % 64).toNat = C at tc
  generalize (bit.d % 64).toNat = D at td
  omega

/-- C38: for every 32-bit codeword `C`, `unpack` returns a bit block whose
fields are within their widths, `pack` of that block returns `C`, the six
fields make up `C` in the layout of the codeword, and `pack` and `unpack` are
inverse to each other between the 32-bit codewords and the in-range bit
blocks. -/
theorem pack_unpack_roundtrip (C : Nat) (hC : C < 2 ^ 32) (bit0 : bit_block) :
    ∃ bit, unpack C bit0 = .ok bit ∧ fields_fit bit ∧ pack bit = .ok C ∧
      codeword_of bit = C ∧
      (∀ bit1, fields_fit bit1 → (pack bit1 = .ok C ↔ bit1 = bit)) ∧
      (∀ bit1, fields_fit bit1 →
        ∃ C1, C1 < 2 ^ 32 ∧ pack bit1 = .ok C1 ∧ unpack C1 bit0 = .ok bit1) := by
  have hp : pack (fields_of C) = .ok C := by
    rw [pack_fits _ (fields_of_fit C), codeword_of_fields_of C hC]
  refine ⟨fields_of C, unpack_eq C bit0, fields_of_fit C, hp, codeword_of_fields_of C hC, ?_, ?_⟩
  · intro bit1 h1
    constructor
    · intro h
      rw [pack_fits bit1 h1] at h
      have e : codeword_of bit1 = C := Except.ok.inj h
      have u := unpack_codeword_of bit1 bit0 h1
      rw [e, unpack_eq] at u
      exact (Except.ok.inj u).symm
    · intro h
      rw [h]
      exact hp
  · intro bit1 h1
    exact ⟨codeword_of bit1, codeword_of_lt bit1 h1, pack_fits bit1 h1,
      unpack_codeword_of bit1 bit0 h1⟩

theorem pack_unpack_roundtrip_witness :
    (0xAABBCCDD : Nat) < 2 ^ 32 ∧
    ∃ bit, unpack 0xAABBCCDD ⟨0, 0, 0, 0, 0, 0⟩ = .ok bit ∧ fields_fit bit ∧
      pack bit = .ok 0xAABBCCDD :=
  ⟨by decide,
    match pack_unpack_roundtrip 0xAABBCCDD (by decide) ⟨0, 0, 0, 0, 0, 0⟩ with
    | ⟨bit, h1, h2, h3, _⟩ => ⟨bit, h1, h2, h3⟩⟩

/-! ## The integer part of an integer -/

theorem trunc_intCast {K : Type} [LinearOrderedField K] [FloorRing K] (n : Int) :
    trunc ((n : K)) = n := by
  unfold trunc
  split
  · exact Int.floor_intCast n
  · exact Int.ceil_intCast n

/-! ## The raster assembly of the decompressor -/

theorem A2_put_ok (arr : A2) (col row : Nat) (v : Pnm_rgb) (hc : col < arr.width)
    (hr : row < arr.height) :
    A2_put arr col row v =
      .ok { arr with elems := fun c r => if c = col ∧ r = row then v else arr.elems c r } := by
  unfold A2_put
  rw [if_pos ⟨hc, hr⟩]
  rfl

theorem put_rgb_block_at_ok {K : Type} [LinearOrderedField K] [FloorRing K]
    (rgb_blocks : List (RGB_block K)) (row col : Nat) (px : A2) (cell : Nat)
    (blk : RGB_block K) (hb : rgb_blocks[cell]? = some blk)
    (hce : col % 2 = 0) (hre : row % 2 = 0)
    (hc : col + 1 < px.width) (hr : row + 1 < px.height) :
    ∃ px' : A2, put_rgb_block_at rgb_blocks row col (px, cell) = .ok (px', cell + 1) ∧
      px'.width = px.width ∧ px'.height = px.height ∧
      ∀ c r, px'.elems c r =
        if (c = col ∨ c = col + 1) ∧ (r = row ∨ r = row + 1) then get_pnm_rgb (corner blk c r)
        else px.elems c r := by
  refine ⟨⟨px.width, px.height, fun c r =>
      if c = col + 1 ∧ r = row + 1 then get_pnm_rgb blk.botR
      else if c = col ∧ r = row + 1 then get_pnm_rgb blk.botL
      else if c = col + 1 ∧ r = row then get_pnm_rgb blk.topR
      else if c = col ∧ r = row then get_pnm_rgb blk.topL
      else px.elems c r⟩, ?_, rfl, rfl, ?_⟩
  · have h1 : col < px.width := by omega
    have h2 : row < px.height := by omega
    unfold put_rgb_block_at UArray_at
    simp only [hb]
    simp [A2_put, h1, h2, hc, hr, bind, Except.bind, pure, Except.pure]
  · intro c r
    simp only [corner]
    by_cases h1 : c = col + 1 ∧ r = row + 1
    · obtain ⟨rfl, rfl⟩ := h1
      have e1 : (row + 1) % 2 ≠ 0 := by omega
      have e2 : (col + 1) % 2 ≠ 0 := by omega
      simp [e1, e2]
    · by_cases h2 : c = col ∧ r = row + 1
      · obtain ⟨rfl, rfl⟩ := h2
        have e1 : (row + 1) % 2 ≠ 0 := by omega
        simp [e1, hce]
      · by_cases h3 : c = col + 1 ∧ r = row
        · obtain ⟨rfl, rfl⟩ := h3
          have e2 : (col + 1) % 2 ≠ 0 := by omega
          simp [e2, hre]
        · by_cases h4 : c = col ∧ r = row
          · obtain ⟨rfl, rfl⟩ := h4
            simp [hce, hre]
          · have h5 : ¬ ((c = col ∨ c = col + 1) ∧ (r = row ∨ r = row + 1)) := by omega
            rw [if_neg h1, if_neg h2, if_neg h3, if_neg h4, if_neg h5]

theorem raster_px_eq {K : Type} [LinearOrderedField K] [FloorRing K]
    (rgb_blocks : List (RGB_block K)) (m c r i j : Nat) (blk : RGB_block K)
    (hr : r / 2 = i) (hc : c / 2 = j) (hb : rgb_blocks[i * m + j]? = some blk) :
    raster_px rgb_blocks m c r = get_pnm_rgb (corner blk c r) := by
  unfold raster_px
  rw [hr, hc, hb]

theorem write_inner_loop {K : Type} [LinearOrderedField K] [FloorRing K]
    (rgb_blocks : List (RGB_block K)) (i m : Nat) (px : A2)
    (hlen : i * m + m ≤ rgb_blocks.length)
    (hw : 2 * m ≤ px.width) (hh : 2 * i + 1 < px.height) :
    ∃ px' : A2,
      (List.range m).foldlM (fun st j => put_rgb_block_at rgb_blocks (2 * i) (2 * j) st)
        (px, i * m) = .ok (px', i * m + m) ∧
      px'.width = px.width ∧ px'.height = px.height ∧
      ∀ c r, px'.elems c r =
        if c < 2 * m ∧ (r = 2 * i ∨ r = 2 * i + 1) then raster_px rgb_blocks m c r
        else px.elems c r := by
  obtain ⟨⟨px', c⟩, e, hc, hw', hh', hk⟩ := foldlM_range_inv
    (fun j (st : A2 × Nat) => st.2 = i * m + j ∧ st.1.width = px.width ∧
      st.1.height = px.height ∧
      ∀ c r, st.1.elems c r =
        if c < 2 * j ∧ (r = 2 * i ∨ r = 2 * i + 1) then raster_px rgb_blocks m c r
        else px.elems c r)
    (fun st j => put_rgb_block_at rgb_blocks (2 * i) (2 * j) st) m (px, i * m)
    ⟨rfl, rfl, rfl, fun c r => by
      have : ¬ (c < 2 * 0 ∧ (r = 2 * i ∨ r = 2 * i + 1)) := by omega
      rw [if_neg this]⟩
    (by
      rintro j ⟨p, c⟩ hj ⟨hc, hw', hh', hk⟩
      simp only at hc hw' hh' hk
      subst hc
      have hlt : i * m + j < rgb_blocks.length := by omega
      have hb : rgb_blocks[i * m + j]? = some (rgb_blocks.get ⟨i * m + j, hlt⟩) :=
        List.getElem?_eq_getElem hlt
      obtain ⟨p2, e2, w2, h2, k2⟩ := put_rgb_block_at_ok rgb_blocks (2 * i) (2 * j) p
        (i * m + j) _ hb (by omega) (by omega) (by omega) (by omega)
      refine ⟨(p2, i * m + j + 1), e2, rfl, w2.trans hw', h2.trans hh', ?_⟩
      intro c r
      show p2.elems c r = _
      rw [k2, hk]
      by_cases h1 : (c = 2 * j ∨ c = 2 * j + 1) ∧ (r = 2 * i ∨ r = 2 * i + 1)
      · have h3 : c < 2 * (j + 1) ∧ (r = 2 * i ∨ r = 2 * i + 1) := ⟨by omega, h1.2⟩
        rw [if_pos h1, if_pos h3,
          raster_px_eq rgb_blocks m c r i j _ (by omega) (by omega) hb]
      · rw [if_neg h1]
        by_cases h4 : c < 2 * j ∧ (r = 2 * i ∨ r = 2 * i + 1)
        · have h5 : c < 2 * (j + 1) ∧ (r = 2 * i ∨ r = 2 * i + 1) := ⟨by omega, h4.2⟩
          rw [if_pos h4, if_pos h5]
        · have h5 : ¬ (c < 2 * (j + 1) ∧ (r = 2 * i ∨ r = 2 * i + 1)) := by omega
          rw [if_neg h4, if_neg h5])
  simp only at hc hw' hh' hk
  subst hc
  exact ⟨px', e, hw', hh', hk⟩

theorem write_outer_loop {K : Type} [LinearOrderedField K] [FloorRing K]
    (rgb_blocks : List (RGB_block K)) (n m : Nat) (px : A2)
    (hlen : n * m ≤ rgb_blocks.length)
    (hw : 2 * m ≤ px.width) (hh : 2 * n ≤ px.height) :
    ∃ px' : A2,
      (List.range n).foldlM (fun st i =>
        (List.range m).foldlM (fun st j => put_rgb_block_at rgb_blocks (2 * i) (2 * j) st) st)
        (px, 0) = .ok (px', n * m) ∧
      px'.width = px.width ∧ px'.height = px.height ∧
      ∀ c r, px'.elems c r =
        if c < 2 * m ∧ r < 2 * n then raster_px rgb_blocks m c r else px.elems c r := by
  obtain ⟨⟨px', c⟩, e, hc, hw', hh', hk⟩ := foldlM_range_inv
    (fun i (st : A2 × Nat) => st.2 = i * m ∧ st.1.width = px.width ∧
      st.1.height = px.height ∧
      ∀ c r, st.1.elems c r =
        if c < 2 * m ∧ r < 2 * i then raster_px rgb_blocks m c r else px.elems c r)
    (fun st i =>
      (List.range m).foldlM (fun st j => put_rgb_block_at rgb_blocks (2 * i) (2 * j) st) st)
    n (px, 0)
    ⟨by simp, rfl, rfl, fun c r => by
      have : ¬ (c < 2 * m ∧ r < 2 * 0) := by omega
      rw [if_neg this]⟩
    (by
      rintro i ⟨p, c⟩ hi ⟨hc, hw', hh', hk⟩
      simp only at hc hw' hh' hk
      subst hc
      have him : (i + 1) * m ≤ n * m := Nat.mul_le_mul_right m hi
      have hsucc : (i + 1) * m = i * m + m := by ring
      obtain ⟨p2, e2, w2, h2, k2⟩ := write_inner_loop rgb_blocks i m p (by omega)
        (by omega) (by omega)
      refine ⟨(p2, i * m + m), e2, hsucc.symm ▸ rfl, w2.trans hw', h2.trans hh', ?_⟩
      intro c r
      show p2.elems c r = _
      rw [k2, hk]
      by_cases h1 : c < 2 * m ∧ (r = 2 * i ∨ r = 2 * i + 1)
      · have h3 : c < 2 * m ∧ r < 2 * (i + 1) := ⟨h1.1, by omega⟩
        rw [if_pos h1, if_pos h3]
      · rw [if_neg h1]
        by_cases h4 : c < 2 * m ∧ r < 2 * i
        · have h5 : c < 2 * m ∧ r < 2 * (i + 1) := ⟨h4.1, by omega⟩
          rw [if_pos h4, if_pos h5]
        · have h5 : ¬ (c < 2 * m ∧ r < 2 * (i + 1)) := by omega
          rw [if_neg h4, if_neg h5])
  simp only at hc hw' hh' hk
  subst hc
  exact ⟨px', e, hw', hh', hk⟩

theorem for_step2_nat {σ : Type} (n : Nat) (body : Nat → σ → Except Exc σ) (s : σ) :
    for_step2 ((n : Nat) : Int) body s =
      (List.range ((n + 1) / 2)).foldlM (fun s i => body (2 * i) s) s := by
  unfold for_step2
  rw [Int.toNat_natCast]

theorem write_eq {K : Type} [LinearOrderedField K] [FloorRing K]
    (rgb_blocks : List (RGB_block K)) (width height : Nat) :
    decompress.write rgb_blocks width height =
      ((List.range ((height + 1) / 2)).foldlM (fun st i =>
        (List.range ((width + 1) / 2)).foldlM
          (fun st j => put_rgb_block_at rgb_blocks (2 * i) (2 * j) st) st)
        (A2_new width height, 0)).bind (fun st =>
      .ok { width := width, height := height, denominator := 255, pixels := st.1 }) := by
  unfold decompress.write get_ppm
  simp only [for_step2_nat, float_to_unsigned_RGB_MAX]
  rfl

theorem write_ok {K : Type} [LinearOrderedField K] [FloorRing K]
    (rgb_blocks : List (RGB_block K)) (width height : Nat)
    (hwe : width % 2 = 0) (hhe : height % 2 = 0)
    (hlen : (width / 2) * (height / 2) ≤ rgb_blocks.length) :
    ∃ px : A2,
      for_step2 (height : Int) (fun row st =>
        for_step2 (width : Int) (fun col st => put_rgb_block_at rgb_blocks row col st) st)
        (A2_new width height, 0) = .ok (px, (width / 2) * (height / 2)) ∧
      decompress.write rgb_blocks width height =
        .ok { width := width, height := height, denominator := 255, pixels := px } ∧
      px.width = width ∧ px.height = height ∧
      ∀ c r, c < width → r < height → px.elems c r = raster_px rgb_blocks (width / 2) c r := by
  have e1 : (height + 1) / 2 = height / 2 := by omega
  have e2 : (width + 1) / 2 = width / 2 := by omega
  obtain ⟨px, e, w', h', k⟩ := write_outer_loop rgb_blocks (height / 2) (width / 2)
    (A2_new width height) (by rw [Nat.mul_comm]; exact hlen)
    (show 2 * (width / 2) ≤ width by omega) (show 2 * (height / 2) ≤ height by omega)
  refine ⟨px, ?_, ?_, w', h', ?_⟩
  · simp only [for_step2_nat, e1, e2]
    rw [e, Nat.mul_comm]
  · rw [write_eq, e1, e2, e]
    rfl
  · intro c r hc hr
    rw [k, if_pos ⟨by omega, by omega⟩]

theorem quantize_bcd_zero {K : Type} [LinearOrderedField K] [FloorRing K] :
    quantize_bcd (0 : K) 6 = 0 := by
  rw [quantize_bcd_eq, fit_range_eq _ BCD_MAX BCD_MIN (by unfold BCD_MAX BCD_MIN; norm_num)]
  unfold BCD_MAX BCD_MIN
  have e : max (-(3 / 10 : K)) (min 0 (3 / 10)) * (31 / (3 / 10)) = ((0 : Int) : K) := by
    rw [min_eq_left (by norm_num), max_eq_right (by norm_num)]
    simp
  rw [e, trunc_intCast]

theorem uniform_block_bits {K : Type} [LinearOrderedField K] [FloorRing K]
    (index_of_chroma : K → Nat) (p : RGB_px K) (xyz0 : XYZ_block K) (bit0 : bit_block) :
    luma_to_bit (RGB_to_XYZ ⟨p, p, p, p⟩ xyz0)
        (chroma_to_bit index_of_chroma (RGB_to_XYZ ⟨p, p, p, p⟩ xyz0) bit0) =
      { a := quantize_a (to_float p).luma 6
        Pb := index_of_chroma (to_float p).Pb
        Pr := index_of_chroma (to_float p).Pr
        b := 0
        c := 0
        d := 0 } := by
  have hX : RGB_to_XYZ ⟨p, p, p, p⟩ xyz0 =
      ⟨to_float p, to_float p, to_float p, to_float p⟩ := rfl
  rw [hX]
  have hPb : average_Pb (⟨to_float p, to_float p, to_float p, to_float p⟩ : XYZ_block K) =
      (to_float p).Pb := by
    unfold average_Pb
    simp only []
    ring
  have hPr : average_Pr (⟨to_float p, to_float p, to_float p, to_float p⟩ : XYZ_block K) =
      (to_float p).Pr := by
    unfold average_Pr
    simp only []
    ring
  have hd : dct (⟨to_float p, to_float p, to_float p, to_float p⟩ : XYZ_block K) =
      ⟨(to_float p).luma, 0, 0, 0⟩ := by
    unfold dct
    simp only [cosine.mk.injEq]
    refine ⟨?_, ?_, ?_, ?_⟩ <;> ring
  unfold luma_to_bit chroma_to_bit
  simp only [hPb, hPr, hd]
  show ({ a := quantize_a (to_float p).luma 6
          Pb := index_of_chroma (to_float p).Pb
          Pr := index_of_chroma (to_float p).Pr
          b := quantize_bcd (0 : K) 6
          c := quantize_bcd (0 : K) 6
          d := quantize_bcd (0 : K) 6 } : bit_block) = _
  rw [quantize_bcd_zero]

theorem to_float_gray {K : Type} [LinearOrderedField K] (v : K) :
    to_float (⟨v, v, v⟩ : RGB_px K) = ⟨v, 0, 0⟩ := by
  unfold to_float
  simp only [XYZ_px.mk.injEq]
  refine ⟨?_, ?_, ?_⟩ <;> ring

theorem quantize_a_gray {K : Type} [LinearOrderedField K] [FloorRing K] :
    quantize_a ((128 : K) / 255) 6 = 31 := by
  rw [quantize_a_eq, min_eq_left (by norm_num), max_eq_right (by norm_num)]
  have e : Int.floor ((128 : K) / 255 * 63) = 31 := by
    rw [Int.floor_eq_iff]
    constructor <;> norm_num
  rw [e]
  rfl

/-- C32: in exact arithmetic, for the block whose four pixels are
`(128, 128, 128)` over the denominator 255, the block averages of `Pb` and
`Pr` after `RGB_to_XYZ` are 0 and the bit block filled by `chroma_to_bit` and
`luma_to_bit` has `a = 31`, which is `128 / 255 * 63` rounded toward zero,
`b = c = d = 0` and `Pb = Pr = index_of_chroma 0`. -/
theorem gray_block_bits {K : Type} [LinearOrderedField K] [FloorRing K]
    (index_of_chroma : K → Nat) (xyz0 : XYZ_block K) (bit0 : bit_block) :
    average_Pb (RGB_to_XYZ
      ⟨get_rgb_pixel ⟨128, 128, 128⟩ 255, get_rgb_pixel ⟨128, 128, 128⟩ 255,
        get_rgb_pixel ⟨128, 128, 128⟩ 255, get_rgb_pixel ⟨128, 128, 128⟩ 255⟩ xyz0) = 0 ∧
    average_Pr (RGB_to_XYZ
      ⟨get_rgb_pixel ⟨128, 128, 128⟩ 255, get_rgb_pixel ⟨128, 128, 128⟩ 255,
        get_rgb_pixel ⟨128, 128, 128⟩ 255, get_rgb_pixel ⟨128, 128, 128⟩ 255⟩ xyz0) = 0 ∧
    luma_to_bit (RGB_to_XYZ
        ⟨get_rgb_pixel ⟨128, 128, 128⟩ 255, get_rgb_pixel ⟨128, 128, 128⟩ 255,
          get_rgb_pixel ⟨128, 128, 128⟩ 255, get_rgb_pixel ⟨128, 128, 128⟩ 255⟩ xyz0)
      (chroma_to_bit index_of_chroma (RGB_to_XYZ
        ⟨get_rgb_pixel ⟨128, 128, 128⟩ 255, get_rgb_pixel ⟨128, 128, 128⟩ 255,
          get_rgb_pixel ⟨128, 128, 128⟩ 255, get_rgb_pixel ⟨128, 128, 128⟩ 255⟩ xyz0) bit0) =
      { a := 31, Pb := index_of_chroma 0, Pr := index_of_chroma 0, b := 0, c := 0, d := 0 } ∧
    ((31 : Int) = trunc ((128 : K) / 255 * 63)) := by
  have hp : (get_rgb_pixel ⟨128, 128, 128⟩ 255 : RGB_px K) =
      ⟨(128 : K) / 255, (128 : K) / 255, (128 : K) / 255⟩ := by
    unfold get_rgb_pixel
    simp only [Nat.cast_ofNat]
  have hX : RGB_to_XYZ
      ⟨get_rgb_pixel ⟨128, 128, 128⟩ 255, get_rgb_pixel ⟨128, 128, 128⟩ 255,
        get_rgb_pixel ⟨128, 128, 128⟩ 255, get_rgb_pixel ⟨128, 128, 128⟩ 255⟩ xyz0 =
      (⟨⟨(128 : K) / 255, 0, 0⟩, ⟨(128 : K) / 255, 0, 0⟩, ⟨(128 : K) / 255, 0, 0⟩,
        ⟨(128 : K) / 255, 0, 0⟩⟩ : XYZ_block K) := by
    rw [hp]
    show (⟨to_float _, to_float _, to_float _, to_float _⟩ : XYZ_block K) = _
    rw [to_float_gray]
  refine ⟨?_, ?_, ?_, ?_⟩
  · rw [hX]
    unfold average_Pb
    simp
  · rw [hX]
    unfold average_Pr
    simp
  · rw [uniform_block_bits, hp, to_float_gray, quantize_a_gray]
  · unfold trunc
    rw [if_pos (by norm_num)]
    symm
    rw [Int.floor_eq_iff]
    constructor <;> norm_num

/-! ## One block through compress40 and decompress40 -/

theorem get_rgb_blocks_of_read {K : Type} [LinearOrderedField K] [FloorRing K]
    (bl out : List (RGB_block K)) (image im : Pnm_ppm) (h : read bl image = .ok (out, im)) :
    get_rgb_blocks bl (trim_ppm (scale_ppm K image)) = .ok out := by
  unfold read at h
  simp only [] at h
  cases hg : get_rgb_blocks bl (trim_ppm (scale_ppm K image)) with
  | error e =>
    rw [hg] at h
    cases h
  | ok o =>
    rw [hg] at h
    have h2 : (o, trim_ppm (scale_ppm K image)) = (out, im) := Except.ok.inj h
    rw [(Prod.mk.inj h2).1]

theorem list_eq_singleton {α : Type} (l : List α) (a : α) (hl : l.length = 1)
    (h0 : l[0]? = some a) : l = [a] := by
  cases l with
  | nil => cases hl
  | cons b t =>
    cases t with
    | nil =>
      simp at h0
      rw [h0]
    | cons c u => simp at hl

theorem uniform_image_blocks {K : Type} [LinearOrderedField K] [FloorRing K] (D : Nat)
    (s : Pnm_rgb) (z : RGB_block K) (hD : 0 < D)
    (hs : s.red ≤ D ∧ s.green ≤ D ∧ s.blue ≤ D) :
    get_rgb_blocks [z] (trim_ppm (scale_ppm K ⟨2, 2, D, ⟨2, 2, fun _ _ => s⟩⟩)) =
      .ok [⟨rescaled D s, rescaled D s, rescaled D s, rescaled D s⟩] := by
  obtain ⟨out, e, h⟩ := read_blocks (⟨2, 2, D, ⟨2, 2, fun _ _ => s⟩⟩ : Pnm_ppm) [z]
    (show (2 : Nat) < 2 ^ 31 by decide) (show (2 : Nat) < 2 ^ 31 by decide) rfl rfl
    (show 2 / 2 * (2 / 2) ≤ 1 by decide) hD (fun _ _ => hs)
  obtain ⟨out2, e2, l2, -⟩ := read_ok (⟨2, 2, D, ⟨2, 2, fun _ _ => s⟩⟩ : Pnm_ppm) [z]
    (show (2 : Nat) < 2 ^ 31 by decide) (show (2 : Nat) < 2 ^ 31 by decide) rfl rfl
    (show 2 / 2 * (2 / 2) ≤ 1 by decide)
  have heq : out2 = out := by
    rw [e] at e2
    exact (Prod.mk.inj (Except.ok.inj e2)).1.symm
  subst heq
  have h0 := h 0 0 (show 0 < 2 / 2 by decide) (show 0 < 2 / 2 by decide)
  simp only [Nat.zero_mul, Nat.mul_zero, Nat.zero_add] at h0
  rw [get_rgb_blocks_of_read [z] out2 _ _ e, list_eq_singleton out2 _ l2 h0]

theorem decompress40_eq {K : Type} [LinearOrderedField K] [FloorRing K]
    (chroma_of_index : Nat → K) (sgn : Bool) (input : List Nat) :
    decompress40 chroma_of_index sgn input =
      (read_header input).bind (fun hd =>
      (read_body sgn hd.1 hd.2.1 hd.2.2).bind (fun cw =>
      (decompress.pixpack (new_blocks ((hd.1 / 2) * (hd.2.1 / 2) % 2 ^ 32)
          { a := 0, Pb := 0, Pr := 0, b := 0, c := 0, d := 0 }) cw.1).bind (fun bit_blocks =>
      (decompress.luma (new_blocks ((hd.1 / 2) * (hd.2.1 / 2) % 2 ^ 32)
          ({ topL := { luma := 0, Pb := 0, Pr := 0 }, topR := { luma := 0, Pb := 0, Pr := 0 },
             botL := { luma := 0, Pb := 0, Pr := 0 },
             botR := { luma := 0, Pb := 0, Pr := 0 } } : XYZ_block K)) bit_blocks).bind
        (fun xyz_blocks =>
      (decompress.chroma chroma_of_index xyz_blocks bit_blocks).bind (fun xyz_blocks =>
      (decompress.rgb_xyz (new_blocks ((hd.1 / 2) * (hd.2.1 / 2) % 2 ^ 32)
          ({ topL := { r := 0, g := 0, b := 0 }, topR := { r := 0, g := 0, b := 0 },
             botL := { r := 0, g := 0, b := 0 }, botR := { r := 0, g := 0, b := 0 } } :
            RGB_block K)) xyz_blocks).bind (fun rgb_blocks =>
      decompress.write rgb_blocks hd.1 hd.2.1)))))) := rfl

theorem read_header_2_2 (body : List Nat) :
    read_header (print_header 2 2 ++ body) = .ok (2, 2, body) := rfl

theorem read_body_one (sgn : Bool) (C : Nat) (hC : C < 2 ^ 32) :
    read_body sgn 2 2 (body_bytes [C]) = .ok ([C], []) := by
  have h := read_codewords_eq sgn [C] [0] []
    (fun x hx => by rw [List.mem_singleton.mp hx]; exact hC)
    (fun x hx => by rw [List.mem_singleton.mp hx]; decide) rfl
  rw [List.append_nil] at h
  exact h

theorem Except_ok_bind {α β : Type} (a : α) (f : α → Except Exc β) :
    (Except.ok a : Except Exc α).bind f = f a := rfl

theorem decompress_stages_single {K : Type} [LinearOrderedField K] [FloorRing K]
    (chroma_of_index : Nat → K) (bit zb : bit_block) (C : Nat) (zx : XYZ_block K)
    (zr : RGB_block K) (width height : Nat) (hun : unpack C zb = .ok bit) :
    (decompress.pixpack [zb] [C]).bind (fun bit_blocks =>
      (decompress.luma [zx] bit_blocks).bind (fun xyz_blocks =>
      (decompress.chroma chroma_of_index xyz_blocks bit_blocks).bind (fun xyz_blocks =>
      (decompress.rgb_xyz [zr] xyz_blocks).bind (fun rgb_blocks =>
      decompress.write rgb_blocks width height)))) =
    decompress.write
      [XYZ_to_RGB (bit_to_chroma chroma_of_index bit (bit_to_luma bit zx)) zr] width height := by
  have hp : decompress.pixpack [zb] [C] = .ok [bit] := by
    unfold decompress.pixpack
    rw [map_blocks, hun]
    rfl
  rw [hp]
  rfl

theorem decompress40_single {K : Type} [LinearOrderedField K] [FloorRing K]
    (chroma_of_index : Nat → K) (sgn : Bool) (input body rest : List Nat) (bit : bit_block)
    (hfit : fields_fit bit) (hhd : read_header input = .ok (2, 2, body))
    (hbody : read_body sgn 2 2 body = .ok ([codeword_of bit], rest)) :
    ∃ px : A2,
      decompress40 chroma_of_index sgn input =
        .ok { width := 2, height := 2, denominator := 255, pixels := px } ∧
      px.width = 2 ∧ px.height = 2 ∧
      ∀ c r, c < 2 → r < 2 → px.elems c r =
        get_pnm_rgb (corner (XYZ_to_RGB (bit_to_chroma chroma_of_index bit
          (bit_to_luma bit ⟨⟨0, 0, 0⟩, ⟨0, 0, 0⟩, ⟨0, 0, 0⟩, ⟨0, 0, 0⟩⟩))
          ⟨⟨0, 0, 0⟩, ⟨0, 0, 0⟩, ⟨0, 0, 0⟩, ⟨0, 0, 0⟩⟩) c r) := by
  obtain ⟨px, -, e, w', h', k⟩ := write_ok
    [XYZ_to_RGB (bit_to_chroma chroma_of_index bit
      (bit_to_luma bit (⟨⟨0, 0, 0⟩, ⟨0, 0, 0⟩, ⟨0, 0, 0⟩, ⟨0, 0, 0⟩⟩ : XYZ_block K)))
      ⟨⟨0, 0, 0⟩, ⟨0, 0, 0⟩, ⟨0, 0, 0⟩, ⟨0, 0, 0⟩⟩] 2 2 rfl rfl
    (show 2 / 2 * (2 / 2) ≤ 1 by decide)
  refine ⟨px, ?_, w', h', ?_⟩
  · rw [decompress40_eq, hhd, Except_ok_bind, hbody, Except_ok_bind]
    dsimp only
    rw [show (2 / 2 * (2 / 2) % 2 ^ 32 : Nat) = 1 from rfl]
    rw [show ∀ (α : Type) (z : α), new_blocks 1 z = [z] from fun _ _ => rfl]
    exact (decompress_stages_single chroma_of_index bit ⟨0, 0, 0, 0, 0, 0⟩ (codeword_of bit)
      ⟨⟨0, 0, 0⟩, ⟨0, 0, 0⟩, ⟨0, 0, 0⟩, ⟨0, 0, 0⟩⟩ ⟨⟨0, 0, 0⟩, ⟨0, 0, 0⟩, ⟨0, 0, 0⟩, ⟨0, 0, 0⟩⟩
      2 2 (unpack_codeword_of bit _ hfit)).trans e
  · intro c r hc hr
    rw [k c r hc hr]
    exact raster_px_eq _ _ c r 0 0 _ (by omega) (by omega) rfl

theorem compress40_single_pack {K : Type} [LinearOrderedField K] [FloorRing K]
    (index_of_chroma : K → Nat) (sgn : Bool) (image : Pnm_ppm) (blk : RGB_block K)
    (hw : image.width = 2) (hh : image.height = 2)
    (hget : get_rgb_blocks [⟨⟨0, 0, 0⟩, ⟨0, 0, 0⟩, ⟨0, 0, 0⟩, ⟨0, 0, 0⟩⟩]
      (trim_ppm (scale_ppm K image)) = .ok [blk]) :
    compress40 index_of_chroma sgn image =
      (pack (luma_to_bit
        (RGB_to_XYZ blk ⟨⟨0, 0, 0⟩, ⟨0, 0, 0⟩, ⟨0, 0, 0⟩, ⟨0, 0, 0⟩⟩)
        (chroma_to_bit index_of_chroma
          (RGB_to_XYZ blk ⟨⟨0, 0, 0⟩, ⟨0, 0, 0⟩, ⟨0, 0, 0⟩, ⟨0, 0, 0⟩⟩)
          ⟨0, 0, 0, 0, 0, 0⟩))).bind (fun C => .ok (print_header 2 2 ++ body_bytes [C])) := by
  have t1 := trim_ppm_eq (scale_ppm K image)
    (show image.width < 2 ^ 32 by omega) (show image.height < 2 ^ 32 by omega)
  have tw : (trim_ppm (scale_ppm K image)).width = 2 := by
    rw [t1]
    show 2 * (image.width / 2) = 2
    omega
  have th : (trim_ppm (scale_ppm K image)).height = 2 := by
    rw [t1]
    show 2 * (image.height / 2) = 2
    omega
  rw [compress40_eq, tw, th, hw, hh, show (2 / 2 * (2 / 2) % 2 ^ 32 : Nat) = 1 from rfl]
  simp only [new_blocks, List.replicate]
  rw [hget, Except_ok_bind]
  rw [show rgb_xyz [(⟨⟨0, 0, 0⟩, ⟨0, 0, 0⟩, ⟨0, 0, 0⟩, ⟨0, 0, 0⟩⟩ : XYZ_block K)] [blk] =
    .ok [RGB_to_XYZ blk ⟨⟨0, 0, 0⟩, ⟨0, 0, 0⟩, ⟨0, 0, 0⟩, ⟨0, 0, 0⟩⟩] from rfl, Except_ok_bind]
  rw [show chroma index_of_chroma [(⟨0, 0, 0, 0, 0, 0⟩ : bit_block)]
      [RGB_to_XYZ blk ⟨⟨0, 0, 0⟩, ⟨0, 0, 0⟩, ⟨0, 0, 0⟩, ⟨0, 0, 0⟩⟩] =
    .ok [chroma_to_bit index_of_chroma
      (RGB_to_XYZ blk ⟨⟨0, 0, 0⟩, ⟨0, 0, 0⟩, ⟨0, 0, 0⟩, ⟨0, 0, 0⟩⟩) ⟨0, 0, 0, 0, 0, 0⟩] from rfl,
    Except_ok_bind]
  rw [show luma [chroma_to_bit index_of_chroma
        (RGB_to_XYZ blk ⟨⟨0, 0, 0⟩, ⟨0, 0, 0⟩, ⟨0, 0, 0⟩, ⟨0, 0, 0⟩⟩) ⟨0, 0, 0, 0, 0, 0⟩]
      [RGB_to_XYZ blk ⟨⟨0, 0, 0⟩, ⟨0, 0, 0⟩, ⟨0, 0, 0⟩, ⟨0, 0, 0⟩⟩] =
    .ok [luma_to_bit (RGB_to_XYZ blk ⟨⟨0, 0, 0⟩, ⟨0, 0, 0⟩, ⟨0, 0, 0⟩, ⟨0, 0, 0⟩⟩)
      (chroma_to_bit index_of_chroma
        (RGB_to_XYZ blk ⟨⟨0, 0, 0⟩, ⟨0, 0, 0⟩, ⟨0, 0, 0⟩, ⟨0, 0, 0⟩⟩) ⟨0, 0, 0, 0, 0, 0⟩)]
    from rfl, Except_ok_bind]
  have hp : ∀ bit : bit_block,
      pixpack [0] [bit] = (pack bit).bind (fun C => .ok [C]) := by
    intro bit
    unfold pixpack
    rw [map_blocks]
    cases pack bit <;> rfl
  rw [hp]
  cases pack (luma_to_bit (RGB_to_XYZ blk ⟨⟨0, 0, 0⟩, ⟨0, 0, 0⟩, ⟨0, 0, 0⟩, ⟨0, 0, 0⟩⟩)
      (chroma_to_bit index_of_chroma
        (RGB_to_XYZ blk ⟨⟨0, 0, 0⟩, ⟨0, 0, 0⟩, ⟨0, 0, 0⟩, ⟨0, 0, 0⟩⟩) ⟨0, 0, 0, 0, 0, 0⟩)) with
  | error e => rfl
  | ok C =>
    rw [Except_ok_bind, Except_ok_bind, Except_ok_bind]
    exact write_codewords_eq sgn _ _

theorem compress40_uniform_pack {K : Type} [LinearOrderedField K] [FloorRing K]
    (index_of_chroma : K → Nat) (sgn : Bool) (D : Nat) (s : Pnm_rgb) (hD : 0 < D)
    (hs : s.red ≤ D ∧ s.green ≤ D ∧ s.blue ≤ D) :
    compress40 index_of_chroma sgn ⟨2, 2, D, ⟨2, 2, fun _ _ => s⟩⟩ =
      (pack (uniform_bits index_of_chroma (rescaled D s : RGB_px K))).bind
        (fun C => .ok (print_header 2 2 ++ body_bytes [C])) := by
  have hget := uniform_image_blocks D s
    (⟨⟨0, 0, 0⟩, ⟨0, 0, 0⟩, ⟨0, 0, 0⟩, ⟨0, 0, 0⟩⟩ : RGB_block K) hD hs
  have hu := uniform_block_bits index_of_chroma (rescaled D s : RGB_px K)
    ⟨⟨0, 0, 0⟩, ⟨0, 0, 0⟩, ⟨0, 0, 0⟩, ⟨0, 0, 0⟩⟩ ⟨0, 0, 0, 0, 0, 0⟩
  rw [compress40_single_pack index_of_chroma sgn ⟨2, 2, D, ⟨2, 2, fun _ _ => s⟩⟩ _ rfl rfl
    hget, hu]
  rfl

theorem scale_bcd_zero {K : Type} [LinearOrderedField K] :
    scale_bcd (((0 : Int) : K)) 6 = 0 := by
  rw [scale_bcd_eq]
  norm_num

theorem corner_uniform {K : Type} (t : RGB_px K) (c r : Nat) :
    corner (⟨t, t, t, t⟩ : RGB_block K) c r = t := by
  unfold corner
  split_ifs <;> rfl

theorem uniform_bits_pixels {K : Type} [LinearOrderedField K] [FloorRing K]
    (chroma_of_index : Nat → K) (a iPb iPr : Nat) (zx : XYZ_block K) (zr : RGB_block K) :
    XYZ_to_RGB (bit_to_chroma chroma_of_index ⟨a, iPb, iPr, 0, 0, 0⟩
        (bit_to_luma ⟨a, iPb, iPr, 0, 0, 0⟩ zx)) zr =
      ⟨to_int ⟨scale_a (a : K) 6, chroma_of_index iPb, chroma_of_index iPr⟩,
       to_int ⟨scale_a (a : K) 6, chroma_of_index iPb, chroma_of_index iPr⟩,
       to_int ⟨scale_a (a : K) 6, chroma_of_index iPb, chroma_of_index iPr⟩,
       to_int ⟨scale_a (a : K) 6, chroma_of_index iPb, chroma_of_index iPr⟩⟩ := by
  have e : bit_to_chroma chroma_of_index ⟨a, iPb, iPr, 0, 0, 0⟩
      (bit_to_luma ⟨a, iPb, iPr, 0, 0, 0⟩ zx) =
      ⟨⟨scale_a (a : K) 6, chroma_of_index iPb, chroma_of_index iPr⟩,
       ⟨scale_a (a : K) 6, chroma_of_index iPb, chroma_of_index iPr⟩,
       ⟨scale_a (a : K) 6, chroma_of_index iPb, chroma_of_index iPr⟩,
       ⟨scale_a (a : K) 6, chroma_of_index iPb, chroma_of_index iPr⟩⟩ := by
    unfold bit_to_chroma store_Pb store_Pr bit_to_luma inverse_dct
    simp only [A_WIDTH, B_WIDTH, C_WIDTH, D_WIDTH, Nat.cast_ofNat, scale_bcd_zero, sub_zero,
      add_zero]
  rw [e]
  rfl

theorem round_trip_uniform {K : Type} [LinearOrderedField K] [FloorRing K]
    (index_of_chroma : K → Nat) (chroma_of_index : Nat → K) (sgn : Bool) (D : Nat)
    (s : Pnm_rgb) (hD : 0 < D) (hs : s.red ≤ D ∧ s.green ≤ D ∧ s.blue ≤ D) :
    round_trip index_of_chroma chroma_of_index sgn ⟨2, 2, D, ⟨2, 2, fun _ _ => s⟩⟩ =
      (pack (uniform_bits index_of_chroma (rescaled D s : RGB_px K))).bind
        (fun C => decompress40 chroma_of_index sgn (print_header 2 2 ++ body_bytes [C])) := by
  unfold round_trip
  rw [compress40_uniform_pack index_of_chroma sgn D s hD hs]
  cases pack (uniform_bits index_of_chroma (rescaled D s : RGB_px K)) <;> rfl

theorem uniform_bits_fit {K : Type} [LinearOrderedField K] [FloorRing K]
    (index_of_chroma : K → Nat) (p : RGB_px K) :
    fields_fit (uniform_bits index_of_chroma p) ↔
      (index_of_chroma (to_float p).Pb ≤ 15 ∧ index_of_chroma (to_float p).Pr ≤ 15) := by
  have ha : quantize_a (to_float p).luma 6 ≤ 63 := quantize_a_le _
  constructor
  · intro h
    exact ⟨h.2.1, h.2.2.1⟩
  · intro h
    exact ⟨ha, h.1, h.2, (show (-32 : Int) ≤ 0 ∧ (0 : Int) ≤ 31 by decide),
      (show (-32 : Int) ≤ 0 ∧ (0 : Int) ≤ 31 by decide),
      (show (-32 : Int) ≤ 0 ∧ (0 : Int) ≤ 31 by decide)⟩

theorem round_trip_uniform_fail {K : Type} [LinearOrderedField K] [FloorRing K]
    (index_of_chroma : K → Nat) (chroma_of_index : Nat → K) (sgn : Bool) (D : Nat)
    (s : Pnm_rgb) (hD : 0 < D) (hs : s.red ≤ D ∧ s.green ≤ D ∧ s.blue ≤ D)
    (h : ¬ (index_of_chroma (to_float (rescaled D s : RGB_px K)).Pb ≤ 15 ∧
      index_of_chroma (to_float (rescaled D s : RGB_px K)).Pr ≤ 15)) :
    round_trip index_of_chroma chroma_of_index sgn ⟨2, 2, D, ⟨2, 2, fun _ _ => s⟩⟩ =
      .error Exc.Bitpack_Overflow := by
  rw [round_trip_uniform index_of_chroma chroma_of_index sgn D s hD hs,
    pack_overflow _ (fun hf => h ((uniform_bits_fit index_of_chroma _).mp hf))]
  rfl

theorem round_trip_uniform_ok {K : Type} [LinearOrderedField K] [FloorRing K]
    (index_of_chroma : K → Nat) (chroma_of_index : Nat → K) (sgn : Bool) (D : Nat)
    (s : Pnm_rgb) (hD : 0 < D) (hs : s.red ≤ D ∧ s.green ≤ D ∧ s.blue ≤ D)
    (h : index_of_chroma (to_float (rescaled D s : RGB_px K)).Pb ≤ 15 ∧
      index_of_chroma (to_float (rescaled D s : RGB_px K)).Pr ≤ 15) :
    ∃ px : A2,
      round_trip index_of_chroma chroma_of_index sgn ⟨2, 2, D, ⟨2, 2, fun _ _ => s⟩⟩ =
        .ok { width := 2, height := 2, denominator := 255, pixels := px } ∧
      px.width = 2 ∧ px.height = 2 ∧
      ∀ c r, c < 2 → r < 2 → px.elems c r =
        get_pnm_rgb (to_int
          ⟨scale_a ((quantize_a (to_float (rescaled D s : RGB_px K)).luma 6 : Nat) : K) 6,
            chroma_of_index (index_of_chroma (to_float (rescaled D s : RGB_px K)).Pb),
            chroma_of_index (index_of_chroma (to_float (rescaled D s : RGB_px K)).Pr)⟩) := by
  have hfit := (uniform_bits_fit index_of_chroma (rescaled D s : RGB_px K)).mpr h
  obtain ⟨px, e, w', h', k⟩ := decompress40_single chroma_of_index sgn
    (print_header 2 2 ++ body_bytes [codeword_of
      (uniform_bits index_of_chroma (rescaled D s : RGB_px K))])
    (body_bytes [codeword_of (uniform_bits index_of_chroma (rescaled D s : RGB_px K))]) []
    (uniform_bits index_of_chroma (rescaled D s : RGB_px K)) hfit (read_header_2_2 _)
    (read_body_one sgn _ (codeword_of_lt _ hfit))
  refine ⟨px, ?_, w', h', ?_⟩
  · rw [round_trip_uniform index_of_chroma chroma_of_index sgn D s hD hs, pack_fits _ hfit,
      Except_ok_bind]
    exact e
  · intro c r hc hr
    rw [k c r hc hr]
    unfold uniform_bits
    rw [uniform_bits_pixels, corner_uniform]

theorem trunc_le_self {K : Type} [LinearOrderedField K] [FloorRing K] (x : K) (h : 0 ≤ x) :
    ((trunc x : Int) : K) ≤ x := by
  unfold trunc
  rw [if_pos h]
  exact Int.floor_le x

theorem sample_ge {K : Type} [LinearOrderedField K] [FloorRing K] (x : K) (n : Nat)
    (hn : 0 < n) (h : n ≤ float_to_unsigned (max 0 (min x 255))) : (n : K) ≤ x := by
  have h0 : (0 : K) ≤ max 0 (min x 255) := le_max_left _ _
  have h1 : max 0 (min x 255) ≤ (255 : K) := max_le (by norm_num) (min_le_right _ _)
  obtain ⟨e, -⟩ := sample_of_range (max 0 (min x 255)) h0 h1
  have h2 : ((float_to_unsigned (max 0 (min x 255)) : Nat) : K) ≤ max 0 (min x 255) := by
    have := trunc_le_self (max 0 (min x 255)) h0
    rw [← e] at this
    exact_mod_cast this
  have h3 : (n : K) ≤ max 0 (min x 255) := le_trans (by exact_mod_cast h) h2
  have hn' : (0 : K) < n := by exact_mod_cast hn
  rcases le_max_iff.mp h3 with h4 | h4
  · linarith
  · exact le_trans h4 (min_le_left _ _)

theorem sample_lt {K : Type} [LinearOrderedField K] [FloorRing K] (x : K) (n : Nat)
    (hn : 0 < n) (h : x < n) : float_to_unsigned (max 0 (min x 255)) < n := by
  have h0 : (0 : K) ≤ max 0 (min x 255) := le_max_left _ _
  have h1 : max 0 (min x 255) ≤ (255 : K) := max_le (by norm_num) (min_le_right _ _)
  obtain ⟨e, -⟩ := sample_of_range (max 0 (min x 255)) h0 h1
  have hn' : (0 : K) < n := by exact_mod_cast hn
  have h2 : max 0 (min x 255) < (n : K) :=
    max_lt hn' (lt_of_le_of_lt (min_le_left _ _) h)
  have h3 : ((trunc (max 0 (min x 255)) : Int) : K) < (n : K) :=
    lt_of_le_of_lt (trunc_le_self _ h0) h2
  have h4 : trunc (max 0 (min x 255)) < (n : Int) := by exact_mod_cast h3
  rw [← e] at h4
  exact_mod_cast h4

theorem sample_eq {K : Type} [LinearOrderedField K] [FloorRing K] (x : K) (n : Nat)
    (h1 : (n : K) ≤ x) (h2 : x < n + 1) (hn : n ≤ 254) :
    float_to_unsigned (max 0 (min x 255)) = n := by
  have hx0 : (0 : K) ≤ x := le_trans (Nat.cast_nonneg n) h1
  have hn1 : ((n : K) + 1) ≤ 255 := by
    have : ((n + 1 : Nat) : K) ≤ ((255 : Nat) : K) := Nat.cast_le.mpr (by omega)
    push_cast at this
    exact this
  have hx1 : x ≤ 255 := le_of_lt (lt_of_lt_of_le h2 hn1)
  rw [min_eq_left hx1, max_eq_right hx0]
  unfold float_to_unsigned trunc
  rw [if_pos hx0]
  have e : Int.floor x = (n : Int) := by
    rw [Int.floor_eq_iff]
    exact ⟨by exact_mod_cast h1, by exact_mod_cast h2⟩
  rw [e]
  exact u32_natCast (by omega)

theorem sample_zero {K : Type} [LinearOrderedField K] [FloorRing K] (x : K) (h : x ≤ 0) :
    float_to_unsigned (max 0 (min x 255)) = 0 := by
  have e : max 0 (min x 255) = 0 := max_eq_left (le_trans (min_le_left _ _) h)
  rw [e]
  unfold float_to_unsigned trunc
  rw [if_pos (le_refl _), Int.floor_zero]
  rfl

/-! ## The round trip of the 2 by 2 gray image -/

theorem gray_values {K : Type} [LinearOrderedField K] [FloorRing K] :
    to_float (rescaled 255 ⟨128, 128, 128⟩ : RGB_px K) = ⟨128 / 255, 0, 0⟩ ∧
    scale_a ((quantize_a ((128 : K) / 255) 6 : Nat) : K) 6 = 31 / 63 := by
  constructor
  · have e : (rescaled 255 ⟨128, 128, 128⟩ : RGB_px K) =
        ⟨(128 : K) / 255, (128 : K) / 255, (128 : K) / 255⟩ := by
      unfold rescaled
      norm_num
    rw [e, to_float_gray]
  · rw [quantize_a_gray, scale_a_eq]
    norm_num

theorem gray_channels {K : Type} [LinearOrderedField K] [FloorRing K] (p : K) :
    (get_pnm_rgb (to_int ⟨31 / 63, p, p⟩)).red =
      float_to_unsigned (max 0 (min (255 * ((31 : K) / 63 + 1402 / 1000 * p)) 255)) ∧
    (get_pnm_rgb (to_int ⟨31 / 63, p, p⟩)).green =
      float_to_unsigned (max 0 (min (255 * ((31 : K) / 63 - 344136 / 1000000 * p
        - 714136 / 1000000 * p)) 255)) ∧
    (get_pnm_rgb (to_int ⟨31 / 63, p, p⟩)).blue =
      float_to_unsigned (max 0 (min (255 * ((31 : K) / 63 + 1772 / 1000 * p)) 255)) := by
  obtain ⟨c1, c2, c3⟩ := to_int_channels (⟨31 / 63, p, p⟩ : XYZ_px K)
  refine ⟨?_, ?_, ?_⟩
  · show float_to_unsigned (to_int ⟨31 / 63, p, p⟩).r = _
    rw [c1]
  · show float_to_unsigned (to_int ⟨31 / 63, p, p⟩).g = _
    rw [c2]
  · show float_to_unsigned (to_int ⟨31 / 63, p, p⟩).b = _
    rw [c3]

theorem gray_not_within_one {K : Type} [LinearOrderedField K] [FloorRing K] (p : K) :
    ¬ (127 ≤ (get_pnm_rgb (to_int ⟨31 / 63, p, p⟩)).red ∧
      127 ≤ (get_pnm_rgb (to_int ⟨31 / 63, p, p⟩)).green) := by
  obtain ⟨c1, c2, -⟩ := gray_channels p
  rintro ⟨h1, h2⟩
  rw [c1] at h1
  rw [c2] at h2
  have g1 := sample_ge _ 127 (by decide) h1
  have g2 := sample_ge _ 127 (by decide) h2
  push_cast at g1 g2
  have k1 : (0 : K) < p := by linarith
  linarith

theorem gray_pixel_zero_chroma {K : Type} [LinearOrderedField K] [FloorRing K] :
    get_pnm_rgb (to_int (⟨31 / 63, 0, 0⟩ : XYZ_px K)) = ⟨125, 125, 125⟩ := by
  obtain ⟨c1, c2, c3⟩ := gray_channels (0 : K)
  have e1 := sample_eq ((255 : K) * (31 / 63 + 1402 / 1000 * 0)) 125 (by norm_num)
    (by norm_num) (by decide)
  have e2 := sample_eq ((255 : K) * (31 / 63 - 344136 / 1000000 * 0 - 714136 / 1000000 * 0))
    125 (by norm_num) (by norm_num) (by decide)
  have e3 := sample_eq ((255 : K) * (31 / 63 + 1772 / 1000 * 0)) 125 (by norm_num)
    (by norm_num) (by decide)
  rw [e1] at c1
  rw [e2] at c2
  rw [e3] at c3
  have hs : ∀ q : Pnm_rgb, q.red = 125 → q.green = 125 → q.blue = 125 → q = ⟨125, 125, 125⟩ := by
    rintro ⟨a, b, c⟩ h1 h2 h3
    simp only at h1 h2 h3
    rw [h1, h2, h3]
  exact hs _ c1 c2 c3

/-- C33 does not hold: whatever the external chroma functions are, the round
trip of the 2 by 2 image of pixels `(128, 128, 128)` over 255 does not return
an image whose top-left pixel has all three samples in `127..129`. -/
theorem gray_round_trip_not_within_one :
    ¬ ∃ (index_of_chroma : ℚ → Nat) (chroma_of_index : Nat → ℚ) (sgn : Bool)
        (image : Pnm_ppm),
      round_trip index_of_chroma chroma_of_index sgn
        ⟨2, 2, 255, ⟨2, 2, fun _ _ => ⟨128, 128, 128⟩⟩⟩ = .ok image ∧
      (127 ≤ (image.pixels.elems 0 0).red ∧ (image.pixels.elems 0 0).red ≤ 129) ∧
      (127 ≤ (image.pixels.elems 0 0).green ∧ (image.pixels.elems 0 0).green ≤ 129) ∧
      (127 ≤ (image.pixels.elems 0 0).blue ∧ (image.pixels.elems 0 0).blue ≤ 129) := by
  rintro ⟨ioc, coi, sgn, image, e, hr, hg, -⟩
  obtain ⟨v1, v2⟩ := @gray_values ℚ _ _
  by_cases h : ioc (to_float (rescaled 255 ⟨128, 128, 128⟩ : RGB_px ℚ)).Pb ≤ 15 ∧
      ioc (to_float (rescaled 255 ⟨128, 128, 128⟩ : RGB_px ℚ)).Pr ≤ 15
  · obtain ⟨px, e2, -, -, k⟩ := round_trip_uniform_ok ioc coi sgn 255 ⟨128, 128, 128⟩
      (by decide) (by decide) h
    rw [e2] at e
    have hi : image = ⟨2, 2, 255, px⟩ := (Except.ok.inj e).symm
    have hp := k 0 0 (by decide) (by decide)
    rw [v1] at hp
    simp only [v2] at hp
    rw [hi] at hr hg
    simp only [hp] at hr hg
    exact gray_not_within_one _ ⟨hr.1, hg.1⟩
  · rw [round_trip_uniform_fail ioc coi sgn 255 ⟨128, 128, 128⟩ (by decide) (by decide) h] at e
    cases e

/-- C33, amended: in exact arithmetic, when the external index of the chroma 0
is at most 15, the round trip of the 2 by 2 image of pixels `(128, 128, 128)`
over 255 returns a 2 by 2 image over 255 whose four pixels are equal, with
samples `clamp(255 (31/63 + 1.402 p), 0, 255)`,
`clamp(255 (31/63 - 0.344136 p - 0.714136 p), 0, 255)` and
`clamp(255 (31/63 + 1.772 p), 0, 255)` truncated, `p` being the chroma that
`chroma_of_index` returns for that index; with `p = 0` every sample is 125,
and for no `p` are the red and the green sample both at least 127. -/
theorem gray_round_trip {K : Type} [LinearOrderedField K] [FloorRing K]
    (index_of_chroma : K → Nat) (chroma_of_index : Nat → K) (sgn : Bool)
    (hidx : index_of_chroma 0 ≤ 15) :
    ∃ px : A2,
      round_trip index_of_chroma chroma_of_index sgn
        ⟨2, 2, 255, ⟨2, 2, fun _ _ => ⟨128, 128, 128⟩⟩⟩ =
        .ok { width := 2, height := 2, denominator := 255, pixels := px } ∧
      px.width = 2 ∧ px.height = 2 ∧
      (∀ c r, c < 2 → r < 2 → px.elems c r =
        get_pnm_rgb (to_int ⟨31 / 63, chroma_of_index (index_of_chroma 0),
          chroma_of_index (index_of_chroma 0)⟩)) ∧
      ((get_pnm_rgb (to_int ⟨31 / 63, chroma_of_index (index_of_chroma 0),
          chroma_of_index (index_of_chroma 0)⟩)).red =
        float_to_unsigned (max 0 (min (255 * ((31 : K) / 63
          + 1402 / 1000 * chroma_of_index (index_of_chroma 0))) 255)) ∧
       (get_pnm_rgb (to_int ⟨31 / 63, chroma_of_index (index_of_chroma 0),
          chroma_of_index (index_of_chroma 0)⟩)).green =
        float_to_unsigned (max 0 (min (255 * ((31 : K) / 63
          - 344136 / 1000000 * chroma_of_index (index_of_chroma 0)
          - 714136 / 1000000 * chroma_of_index (index_of_chroma 0))) 255)) ∧
       (get_pnm_rgb (to_int ⟨31 / 63, chroma_of_index (index_of_chroma 0),
          chroma_of_index (index_of_chroma 0)⟩)).blue =
        float_to_unsigned (max 0 (min (255 * ((31 : K) / 63
          + 1772 / 1000 * chroma_of_index (index_of_chroma 0))) 255))) ∧
      (chroma_of_index (index_of_chroma 0) = 0 →
        ∀ c r, c < 2 → r < 2 → px.elems c r = ⟨125, 125, 125⟩) ∧
      ¬ (127 ≤ (px.elems 0 0).red ∧ 127 ≤ (px.elems 0 0).green) := by
  obtain ⟨v1, v2⟩ := @gray_values K _ _
  have h : index_of_chroma (to_float (rescaled 255 ⟨128, 128, 128⟩ : RGB_px K)).Pb ≤ 15 ∧
      index_of_chroma (to_float (rescaled 255 ⟨128, 128, 128⟩ : RGB_px K)).Pr ≤ 15 := by
    rw [v1]
    exact ⟨hidx, hidx⟩
  obtain ⟨px, e, w', h', k⟩ := round_trip_uniform_ok index_of_chroma chroma_of_index sgn 255
    ⟨128, 128, 128⟩ (by decide) (by decide) h
  rw [v1] at k
  simp only [v2] at k
  refine ⟨px, e, w', h', k, gray_channels _, ?_, ?_⟩
  · intro hp c r hc hr
    rw [k c r hc hr, hp, gray_pixel_zero_chroma]
  · rw [k 0 0 (by decide) (by decide)]
    exact gray_not_within_one _

theorem gray_round_trip_witness :
    ((fun _ : ℚ => 7) 0 ≤ 15) ∧
    ∃ px : A2,
      round_trip (fun _ : ℚ => 7) (fun _ => (0 : ℚ)) true
        ⟨2, 2, 255, ⟨2, 2, fun _ _ => ⟨128, 128, 128⟩⟩⟩ =
        .ok { width := 2, height := 2, denominator := 255, pixels := px } ∧
      px.elems 1 1 = ⟨125, 125, 125⟩ :=
  ⟨(by decide : (7 : Nat) ≤ 15),
    match gray_round_trip (fun _ : ℚ => 7) (fun _ => (0 : ℚ)) true
      (by decide : (7 : Nat) ≤ 15) with
    | ⟨px, h1, _, _, _, _, h6, _⟩ => ⟨px, h1, h6 rfl 1 1 (by decide) (by decide)⟩⟩

/-! ## The round trip of the 2 by 2 red image -/

theorem red_values {K : Type} [LinearOrderedField K] [FloorRing K] :
    to_float (rescaled 255 ⟨255, 0, 0⟩ : RGB_px K) =
      ⟨299 / 1000, -(168736 / 1000000), 1 / 2⟩ ∧
    scale_a ((quantize_a ((299 : K) / 1000) 6 : Nat) : K) 6 = 18 / 63 := by
  constructor
  · have e : (rescaled 255 ⟨255, 0, 0⟩ : RGB_px K) = ⟨1, 0, 0⟩ := by
      unfold rescaled
      norm_num
    rw [e]
    unfold to_float
    simp only [XYZ_px.mk.injEq]
    refine ⟨?_, ?_, ?_⟩ <;> norm_num
  · have q : quantize_a ((299 : K) / 1000) 6 = 18 := by
      rw [quantize_a_eq, min_eq_left (by norm_num), max_eq_right (by norm_num)]
      have e : Int.floor ((299 : K) / 1000 * 63) = 18 := by
        rw [Int.floor_eq_iff]
        constructor <;> norm_num
      rw [e]
      rfl
    rw [q, scale_a_eq]
    norm_num

theorem red_channels {K : Type} [LinearOrderedField K] [FloorRing K] (pb pr : K) :
    (get_pnm_rgb (to_int ⟨18 / 63, pb, pr⟩)).red =
      float_to_unsigned (max 0 (min (255 * ((18 : K) / 63 + 1402 / 1000 * pr)) 255)) ∧
    (get_pnm_rgb (to_int ⟨18 / 63, pb, pr⟩)).green =
      float_to_unsigned (max 0 (min (255 * ((18 : K) / 63 - 344136 / 1000000 * pb
        - 714136 / 1000000 * pr)) 255)) ∧
    (get_pnm_rgb (to_int ⟨18 / 63, pb, pr⟩)).blue =
      float_to_unsigned (max 0 (min (255 * ((18 : K) / 63 + 1772 / 1000 * pb)) 255)) := by
  obtain ⟨c1, c2, c3⟩ := to_int_channels (⟨18 / 63, pb, pr⟩ : XYZ_px K)
  refine ⟨?_, ?_, ?_⟩
  · show float_to_unsigned (to_int ⟨18 / 63, pb, pr⟩).r = _
    rw [c1]
  · show float_to_unsigned (to_int ⟨18 / 63, pb, pr⟩).g = _
    rw [c2]
  · show float_to_unsigned (to_int ⟨18 / 63, pb, pr⟩).b = _
    rw [c3]

theorem red_sample_le {K : Type} [LinearOrderedField K] [FloorRing K] (pb pr : K)
    (h : pr ≤ 1 / 2) : (get_pnm_rgb (to_int ⟨18 / 63, pb, pr⟩)).red ≤ 251 := by
  obtain ⟨c1, -, -⟩ := red_channels pb pr
  rw [c1]
  have := sample_lt ((255 : K) * (18 / 63 + 1402 / 1000 * pr)) 252 (by decide)
    (by push_cast; linarith)
  omega

theorem red_pixel_exact_chroma {K : Type} [LinearOrderedField K] [FloorRing K] :
    get_pnm_rgb (to_int (⟨18 / 63, -(168736 / 1000000), 1 / 2⟩ : XYZ_px K)) = ⟨251, 0, 0⟩ := by
  obtain ⟨c1, c2, c3⟩ := red_channels (-(168736 / 1000000) : K) (1 / 2)
  have e1 := sample_eq ((255 : K) * (18 / 63 + 1402 / 1000 * (1 / 2))) 251 (by norm_num)
    (by norm_num) (by decide)
  have e2 := sample_zero ((255 : K) * (18 / 63 - 344136 / 1000000 * -(168736 / 1000000)
    - 714136 / 1000000 * (1 / 2))) (by norm_num)
  have e3 := sample_zero ((255 : K) * (18 / 63 + 1772 / 1000 * -(168736 / 1000000)))
    (by norm_num)
  rw [e1] at c1
  rw [e2] at c2
  rw [e3] at c3
  have hs : ∀ q : Pnm_rgb, q.red = 251 → q.green = 0 → q.blue = 0 → q = ⟨251, 0, 0⟩ := by
    rintro ⟨a, b, c⟩ h1 h2 h3
    simp only at h1 h2 h3
    rw [h1, h2, h3]
  exact hs _ c1 c2 c3

/-- C34 does not hold: whatever the external chroma functions with values in
`[-0.5, 0.5]` are, the round trip of the 2 by 2 image of pixels `(255, 0, 0)`
over 255 does not return an image whose top-left pixel is within 2 of
`(255, 0, 0)`: its red sample is at most 251. -/
theorem red_round_trip_not_within_two :
    ¬ ∃ (index_of_chroma : ℚ → Nat) (chroma_of_index : Nat → ℚ) (sgn : Bool)
        (image : Pnm_ppm),
      (∀ i, -(1 / 2) ≤ chroma_of_index i ∧ chroma_of_index i ≤ 1 / 2) ∧
      round_trip index_of_chroma chroma_of_index sgn
        ⟨2, 2, 255, ⟨2, 2, fun _ _ => ⟨255, 0, 0⟩⟩⟩ = .ok image ∧
      253 ≤ (image.pixels.elems 0 0).red ∧ (image.pixels.elems 0 0).green ≤ 2 ∧
      (image.pixels.elems 0 0).blue ≤ 2 := by
  rintro ⟨ioc, coi, sgn, image, hc, e, hr, -, -⟩
  by_cases h : ioc (to_float (rescaled 255 ⟨255, 0, 0⟩ : RGB_px ℚ)).Pb ≤ 15 ∧
      ioc (to_float (rescaled 255 ⟨255, 0, 0⟩ : RGB_px ℚ)).Pr ≤ 15
  · obtain ⟨px, e2, -, -, k⟩ := round_trip_uniform_ok ioc coi sgn 255 ⟨255, 0, 0⟩
      (by decide) (by decide) h
    rw [e2] at e
    have hi : image = ⟨2, 2, 255, px⟩ := (Except.ok.inj e).symm
    have hp := k 0 0 (by decide) (by decide)
    obtain ⟨v1, v2⟩ := @red_values ℚ _ _
    rw [v1] at hp
    simp only [v2] at hp
    rw [hi] at hr
    simp only [hp] at hr
    have := red_sample_le (coi (ioc (-(168736 / 1000000)))) (coi (ioc (1 / 2))) (hc _).2
    omega
  · rw [round_trip_uniform_fail ioc coi sgn 255 ⟨255, 0, 0⟩ (by decide) (by decide) h] at e
    cases e

/-- C34, amended: in exact arithmetic, when the external indices of the block
averages `Pb = -0.168736` and `Pr = 0.5` are at most 15, the round trip of the
2 by 2 image of pixels `(255, 0, 0)` over 255 returns a 2 by 2 image over 255
whose four pixels are equal, with samples `clamp(255 (18/63 + 1.402 pr), 0, 255)`,
`clamp(255 (18/63 - 0.344136 pb - 0.714136 pr), 0, 255)` and
`clamp(255 (18/63 + 1.772 pb), 0, 255)` truncated, `pb` and `pr` being the
chroma values returned for the two indices; the red sample is at most 251
when `pr ≤ 0.5`, and every pixel is `(251, 0, 0)` when the two averages are
recovered exactly. -/
theorem red_round_trip {K : Type} [LinearOrderedField K] [FloorRing K]
    (index_of_chroma : K → Nat) (chroma_of_index : Nat → K) (sgn : Bool)
    (hPb : index_of_chroma (-(168736 / 1000000)) ≤ 15)
    (hPr : index_of_chroma (1 / 2) ≤ 15) :
    ∃ px : A2,
      round_trip index_of_chroma chroma_of_index sgn
        ⟨2, 2, 255, ⟨2, 2, fun _ _ => ⟨255, 0, 0⟩⟩⟩ =
        .ok { width := 2, height := 2, denominator := 255, pixels := px } ∧
      px.width = 2 ∧ px.height = 2 ∧
      (∀ c r, c < 2 → r < 2 → px.elems c r =
        get_pnm_rgb (to_int ⟨18 / 63, chroma_of_index (index_of_chroma (-(168736 / 1000000))),
          chroma_of_index (index_of_chroma (1 / 2))⟩)) ∧
      ((get_pnm_rgb (to_int ⟨18 / 63, chroma_of_index (index_of_chroma (-(168736 / 1000000))),
          chroma_of_index (index_of_chroma (1 / 2))⟩)).red =
        float_to_unsigned (max 0 (min (255 * ((18 : K) / 63
          + 1402 / 1000 * chroma_of_index (index_of_chroma (1 / 2)))) 255)) ∧
       (get_pnm_rgb (to_int ⟨18 / 63, chroma_of_index (index_of_chroma (-(168736 / 1000000))),
          chroma_of_index (index_of_chroma (1 / 2))⟩)).green =
        float_to_unsigned (max 0 (min (255 * ((18 : K) / 63
          - 344136 / 1000000 * chroma_of_index (index_of_chroma (-(168736 / 1000000)))
          - 714136 / 1000000 * chroma_of_index (index_of_chroma (1 / 2)))) 255)) ∧
       (get_pnm_rgb (to_int ⟨18 / 63, chroma_of_index (index_of_chroma (-(168736 / 1000000))),
          chroma_of_index (index_of_chroma (1 / 2))⟩)).blue =
        float_to_unsigned (max 0 (min (255 * ((18 : K) / 63
          + 1772 / 1000 * chroma_of_index (index_of_chroma (-(168736 / 1000000))))) 255))) ∧
      (chroma_of_index (index_of_chroma (1 / 2)) ≤ 1 / 2 →
        ∀ c r, c < 2 → r < 2 → (px.elems c r).red ≤ 251) ∧
      (chroma_of_index (index_of_chroma (-(168736 / 1000000))) = -(168736 / 1000000) →
        chroma_of_index (index_of_chroma (1 / 2)) = 1 / 2 →
        ∀ c r, c < 2 → r < 2 → px.elems c r = ⟨251, 0, 0⟩) := by
  obtain ⟨v1, v2⟩ := @red_values K _ _
  have h : index_of_chroma (to_float (rescaled 255 ⟨255, 0, 0⟩ : RGB_px K)).Pb ≤ 15 ∧
      index_of_chroma (to_float (rescaled 255 ⟨255, 0, 0⟩ : RGB_px K)).Pr ≤ 15 := by
    rw [v1]
    exact ⟨hPb, hPr⟩
  obtain ⟨px, e, w', h', k⟩ := round_trip_uniform_ok index_of_chroma chroma_of_index sgn 255
    ⟨255, 0, 0⟩ (by decide) (by decide) h
  rw [v1] at k
  simp only [v2] at k
  refine ⟨px, e, w', h', k, red_channels _ _, ?_, ?_⟩
  · intro hp c r hc hr
    rw [k c r hc hr]
    exact red_sample_le _ _ hp
  · intro hb hp c r hc hr
    rw [k c r hc hr, hb, hp, red_pixel_exact_chroma]

theorem red_round_trip_witness :
    ((fun x : ℚ => if x = 1 / 2 then 15 else 3) (-(168736 / 1000000)) ≤ 15 ∧
      (fun x : ℚ => if x = 1 / 2 then 15 else 3) (1 / 2) ≤ 15) ∧
    ∃ px : A2,
      round_trip (fun x : ℚ => if x = 1 / 2 then 15 else 3)
        (fun i => if i = 15 then (1 / 2 : ℚ) else -(168736 / 1000000)) true
        ⟨2, 2, 255, ⟨2, 2, fun _ _ => ⟨255, 0, 0⟩⟩⟩ =
        .ok { width := 2, height := 2, denominator := 255, pixels := px } ∧
      px.elems 1 0 = ⟨251, 0, 0⟩ :=
  ⟨⟨by norm_num, by norm_num⟩,
    match red_round_trip (fun x : ℚ => if x = 1 / 2 then 15 else 3)
      (fun i => if i = 15 then (1 / 2 : ℚ) else -(168736 / 1000000)) true
      (by norm_num) (by norm_num) with
    | ⟨px, h1, _, _, _, _, _, h7⟩ =>
      ⟨px, h1, h7 (by norm_num) (by norm_num) 1 0 (by decide) (by decide)⟩⟩

/-! ## decompress40 on a truncated stream -/

theorem decompress40_truncated_returns {K : Type} [LinearOrderedField K] [FloorRing K]
    (chroma_of_index : Nat → K) (sgn : Bool) :
    ∃ px : A2, decompress40 chroma_of_index sgn (print_header 2 2 ++ [1, 2, 3]) =
      .ok { width := 2, height := 2, denominator := 255, pixels := px } := by
  have hC : codeword_of (fields_of 0x010203FF) = 0x010203FF :=
    codeword_of_fields_of _ (by decide)
  have hbody : read_body sgn 2 2 [1, 2, 3] = .ok ([codeword_of (fields_of 0x010203FF)], []) := by
    rw [hC]
    cases sgn <;> rfl
  obtain ⟨px, e, -⟩ := decompress40_single chroma_of_index sgn (print_header 2 2 ++ [1, 2, 3])
    [1, 2, 3] [] (fields_of 0x010203FF) (fields_of_fit _) (read_header_2_2 _) hbody
  exact ⟨px, e⟩

/-! ## Rounding to a binary format -/

theorem ieee.round_even_err (y : ℚ) : |((ieee.round_even y : Int) : ℚ) - y| ≤ 1 / 2 := by
  have h1 := Int.floor_le y
  have h2 := Int.lt_floor_add_one y
  unfold ieee.round_even
  split_ifs with a b c
  · rw [abs_le]; constructor <;> linarith
  · push_cast; rw [abs_le]; constructor <;> linarith
  · rw [abs_le]; constructor <;> linarith
  · push_cast; rw [abs_le]; constructor <;> linarith

theorem ieee.round_even_eq (y : ℚ) (n : Int) (h : |y - n| < 1 / 2) :
    ieee.round_even y = n := by
  rw [abs_lt] at h
  obtain ⟨h1, h2⟩ := h
  unfold ieee.round_even
  rcases le_or_lt (n : ℚ) y with hy | hy
  · have hf : ⌊y⌋ = n := Int.floor_eq_iff.mpr ⟨hy, by linarith⟩
    rw [hf, if_pos (by linarith)]
  · have hf : ⌊y⌋ = n - 1 :=
      Int.floor_eq_iff.mpr ⟨by push_cast; linarith, by push_cast; linarith⟩
    rw [hf, if_neg (by push_cast; linarith), if_pos (by push_cast; linarith)]
    ring

theorem ieee.log_eq (x : ℚ) (e : Int) (h1 : (2 : ℚ) ^ e ≤ |x|) (h2 : |x| < (2 : ℚ) ^ (e + 1)) :
    Int.log 2 |x| = e := by
  have hx : 0 < |x| := lt_of_lt_of_le (zpow_pos (by norm_num) _) h1
  have a : e ≤ Int.log 2 |x| :=
    (Int.zpow_le_iff_le_log (by norm_num) hx).mp (by exact_mod_cast h1)
  have b : Int.log 2 |x| < e + 1 :=
    (Int.lt_zpow_iff_log_lt (by norm_num) hx).mp (by exact_mod_cast h2)
  omega

theorem ieee.log_bounds (x : ℚ) (hx : x ≠ 0) :
    (2 : ℚ) ^ Int.log 2 |x| ≤ |x| ∧ |x| < (2 : ℚ) ^ (Int.log 2 |x| + 1) :=
  ⟨by exact_mod_cast Int.zpow_log_le_self (by norm_num : 1 < 2) (abs_pos.mpr hx),
   by exact_mod_cast Int.lt_zpow_succ_log_self (by norm_num : 1 < 2) |x|⟩

theorem ieee.round_zero (p : Nat) (emin : Int) : ieee.round p emin 0 = 0 := by
  simp [ieee.round, ieee.round_even]

theorem ieee.round_err (p : Nat) (emin : Int) (x : ℚ) :
    |ieee.round p emin x - x| ≤ 2 ^ ieee.ulp_exp p emin x / 2 := by
  have hq : (0 : ℚ) < 2 ^ ieee.ulp_exp p emin x := zpow_pos (by norm_num) _
  unfold ieee.round
  simp only []
  generalize (2 : ℚ) ^ ieee.ulp_exp p emin x = q at hq ⊢
  have h := ieee.round_even_err (|x| / q)
  generalize ((ieee.round_even (|x| / q) : Int) : ℚ) = r at h ⊢
  have e : r * q - |x| = (r - |x| / q) * q := by field_simp
  have key : abs (r * q - |x|) ≤ q / 2 := by
    rw [e, abs_mul, abs_of_pos hq]
    nlinarith
  split_ifs with hneg
  · rw [abs_of_neg hneg] at key
    rw [show -(r * q) - x = -(r * q - -x) by ring, abs_neg]
    exact key
  · rw [abs_of_nonneg (not_lt.mp hneg)] at key
    exact key

theorem ieee.round_neg (p : Nat) (emin : Int) (x : ℚ) :
    ieee.round p emin (-x) = -ieee.round p emin x := by
  unfold ieee.round ieee.ulp_exp
  simp only [abs_neg]
  rcases lt_trichotomy x 0 with h | h | h
  · rw [if_neg (by linarith), if_pos h, neg_neg]
  · subst h
    simp [ieee.round_even]
  · rw [if_pos (by linarith), if_neg (by linarith)]

theorem ieee.round_eq (p : Nat) (emin : Int) (x : ℚ) (e n : Int) (hx : 0 ≤ x)
    (h1 : (2 : ℚ) ^ e ≤ x) (h2 : x < (2 : ℚ) ^ (e + 1)) (he : emin ≤ e)
    (hn : |x / 2 ^ (e - ((p : Int) - 1)) - n| < 1 / 2) :
    ieee.round p emin x = n * 2 ^ (e - ((p : Int) - 1)) := by
  have hu : ieee.ulp_exp p emin x = e - ((p : Int) - 1) := by
    unfold ieee.ulp_exp
    rw [ieee.log_eq x e (by rwa [abs_of_nonneg hx]) (by rwa [abs_of_nonneg hx]), max_eq_left he]
  unfold ieee.round
  simp only []
  rw [hu, if_neg (not_lt.mpr hx), abs_of_nonneg hx, ieee.round_even_eq _ n hn]

/-- When the magnitude is at least the least normal number, the error of
rounding is at most the fraction `2 ^ (-p)` of it. -/
theorem ieee.round_rel (p : Nat) (emin : Int) (x : ℚ) (hx : (2 : ℚ) ^ emin ≤ |x|) :
    |ieee.round p emin x - x| ≤ |x| * 2 ^ (-(p : Int)) := by
  have hx0 : x ≠ 0 := by
    intro h
    rw [h, abs_zero] at hx
    exact absurd hx (not_le.mpr (zpow_pos (by norm_num) _))
  have hl : emin ≤ Int.log 2 |x| :=
    (Int.zpow_le_iff_le_log (by norm_num) (abs_pos.mpr hx0)).mp (by exact_mod_cast hx)
  have hb := (ieee.log_bounds x hx0).1
  refine (ieee.round_err p emin x).trans ?_
  unfold ieee.ulp_exp
  rw [max_eq_left hl]
  have e : (2 : ℚ) ^ (Int.log 2 |x| - ((p : Int) - 1)) / 2
      = 2 ^ Int.log 2 |x| * 2 ^ (-(p : Int)) := by
    rw [show Int.log 2 |x| - ((p : Int) - 1) = Int.log 2 |x| + -(p : Int) + 1 by ring,
      zpow_add₀ (by norm_num), zpow_add₀ (by norm_num), zpow_one]
    ring
  rw [e]
  exact mul_le_mul_of_nonneg_right hb (le_of_lt (zpow_pos (by norm_num) _))

/-- Below the least normal number the error of rounding is at most half the
least subnormal number. -/
theorem ieee.round_abs (p : Nat) (emin : Int) (x : ℚ) (hx : |x| < (2 : ℚ) ^ emin) :
    |ieee.round p emin x - x| ≤ 2 ^ emin * 2 ^ (-(p : Int)) := by
  rcases eq_or_ne x 0 with h | h
  · subst h
    rw [ieee.round_zero, sub_zero, abs_zero]
    exact le_of_lt (mul_pos (zpow_pos (by norm_num) _) (zpow_pos (by norm_num) _))
  have hl : Int.log 2 |x| ≤ emin := by
    have := (Int.lt_zpow_iff_log_lt (by norm_num : 1 < 2) (abs_pos.mpr h)).mp
      (by exact_mod_cast hx)
    omega
  refine (ieee.round_err p emin x).trans ?_
  unfold ieee.ulp_exp
  rw [max_eq_right hl]
  rw [show emin - ((p : Int) - 1) = emin + -(p : Int) + 1 by ring,
      zpow_add₀ (by norm_num), zpow_add₀ (by norm_num), zpow_one]
  apply le_of_eq
  ring

/-- The error of rounding a number of magnitude at most `M`, where `M` is at
least the least normal number. -/
theorem ieee.round_bound (p : Nat) (emin : Int) (x M : ℚ) (hM : (2 : ℚ) ^ emin ≤ M)
    (hx : |x| ≤ M) : |ieee.round p emin x - x| ≤ M * 2 ^ (-(p : Int)) := by
  have hp : (0 : ℚ) < 2 ^ (-(p : Int)) := zpow_pos (by norm_num) _
  rcases le_or_lt ((2 : ℚ) ^ emin) |x| with h | h
  · exact (ieee.round_rel p emin x h).trans (mul_le_mul_of_nonneg_right hx (le_of_lt hp))
  · exact (ieee.round_abs p emin x h).trans (mul_le_mul_of_nonneg_right hM (le_of_lt hp))

theorem ieee.f32_bound (x M : ℚ) (hM : 1 / 2 ^ 126 ≤ M) (hx : |x| ≤ M) :
    |ieee.f32 x - x| ≤ M / 2 ^ 24 := by
  have h := ieee.round_bound 24 (-126) x M (by norm_num at hM ⊢; linarith) hx
  have e : (2 : ℚ) ^ (-((24 : Nat) : Int)) = 1 / 2 ^ 24 := by norm_num
  rw [e] at h
  unfold ieee.f32
  linarith

theorem ieee.f64_bound (x M : ℚ) (hM : 1 / 2 ^ 1022 ≤ M) (hx : |x| ≤ M) :
    |ieee.f64 x - x| ≤ M / 2 ^ 53 := by
  have h := ieee.round_bound 53 (-1022) x M (by norm_num at hM ⊢; linarith) hx
  have e : (2 : ℚ) ^ (-((53 : Nat) : Int)) = 1 / 2 ^ 53 := by norm_num
  rw [e] at h
  unfold ieee.f64
  linarith

theorem ieee.f32_neg (x : ℚ) : ieee.f32 (-x) = -ieee.f32 x := ieee.round_neg 24 (-126) x

theorem ieee.f32_eq (x : ℚ) (e n : Int) (hx : 0 ≤ x)
    (h1 : (2 : ℚ) ^ e ≤ x) (h2 : x < (2 : ℚ) ^ (e + 1)) (he : -126 ≤ e)
    (hn : |x / 2 ^ (e - 23) - n| < 1 / 2) : ieee.f32 x = n * 2 ^ (e - 23) := by
  have h := ieee.round_eq 24 (-126) x e n hx h1 h2 he (by norm_num; exact hn)
  unfold ieee.f32
  rw [h]
  norm_num

theorem ieee.f64_eq (x : ℚ) (e n : Int) (hx : 0 ≤ x)
    (h1 : (2 : ℚ) ^ e ≤ x) (h2 : x < (2 : ℚ) ^ (e + 1)) (he : -1022 ≤ e)
    (hn : |x / 2 ^ (e - 52) - n| < 1 / 2) : ieee.f64 x = n * 2 ^ (e - 52) := by
  have h := ieee.round_eq 53 (-1022) x e n hx h1 h2 he (by norm_num; exact hn)
  unfold ieee.f64
  rw [h]
  norm_num

/-! ## Constants of the binary formats -/

theorem ieee.f32_zero : ieee.f32 0 = 0 := ieee.round_zero 24 (-126)

theorem ieee.f64_zero : ieee.f64 0 = 0 := ieee.round_zero 53 (-1022)

theorem ieee.f64_neg (x : ℚ) : ieee.f64 (-x) = -ieee.f64 x := ieee.round_neg 53 (-1022) x

/-- An integer of magnitude below `2 ^ 24` is a `float`. -/
theorem ieee.f32_intCast (n : Int) (h : |n| < 2 ^ 24) : ieee.f32 (n : ℚ) = n := by
  rcases eq_or_ne n 0 with h0 | h0
  · subst h0
    simpa using ieee.f32_zero
  have hx : (n : ℚ) ≠ 0 := by exact_mod_cast h0
  obtain ⟨hb1, hb2⟩ := ieee.log_bounds (n : ℚ) hx
  have h1 : (1 : ℚ) ≤ |(n : ℚ)| := by
    have : (1 : Int) ≤ |n| := Int.one_le_abs h0
    exact_mod_cast this
  have he0 : 0 ≤ Int.log 2 |(n : ℚ)| :=
    (Int.zpow_le_iff_le_log (by norm_num) (abs_pos.mpr hx)).mp (by simpa using h1)
  have he23 : Int.log 2 |(n : ℚ)| < 24 := by
    have h24 : |(n : ℚ)| < (2 : ℚ) ^ (24 : Int) := by
      have : ((|n| : Int) : ℚ) < ((2 ^ 24 : Int) : ℚ) := by exact_mod_cast h
      rw [Int.cast_abs] at this
      norm_num at this ⊢
      exact this
    exact (Int.lt_zpow_iff_log_lt (by norm_num) (abs_pos.mpr hx)).mp (by exact_mod_cast h24)
  obtain ⟨k, hk⟩ : ∃ k : Nat, (k : Int) = 23 - Int.log 2 |(n : ℚ)| :=
    ⟨(23 - Int.log 2 |(n : ℚ)|).toNat, by omega⟩
  have hu : ieee.ulp_exp 24 (-126) n = -(k : Int) := by
    unfold ieee.ulp_exp
    rw [max_eq_left (by omega)]
    push_cast
    omega
  have hq : (2 : ℚ) ^ (-(k : Int)) = 1 / 2 ^ k := by
    rw [zpow_neg, zpow_natCast]
    simp
  have hre : ieee.round_even (|(n : ℚ)| / (1 / 2 ^ k)) = |n| * 2 ^ k :=
    ieee.round_even_eq _ _ (by push_cast; simp)
  unfold ieee.f32 ieee.round
  simp only []
  rw [hu, hq, hre]
  have hk0 : (0 : ℚ) < 2 ^ k := by positivity
  split_ifs with hneg
  · have hn : n < 0 := by exact_mod_cast hneg
    rw [abs_of_neg hn]
    push_cast
    field_simp
  · have hn : 0 ≤ n := by exact_mod_cast not_lt.mp hneg
    rw [abs_of_nonneg hn]
    push_cast
    field_simp

theorem ieee.f32_natCast (n : Nat) (h : n < 2 ^ 24) : ieee.f32 (n : ℚ) = n := by
  have := ieee.f32_intCast (n : Int) (by rw [abs_of_nonneg (by omega)]; exact_mod_cast h)
  simpa using this

theorem ieee_f64_three_tenths : ieee.f64 (3 / 10) = 5404319552844595 / 18014398509481984 := by
  rw [ieee.f64_eq (3 / 10) (-2) 5404319552844595 (by norm_num) (by norm_num) (by norm_num)
    (by norm_num) (by norm_num [abs_lt])]
  norm_num

theorem ieee_BCD_MAX_eq : ieee.BCD_MAX = 5033165 / 16777216 := by
  unfold ieee.BCD_MAX
  rw [ieee_f64_three_tenths,
    ieee.f32_eq _ (-2) 10066330 (by norm_num) (by norm_num) (by norm_num)
    (by norm_num) (by norm_num [abs_lt])]
  norm_num

theorem ieee_BCD_MIN_eq : ieee.BCD_MIN = -(5033165 / 16777216) := by
  have h := ieee_BCD_MAX_eq
  unfold ieee.BCD_MAX at h
  unfold ieee.BCD_MIN
  rw [ieee.f32_neg, h]

/-- The factor `max / BCD_MAX` of `quantize_bcd` and `scale_bcd` at the
width 6: the `float` nearest to `31 / 0.3f`. -/
theorem ieee_bcd_factor :
    ieee.f32 (ieee.f32 ((31 : Nat) : ℚ) / ieee.BCD_MAX) = 6772053 / 65536 := by
  rw [ieee.f32_natCast 31 (by norm_num), ieee_BCD_MAX_eq,
    ieee.f32_eq _ 6 13544106 (by norm_num) (by norm_num) (by norm_num)
    (by norm_num) (by norm_num [abs_lt])]
  norm_num

theorem ieee_RGB_MAX_eq : ieee.RGB_MAX = 255 := by
  unfold ieee.RGB_MAX
  rw [ieee.f64_eq 255 7 8972014882652160 (by norm_num) (by norm_num) (by norm_num)
    (by norm_num) (by norm_num [abs_lt])]
  have e : ((8972014882652160 : Int) : ℚ) * 2 ^ ((7 : Int) - 52) = ((255 : Nat) : ℚ) := by
    norm_num
  rw [e]
  exact ieee.f32_natCast 255 (by norm_num)

/-- Two numbers less than one apart have integer parts at most one apart. -/
theorem trunc_sub_le (x y : ℚ) (h : |x - y| < 1) : |trunc x - trunc y| ≤ 1 := by
  rw [abs_lt] at h
  obtain ⟨h1, h2⟩ := h
  have fx1 := Int.floor_le x
  have fx2 := Int.lt_floor_add_one x
  have fy1 := Int.floor_le y
  have fy2 := Int.lt_floor_add_one y
  have cx1 := Int.le_ceil x
  have cx2 := Int.ceil_lt_add_one x
  have cy1 := Int.le_ceil y
  have cy2 := Int.ceil_lt_add_one y
  unfold trunc
  rw [abs_le]
  split_ifs with hx hy hy
  · constructor
    · have : ((⌊y⌋ : Int) : ℚ) < ⌊x⌋ + 1 + 1 := by linarith
      have : ⌊y⌋ < ⌊x⌋ + 1 + 1 := by exact_mod_cast this
      omega
    · have : ((⌊x⌋ : Int) : ℚ) < ⌊y⌋ + 1 + 1 := by linarith
      have : ⌊x⌋ < ⌊y⌋ + 1 + 1 := by exact_mod_cast this
      omega
  · have hy0 : y < 0 := not_le.mp hy
    have a : ((⌊x⌋ : Int) : ℚ) < 1 := by linarith
    have a1 : ⌊x⌋ < 1 := by exact_mod_cast a
    have a2 : 0 ≤ ⌊x⌋ := Int.floor_nonneg.mpr hx
    have b : (-1 : ℚ) < ((⌈y⌉ : Int) : ℚ) := by linarith
    have b1 : -1 < ⌈y⌉ := by exact_mod_cast b
    have b2 : ⌈y⌉ ≤ 0 := Int.ceil_le.mpr (by exact_mod_cast le_of_lt hy0)
    constructor <;> omega
  · have hx0 : x < 0 := not_le.mp hx
    have a : ((⌊y⌋ : Int) : ℚ) < 1 := by linarith
    have a1 : ⌊y⌋ < 1 := by exact_mod_cast a
    have a2 : 0 ≤ ⌊y⌋ := Int.floor_nonneg.mpr hy
    have b : (-1 : ℚ) < ((⌈x⌉ : Int) : ℚ) := by linarith
    have b1 : -1 < ⌈x⌉ := by exact_mod_cast b
    have b2 : ⌈x⌉ ≤ 0 := Int.ceil_le.mpr (by exact_mod_cast le_of_lt hx0)
    constructor <;> omega
  · constructor
    · have : ((⌈y⌉ : Int) : ℚ) < ⌈x⌉ + 1 + 1 := by linarith
      have : ⌈y⌉ < ⌈x⌉ + 1 + 1 := by exact_mod_cast this
      omega
    · have : ((⌈x⌉ : Int) : ℚ) < ⌈y⌉ + 1 + 1 := by linarith
      have : ⌈x⌉ < ⌈y⌉ + 1 + 1 := by exact_mod_cast this
      omega

theorem ieee.round_even_tie (y : ℚ) (n : Int) (h : |y - n| = 1 / 2) (he : n % 2 = 0) :
    ieee.round_even y = n := by
  unfold ieee.round_even
  rcases abs_eq (by norm_num : (0 : ℚ) ≤ 1 / 2) |>.mp h with h1 | h1
  · have hf : ⌊y⌋ = n := Int.floor_eq_iff.mpr ⟨by linarith, by linarith⟩
    rw [hf, if_neg (by linarith), if_neg (by linarith), if_pos he]
  · have hf : ⌊y⌋ = n - 1 :=
      Int.floor_eq_iff.mpr ⟨by push_cast; linarith, by push_cast; linarith⟩
    rw [hf, if_neg (by push_cast; linarith), if_neg (by push_cast; linarith),
      if_neg (by omega)]
    ring

theorem ieee.round_eq_tie (p : Nat) (emin : Int) (x : ℚ) (e n : Int) (hx : 0 ≤ x)
    (h1 : (2 : ℚ) ^ e ≤ x) (h2 : x < (2 : ℚ) ^ (e + 1)) (he : emin ≤ e)
    (hn : |x / 2 ^ (e - ((p : Int) - 1)) - n| = 1 / 2) (hev : n % 2 = 0) :
    ieee.round p emin x = n * 2 ^ (e - ((p : Int) - 1)) := by
  have hu : ieee.ulp_exp p emin x = e - ((p : Int) - 1) := by
    unfold ieee.ulp_exp
    rw [ieee.log_eq x e (by rwa [abs_of_nonneg hx]) (by rwa [abs_of_nonneg hx]), max_eq_left he]
  unfold ieee.round
  simp only []
  rw [hu, if_neg (not_lt.mpr hx), abs_of_nonneg hx, ieee.round_even_tie _ n hn hev]

/-- Evaluation of a rounding to `float` at a tie: `y / 2 ^ (e - 23)` lies
halfway between two integers and `n` is the even one. -/
theorem ieee.f32_val_tie (x y : ℚ) (e n : Int) (hxy : x = y) (hy : 0 ≤ y)
    (h1 : (2 : ℚ) ^ e ≤ y) (h2 : y < (2 : ℚ) ^ (e + 1)) (he : -126 ≤ e)
    (hn : |y / 2 ^ (e - 23) - n| = 1 / 2) (hev : n % 2 = 0) :
    ieee.f32 x = n * 2 ^ (e - 23) := by
  have h := ieee.round_eq_tie 24 (-126) y e n hy h1 h2 he (by norm_num; exact hn) hev
  rw [hxy]
  unfold ieee.f32
  rw [h]
  norm_num

theorem ieee.f32_val_neg_tie (x y : ℚ) (e n : Int) (hxy : x = -y) (hy : 0 ≤ y)
    (h1 : (2 : ℚ) ^ e ≤ y) (h2 : y < (2 : ℚ) ^ (e + 1)) (he : -126 ≤ e)
    (hn : |y / 2 ^ (e - 23) - n| = 1 / 2) (hev : n % 2 = 0) :
    ieee.f32 x = -(n * 2 ^ (e - 23)) := by
  rw [hxy, ieee.f32_neg, ieee.f32_val_tie y y e n rfl hy h1 h2 he hn hev]

theorem ieee.f64_val (x y : ℚ) (e n : Int) (hxy : x = y) (hy : 0 ≤ y)
    (h1 : (2 : ℚ) ^ e ≤ y) (h2 : y < (2 : ℚ) ^ (e + 1)) (he : -1022 ≤ e)
    (hn : |y / 2 ^ (e - 52) - n| < 1 / 2) : ieee.f64 x = n * 2 ^ (e - 52) := by
  rw [hxy]
  exact ieee.f64_eq y e n hy h1 h2 he hn

theorem trunc_eq_nonneg (x : ℚ) (n : Int) (h0 : 0 ≤ x) (h1 : (n : ℚ) ≤ x) (h2 : x < n + 1) :
    trunc x = n := by
  unfold trunc
  rw [if_pos h0]
  exact Int.floor_eq_iff.mpr ⟨h1, h2⟩

theorem trunc_eq_neg (x : ℚ) (n : Int) (h0 : x < 0) (h1 : (n : ℚ) - 1 < x) (h2 : x ≤ n) :
    trunc x = n := by
  unfold trunc
  rw [if_neg (not_le.mpr h0)]
  exact Int.ceil_eq_iff.mpr ⟨h1, h2⟩

/-! ## The signed quantiser in binary32 -/

/-- The product that `quantize_bcd` converts to `int` at the width 6 has a
magnitude below 32. -/
theorem ieee_quantize_bcd_product (v : ℚ) :
    |ieee.f32 (fit_range v (5033165 / 16777216) (-(5033165 / 16777216)) * (6772053 / 65536))|
      < 32 := by
  obtain ⟨h1, h2⟩ := fit_range_mem v (5033165 / 16777216 : ℚ) (-(5033165 / 16777216))
    (by norm_num)
  generalize fit_range v (5033165 / 16777216 : ℚ) (-(5033165 / 16777216)) = t at h1 h2
  have hb : |t * (6772053 / 65536)| ≤ (32 : ℚ) := by
    rw [abs_le]
    constructor <;> linarith
  have he := ieee.f32_bound (t * (6772053 / 65536)) 32 (by norm_num) hb
  rw [abs_le] at he
  rw [abs_lt]
  constructor <;> linarith

theorem ieee_quantize_bcd_eq (v : ℚ) :
    ieee.quantize_bcd v 6 =
      trunc (ieee.f32
        (fit_range v (5033165 / 16777216) (-(5033165 / 16777216)) * (6772053 / 65536))) := by
  have hm : get_max (6 - 1) = 31 := by decide
  have hp := ieee_quantize_bcd_product v
  have ht := (trunc_toward_zero (ieee.f32
    (fit_range v (5033165 / 16777216) (-(5033165 / 16777216)) * (6772053 / 65536)))).1
  have hlt := lt_of_le_of_lt ht hp
  have hi : |trunc (ieee.f32
      (fit_range v (5033165 / 16777216) (-(5033165 / 16777216)) * (6772053 / 65536)))| < 32 := by
    exact_mod_cast hlt
  rw [abs_lt] at hi
  unfold ieee.quantize_bcd
  simp only [hm]
  rw [ieee_bcd_factor, ieee_BCD_MAX_eq, ieee_BCD_MIN_eq]
  unfold float_to_int
  rw [s32_of_range (by omega) (by omega)]

/-- C21: in binary32, `quantize_bcd v 6` is the integer part of the `float`
product of `clamp(v, -0.3f, 0.3f)` and the `float` quotient `31 / 0.3f`, where
`0.3f = 5033165 / 2 ^ 24` and the quotient is `6772053 / 2 ^ 16`.  The result
lies in `[-31, 31]` (never `-32`), the function is odd, the product differs
from the exact `clamp(v, -0.3, 0.3) * 31 / 0.3` by at most `10 ^ (-5)`, and
the result differs from that value rounded toward zero by at most one. -/
theorem quantize_bcd_binary32 (v : ℚ) :
    ieee.quantize_bcd v 6 =
      trunc (ieee.f32
        (max (-(5033165 / 16777216)) (min v (5033165 / 16777216)) * (6772053 / 65536))) ∧
    (-31 ≤ ieee.quantize_bcd v 6 ∧ ieee.quantize_bcd v 6 ≤ 31) ∧
    ieee.quantize_bcd v 6 ≠ -32 ∧
    ieee.quantize_bcd (-v) 6 = -ieee.quantize_bcd v 6 ∧
    |ieee.f32 (max (-(5033165 / 16777216)) (min v (5033165 / 16777216)) * (6772053 / 65536))
      - max (-(3 / 10)) (min v (3 / 10)) * 31 / (3 / 10)| ≤ 1 / 100000 ∧
    |ieee.quantize_bcd v 6 - trunc (max (-(3 / 10)) (min v (3 / 10)) * 31 / (3 / 10))| ≤ 1 := by
  have hfit := fit_range_eq v (5033165 / 16777216 : ℚ) (-(5033165 / 16777216)) (by norm_num)
  have e := ieee_quantize_bcd_eq v
  rw [hfit] at e
  have hp := ieee_quantize_bcd_product v
  rw [hfit] at hp
  have ht := (trunc_toward_zero (ieee.f32
    (max (-(5033165 / 16777216)) (min v (5033165 / 16777216)) * (6772053 / 65536)))).1
  have hi : |trunc (ieee.f32
      (max (-(5033165 / 16777216)) (min v (5033165 / 16777216)) * (6772053 / 65536)))| < 32 := by
    exact_mod_cast lt_of_le_of_lt ht hp
  rw [abs_lt] at hi
  have hodd : ieee.quantize_bcd (-v) 6 = -ieee.quantize_bcd v 6 := by
    rw [ieee_quantize_bcd_eq, ieee_quantize_bcd_eq,
      fit_range_neg v (5033165 / 16777216) (by norm_num), neg_mul, ieee.f32_neg, trunc_neg]
  have hclose : |ieee.f32
      (max (-(5033165 / 16777216)) (min v (5033165 / 16777216)) * (6772053 / 65536))
      - max (-(3 / 10)) (min v (3 / 10)) * 31 / (3 / 10)| ≤ 1 / 100000 := by
    have hb : |max (-(5033165 / 16777216)) (min v (5033165 / 16777216)) * (6772053 / 65536)|
        ≤ (32 : ℚ) := by
      rw [abs_le]
      have a1 : -(5033165 / 16777216 : ℚ) ≤ max (-(5033165 / 16777216)) (min v (5033165 / 16777216)) :=
        le_max_left _ _
      have a2 : max (-(5033165 / 16777216)) (min v (5033165 / 16777216)) ≤ (5033165 / 16777216 : ℚ) :=
        max_le (by norm_num) (min_le_right _ _)
      constructor <;> linarith
    have he := ieee.f32_bound _ 32 (by norm_num) hb
    rw [abs_le] at he ⊢
    obtain ⟨he1, he2⟩ := he
    rcases le_total v (-(5033165 / 16777216)) with c1 | c1
    · rw [min_eq_left (by linarith), max_eq_left c1] at he1 he2 ⊢
      rw [min_eq_left (by linarith), max_eq_left (by linarith)]
      constructor <;> linarith
    rcases le_total v (-(3 / 10)) with c2 | c2
    · rw [min_eq_left (by linarith), max_eq_right c1] at he1 he2 ⊢
      rw [min_eq_left (by linarith), max_eq_left c2]
      constructor <;> linarith
    rcases le_total v (3 / 10) with c3 | c3
    · rw [min_eq_left (by linarith), max_eq_right c1] at he1 he2 ⊢
      rw [min_eq_left c3, max_eq_right c2]
      constructor <;> linarith
    rcases le_total v (5033165 / 16777216) with c4 | c4
    · rw [min_eq_left c4, max_eq_right c1] at he1 he2 ⊢
      rw [min_eq_right c3, max_eq_right (by norm_num)]
      constructor <;> linarith
    · rw [min_eq_right c4, max_eq_right (by norm_num)] at he1 he2 ⊢
      rw [min_eq_right c3, max_eq_right (by norm_num)]
      constructor <;> linarith
  refine ⟨e, ?_, ?_, hodd, hclose, ?_⟩
  · rw [e]
    constructor <;> omega
  · rw [e]
    omega
  · rw [e]
    exact trunc_sub_le _ _ (lt_of_le_of_lt hclose (by norm_num))

theorem quantize_bcd_binary32_witness :
    (-31 ≤ ieee.quantize_bcd (1 / 4) 6 ∧ ieee.quantize_bcd (1 / 4) 6 ≤ 31) ∧
    ieee.quantize_bcd (-(1 / 4)) 6 = -ieee.quantize_bcd (1 / 4) 6 :=
  ⟨(quantize_bcd_binary32 (1 / 4)).2.1, (quantize_bcd_binary32 (1 / 4)).2.2.2.1⟩

/-- C21 does not hold as stated: at the `float` `v = -0x1.1f6172p-2`
`quantize_bcd` returns `-28`, while `clamp(v, -0.3, 0.3) * 31 / 0.3` rounded
toward zero is `-29`. -/
theorem quantize_bcd_not_exact_formula :
    ieee.quantize_bcd (-(9416889 / 33554432)) 6 = -28 ∧
    trunc (max (-(3 / 10)) (min (-(9416889 / 33554432) : ℚ) (3 / 10)) * 31 / (3 / 10)) = -29 := by
  constructor
  · rw [ieee_quantize_bcd_eq]
    have hf : fit_range (-(9416889 / 33554432) : ℚ) (5033165 / 16777216) (-(5033165 / 16777216))
        = -(9416889 / 33554432) := by
      unfold fit_range
      norm_num
    rw [hf, neg_mul, ieee.f32_neg,
      ieee.f32_eq _ 4 15204351 (by norm_num) (by norm_num) (by norm_num)
        (by norm_num) (by norm_num [abs_lt])]
    exact trunc_eq_neg _ _ (by norm_num) (by norm_num) (by norm_num)
  · exact trunc_eq_neg _ _ (by norm_num) (by norm_num) (by norm_num)

/-! ## The rescaling of the samples in binary32 -/

theorem ieee.round_even_nonneg (y : ℚ) (h : 0 ≤ y) : 0 ≤ ieee.round_even y := by
  have h0 : 0 ≤ ⌊y⌋ := Int.floor_nonneg.mpr h
  unfold ieee.round_even
  split_ifs <;> omega

theorem ieee.f32_nonneg (x : ℚ) (h : 0 ≤ x) : 0 ≤ ieee.f32 x := by
  unfold ieee.f32 ieee.round
  simp only []
  rw [if_neg (not_lt.mpr h)]
  have hq : (0 : ℚ) < 2 ^ ieee.ulp_exp 24 (-126) x := zpow_pos (by norm_num) _
  have hr : (0 : ℚ) ≤ (ieee.round_even (|x| / 2 ^ ieee.ulp_exp 24 (-126) x) : Int) := by
    exact_mod_cast ieee.round_even_nonneg _ (div_nonneg (abs_nonneg x) (le_of_lt hq))
  exact mul_nonneg hr (le_of_lt hq)

/-- The relative error of rounding to `float` a number that is zero or of a
magnitude in the normal range. -/
theorem ieee.f32_rel (x : ℚ) (hx : x = 0 ∨ 1 / 2 ^ 126 ≤ |x|) :
    |ieee.f32 x - x| ≤ |x| / 2 ^ 24 := by
  rcases hx with h | h
  · subst h
    rw [ieee.f32_zero]
    norm_num
  · exact ieee.f32_bound x |x| h le_rfl

/-- The `float` quotient `s / (D / 255)` that `scale` stores, for a sample
`s` of a pixmap with the denominator `D`: it is within `10 ^ (-4)` of
`255 * s / D`. -/
theorem ieee_scale_quotient (D s : Nat) (hD : 0 < D) (hD31 : D < 2 ^ 31) (hs : s ≤ D) :
    0 ≤ ieee.f32 (ieee.f32 (s : ℚ) / ieee.f32 (ieee.f32 (D : ℚ) / 255)) ∧
    |ieee.f32 (ieee.f32 (s : ℚ) / ieee.f32 (ieee.f32 (D : ℚ) / 255)) - 255 * (s : ℚ) / D|
      ≤ 1 / 10000 := by
  have hDq : (1 : ℚ) ≤ D := by exact_mod_cast hD
  have hDq31 : (D : ℚ) < 2 ^ 31 := by exact_mod_cast hD31
  have hsq : (s : ℚ) ≤ D := by exact_mod_cast hs
  have hs0 : (0 : ℚ) ≤ s := Nat.cast_nonneg s
  -- the denominator as a float
  have e1 := ieee.f32_rel (D : ℚ) (Or.inr (by
    rw [abs_of_nonneg (by linarith)]
    exact le_trans (by norm_num) hDq))
  rw [abs_of_nonneg (by linarith : (0 : ℚ) ≤ D), abs_le] at e1
  obtain ⟨e1a, e1b⟩ := e1
  generalize ieee.f32 (D : ℚ) = Df at e1a e1b ⊢
  have hDf : (0 : ℚ) < Df := by
    have : (D : ℚ) / 2 ^ 24 ≤ D / 2 := by
      apply div_le_div_of_nonneg_left (by linarith) (by norm_num) (by norm_num)
    linarith
  -- den_scale
  have e2 := ieee.f32_rel (Df / 255) (Or.inr (by
    rw [abs_of_nonneg (by positivity)]
    have : (1 : ℚ) / 2 ≤ Df := by
      have : (D : ℚ) / 2 ^ 24 ≤ D / 2 := by
        apply div_le_div_of_nonneg_left (by linarith) (by norm_num) (by norm_num)
      linarith
    have : (1 : ℚ) / 2 / 255 ≤ Df / 255 := by
      apply div_le_div_of_nonneg_right this (by norm_num)
    exact le_trans (by norm_num) this))
  rw [abs_of_nonneg (by positivity : (0 : ℚ) ≤ Df / 255), abs_le] at e2
  obtain ⟨e2a, e2b⟩ := e2
  generalize ieee.f32 (Df / 255) = den at e2a e2b ⊢
  have hden_lo : (D : ℚ) * ((1 - 1 / 2 ^ 24) * (1 - 1 / 2 ^ 24) / 255) ≤ den := by
    have : (D : ℚ) * (1 - 1 / 2 ^ 24) ≤ Df := by linarith
    have h2 : (D : ℚ) * (1 - 1 / 2 ^ 24) * ((1 - 1 / 2 ^ 24) / 255) ≤ Df * ((1 - 1 / 2 ^ 24) / 255) :=
      mul_le_mul_of_nonneg_right this (by norm_num)
    linarith
  have hden_hi : den ≤ (D : ℚ) * ((1 + 1 / 2 ^ 24) * (1 + 1 / 2 ^ 24) / 255) := by
    have : Df ≤ (D : ℚ) * (1 + 1 / 2 ^ 24) := by linarith
    have h2 : Df * ((1 + 1 / 2 ^ 24) / 255) ≤ (D : ℚ) * (1 + 1 / 2 ^ 24) * ((1 + 1 / 2 ^ 24) / 255) :=
      mul_le_mul_of_nonneg_right this (by norm_num)
    linarith
  have hden_pos : (0 : ℚ) < den := lt_of_lt_of_le (by positivity) hden_lo
  -- the sample as a float
  have e3 := ieee.f32_rel (s : ℚ) (by
    rcases Nat.eq_zero_or_pos s with h | h
    · left
      exact_mod_cast h
    · right
      have : (1 : ℚ) ≤ s := by exact_mod_cast h
      rw [abs_of_nonneg hs0]
      exact le_trans (by norm_num) this)
  rw [abs_of_nonneg hs0, abs_le] at e3
  obtain ⟨e3a, e3b⟩ := e3
  have hsf0 := ieee.f32_nonneg (s : ℚ) hs0
  generalize ieee.f32 (s : ℚ) = sf at e3a e3b hsf0 ⊢
  -- the quotient
  have hy0 : 0 ≤ sf / den := div_nonneg hsf0 (le_of_lt hden_pos)
  have hy_hi : sf / den ≤ (s : ℚ) * (1 + 1 / 2 ^ 24)
      / ((D : ℚ) * ((1 - 1 / 2 ^ 24) * (1 - 1 / 2 ^ 24) / 255)) :=
    div_le_div₀ (by positivity) (by linarith) (by positivity) hden_lo
  have hy_lo : (s : ℚ) * (1 - 1 / 2 ^ 24)
      / ((D : ℚ) * ((1 + 1 / 2 ^ 24) * (1 + 1 / 2 ^ 24) / 255)) ≤ sf / den :=
    div_le_div₀ hsf0 (by linarith) hden_pos hden_hi
  have hR0 : (0 : ℚ) ≤ (s : ℚ) / D := by positivity
  have hR1 : (s : ℚ) / D ≤ 1 := (div_le_one (by linarith)).mpr hsq
  have eq_hi : (s : ℚ) * (1 + 1 / 2 ^ 24)
      / ((D : ℚ) * ((1 - 1 / 2 ^ 24) * (1 - 1 / 2 ^ 24) / 255))
      = (s : ℚ) / D * (255 * (1 + 1 / 2 ^ 24) / ((1 - 1 / 2 ^ 24) * (1 - 1 / 2 ^ 24))) := by
    field_simp
    ring
  have eq_lo : (s : ℚ) * (1 - 1 / 2 ^ 24)
      / ((D : ℚ) * ((1 + 1 / 2 ^ 24) * (1 + 1 / 2 ^ 24) / 255))
      = (s : ℚ) / D * (255 * (1 - 1 / 2 ^ 24) / ((1 + 1 / 2 ^ 24) * (1 + 1 / 2 ^ 24))) := by
    field_simp
    ring
  rw [eq_hi] at hy_hi
  rw [eq_lo] at hy_lo
  have eq_r : 255 * (s : ℚ) / D = (s : ℚ) / D * 255 := by ring
  rw [eq_r]
  generalize (s : ℚ) / D = R at hy_hi hy_lo hR0 hR1 ⊢
  have hy_small : sf / den ≤ 512 := by
    have : R * (255 * (1 + 1 / 2 ^ 24) / ((1 - 1 / 2 ^ 24) * (1 - 1 / 2 ^ 24)))
        ≤ 1 * (255 * (1 + 1 / 2 ^ 24) / ((1 - 1 / 2 ^ 24) * (1 - 1 / 2 ^ 24))) :=
      mul_le_mul_of_nonneg_right hR1 (by norm_num)
    have h3 : (1 : ℚ) * (255 * (1 + 1 / 2 ^ 24) / ((1 - 1 / 2 ^ 24) * (1 - 1 / 2 ^ 24))) ≤ 512 := by
      norm_num
    linarith
  have e4 := ieee.f32_bound (sf / den) 512 (by norm_num) (by rw [abs_of_nonneg hy0]; exact hy_small)
  have hx0 := ieee.f32_nonneg (sf / den) hy0
  rw [abs_le] at e4
  obtain ⟨e4a, e4b⟩ := e4
  generalize ieee.f32 (sf / den) = x at e4a e4b hx0 ⊢
  generalize sf / den = y at hy_hi hy_lo e4a e4b
  refine ⟨hx0, ?_⟩
  rw [abs_le]
  have k1 : (255 * (1 + 1 / 2 ^ 24) / ((1 - 1 / 2 ^ 24) * (1 - 1 / 2 ^ 24)) : ℚ)
      ≤ 255 + 1 / 20000 := by norm_num
  have k2 : (255 - 1 / 20000 : ℚ)
      ≤ 255 * (1 - 1 / 2 ^ 24) / ((1 + 1 / 2 ^ 24) * (1 + 1 / 2 ^ 24)) := by norm_num
  have m1 := mul_le_mul_of_nonneg_left k1 hR0
  have m2 := mul_le_mul_of_nonneg_left k2 hR0
  constructor
  · linarith
  · linarith

theorem float_to_unsigned_natCast (n : Nat) (h : n < 2 ^ 32) :
    float_to_unsigned (n : ℚ) = n := by
  unfold float_to_unsigned trunc
  rw [if_pos (Nat.cast_nonneg n)]
  have : Int.floor (n : ℚ) = (n : Int) := by
    exact_mod_cast @Int.floor_natCast ℚ _ _ n
  rw [this]
  exact u32_natCast h

theorem ieee_f32_255 : ieee.f32 ((255 : Nat) : ℚ) = 255 := by
  simpa using ieee.f32_natCast 255 (by norm_num)

theorem ieee_scale_ppm_denominator (image : Pnm_ppm) :
    (ieee.scale_ppm image).denominator = 255 := by
  unfold ieee.scale_ppm
  simp only []
  rw [ieee_RGB_MAX_eq]
  exact float_to_unsigned_natCast 255 (by norm_num)

/-- One sample through `scale` and `get_rgb_pixel`. -/
theorem ieee_stored_sample (D s : Nat) (hD : 0 < D) (hD31 : D < 2 ^ 31) (hs : s ≤ D) :
    stored_sample D s
      (float_to_unsigned (ieee.f32 (ieee.f32 (s : ℚ)
        / ieee.f32 (ieee.f32 ((s32 (D : Int) : Int) : ℚ) / ieee.RGB_MAX))))
      (ieee.f32 (ieee.f32 ((float_to_unsigned (ieee.f32 (ieee.f32 (s : ℚ)
        / ieee.f32 (ieee.f32 ((s32 (D : Int) : Int) : ℚ) / ieee.RGB_MAX))) : Nat) : ℚ)
        / ieee.f32 ((255 : Nat) : ℚ))) := by
  rw [s32_natCast hD31, ieee_RGB_MAX_eq, ieee_f32_255]
  obtain ⟨hx0, hx⟩ := ieee_scale_quotient D s hD hD31 hs
  have hDq : (1 : ℚ) ≤ D := by exact_mod_cast hD
  have hsq : (s : ℚ) ≤ D := by exact_mod_cast hs
  have hR0 : (0 : ℚ) ≤ 255 * (s : ℚ) / D := by positivity
  have hR1 : 255 * (s : ℚ) / D ≤ 255 := by
    rw [div_le_iff₀ (by linarith)]
    nlinarith
  simp only [Int.cast_natCast]
  generalize ieee.f32 (ieee.f32 (s : ℚ) / ieee.f32 (ieee.f32 (D : ℚ) / 255)) = x at hx0 hx
  rw [abs_le] at hx
  obtain ⟨hx1, hx2⟩ := hx
  have f1 := Int.floor_le x
  have f2 := Int.lt_floor_add_one x
  have hf0 : 0 ≤ ⌊x⌋ := Int.floor_nonneg.mpr hx0
  have hf255 : ⌊x⌋ ≤ 255 := by
    have : ((⌊x⌋ : Int) : ℚ) < 256 := by linarith
    have : ⌊x⌋ < 256 := by exact_mod_cast this
    omega
  have hn : float_to_unsigned x = ⌊x⌋.toNat := by
    unfold float_to_unsigned trunc
    rw [if_pos hx0, u32_of_range hf0 (by omega)]
  have hnq : ((float_to_unsigned x : Nat) : ℚ) = ((⌊x⌋ : Int) : ℚ) := by
    rw [hn]
    have : ((⌊x⌋.toNat : Nat) : Int) = ⌊x⌋ := Int.toNat_of_nonneg hf0
    exact_mod_cast this
  have hn255 : float_to_unsigned x ≤ 255 := by
    rw [hn]
    omega
  have hnat : ieee.f32 ((float_to_unsigned x : Nat) : ℚ) = (float_to_unsigned x : Nat) :=
    ieee.f32_natCast _ (by omega)
  rw [hnat]
  have hq255 : ((float_to_unsigned x : Nat) : ℚ) ≤ 255 := by exact_mod_cast hn255
  have hq0 : (0 : ℚ) ≤ ((float_to_unsigned x : Nat) : ℚ) := Nat.cast_nonneg _
  have hv0 := ieee.f32_nonneg (((float_to_unsigned x : Nat) : ℚ) / 255) (by positivity)
  have hv := ieee.f32_bound (((float_to_unsigned x : Nat) : ℚ) / 255) 1 (by norm_num) (by
    rw [abs_of_nonneg (by positivity), div_le_one (by norm_num)]
    exact hq255)
  rw [abs_le] at hv
  obtain ⟨hv1, hv2⟩ := hv
  have hv_le : ieee.f32 (((float_to_unsigned x : Nat) : ℚ) / 255) ≤ 1 := by
    rcases Nat.lt_or_ge (float_to_unsigned x) 255 with h | h
    · have : ((float_to_unsigned x : Nat) : ℚ) ≤ 254 := by
        have : float_to_unsigned x ≤ 254 := by omega
        exact_mod_cast this
      linarith
    · have e : float_to_unsigned x = 255 := by omega
      rw [e]
      have : ieee.f32 (((255 : Nat) : ℚ) / 255) = 1 := by
        have h1 := ieee.f32_natCast 1 (by norm_num)
        norm_num at h1 ⊢
        exact h1
      rw [this]
  have er : (s : ℚ) / D = 255 * (s : ℚ) / D / 255 := by ring
  refine ⟨hn255, by rw [hnq]; linarith, by rw [hnq]; linarith, rfl, ⟨hv0, hv_le⟩, ?_⟩
  rw [abs_lt, er]
  rw [hnq] at hv1 hv2 ⊢
  constructor <;> linarith

/-- C29: in binary32, for a pixmap with the denominator `0 < D < 2 ^ 31` and a
pixel whose samples are at most `D`, `scale_ppm` sets the denominator to 255
and stores for each sample `s` an integer `n` in `0..255` with
`255 s / D - 1 < n ≤ 255 s / D` up to the rounding error `10 ^ (-4)`; the
channel value that `get_rgb_pixel` computes from the scaled pixel and the new
denominator (the call in `get_rgb_blocks`) is the `float` nearest to
`n / 255`, lies in `[0, 1]` and is less than `1 / 254` away from `s / D`.
For `D = 255` the samples are unchanged and the value is the `float` nearest
to `s / 255`. -/
theorem scale_stores_binary32_samples (image : Pnm_ppm) (col row : Nat)
    (hD : 0 < image.denominator) (hD31 : image.denominator < 2 ^ 31)
    (hr : (image.pixels.elems col row).red ≤ image.denominator)
    (hg : (image.pixels.elems col row).green ≤ image.denominator)
    (hb : (image.pixels.elems col row).blue ≤ image.denominator) :
    (ieee.scale_ppm image).denominator = 255 ∧
    (ieee.scale_ppm image).pixels.elems col row
      = ieee.scale image.denominator (image.pixels.elems col row) ∧
    stored_sample image.denominator (image.pixels.elems col row).red
      ((ieee.scale_ppm image).pixels.elems col row).red
      (ieee.get_rgb_pixel ((ieee.scale_ppm image).pixels.elems col row)
        (ieee.f32 ((ieee.scale_ppm image).denominator : ℚ))).r ∧
    stored_sample image.denominator (image.pixels.elems col row).green
      ((ieee.scale_ppm image).pixels.elems col row).green
      (ieee.get_rgb_pixel ((ieee.scale_ppm image).pixels.elems col row)
        (ieee.f32 ((ieee.scale_ppm image).denominator : ℚ))).g ∧
    stored_sample image.denominator (image.pixels.elems col row).blue
      ((ieee.scale_ppm image).pixels.elems col row).blue
      (ieee.get_rgb_pixel ((ieee.scale_ppm image).pixels.elems col row)
        (ieee.f32 ((ieee.scale_ppm image).denominator : ℚ))).b ∧
    (image.denominator = 255 →
      (ieee.scale_ppm image).pixels.elems col row = image.pixels.elems col row) := by
  have hden := ieee_scale_ppm_denominator image
  have hpx : (ieee.scale_ppm image).pixels.elems col row
      = ieee.scale image.denominator (image.pixels.elems col row) := rfl
  refine ⟨hden, hpx, ?_, ?_, ?_, ?_⟩
  · rw [hden, hpx]
    exact ieee_stored_sample _ _ hD hD31 hr
  · rw [hden, hpx]
    exact ieee_stored_sample _ _ hD hD31 hg
  · rw [hden, hpx]
    exact ieee_stored_sample _ _ hD hD31 hb
  · intro h255
    rw [hpx, h255]
    rw [h255] at hr hg hb
    have hden1 : ieee.f32 (ieee.f32 ((s32 ((255 : Nat) : Int) : Int) : ℚ) / ieee.RGB_MAX) = 1 := by
      rw [s32_natCast (by norm_num), ieee_RGB_MAX_eq, Int.cast_natCast, ieee_f32_255]
      have h1 := ieee.f32_natCast 1 (by norm_num)
      norm_num at h1 ⊢
      exact h1
    have hsame : ∀ s : Nat, s ≤ 255 →
        float_to_unsigned (ieee.f32 (ieee.f32 (s : ℚ) / 1)) = s := by
      intro s hs
      rw [ieee.f32_natCast s (by omega), div_one, ieee.f32_natCast s (by omega)]
      exact float_to_unsigned_natCast s (by omega)
    unfold ieee.scale
    simp only [hden1, hsame _ hr, hsame _ hg, hsame _ hb]

theorem ieee_scale_one_one : (ieee.scale 1 { red := 1, green := 1, blue := 1 })
    = { red := 254, green := 254, blue := 254 } := by
  have hden : ieee.f32 (ieee.f32 ((s32 ((1 : Nat) : Int) : Int) : ℚ) / ieee.RGB_MAX)
      = 8421505 / 2147483648 := by
    rw [s32_natCast (by norm_num), ieee_RGB_MAX_eq, Int.cast_natCast,
      ieee.f32_natCast 1 (by norm_num)]
    rw [ieee.f32_eq _ (-8) 8421505 (by norm_num) (by norm_num) (by norm_num)
      (by norm_num) (by norm_num [abs_lt])]
    norm_num
  have hq : float_to_unsigned (ieee.f32 (ieee.f32 ((1 : Nat) : ℚ) / (8421505 / 2147483648)))
      = 254 := by
    rw [ieee.f32_natCast 1 (by norm_num),
      ieee.f32_eq _ 7 16711679 (by norm_num) (by norm_num) (by norm_num)
      (by norm_num) (by norm_num [abs_lt])]
    unfold float_to_unsigned
    rw [trunc_eq_nonneg _ 254 (by norm_num) (by norm_num) (by norm_num)]
    rfl
  unfold ieee.scale
  simp only [hden, hq]

theorem ieee_scale_two_one : (ieee.scale 2 { red := 1, green := 1, blue := 1 })
    = { red := 127, green := 127, blue := 127 } := by
  have hden : ieee.f32 (ieee.f32 ((s32 ((2 : Nat) : Int) : Int) : ℚ) / ieee.RGB_MAX)
      = 8421505 / 1073741824 := by
    rw [s32_natCast (by norm_num), ieee_RGB_MAX_eq, Int.cast_natCast,
      ieee.f32_natCast 2 (by norm_num)]
    rw [ieee.f32_eq _ (-7) 8421505 (by norm_num) (by norm_num) (by norm_num)
      (by norm_num) (by norm_num [abs_lt])]
    norm_num
  have hq : float_to_unsigned (ieee.f32 (ieee.f32 ((1 : Nat) : ℚ) / (8421505 / 1073741824)))
      = 127 := by
    rw [ieee.f32_natCast 1 (by norm_num),
      ieee.f32_eq _ 6 16711679 (by norm_num) (by norm_num) (by norm_num)
      (by norm_num) (by norm_num [abs_lt])]
    unfold float_to_unsigned
    rw [trunc_eq_nonneg _ 127 (by norm_num) (by norm_num) (by norm_num)]
    rfl
  unfold ieee.scale
  simp only [hden, hq]

/-- C29 does not hold as stated.  In the pixmap with the denominator 1 whose
samples are all 1, `scale` stores the sample 254 and the channel value kept
for it is below 1, the quotient `s / D`; in the pixmap with the denominator
2 whose samples are all 1, `scale` stores the sample 127 and the channel
value is below `1 / 2`. -/
theorem scale_sample_not_source_ratio :
    ((ieee.scale_ppm (flat_image 1 1)).pixels.elems 0 0).red = 254 ∧
    (ieee.get_rgb_pixel ((ieee.scale_ppm (flat_image 1 1)).pixels.elems 0 0)
      (ieee.f32 ((ieee.scale_ppm (flat_image 1 1)).denominator : ℚ))).r < 1 / 1 ∧
    ((ieee.scale_ppm (flat_image 2 1)).pixels.elems 0 0).red = 127 ∧
    (ieee.get_rgb_pixel ((ieee.scale_ppm (flat_image 2 1)).pixels.elems 0 0)
      (ieee.f32 ((ieee.scale_ppm (flat_image 2 1)).denominator : ℚ))).r < 1 / 2 := by
  have e1 : (ieee.scale_ppm (flat_image 1 1)).pixels.elems 0 0
      = { red := 254, green := 254, blue := 254 } := ieee_scale_one_one
  have e2 : (ieee.scale_ppm (flat_image 2 1)).pixels.elems 0 0
      = { red := 127, green := 127, blue := 127 } := ieee_scale_two_one
  rw [e1, e2, ieee_scale_ppm_denominator, ieee_scale_ppm_denominator]
  have b1 := ieee.f32_bound (((254 : Nat) : ℚ) / 255) 1 (by norm_num) (by
    rw [abs_of_nonneg (by norm_num)]
    norm_num)
  have b2 := ieee.f32_bound (((127 : Nat) : ℚ) / 255) 1 (by norm_num) (by
    rw [abs_of_nonneg (by norm_num)]
    norm_num)
  rw [abs_le] at b1 b2
  refine ⟨rfl, ?_, rfl, ?_⟩
  · show ieee.f32 (ieee.f32 ((254 : Nat) : ℚ) / ieee.f32 ((255 : Nat) : ℚ)) < 1 / 1
    rw [ieee.f32_natCast 254 (by norm_num), ieee_f32_255]
    norm_num at b1 ⊢
    linarith
  · show ieee.f32 (ieee.f32 ((127 : Nat) : ℚ) / ieee.f32 ((255 : Nat) : ℚ)) < 1 / 2
    rw [ieee.f32_natCast 127 (by norm_num), ieee_f32_255]
    norm_num at b2 ⊢
    linarith

theorem scale_stores_binary32_samples_witness :
    (ieee.scale_ppm (flat_image 2 1)).denominator = 255 ∧
    (ieee.scale_ppm (flat_image 2 1)).pixels.elems 0 0
      = ieee.scale 2 { red := 1, green := 1, blue := 1 } ∧
    stored_sample 2 1 ((ieee.scale_ppm (flat_image 2 1)).pixels.elems 0 0).red
      (ieee.get_rgb_pixel ((ieee.scale_ppm (flat_image 2 1)).pixels.elems 0 0)
        (ieee.f32 ((ieee.scale_ppm (flat_image 2 1)).denominator : ℚ))).r ∧
    stored_sample 2 1 ((ieee.scale_ppm (flat_image 2 1)).pixels.elems 0 0).green
      (ieee.get_rgb_pixel ((ieee.scale_ppm (flat_image 2 1)).pixels.elems 0 0)
        (ieee.f32 ((ieee.scale_ppm (flat_image 2 1)).denominator : ℚ))).g ∧
    stored_sample 2 1 ((ieee.scale_ppm (flat_image 2 1)).pixels.elems 0 0).blue
      (ieee.get_rgb_pixel ((ieee.scale_ppm (flat_image 2 1)).pixels.elems 0 0)
        (ieee.f32 ((ieee.scale_ppm (flat_image 2 1)).denominator : ℚ))).b ∧
    ((2 : Nat) = 255 →
      (ieee.scale_ppm (flat_image 2 1)).pixels.elems 0 0
        = { red := 1, green := 1, blue := 1 }) :=
  scale_stores_binary32_samples (flat_image 2 1) 0 0 (by decide) (by decide)
    (by decide) (by decide) (by decide)

/-! ## The inverse colour conversion in binary32 -/

theorem ieee.f64_one : ieee.f64 1 = 1 := by
  rw [ieee.f64_eq 1 0 4503599627370496 (by norm_num) (by norm_num) (by norm_num)
    (by norm_num) (by norm_num [abs_lt])]
  norm_num

theorem ieee_f64_1402 : ieee.f64 (1402 / 1000) = 6314046677573435 / 4503599627370496 := by
  rw [ieee.f64_eq _ 0 6314046677573435 (by norm_num) (by norm_num) (by norm_num)
    (by norm_num) (by norm_num [abs_lt])]
  norm_num

theorem ieee_f64_344136 :
    ieee.f64 (344136 / 1000000) = 1549850761364773 / 4503599627370496 := by
  rw [ieee.f64_eq _ (-2) 6199403045459092 (by norm_num) (by norm_num) (by norm_num)
    (by norm_num) (by norm_num [abs_lt])]
  norm_num

theorem ieee_f64_714136 :
    ieee.f64 (714136 / 1000000) = 6432365246983713 / 9007199254740992 := by
  rw [ieee.f64_eq _ (-1) 6432365246983713 (by norm_num) (by norm_num) (by norm_num)
    (by norm_num) (by norm_num [abs_lt])]
  norm_num

theorem ieee_f64_1772 : ieee.f64 (1772 / 1000) = 7980378539700519 / 4503599627370496 := by
  rw [ieee.f64_eq _ 0 7980378539700519 (by norm_num) (by norm_num) (by norm_num)
    (by norm_num) (by norm_num [abs_lt])]
  norm_num

/-- The error of a sum of three terms evaluated in `double` from left to
right and rounded to `float`. -/
theorem ieee_sum3_bound (a u w : ℚ) (ha : |a| ≤ 1) (hu : |u| ≤ 9 / 10) (hw : |w| ≤ 9 / 10)
    (huw : |a + u + w| ≤ 19 / 10) :
    |ieee.f32 (ieee.f64 (ieee.f64 (ieee.f64 a + ieee.f64 u) + ieee.f64 w)) - (a + u + w)|
      ≤ 3 / 2 ^ 24 := by
  have e1 := ieee.f64_bound a 1 (by norm_num) ha
  have e2 := ieee.f64_bound u 1 (by norm_num) (le_trans hu (by norm_num))
  have e3 := ieee.f64_bound w 1 (by norm_num) (le_trans hw (by norm_num))
  rw [abs_le] at ha hu hw huw e1 e2 e3
  generalize ieee.f64 a = a1 at e1 ⊢
  generalize ieee.f64 u = u1 at e2 ⊢
  generalize ieee.f64 w = w1 at e3 ⊢
  have e4 := ieee.f64_bound (a1 + u1) 2 (by norm_num) (by
    rw [abs_le]
    constructor <;> linarith)
  rw [abs_le] at e4
  generalize ieee.f64 (a1 + u1) = s1 at e4 ⊢
  have e5 := ieee.f64_bound (s1 + w1) 2 (by norm_num) (by
    rw [abs_le]
    constructor <;> linarith)
  rw [abs_le] at e5
  generalize ieee.f64 (s1 + w1) = s2 at e5 ⊢
  have e6 := ieee.f32_bound s2 2 (by norm_num) (by
    rw [abs_le]
    constructor <;> linarith)
  rw [abs_le] at e6 ⊢
  constructor <;> linarith

theorem clamp_sub_le (x y : ℚ) :
    |max 0 (min x 255) - max 0 (min y 255)| ≤ |x - y| := by
  have h1 : x - y ≤ |x - y| := le_abs_self _
  have h2 : -|x - y| ≤ x - y := neg_abs_le _
  have h3 : 0 ≤ |x - y| := abs_nonneg _
  rw [abs_le]
  simp only [max_def, min_def]
  split_ifs <;> constructor <;> linarith

theorem ieee_scale_RGB_eq (r : ℚ) :
    ieee.scale_RGB r = max 0 (min (ieee.f32 (r * 255)) 255) := by
  unfold ieee.scale_RGB
  simp only []
  rw [ieee_RGB_MAX_eq]
  simp only [max_def, min_def]
  split_ifs <;> first | rfl | linarith

theorem ieee_scale_RGB_range (r : ℚ) : 0 ≤ ieee.scale_RGB r ∧ ieee.scale_RGB r ≤ 255 := by
  rw [ieee_scale_RGB_eq]
  exact ⟨le_max_left _ _, max_le (by norm_num) (min_le_right _ _)⟩

/-- The channel that `scale_RGB` returns for a `float` within `4 / 2 ^ 24` of
a value `v` of magnitude at most `1.9` is within `10 ^ (-4)` of
`clamp(255 v, 0, 255)`. -/
theorem ieee_scale_RGB_close (r v : ℚ) (hv : |v| ≤ 19 / 10) (hr : |r - v| ≤ 4 / 2 ^ 24) :
    |ieee.scale_RGB r - max 0 (min (255 * v) 255)| ≤ 1 / 10000 := by
  rw [ieee_scale_RGB_eq]
  refine (clamp_sub_le _ _).trans ?_
  rw [abs_le] at hv hr
  have e := ieee.f32_bound (r * 255) 512 (by norm_num) (by
    rw [abs_le]
    constructor <;> linarith)
  rw [abs_le] at e ⊢
  constructor <;> linarith

/-- The channels of `to_int` as the clamped `float` products. -/
theorem ieee_to_int_channels (xyz : XYZ_px ℚ) :
    (ieee.to_int xyz).r = ieee.scale_RGB (ieee.f32 (ieee.f64 (ieee.f64
      (ieee.f64 (1 * xyz.luma) + ieee.f64 (0 * xyz.Pb))
      + ieee.f64 (ieee.f64 (1402 / 1000) * xyz.Pr)))) ∧
    (ieee.to_int xyz).g = ieee.scale_RGB (ieee.f32 (ieee.f64 (ieee.f64
      (ieee.f64 (1 * xyz.luma) - ieee.f64 (ieee.f64 (344136 / 1000000) * xyz.Pb))
      - ieee.f64 (ieee.f64 (714136 / 1000000) * xyz.Pr)))) ∧
    (ieee.to_int xyz).b = ieee.scale_RGB (ieee.f32 (ieee.f64 (ieee.f64
      (ieee.f64 (1 * xyz.luma) + ieee.f64 (ieee.f64 (1772 / 1000) * xyz.Pb))
      + ieee.f64 (0 * xyz.Pr)))) := by
  simp only [ieee.to_int, ieee.quantize_RGB, ieee.f64_one, ieee.f64_zero, and_self]

/-- C25: in binary32, each channel produced by `to_int` (the pixel function
of `XYZ_to_RGB`) is `clamp(fl(255 * v'), 0, 255)`, where `v'` is the linear
inverse value evaluated in `double` and rounded to `float` and `fl` rounds
to `float`; it lies in `[0, 255]`, and the sample that `get_pnm_rgb` stores
is the channel truncated toward zero, an integer in `0..255`.  For a pixel
with `Y` in `[0, 1]` and `Pb`, `Pr` in `[-0.5, 0.5]` the channel is within
`10 ^ (-4)` of `clamp(255 * v, 0, 255)` for the exact linear inverse value
`v` (`R = Y + 1.402 Pr`, `G = Y - 0.344136 Pb - 0.714136 Pr`,
`B = Y + 1.772 Pb`), and the sample differs from that value truncated toward
zero by at most one. -/
theorem to_int_binary32 (xyz : XYZ_px ℚ) :
    ((ieee.to_int xyz).r = max 0 (min (ieee.f32 (ieee.f32 (ieee.f64 (ieee.f64
        (ieee.f64 (1 * xyz.luma) + ieee.f64 (0 * xyz.Pb))
        + ieee.f64 (ieee.f64 (1402 / 1000) * xyz.Pr))) * 255)) 255) ∧
     (ieee.to_int xyz).g = max 0 (min (ieee.f32 (ieee.f32 (ieee.f64 (ieee.f64
        (ieee.f64 (1 * xyz.luma) - ieee.f64 (ieee.f64 (344136 / 1000000) * xyz.Pb))
        - ieee.f64 (ieee.f64 (714136 / 1000000) * xyz.Pr))) * 255)) 255) ∧
     (ieee.to_int xyz).b = max 0 (min (ieee.f32 (ieee.f32 (ieee.f64 (ieee.f64
        (ieee.f64 (1 * xyz.luma) + ieee.f64 (ieee.f64 (1772 / 1000) * xyz.Pb))
        + ieee.f64 (0 * xyz.Pr))) * 255)) 255)) ∧
    (((get_pnm_rgb (ieee.to_int xyz)).red : Int) = trunc (ieee.to_int xyz).r ∧
     ((get_pnm_rgb (ieee.to_int xyz)).green : Int) = trunc (ieee.to_int xyz).g ∧
     ((get_pnm_rgb (ieee.to_int xyz)).blue : Int) = trunc (ieee.to_int xyz).b) ∧
    ((get_pnm_rgb (ieee.to_int xyz)).red ≤ 255 ∧ (get_pnm_rgb (ieee.to_int xyz)).green ≤ 255 ∧
     (get_pnm_rgb (ieee.to_int xyz)).blue ≤ 255) ∧
    (0 ≤ xyz.luma ∧ xyz.luma ≤ 1 ∧ -(1 / 2) ≤ xyz.Pb ∧ xyz.Pb ≤ 1 / 2 ∧
      -(1 / 2) ≤ xyz.Pr ∧ xyz.Pr ≤ 1 / 2 →
      (|(ieee.to_int xyz).r - max 0 (min (255 * (xyz.luma + 1402 / 1000 * xyz.Pr)) 255)|
          ≤ 1 / 10000 ∧
       |(ieee.to_int xyz).g - max 0 (min (255 * (xyz.luma - 344136 / 1000000 * xyz.Pb
          - 714136 / 1000000 * xyz.Pr)) 255)| ≤ 1 / 10000 ∧
       |(ieee.to_int xyz).b - max 0 (min (255 * (xyz.luma + 1772 / 1000 * xyz.Pb)) 255)|
          ≤ 1 / 10000) ∧
      (|((get_pnm_rgb (ieee.to_int xyz)).red : Int)
          - trunc (max 0 (min (255 * (xyz.luma + 1402 / 1000 * xyz.Pr)) 255))| ≤ 1 ∧
       |((get_pnm_rgb (ieee.to_int xyz)).green : Int)
          - trunc (max 0 (min (255 * (xyz.luma - 344136 / 1000000 * xyz.Pb
            - 714136 / 1000000 * xyz.Pr)) 255))| ≤ 1 ∧
       |((get_pnm_rgb (ieee.to_int xyz)).blue : Int)
          - trunc (max 0 (min (255 * (xyz.luma + 1772 / 1000 * xyz.Pb)) 255))| ≤ 1)) := by
  obtain ⟨er, eg, eb⟩ := ieee_to_int_channels xyz
  obtain ⟨r0, r1⟩ := ieee_scale_RGB_range (ieee.f32 (ieee.f64 (ieee.f64
      (ieee.f64 (1 * xyz.luma) + ieee.f64 (0 * xyz.Pb))
      + ieee.f64 (ieee.f64 (1402 / 1000) * xyz.Pr))))
  obtain ⟨g0, g1⟩ := ieee_scale_RGB_range (ieee.f32 (ieee.f64 (ieee.f64
      (ieee.f64 (1 * xyz.luma) - ieee.f64 (ieee.f64 (344136 / 1000000) * xyz.Pb))
      - ieee.f64 (ieee.f64 (714136 / 1000000) * xyz.Pr))))
  obtain ⟨b0, b1⟩ := ieee_scale_RGB_range (ieee.f32 (ieee.f64 (ieee.f64
      (ieee.f64 (1 * xyz.luma) + ieee.f64 (ieee.f64 (1772 / 1000) * xyz.Pb))
      + ieee.f64 (0 * xyz.Pr))))
  rw [← er] at r0 r1
  rw [← eg] at g0 g1
  rw [← eb] at b0 b1
  have hr := sample_of_range (ieee.to_int xyz).r r0 r1
  have hg := sample_of_range (ieee.to_int xyz).g g0 g1
  have hb := sample_of_range (ieee.to_int xyz).b b0 b1
  have sr : ((get_pnm_rgb (ieee.to_int xyz)).red : Int) = trunc (ieee.to_int xyz).r := hr.1
  have sg : ((get_pnm_rgb (ieee.to_int xyz)).green : Int) = trunc (ieee.to_int xyz).g := hg.1
  have sb : ((get_pnm_rgb (ieee.to_int xyz)).blue : Int) = trunc (ieee.to_int xyz).b := hb.1
  refine ⟨⟨?_, ?_, ?_⟩, ⟨sr, sg, sb⟩, ⟨hr.2, hg.2, hb.2⟩, ?_⟩
  · rw [er, ieee_scale_RGB_eq]
  · rw [eg, ieee_scale_RGB_eq]
  · rw [eb, ieee_scale_RGB_eq]
  · rintro ⟨y0, y1, pb0, pb1, pr0, pr1⟩
    have cr : |(ieee.to_int xyz).r - max 0 (min (255 * (xyz.luma + 1402 / 1000 * xyz.Pr)) 255)|
        ≤ 1 / 10000 := by
      rw [er]
      apply ieee_scale_RGB_close
      · rw [abs_le]
        constructor <;> linarith
      · rw [ieee_f64_1402]
        have h := ieee_sum3_bound (1 * xyz.luma) (0 * xyz.Pb)
          (6314046677573435 / 4503599627370496 * xyz.Pr)
          (by rw [abs_le]; constructor <;> linarith)
          (by rw [abs_le]; constructor <;> linarith)
          (by rw [abs_le]; constructor <;> linarith)
          (by rw [abs_le]; constructor <;> linarith)
        rw [abs_le] at h ⊢
        constructor <;> linarith
    have cg : |(ieee.to_int xyz).g - max 0 (min (255 * (xyz.luma - 344136 / 1000000 * xyz.Pb
        - 714136 / 1000000 * xyz.Pr)) 255)| ≤ 1 / 10000 := by
      rw [eg]
      apply ieee_scale_RGB_close
      · rw [abs_le]
        constructor <;> linarith
      · rw [ieee_f64_344136, ieee_f64_714136]
        have eqg : ieee.f64 (ieee.f64 (ieee.f64 (1 * xyz.luma)
              - ieee.f64 (1549850761364773 / 4503599627370496 * xyz.Pb))
              - ieee.f64 (6432365246983713 / 9007199254740992 * xyz.Pr))
            = ieee.f64 (ieee.f64 (ieee.f64 (1 * xyz.luma)
              + ieee.f64 (-(1549850761364773 / 4503599627370496 * xyz.Pb)))
              + ieee.f64 (-(6432365246983713 / 9007199254740992 * xyz.Pr))) := by
          rw [ieee.f64_neg, ieee.f64_neg, ← sub_eq_add_neg, ← sub_eq_add_neg]
        rw [eqg]
        have h := ieee_sum3_bound (1 * xyz.luma)
          (-(1549850761364773 / 4503599627370496 * xyz.Pb))
          (-(6432365246983713 / 9007199254740992 * xyz.Pr))
          (by rw [abs_le]; constructor <;> linarith)
          (by rw [abs_le]; constructor <;> linarith)
          (by rw [abs_le]; constructor <;> linarith)
          (by rw [abs_le]; constructor <;> linarith)
        rw [abs_le] at h ⊢
        constructor <;> linarith
    have cb : |(ieee.to_int xyz).b - max 0 (min (255 * (xyz.luma + 1772 / 1000 * xyz.Pb)) 255)|
        ≤ 1 / 10000 := by
      rw [eb]
      apply ieee_scale_RGB_close
      · rw [abs_le]
        constructor <;> linarith
      · rw [ieee_f64_1772]
        have h := ieee_sum3_bound (1 * xyz.luma)
          (7980378539700519 / 4503599627370496 * xyz.Pb) (0 * xyz.Pr)
          (by rw [abs_le]; constructor <;> linarith)
          (by rw [abs_le]; constructor <;> linarith)
          (by rw [abs_le]; constructor <;> linarith)
          (by rw [abs_le]; constructor <;> linarith)
        rw [abs_le] at h ⊢
        constructor <;> linarith
    refine ⟨⟨cr, cg, cb⟩, ?_, ?_, ?_⟩
    · rw [sr]
      exact trunc_sub_le _ _ (lt_of_le_of_lt cr (by norm_num))
    · rw [sg]
      exact trunc_sub_le _ _ (lt_of_le_of_lt cg (by norm_num))
    · rw [sb]
      exact trunc_sub_le _ _ (lt_of_le_of_lt cb (by norm_num))

/-- C25 does not hold as stated: for the pixel with the `float` values
`Y = 0x1.53e48cp-1`, `Pb = 0`, `Pr = 0x1.824d44p-4` the red channel produced
by `to_int` is `203` and the stored sample is `203`, while
`clamp(255 * (Y + 1.402 Pr), 0, 255)` is below `203` and its truncation is
`202`. -/
theorem to_int_sample_not_exact_formula :
    (ieee.to_int ⟨5568803 / 8388608, 0, 6329169 / 67108864⟩).r = 203 ∧
    (get_pnm_rgb (ieee.to_int ⟨5568803 / 8388608, 0, 6329169 / 67108864⟩)).red = 203 ∧
    trunc (max 0 (min (255 * ((5568803 / 8388608 : ℚ) + 1402 / 1000 * (6329169 / 67108864)))
      255)) = 202 := by
  have h1 : ieee.f64 (1 * (5568803 / 8388608)) = 5568803 / 8388608 := by
    rw [one_mul, ieee.f64_eq _ (-1) 5979456690716672 (by norm_num) (by norm_num) (by norm_num)
      (by norm_num) (by norm_num [abs_lt])]
    norm_num
  have h2 : ieee.f64 (0 * 0) = 0 := by
    rw [zero_mul, ieee.f64_zero]
  have h3 : ieee.f64 (5568803 / 8388608 + 0) = 5568803 / 8388608 := by
    rw [add_zero]
    rw [one_mul] at h1
    exact h1
  have h4 : ieee.f64 (6314046677573435 / 4503599627370496 * (6329169 / 67108864))
      = 4763921319991443 / 36028797018963968 := by
    rw [ieee.f64_eq _ (-3) 4763921319991443 (by norm_num) (by norm_num) (by norm_num)
      (by norm_num) (by norm_num [abs_lt])]
    norm_num
  have h5 : ieee.f64 (5568803 / 8388608 + 4763921319991443 / 36028797018963968)
      = 7170437020714533 / 9007199254740992 := by
    rw [ieee.f64_eq _ (-1) 7170437020714533 (by norm_num) (by norm_num) (by norm_num)
      (by norm_num) (by norm_num [abs_lt])]
    norm_num
  have h6 : ieee.f32 (7170437020714533 / 9007199254740992) = 3338995 / 4194304 := by
    rw [ieee.f32_eq _ (-1) 13355980 (by norm_num) (by norm_num) (by norm_num)
      (by norm_num) (by norm_num [abs_lt])]
    norm_num
  have h7 : ieee.f32 (3338995 / 4194304 * 255) = 203 := by
    rw [ieee.f32_eq _ 7 13303808 (by norm_num) (by norm_num) (by norm_num)
      (by norm_num) (by norm_num [abs_lt])]
    norm_num
  have hr : (ieee.to_int ⟨5568803 / 8388608, 0, 6329169 / 67108864⟩).r = 203 := by
    rw [(ieee_to_int_channels _).1, ieee_scale_RGB_eq]
    dsimp only
    rw [h1, h2, h3, ieee_f64_1402, h4, h5, h6, h7]
    norm_num
  refine ⟨hr, ?_, ?_⟩
  · show float_to_unsigned (ieee.to_int ⟨5568803 / 8388608, 0, 6329169 / 67108864⟩).r = 203
    rw [hr]
    exact float_to_unsigned_natCast 203 (by norm_num)
  · exact trunc_eq_nonneg _ 202 (by norm_num) (by norm_num) (by norm_num)

theorem to_int_binary32_witness :
    |((get_pnm_rgb (ieee.to_int ⟨1 / 2, 1 / 4, -(1 / 4)⟩)).red : Int)
        - trunc (max 0 (min (255 * ((1 / 2 : ℚ) + 1402 / 1000 * -(1 / 4))) 255))| ≤ 1 :=
  ((to_int_binary32 ⟨1 / 2, 1 / 4, -(1 / 4)⟩).2.2.2
    ⟨by norm_num, by norm_num, by norm_num, by norm_num, by norm_num, by norm_num⟩).2.1

/-! ## Requantisation of dequantised luma fields in binary32 -/

end Arith
